import Mathlib

/-!
# smart-prometheus-client: warm-up and expiration of labelled metrics

A shallow embedding of the Go package `metrics` (files `utils.go`, `hash.go`,
`map.go`, `metric.go`, and the initial metrics of `summary.go` and
`histogram.go`) followed by theorems about it.

Modelling conventions.

* A `time.Time` is an integer number of nanoseconds counted from Go's zero
  time instant (January 1, year 1, 00:00:00 UTC); a `time.Duration` is an
  integer number of nanoseconds.  The global `nowFunc` becomes an explicit
  argument `now` of every operation that reads the clock.
* A `prometheus.Metric` held by the vector is a pointer; it is modelled by a
  natural number naming the instance.  The nil interface value is `none`.
* A Go `map` is an association list with the usual read, write and delete
  operations (`GoMap`); Go leaves the iteration order of a map unspecified, the
  model iterates in list order.
* Locks are omitted: every operation is modelled as running atomically, which
  is what the reader/writer lock of the vector and the per-entry mutex give.
* What `Collect` sends on its channel is the list of `Sample`s it produced, and
  the goroutine it starts is the separate operation `sweep`.
* Every operation reads the clock once: the calls of `nowFunc` made during one
  operation all return the argument `now`.
* A Go string is a Lean `String`, and its bytes are its UTF-8 encoding; a slice
  of strings is a list, the nil slice and the empty slice being the empty list.
* The index and the entries keep the slice of label values a caller passes
  (`tagMap.Add`, `addMetric`), without copying it.  The first embedding holds
  label values by value, as lists; it is what the source does as long as no
  caller assigns to a string of a slice the vector holds.  The second embedding
  (namespace `Ref`) names every slice by a number and reads its strings from a
  heap at the time of use; an assignment `slice[i] = value` of a caller is an
  event of its own.  Slices are separate arrays: an assignment to one slice
  changes no other.  The theorems named `deref_...` relate the two embeddings.
-/

namespace SmartProm

/-! ## Go maps -/

/-- Association-list model of a Go map. -/
abbrev GoMap (K V : Type) := List (K × V)

namespace GoMap

variable {K V : Type} [DecidableEq K]

/-- Read `m[k]`; `none` when the key is absent. -/
def get : GoMap K V → K → Option V
  | [], _ => none
  | (k', v) :: t, k => if k' = k then some v else get t k

/-- Write `m[k] = v`: replaces the value of an existing key, else adds the key. -/
def set : GoMap K V → K → V → GoMap K V
  | [], k, v => [(k, v)]
  | (k', v') :: t, k, v => if k' = k then (k, v) :: t else (k', v') :: set t k v

/-- Builtin `delete(m, k)`. -/
def delete (m : GoMap K V) (k : K) : GoMap K V :=
  m.filter (fun e => decide (e.1 ≠ k))

/-- The keys of the map, in list order. -/
def keys (m : GoMap K V) : List K := m.map Prod.fst

end GoMap

/-! ## utils.go -/

/-- Instants: nanoseconds since Go's zero time instant. -/
abbrev Time := Int

/-- Durations: nanoseconds. -/
abbrev Duration := Int

/-- Go `t.Add(d)`. -/
def Time.Add (t : Time) (d : Duration) : Time := t + d

/-- Go `t.After(u)`: `t` is strictly after `u`. -/
def Time.After (t u : Time) : Bool := decide (u < t)

/-- Go `t.IsZero()`: `t` is the zero time instant. -/
def Time.IsZero (t : Time) : Bool := decide (t = 0)

/-- Seconds between Go's zero time instant and the Unix epoch. -/
def unixToInternal : Int := 62135596800

/-- Go `time.Unix(sec, 0)`. -/
def Time.ofUnix (sec : Int) : Time := (sec + unixToInternal) * 1000000000

/-- Go `t.Unix()`: whole seconds since the Unix epoch, rounded down. -/
def Time.Unix (t : Time) : Int := t / 1000000000 - unixToInternal

/-- Source `equalStrings`: equal lengths and equal elements position by position
(a nil slice and an empty slice are both the empty list). -/
def equalStrings : List String → List String → Bool
  | [], [] => true
  | a :: s1, b :: s2 => if b ≠ a then false else equalStrings s1 s2
  | _, _ => false

/-! ## hash.go -/

/-- Source constant `offset`. -/
def offset : Nat := 14695981039346656037

/-- Source constant `prime`. -/
def prime : Nat := 1099511628211

/-- Source constant `stringSep`. -/
def stringSep : String := "\n"

/-- The bytes of a Go string (UTF-8), as numbers below 256. -/
def stringBytes (s : String) : List Nat :=
  (s.data.flatMap String.utf8EncodeChar).map UInt8.toNat

/-- Loop of source `hashString` over the bytes of the string: multiply by the
prime in 64-bit arithmetic, then xor the byte in. -/
def hashBytes (hash : Nat) : List Nat → Nat
  | [] => hash
  | b :: bs => hashBytes (((hash * prime) % 2 ^ 64) ^^^ b) bs

/-- Source `hashString`. -/
def hashString (hash : Nat) (s : String) : Nat := hashBytes hash (stringBytes s)

/-- Loop of source `hashStringSlice`. -/
def hashStringSliceFrom (hash : Nat) : List String → Nat
  | [] => hash
  | str :: rest => hashStringSliceFrom (hashString (hashString hash str) stringSep) rest

/-- Source `hashStringSlice`. -/
def hashStringSlice (stringList : List String) : Nat :=
  hashStringSliceFrom offset stringList

/-! ## map.go -/

/-- Source `mapElement`. -/
structure mapElement where
  key : List String
  value : String
deriving DecidableEq, Repr

/-- Source `tagMap`: buckets of elements indexed by the hash of their key. -/
structure tagMap where
  index : GoMap Nat (List mapElement)
  hash : List String → Nat

/-- Source `newTagMap`. -/
def newTagMap : tagMap := { index := [], hash := hashStringSlice }

/-- Scan of source `findElem` over a bucket: position of the first element whose
key equals `key`, `none` where the source returns `-1`. -/
def findIdx (key : List String) : List mapElement → Option Nat
  | [] => none
  | e :: es => if equalStrings key e.key then some 0 else (findIdx key es).map (· + 1)

/-- Read `m.index[hash]`: a missing bucket reads as the nil slice. -/
def tagMap.bucket (m : tagMap) (hash : Nat) : List mapElement :=
  (GoMap.get m.index hash).getD []

/-- Source `tagMap.findElem`. -/
def tagMap.findElem (m : tagMap) (hash : Nat) (key : List String) : Option Nat :=
  findIdx key (m.bucket hash)

/-- Source `tagMap.Add`, the strings of the key taken by value; `Ref.tagMap.Add`
keeps the slice. -/
def tagMap.Add (m : tagMap) (key : List String) (value : String) : tagMap :=
  let hash := m.hash key
  match m.findElem hash key with
  | some i =>
    let list := (m.bucket hash).modify (fun e => { e with value := value }) i
    { m with index := GoMap.set m.index hash list }
  | none =>
    let list := m.bucket hash ++ [{ key := key, value := value }]
    { m with index := GoMap.set m.index hash list }

/-- Source `tagMap.Get`. -/
def tagMap.Get (m : tagMap) (key : List String) : String × Bool :=
  let hash := m.hash key
  match m.findElem hash key with
  | some i => (((m.bucket hash).get? i).map (·.value) |>.getD "", true)
  | none => ("", false)

/-- Source `tagMap.Delete`: the found element is overwritten by the last one of
its bucket and the bucket is shortened by one; a bucket of length one is
removed from the index. -/
def tagMap.Delete (m : tagMap) (key : List String) : tagMap :=
  let hash := m.hash key
  match m.findElem hash key with
  | some i =>
    let list := m.bucket hash
    if list.length > 1 then
      let list1 := (list.set i (list.getLastD { key := [], value := "" })).dropLast
      { m with index := GoMap.set m.index hash list1 }
    else
      { m with index := GoMap.delete m.index hash }
  | none => m

/-! ## metric.go: the lifecycle of one entry -/

/-- Source `metricOpts`.  The field `InitialMetric` is a function of the metric
kind; its applications are kept symbolic (see `Sample.initial`). -/
structure metricOpts where
  WarmUpDuration : Duration
  ExpirationDelay : Duration
deriving DecidableEq, Repr

/-- Source `metricState`. -/
inductive metricState where
  | stateWarmUpPending
  | stateWarmUpOngoing
  | stateWarmUpComplete
  | stateExpired
deriving DecidableEq, Repr

open metricState

/-- Source `metricAttr` (without its mutex).  The zero value of the struct has
the empty tag, no label values, state `stateWarmUpPending` and both deadlines at
the zero time instant. -/
structure metricAttr where
  tag : String := ""
  labelValues : List String := []
  state : metricState := stateWarmUpPending
  warmUpDeadLine : Time := 0
  activeDeadLine : Time := 0
deriving DecidableEq, Repr

/-- Source `metricAttr.hasExpired`. -/
def metricAttr.hasExpired (a : metricAttr) : Bool := decide (a.state = stateExpired)

/-- Source `metricAttr.onCollect`, at clock value `nowTime`: the updated entry;
the value the source returns is the `state` field of the result. -/
def metricAttr.onCollect (a : metricAttr) (warmUpDuration : Duration) (nowTime : Time) :
    metricAttr :=
  if a.state = stateWarmUpPending then
    { a with warmUpDeadLine := nowTime.Add warmUpDuration, state := stateWarmUpOngoing }
  else if a.state = stateWarmUpOngoing ∧ nowTime.After a.warmUpDeadLine = true then
    { a with state := stateWarmUpComplete }
  else if a.state = stateWarmUpComplete ∧ a.activeDeadLine.IsZero = false
      ∧ nowTime.After a.activeDeadLine = true then
    { a with state := stateExpired }
  else a

/-- Source `metricAttr.onAccess`, at clock value `now`. -/
def metricAttr.onAccess (a : metricAttr) (expirationDelay : Duration) (now : Time) :
    metricAttr :=
  if expirationDelay > 0 then { a with activeDeadLine := now.Add expirationDelay } else a

/-- What a collection sends on the channel: either the result of
`opts.InitialMetric(metric, labelValues)`, kept symbolic, or the metric
instance itself. -/
inductive Sample where
  | initial (metric : Nat) (labelValues : List String)
  | live (metric : Nat)
deriving DecidableEq, Repr

/-- Source `singleCollector`. -/
structure singleCollector where
  metric : Nat
  attr : metricAttr
  opts : metricOpts
deriving DecidableEq, Repr

/-- Source `newSingleCollector`. -/
def newSingleCollector (metric : Nat) (opts : metricOpts) : singleCollector :=
  { metric := metric, attr := {}, opts := opts }

/-- Source `singleCollector.Collect`, at clock value `now`: the sample sent on
the channel and the collector afterwards. -/
def singleCollector.Collect (c : singleCollector) (now : Time) : Sample × singleCollector :=
  let attr := c.attr.onCollect c.opts.WarmUpDuration now
  if attr.state = stateWarmUpOngoing then
    (Sample.initial c.metric attr.labelValues, { c with attr := attr })
  else
    (Sample.live c.metric, { c with attr := attr })

/-- Digit of `strconv.FormatInt` in base 16. -/
def hexDigit (d : Nat) : Char :=
  if d < 10 then Char.ofNat (48 + d) else Char.ofNat (87 + d)

/-- Digits of a natural number in base 16, most significant first; `fuel` bounds
the number of digits. -/
def hexDigits : Nat → Nat → List Char
  | 0, _ => []
  | fuel + 1, n =>
    if n < 16 then [hexDigit n] else hexDigits fuel (n / 16) ++ [hexDigit (n % 16)]

/-- Go `strconv.FormatInt(i, 16)`: lower-case digits, most significant first,
with a leading minus sign for a negative number. -/
def formatInt16 (i : Int) : String :=
  if i < 0 then String.mk ('-' :: hexDigits (i.natAbs + 1) i.natAbs)
  else String.mk (hexDigits (i.natAbs + 1) i.natAbs)

/-- Source `generateLifeCycleTag`, at clock value `now`. -/
def generateLifeCycleTag (now : Time) : String := formatInt16 now.Unix

/-! ## The underlying registry -/

/-- Modelled from the spec: the label-parameterised metric family of the
underlying registry (`prometheus.MetricVec` of the Prometheus client library,
which is not part of this repository), as far as the vector uses it: a
lookup/create operation keyed by ordered label values, a delete operation by
label values and a bulk reset.  `labelNames` are the label names the family was
declared with, `children` maps label values to metric instances and
`nextMetric` names the next instance to be allocated. -/
structure PromVec where
  labelNames : List String
  children : GoMap (List String) Nat
  nextMetric : Nat
deriving DecidableEq, Repr

/-- Modelled from the spec: lookup/create of the registry.  A number of label
values different from the number of declared label names is rejected with an
error and a nil metric; otherwise the instance stored for the label values is
returned, a new instance being allocated and stored when there is none. -/
def PromVec.GetMetricWithLabelValues (v : PromVec) (lvs : List String) :
    Except String Nat × PromVec :=
  if lvs.length ≠ v.labelNames.length then
    (Except.error "inconsistent label cardinality", v)
  else
    match GoMap.get v.children lvs with
    | some metric => (Except.ok metric, v)
    | none =>
      (Except.ok v.nextMetric,
        { v with children := GoMap.set v.children lvs v.nextMetric,
                 nextMetric := v.nextMetric + 1 })

/-- Modelled from the spec: delete by label values of the registry; reports
whether an instance was removed.  A number of label values different from the
number of declared label names removes nothing. -/
def PromVec.DeleteLabelValues (v : PromVec) (lvs : List String) : Bool × PromVec :=
  if lvs.length ≠ v.labelNames.length then (false, v)
  else ((GoMap.get v.children lvs).isSome, { v with children := GoMap.delete v.children lvs })

/-- Modelled from the spec: bulk reset of the registry. -/
def PromVec.Reset (v : PromVec) : PromVec := { v with children := [] }

/-! ## metric.go: the vector -/

/-- Source constant `labelLifeCycleTag`. -/
def labelLifeCycleTag : String := "_tag_"

/-- Source `MetricVec` (without its lock). -/
structure MetricVec where
  metricVec : PromVec
  labelNames : List String
  opts : metricOpts
  metricAttrs : GoMap Nat metricAttr
  tags : tagMap

/-- Source `newMetricVec`; the factory is the registry constructor, called with
the declared label names followed by the internal label. -/
def newMetricVec (opts : metricOpts) (labelNames : List String) : MetricVec :=
  { metricVec :=
      { labelNames := labelNames ++ [labelLifeCycleTag], children := [], nextMetric := 0 },
    labelNames := labelNames,
    opts := opts,
    metricAttrs := [],
    tags := newTagMap }

/-- Source `MetricVec.getMetric`, at clock value `now`: the returned pair
`(metric, err)`, nil being `none`, and the vector afterwards. -/
def MetricVec.getMetric (mv : MetricVec) (now : Time) (labelValues : List String) :
    (Option Nat × Option String) × MetricVec :=
  let (tag, present) := mv.tags.Get labelValues
  if present = false then ((none, none), mv)
  else
    match mv.metricVec.GetMetricWithLabelValues (labelValues ++ [tag]) with
    | (Except.error err, pv) => ((none, some err), { mv with metricVec := pv })
    | (Except.ok metric, pv) =>
      match GoMap.get mv.metricAttrs metric with
      | none => ((none, none), { mv with metricVec := pv })
      | some attr =>
        if attr.hasExpired then ((none, none), { mv with metricVec := pv })
        else
          ((some metric, none),
            { mv with metricVec := pv,
                      metricAttrs := GoMap.set mv.metricAttrs metric
                        (attr.onAccess mv.opts.ExpirationDelay now) })

/-- Source `MetricVec.addMetric`, at clock value `now`, the label values taken
by value; `Ref.MetricVec.addMetric` keeps the slice. -/
def MetricVec.addMetric (mv : MetricVec) (now : Time) (labelValues : List String) :
    (Option Nat × Option String) × MetricVec :=
  let tag := generateLifeCycleTag now
  match mv.metricVec.GetMetricWithLabelValues (labelValues ++ [tag]) with
  | (Except.error err, pv) => ((none, some err), { mv with metricVec := pv })
  | (Except.ok metric, pv) =>
    let attr : metricAttr := { tag := tag, labelValues := labelValues }
    ((some metric, none),
      { mv with metricVec := pv,
                tags := mv.tags.Add labelValues tag,
                metricAttrs := GoMap.set mv.metricAttrs metric
                  (attr.onAccess mv.opts.ExpirationDelay now) })

/-- Source `MetricVec.deleteMetric`. -/
def MetricVec.deleteMetric (mv : MetricVec) (labelValues : List String) : Bool × MetricVec :=
  let (tag, present) := mv.tags.Get labelValues
  if present = false then (false, mv)
  else
    let (r, pv) := mv.metricVec.GetMetricWithLabelValues (labelValues ++ [tag])
    let attrs :=
      match r with
      | Except.ok metric => GoMap.delete mv.metricAttrs metric
      | Except.error _ => mv.metricAttrs
    (true,
      { mv with tags := mv.tags.Delete labelValues,
                metricAttrs := attrs,
                metricVec := (pv.DeleteLabelValues (labelValues ++ [tag])).2 })

/-- Source `MetricVec.deleteMetricByInstance`; the argument is an interface
value and may be nil, which is never a key of the instance map. -/
def MetricVec.deleteMetricByInstance (mv : MetricVec) (metric : Option Nat) :
    Bool × MetricVec :=
  match metric with
  | none => (false, mv)
  | some m =>
    match GoMap.get mv.metricAttrs m with
    | none => (false, mv)
    | some attr =>
      let pv := (mv.metricVec.DeleteLabelValues (attr.labelValues ++ [attr.tag])).2
      let attrs := GoMap.delete mv.metricAttrs m
      let (tag, present) := mv.tags.Get attr.labelValues
      if present = true ∧ tag = attr.tag then
        (true, { mv with metricVec := pv, metricAttrs := attrs,
                         tags := mv.tags.Delete attr.labelValues })
      else
        (true, { mv with metricVec := pv, metricAttrs := attrs })

/-- Result of a call whose Go signature is `(M, error)`: the call returns its
pair, or the type assertion `metric.(M)` on a nil metric raises a run-time
panic. -/
inductive CallResult where
  | returned (metric : Nat) (err : Option String)
  | panicked (err : Option String)
deriving DecidableEq, Repr

/-- Go `return metric.(M), err`. -/
def assertM : Option Nat × Option String → CallResult
  | (some metric, err) => CallResult.returned metric err
  | (none, err) => CallResult.panicked err

/-- Source `MetricVec.GetMetricWithLabelValues`, at clock value `now`. -/
def MetricVec.GetMetricWithLabelValues (mv : MetricVec) (now : Time)
    (labelValues : List String) : CallResult × MetricVec :=
  match mv.getMetric now labelValues with
  | ((none, none), mv1) =>
    match mv1.getMetric now labelValues with
    | ((none, none), mv2) =>
      let (r, mv3) := mv2.addMetric now labelValues
      (assertM r, mv3)
    | (r, mv2) => (assertM r, mv2)
  | (r, mv1) => (assertM r, mv1)

/-- Source `MetricVec.DeleteLabelValues`. -/
def MetricVec.DeleteLabelValues (mv : MetricVec) (labelValues : List String) :
    Bool × MetricVec :=
  mv.deleteMetric labelValues

/-- Source `MetricVec.Reset`. -/
def MetricVec.Reset (mv : MetricVec) : MetricVec :=
  { mv with metricAttrs := [], metricVec := mv.metricVec.Reset, tags := newTagMap }

/-- Loop of source `MetricVec.Collect` over the entries of the instance map, at
clock value `now`: the samples sent, the metrics appended to `expiredMetrics`
and the entries after their `onCollect`. -/
def collectLoop (opts : metricOpts) (now : Time) :
    GoMap Nat metricAttr → List Sample × List (Option Nat) × GoMap Nat metricAttr
  | [] => ([], [], [])
  | (metric, attr) :: rest =>
    let attr1 := attr.onCollect opts.WarmUpDuration now
    let r := collectLoop opts now rest
    if attr1.state = stateExpired then
      (r.1, some metric :: r.2.1, (metric, attr1) :: r.2.2)
    else if attr1.state = stateWarmUpOngoing then
      (Sample.initial metric (attr1.labelValues ++ [attr1.tag]) :: r.1, r.2.1,
        (metric, attr1) :: r.2.2)
    else
      (Sample.live metric :: r.1, r.2.1, (metric, attr1) :: r.2.2)

/-- Source `MetricVec.Collect` up to the start of the goroutine, at clock value
`now`: the samples sent on the channel, the slice `expiredMetrics` (which starts
with its 16 nil elements) and the vector afterwards. -/
def MetricVec.Collect (mv : MetricVec) (now : Time) :
    List Sample × List (Option Nat) × MetricVec :=
  let r := collectLoop mv.opts now mv.metricAttrs
  (r.1, List.replicate 16 none ++ r.2.1, { mv with metricAttrs := r.2.2 })

/-- The goroutine started by source `MetricVec.Collect`: `deleteMetricByInstance`
for every element of `expiredMetrics`, in order. -/
def MetricVec.sweep (mv : MetricVec) : List (Option Nat) → MetricVec
  | [] => mv
  | metric :: rest => MetricVec.sweep (mv.deleteMetricByInstance metric).2 rest

/-! ## Well-formedness -/

/-- No bucket of the index holds two elements with the same key. -/
def tagMap.WF (m : tagMap) : Prop :=
  ∀ p ∈ m.index, (p.2.map mapElement.key).Nodup

instance (m : tagMap) : Decidable m.WF := by
  unfold tagMap.WF; infer_instance

/-! ## Definitions used in the statements and proofs -/

/-- First element of a bucket with the given key. -/
def bucketFind (key : List String) (l : List mapElement) : Option mapElement :=
  l.find? (fun e => decide (e.key = key))

/-- Bucket written by source `tagMap.Add`. -/
def bucketAdd (key : List String) (value : String) (l : List mapElement) : List mapElement :=
  match findIdx key l with
  | some i => l.modify (fun e => { e with value := value }) i
  | none => l ++ [{ key := key, value := value }]

/-- Bucket left by source `tagMap.Delete`; the empty list stands for a bucket
removed from the index. -/
def bucketDelete (key : List String) (l : List mapElement) : List mapElement :=
  match findIdx key l with
  | some i =>
    if l.length > 1 then (l.set i (l.getLastD { key := [], value := "" })).dropLast else []
  | none => l

/-- The entry of the label values is in place: the index holds a tag for them,
the registry maps the label values followed by the tag to the instance
`metric`, and the instance map holds a non-expired entry for that instance. -/
def MetricVec.Live (mv : MetricVec) (labelValues : List String) (metric : Nat) : Prop :=
  (mv.tags.Get labelValues).2 = true ∧
  (labelValues ++ [(mv.tags.Get labelValues).1]).length = mv.metricVec.labelNames.length ∧
  GoMap.get mv.metricVec.children (labelValues ++ [(mv.tags.Get labelValues).1]) = some metric ∧
  ∃ a, GoMap.get mv.metricAttrs metric = some a ∧ a.state ≠ stateExpired

/-- The metric instance a sample was produced for. -/
def Sample.metric : Sample → Nat
  | Sample.initial m _ => m
  | Sample.live m => m

/-- The sample the collection loop sends for an entry whose state after
`onCollect` is that of `a1`; `none` for an expired entry. -/
def sampleOf (metric : Nat) (a1 : metricAttr) : Option Sample :=
  if a1.state = stateExpired then none
  else if a1.state = stateWarmUpOngoing then
    some (Sample.initial metric (a1.labelValues ++ [a1.tag]))
  else some (Sample.live metric)

/-- The operations on a vector: get-or-create, delete by label values, reset,
the scan of a collection (which queues its removal list) and the sweep of the
`k`-th queued removal list. -/
inductive Op where
  | get (now : Time) (labelValues : List String)
  | delete (labelValues : List String)
  | reset
  | collect (now : Time)
  | sweep (k : Nat)
deriving DecidableEq, Repr

/-- A vector together with the removal lists of the sweeps that were started by
collections and have not run yet. -/
structure System where
  vec : MetricVec
  pending : List (List (Option Nat))

/-- One operation on the system: the samples it sends and the system afterwards. -/
def System.step (s : System) : Op → List Sample × System
  | Op.get now labelValues =>
    ([], { s with vec := (s.vec.GetMetricWithLabelValues now labelValues).2 })
  | Op.delete labelValues => ([], { s with vec := (s.vec.DeleteLabelValues labelValues).2 })
  | Op.reset => ([], { s with vec := s.vec.Reset })
  | Op.collect now =>
    let r := s.vec.Collect now
    (r.1, { vec := r.2.2, pending := s.pending ++ [r.2.1] })
  | Op.sweep k =>
    match s.pending.get? k with
    | none => ([], s)
    | some l => ([], { vec := s.vec.sweep l, pending := s.pending.eraseIdx k })

/-- A sequence of operations on the system. -/
def System.run (s : System) : List Op → System
  | [] => s
  | op :: ops => System.run (s.step op).2 ops

/-- The operation is a collection scan or a sweep. -/
def Op.isCollection : Op → Bool
  | Op.collect _ => true
  | Op.sweep _ => true
  | _ => false

/-- The operation is not a collection scan at a clock value after `t`. -/
def Op.notAfter (t : Time) : Op → Bool
  | Op.collect now => decide (now ≤ t)
  | _ => true

/-- Options of the vector of the test `TestCounterVec_SingleMetricFullLifeCycle`. -/
def exampleOpts : metricOpts := { WarmUpDuration := 2000000000, ExpirationDelay := 10000000000 }

/-- Clock value `defaultTime` of the tests. -/
def defaultTime : Time := Time.ofUnix 1219204980

/-- The vector of the tests after `toto` has been requested at `defaultTime`. -/
def exampleVec : MetricVec :=
  ((newMetricVec exampleOpts ["label"]).GetMetricWithLabelValues defaultTime ["toto"]).2

/-- The entry that `exampleVec` holds for `toto`. -/
def exampleAttr : metricAttr :=
  { tag := "48ab9774", labelValues := ["toto"], activeDeadLine := defaultTime + 10000000000 }

/-- The vector `exampleVec` after a first collection scan, one second after
the creation of its entry. -/
def exampleVec1 : MetricVec := (exampleVec.Collect (defaultTime + 1000000000)).2.2

/-- The entry that `exampleVec1` holds for `toto`. -/
def exampleAttr1 : metricAttr :=
  { exampleAttr with warmUpDeadLine := defaultTime + 3000000000, state := stateWarmUpOngoing }

/-- The vector of the tests after `toto` and then `titi` have been requested at
`defaultTime`. -/
def exampleVec2 : MetricVec :=
  (exampleVec.GetMetricWithLabelValues defaultTime ["titi"]).2

/-- Successive calls of source `singleCollector.Collect` at the given clock
values: the samples sent, in order, and the collector afterwards. -/
def singleCollector.collectMany (c : singleCollector) : List Time → List Sample × singleCollector
  | [] => ([], c)
  | t :: ts =>
    ((c.Collect t).1 :: (singleCollector.collectMany (c.Collect t).2 ts).1,
      (singleCollector.collectMany (c.Collect t).2 ts).2)

/-- All the clock values of the list are at or before `d`. -/
def allNotAfter (d : Time) (l : List Time) : Bool := l.all (fun u => decide (u ≤ d))

/-- Options of the counter of the test `TestCounter_ReturnsZeroDuringWarmup`. -/
def warmUpOpts : metricOpts := { WarmUpDuration := 10000000000, ExpirationDelay := 0 }

/-- Options of the scenario of C10: no warm-up, expiration after ten seconds. -/
def expireOpts : metricOpts := { WarmUpDuration := 0, ExpirationDelay := 10000000000 }

/-- The vector of the scenario of C10 after `toto` has been requested at
`defaultTime`. -/
def expireVec : MetricVec :=
  ((newMetricVec expireOpts ["label"]).GetMetricWithLabelValues defaultTime ["toto"]).2

/-- Value of a digit of `hexDigit`. -/
def hexValue (c : Char) : Nat :=
  if c.toNat < 58 then c.toNat - 48 else c.toNat - 87

/-- Number written by a list of digits of `hexDigit`, most significant first. -/
def hexParse (l : List Char) : Nat :=
  l.foldl (fun acc c => acc * 16 + hexValue c) 0

/-- Options with an expiration delay of half a second and no warm-up. -/
def quickOpts : metricOpts := { WarmUpDuration := 0, ExpirationDelay := 500000000 }

/-- A vector with the options `quickOpts` in which `toto` was requested at
`defaultTime` and collected at `defaultTime`, one millisecond later and 600
milliseconds later; the last scan found the entry expired. -/
def quickVec : MetricVec :=
  ((((((newMetricVec quickOpts ["label"]).GetMetricWithLabelValues defaultTime
    ["toto"]).2.Collect defaultTime).2.2.Collect (defaultTime + 1000000)).2.2.Collect
      (defaultTime + 600000000)).2.2)

/-- Well-formedness of the index: the keys of the bucket map are distinct (it
is a Go map), no bucket holds two elements with the same key, every element
lies in the bucket of the hash of its key, and no bucket is empty. -/
def tagMap.WellFormed (m : tagMap) : Prop :=
  (GoMap.keys m.index).Nodup ∧
  ∀ p ∈ m.index, (p.2.map mapElement.key).Nodup ∧ (∀ e ∈ p.2, m.hash e.key = p.1) ∧ p.2 ≠ []

instance (m : tagMap) : Decidable m.WellFormed := by
  unfold tagMap.WellFormed; infer_instance

/-- The elements stored in the index, bucket after bucket. -/
def tagMap.elems (m : tagMap) : List mapElement := m.index.flatMap (fun p => p.2)

/-- The number of elements stored in the index. -/
def tagMap.size (m : tagMap) : Nat := (m.index.map (fun p => p.2.length)).sum

/-- The index of the test `TestMap_AddDeleteCollision`: every key has the hash
1, and three keys are added. -/
def collisionMap : tagMap :=
  ((({ index := [], hash := fun _ => 1 } : tagMap).Add ["abce", "toto2"] "value3").Add
    ["abc", "toto"] "value1").Add ["abcd", "toto1"] "value2"

/-- The transition function of the lifecycle as the specification words it:
from pending to ongoing, setting the warm-up deadline to the clock value plus
the warm-up duration; from ongoing to complete when the clock value is
strictly after the warm-up deadline; from complete to expired when the active
deadline is set (is not the zero time instant) and the clock value is strictly
after it; in every other case the entry stays as it is. -/
def onCollectSpec (a : metricAttr) (warmUpDuration : Duration) (now : Time) : metricAttr :=
  match a.state with
  | stateWarmUpPending =>
    { a with state := stateWarmUpOngoing, warmUpDeadLine := now + warmUpDuration }
  | stateWarmUpOngoing =>
    if a.warmUpDeadLine < now then { a with state := stateWarmUpComplete } else a
  | stateWarmUpComplete =>
    if a.activeDeadLine ≠ 0 ∧ a.activeDeadLine < now then { a with state := stateExpired }
    else a
  | stateExpired => a

/-- Position of a state in the order pending, ongoing, complete, expired. -/
def metricState.rank : metricState → Nat
  | stateWarmUpPending => 0
  | stateWarmUpOngoing => 1
  | stateWarmUpComplete => 2
  | stateExpired => 3

/-- A call of one of the two methods that change an entry, with its duration
argument and the clock value it reads. -/
inductive AttrCall where
  | onCollect (warmUpDuration : Duration) (now : Time)
  | onAccess (expirationDelay : Duration) (now : Time)
deriving DecidableEq, Repr

/-- The entry after a call. -/
def metricAttr.call (a : metricAttr) : AttrCall → metricAttr
  | AttrCall.onCollect w now => a.onCollect w now
  | AttrCall.onAccess d now => a.onAccess d now

/-- The entry after a sequence of calls. -/
def metricAttr.calls (a : metricAttr) : List AttrCall → metricAttr
  | [] => a
  | c :: cs => metricAttr.calls (a.call c) cs

/-- Options without warm-up and without expiration, as in the test
`TestCounter_FirstCollectReturnsZero`. -/
def zeroOpts : metricOpts := { WarmUpDuration := 0, ExpirationDelay := 0 }

/-- The registry `pv` extends the registry `v`: the declared label names are
the same and every instance stored in `v` is stored in `pv` for the same label
values. -/
def PromVec.Extends (v pv : PromVec) : Prop :=
  pv.labelNames = v.labelNames ∧
  ∀ k x, GoMap.get v.children k = some x → GoMap.get pv.children k = some x

/-- Consistency of a vector: the instance map has distinct keys; no bucket of
the index holds a key twice; and for every entry of the instance map, the
label values followed by the tag are as many as the registry declares label
names, the registry stores the instance of the entry for them, and, unless the
entry is expired, the index maps the label values to the tag of the entry. -/
def MetricVec.Consistent (mv : MetricVec) : Prop :=
  (GoMap.keys mv.metricAttrs).Nodup ∧ mv.tags.WF ∧
  ∀ p ∈ mv.metricAttrs,
    (p.2.labelValues ++ [p.2.tag]).length = mv.metricVec.labelNames.length ∧
    GoMap.get mv.metricVec.children (p.2.labelValues ++ [p.2.tag]) = some p.1 ∧
    (p.2.state ≠ stateExpired → mv.tags.Get p.2.labelValues = (p.2.tag, true))

/-- The system made of a new vector, no sweep pending. -/
def System.init (opts : metricOpts) (labelNames : List String) : System :=
  { vec := newMetricVec opts labelNames, pending := [] }

/-- The samples a scan at clock value `now` sends, each with the label values
(without the tag) of the entry of the instance map it is sent for. -/
def MetricVec.collectedEntries (mv : MetricVec) (now : Time) : List (Sample × List String) :=
  mv.metricAttrs.filterMap (fun p =>
    (sampleOf p.1 (p.2.onCollect mv.opts.WarmUpDuration now)).map
      (fun smp => (smp, p.2.labelValues)))

/-- No entry of the instance map is expired or has an active deadline, and the
vector is configured with expiration delay zero. -/
def MetricVec.NoExpiry (mv : MetricVec) : Prop :=
  mv.opts.ExpirationDelay = 0 ∧
  ∀ p ∈ mv.metricAttrs, p.2.activeDeadLine = 0 ∧ p.2.state ≠ stateExpired

/-- The registry names its instances soundly: every stored instance was
allocated before `nextMetric`, and no instance is stored under two different
label values. -/
def PromVec.Sound (v : PromVec) : Prop :=
  (∀ k x, GoMap.get v.children k = some x → x < v.nextMetric) ∧
  (∀ k1 k2 x, GoMap.get v.children k1 = some x → GoMap.get v.children k2 = some x → k1 = k2)

/-- The removal list of the scan that found the entry of `quickVec` expired. -/
def quickPending : List (Option Nat) :=
  ((((((newMetricVec quickOpts ["label"]).GetMetricWithLabelValues defaultTime
    ["toto"]).2.Collect defaultTime).2.2.Collect (defaultTime + 1000000)).2.2.Collect
      (defaultTime + 600000000)).2.1)

/-- The vector `quickVec` after `toto` was requested again, 700 milliseconds
after `defaultTime`, before the sweep of `quickPending` has run. -/
def raceVec : MetricVec :=
  (quickVec.GetMetricWithLabelValues (defaultTime + 700000000) ["toto"]).2

/-- The operations before the expiring scan in the scenario of C22: `toto` is
requested at `defaultTime` and collected at `defaultTime` and one second
later, which completes its warm-up. -/
def recreateOps : List Op :=
  [Op.get defaultTime ["toto"], Op.collect defaultTime, Op.collect (defaultTime + 1000000000)]

/-- Source `MetricVec.WithLabelValues`, at clock value `now`: `panic(err)` where
`GetMetricWithLabelValues` returned an error. -/
def MetricVec.WithLabelValues (mv : MetricVec) (now : Time) (labelValues : List String) :
    CallResult × MetricVec :=
  match mv.GetMetricWithLabelValues now labelValues with
  | (CallResult.returned _ (some err), mv1) => (CallResult.panicked (some err), mv1)
  | r => r

/-- Go `prometheus.Labels`: a map from label names to label values. -/
abbrev Labels := GoMap String String

/-- The loop `for i, name := range mv.labelNames { labelValues[i] = labels[name] }`
of source `GetMetricWith` and `Delete`, from index `i` on: reading an absent
name of the map gives the empty string, and writing at an index outside the
slice is the run-time panic "index out of range", modelled by `none`. -/
def fillLabelValues (labels : Labels) : List String → Nat → List String → Option (List String)
  | [], _, labelValues => some labelValues
  | name :: rest, i, labelValues =>
    if i < labelValues.length then
      fillLabelValues labels rest (i + 1) (labelValues.set i ((GoMap.get labels name).getD ""))
    else none

/-- The label values that source `GetMetricWith` and `Delete` compute from a
label map: the slice `make([]string, len(labels))` filled by the loop over the
declared label names; `len(labels)` is the number of entries of the map. -/
def labelValuesOf (labelNames : List String) (labels : Labels) : Option (List String) :=
  fillLabelValues labels labelNames 0 (List.replicate labels.length "")

/-- Source `MetricVec.GetMetricWith`, at clock value `now`; `none` is the
run-time panic of the loop, raised before the vector is touched. -/
def MetricVec.GetMetricWith (mv : MetricVec) (now : Time) (labels : Labels) :
    Option (CallResult × MetricVec) :=
  match labelValuesOf mv.labelNames labels with
  | none => none
  | some labelValues => some (mv.GetMetricWithLabelValues now labelValues)

/-- Source `MetricVec.With`, at clock value `now`: `panic(err)` where
`GetMetricWith` returned an error. -/
def MetricVec.With (mv : MetricVec) (now : Time) (labels : Labels) :
    Option (CallResult × MetricVec) :=
  match mv.GetMetricWith now labels with
  | some (CallResult.returned _ (some err), mv1) => some (CallResult.panicked (some err), mv1)
  | r => r

/-- Source `MetricVec.Delete`; `none` is the run-time panic of the loop, raised
before the vector is touched. -/
def MetricVec.Delete (mv : MetricVec) (labels : Labels) : Option (Bool × MetricVec) :=
  match labelValuesOf mv.labelNames labels with
  | none => none
  | some labelValues => some (mv.DeleteLabelValues labelValues)

/-- The vector of the tests after the label map with the single entry
`labl ↦ toto`, which misspells the declared label name `label`, was passed
to `GetMetricWith` at `defaultTime`. -/
def misspelledVec : Option MetricVec :=
  ((newMetricVec exampleOpts ["label"]).GetMetricWith defaultTime [("labl", "toto")]).map
    Prod.snd

/-- The values of a label map listed in the order of the declared label names;
a declared name that the map does not hold contributes nothing. -/
def valuesInOrder (labelNames : List String) (labels : Labels) : List String :=
  labelNames.filterMap (fun name => GoMap.get labels name)

/-- The label map of the test `TestCounterVec_Delete`, for a vector declared
with the label names `name` and `instance`. -/
def exampleLabels : Labels := [("instance", "10.0.0.3"), ("name", "titi")]

/-! ## summary.go and histogram.go: the initial metrics -/

/-- A Go `float64` that is a finite number, modelled by the rational number it
denotes; the code below uses these values as map keys and as the constant 0
only, so that nothing but their equality matters. -/
abbrev Float64 := ℚ

/-- Source `SummaryOpts`: of the embedded `prometheus.SummaryOpts` the field
`Objectives`, which maps quantile ranks to their allowed absolute errors. -/
structure SummaryOpts where
  Objectives : GoMap Float64 Float64
  WarmUpDuration : Duration
  ExpirationDelay : Duration

/-- Modelled from the spec: the constant summary that
`prometheus.MustNewConstSummary` of the Prometheus client library (not part of
this repository) builds, as the record of its arguments: the metric whose
descriptor is used, the count, the sum, the map from quantile ranks to
quantile values, and the label values. -/
structure ConstSummary where
  metric : Nat
  count : Nat
  sum : Float64
  quantiles : GoMap Float64 Float64
  labelValues : List String

/-- Source `createSummaryMetricOpts`: the options and the function stored in
their field `InitialMetric`.  The loop `for _, val := range opts.Objectives`
binds `val` to the values of the map. -/
def createSummaryMetricOpts (opts : SummaryOpts) :
    metricOpts × (Nat → List String → ConstSummary) :=
  let initialQuantiles : GoMap Float64 Float64 :=
    opts.Objectives.foldl (fun acc p => GoMap.set acc p.2 0) []
  ({ WarmUpDuration := opts.WarmUpDuration, ExpirationDelay := opts.ExpirationDelay },
    fun metric labelValues =>
      { metric := metric, count := 0, sum := 0, quantiles := initialQuantiles,
        labelValues := labelValues })

/-- Source `HistogramOpts`: of the embedded `prometheus.HistogramOpts` the field
`Buckets`, the upper bounds of the buckets. -/
structure HistogramOpts where
  Buckets : List Float64
  WarmUpDuration : Duration
  ExpirationDelay : Duration

/-- Modelled from the spec: the constant histogram that
`prometheus.MustNewConstHistogram` of the Prometheus client library (not part
of this repository) builds, as the record of its arguments: the metric whose
descriptor is used, the count, the sum, the map from upper bounds to cumulative
counts, and the label values. -/
structure ConstHistogram where
  metric : Nat
  count : Nat
  sum : Float64
  buckets : GoMap Float64 Nat
  labelValues : List String

/-- Source `createHistogramMetricOpts`: the options and the function stored in
their field `InitialMetric`.  The loop `for _, val := range opts.Buckets` binds
`val` to the elements of the slice. -/
def createHistogramMetricOpts (opts : HistogramOpts) :
    metricOpts × (Nat → List String → ConstHistogram) :=
  let initialBuckets : GoMap Float64 Nat :=
    opts.Buckets.foldl (fun acc val => GoMap.set acc val 0) []
  ({ WarmUpDuration := opts.WarmUpDuration, ExpirationDelay := opts.ExpirationDelay },
    fun metric labelValues =>
      { metric := metric, count := 0, sum := 0, buckets := initialBuckets,
        labelValues := labelValues })

/-- Summary options with the objectives of the documentation of the Prometheus
client library: the ranks 0.5, 0.9 and 0.99 with the allowed errors 0.05, 0.01
and 0.001. -/
def exampleSummaryOpts : SummaryOpts :=
  { Objectives := [(0.5, 0.05), (0.9, 0.01), (0.99, 0.001)],
    WarmUpDuration := 0, ExpirationDelay := 0 }

/-- Histogram options of the test `TestHistogram_ReturnsZeroDuringWarmup`. -/
def exampleHistogramOpts : HistogramOpts :=
  { Buckets := [1, 2, 10], WarmUpDuration := 0, ExpirationDelay := 0 }

/-! ## Two calls of `GetMetricWithLabelValues` running concurrently -/

/-- Where a call of source `GetMetricWithLabelValues` stands: before its first
critical section (the lookup under the read lock), before its second one (the
second lookup and the creation under the write lock), or finished with its
result. -/
inductive CallPhase where
  | start
  | slow
  | done (r : CallResult)
deriving DecidableEq, Repr

/-- The next critical section of a call of source `GetMetricWithLabelValues`,
run at clock value `now`: from `start` the lookup under the read lock, which
finishes the call unless it found nothing; from `slow` the second lookup and,
if it finds nothing either, the creation, under the write lock.  The lock of
the vector makes each of them atomic. -/
def MetricVec.runSection (mv : MetricVec) (now : Time) (labelValues : List String) :
    CallPhase → CallPhase × MetricVec
  | CallPhase.start =>
    match mv.getMetric now labelValues with
    | ((none, none), mv1) => (CallPhase.slow, mv1)
    | (r, mv1) => (CallPhase.done (assertM r), mv1)
  | CallPhase.slow =>
    match mv.getMetric now labelValues with
    | ((none, none), mv1) =>
      let (r, mv2) := mv1.addMetric now labelValues
      (CallPhase.done (assertM r), mv2)
    | (r, mv1) => (CallPhase.done (assertM r), mv1)
  | CallPhase.done r => (CallPhase.done r, mv)

/-- Two calls of `GetMetricWithLabelValues` for the same label values in
progress on one vector. -/
structure TwoCalls where
  vec : MetricVec
  first : CallPhase
  second : CallPhase

/-- One step of a schedule: the first call (`true`) or the second call
(`false`) runs its next critical section at the given clock value. -/
def TwoCalls.step (s : TwoCalls) (labelValues : List String) : Bool × Time → TwoCalls
  | (true, now) =>
    { s with vec := (s.vec.runSection now labelValues s.first).2,
             first := (s.vec.runSection now labelValues s.first).1 }
  | (false, now) =>
    { s with vec := (s.vec.runSection now labelValues s.second).2,
             second := (s.vec.runSection now labelValues s.second).1 }

/-- A schedule: the critical sections of the two calls in some interleaving,
each at its clock value. -/
def TwoCalls.run (s : TwoCalls) (labelValues : List String) : List (Bool × Time) → TwoCalls
  | [] => s
  | x :: rest => TwoCalls.run (s.step labelValues x) labelValues rest

/-- The phase of a call that has not finished, or has finished with the
instance `m` and no error. -/
def CallPhase.agrees (m : Nat) (p : CallPhase) : Prop :=
  p = CallPhase.start ∨ p = CallPhase.slow ∨ p = CallPhase.done (CallResult.returned m none)

/-- One of the two calls has created the entry of the label values in the
vector `mv0`, as instance `m` and at some clock value, and nothing else was
created: the index is the one of `mv0` with the tag generated at that clock
value added for the label values, the instance map has the keys of the one of
`mv0` with `m` written, the entry is live, and a call that has finished has
returned `m`. -/
def TwoCalls.Created (mv0 : MetricVec) (labelValues : List String) (m : Nat)
    (s : TwoCalls) : Prop :=
  s.vec.Live labelValues m ∧
  (∃ now0, s.vec.tags = mv0.tags.Add labelValues (generateLifeCycleTag now0)) ∧
  (∃ a, GoMap.keys s.vec.metricAttrs = GoMap.keys (GoMap.set mv0.metricAttrs m a)) ∧
  s.first.agrees m ∧ s.second.agrees m

/-- What holds at every point of a schedule of two calls started on `mv0`: no
entry has been created yet, the vector is still `mv0` and no call has
finished; or one entry has been created. -/
def TwoCalls.Inv (mv0 : MetricVec) (labelValues : List String) (s : TwoCalls) : Prop :=
  (s.vec = mv0 ∧ (s.first = CallPhase.start ∨ s.first = CallPhase.slow) ∧
    (s.second = CallPhase.start ∨ s.second = CallPhase.slow)) ∨
  ∃ m, TwoCalls.Created mv0 labelValues m s

/-- Two calls for `toto` about to start on the empty vector of the tests. -/
def exampleTwoCalls : TwoCalls :=
  { vec := newMetricVec exampleOpts ["label"], first := CallPhase.start,
    second := CallPhase.start }

/-- A schedule in which both calls run their first critical section before
either runs its second one. -/
def exampleSchedule : List (Bool × Time) :=
  [(true, defaultTime), (false, defaultTime), (true, defaultTime + 1000000000),
    (false, defaultTime + 2000000000)]

/-- A call on the index: `Add` of a key and a value, or `Delete` of a key. -/
inductive IndexOp where
  | add (key : List String) (value : String)
  | delete (key : List String)
deriving DecidableEq, Repr

/-- One call on the index. -/
def tagMap.apply (m : tagMap) : IndexOp → tagMap
  | IndexOp.add key value => m.Add key value
  | IndexOp.delete key => m.Delete key

/-- A sequence of calls on the index. -/
def tagMap.runOps (m : tagMap) : List IndexOp → tagMap
  | [] => m
  | op :: ops => tagMap.runOps (m.apply op) ops

/-- The empty index with the given hash function; source `newTagMap` is the one
with the hash function `hashStringSlice`. -/
def emptyTagMap (hash : List String → Nat) : tagMap := { index := [], hash := hash }

/-- The bytes that source `hashStringSlice` reads: the bytes of every string of
the list, in order, each string followed by the bytes of the separator. -/
def byteStream (stringList : List String) : List Nat :=
  stringList.flatMap (fun s => stringBytes s ++ stringBytes stringSep)

/-- The hash of a list of strings in the words of the specification: the fold
over the bytes of each string in order, each string followed by the separator
byte `0x0A`, that starts from the offset basis and multiplies by the prime
modulo `2 ^ 64` before it xors the byte in. -/
def hashFoldSpec (stringList : List String) : Nat :=
  (stringList.flatMap (fun s => stringBytes s ++ [10])).foldl
    (fun h b => ((h * 1099511628211) % 2 ^ 64) ^^^ b) 14695981039346656037

/-- The 64-bit FNV-1a hash of a list of bytes as Go's `hash/fnv` computes it
for `New64a` (standard library, not part of this repository): starting from
the offset basis, every byte is xor-ed into the hash, which is then multiplied
by the prime modulo `2 ^ 64`. -/
def fnv64a (bytes : List Nat) : Nat :=
  bytes.foldl (fun hash b => ((hash ^^^ b) * 1099511628211) % 2 ^ 64) 14695981039346656037

/-- Twenty-one different strings without the separator. -/
def letters : List String :=
  ["a", "b", "c", "d", "e", "f", "g", "h", "i", "j", "k", "l", "m", "n", "o", "p", "q", "r",
    "s", "t", "u"]

/-- The operations on a vector, `deleteMetricByInstance` of an arbitrary
metric included. -/
inductive VecOp where
  | op (o : Op)
  | deleteByInstance (metric : Option Nat)
deriving DecidableEq, Repr

/-- One operation of `VecOp` on the system. -/
def System.stepAny (s : System) : VecOp → System
  | VecOp.op o => (s.step o).2
  | VecOp.deleteByInstance metric =>
    { s with vec := (s.vec.deleteMetricByInstance metric).2 }

/-- A sequence of operations of `VecOp` on the system. -/
def System.runAny (s : System) : List VecOp → System
  | [] => s
  | op :: ops => System.runAny (s.stepAny op) ops

/-! ## The vector with the slices of label values held by reference

The source keeps the slice of label values a caller passes: `tagMap.Add` stores
it as the key of the new element and `addMetric` stores it in the new entry,
without copying.  The definitions above hold label values by value, which is
what the source does as long as the strings of a passed slice stay what they
were.  The definitions of this section embed the same functions with every
slice named by a number and its strings read from a heap at the time of use, so
that a later write to a slice is seen through every place that holds it. -/

/-- The strings the slices hold at a given time: a slice is named by a number. -/
abbrev Heap := GoMap Nat (List String)

/-- The strings of a slice; a slice the heap does not hold reads as empty. -/
def readSlice (heap : Heap) (slice : Nat) : List String := (GoMap.get heap slice).getD []

/-- The assignment `slice[i] = value` of a caller. -/
def writeSlice (heap : Heap) (slice : Nat) (i : Nat) (value : String) : Heap :=
  GoMap.set heap slice ((readSlice heap slice).set i value)

namespace Ref

/-- Source `mapElement`, its key being the slice that was passed to `Add`. -/
structure mapElement where
  key : Nat
  value : String
deriving DecidableEq, Repr

/-- Source `tagMap`. -/
structure tagMap where
  index : GoMap Nat (List mapElement)
  hash : List String → Nat

/-- Source `newTagMap`. -/
def newTagMap : tagMap := { index := [], hash := hashStringSlice }

/-- Scan of source `findElem` over a bucket; the key of every element is read
from the heap. -/
def findIdx (heap : Heap) (key : List String) : List mapElement → Option Nat
  | [] => none
  | e :: es =>
    if equalStrings key (readSlice heap e.key) then some 0
    else (findIdx heap key es).map (· + 1)

/-- Read `m.index[hash]`: a missing bucket reads as the nil slice. -/
def tagMap.bucket (m : tagMap) (hash : Nat) : List mapElement :=
  (GoMap.get m.index hash).getD []

/-- Source `tagMap.findElem`. -/
def tagMap.findElem (m : tagMap) (heap : Heap) (hash : Nat) (key : List String) : Option Nat :=
  findIdx heap key (m.bucket hash)

/-- Source `tagMap.Add`; the new element keeps the slice `key`. -/
def tagMap.Add (m : tagMap) (heap : Heap) (key : Nat) (value : String) : tagMap :=
  let hash := m.hash (readSlice heap key)
  match m.findElem heap hash (readSlice heap key) with
  | some i =>
    let list := (m.bucket hash).modify (fun e => { e with value := value }) i
    { m with index := GoMap.set m.index hash list }
  | none =>
    let list := m.bucket hash ++ [{ key := key, value := value }]
    { m with index := GoMap.set m.index hash list }

/-- Source `tagMap.Get`. -/
def tagMap.Get (m : tagMap) (heap : Heap) (key : Nat) : String × Bool :=
  let hash := m.hash (readSlice heap key)
  match m.findElem heap hash (readSlice heap key) with
  | some i => (((m.bucket hash).get? i).map (·.value) |>.getD "", true)
  | none => ("", false)

/-- Source `tagMap.Delete`. -/
def tagMap.Delete (m : tagMap) (heap : Heap) (key : Nat) : tagMap :=
  let hash := m.hash (readSlice heap key)
  match m.findElem heap hash (readSlice heap key) with
  | some i =>
    let list := m.bucket hash
    if list.length > 1 then
      let list1 := (list.set i (list.getLastD { key := 0, value := "" })).dropLast
      { m with index := GoMap.set m.index hash list1 }
    else
      { m with index := GoMap.delete m.index hash }
  | none => m

/-- Source `metricAttr`, its label values being the slice that was passed to
`addMetric`. -/
structure metricAttr where
  tag : String := ""
  labelValues : Nat := 0
  state : metricState := stateWarmUpPending
  warmUpDeadLine : Time := 0
  activeDeadLine : Time := 0
deriving DecidableEq, Repr

/-- Source `metricAttr.hasExpired`. -/
def metricAttr.hasExpired (a : metricAttr) : Bool := decide (a.state = stateExpired)

/-- Source `metricAttr.onCollect`, at clock value `nowTime`. -/
def metricAttr.onCollect (a : metricAttr) (warmUpDuration : Duration) (nowTime : Time) :
    metricAttr :=
  if a.state = stateWarmUpPending then
    { a with warmUpDeadLine := nowTime.Add warmUpDuration, state := stateWarmUpOngoing }
  else if a.state = stateWarmUpOngoing ∧ nowTime.After a.warmUpDeadLine = true then
    { a with state := stateWarmUpComplete }
  else if a.state = stateWarmUpComplete ∧ a.activeDeadLine.IsZero = false
      ∧ nowTime.After a.activeDeadLine = true then
    { a with state := stateExpired }
  else a

/-- Source `metricAttr.onAccess`, at clock value `now`. -/
def metricAttr.onAccess (a : metricAttr) (expirationDelay : Duration) (now : Time) :
    metricAttr :=
  if expirationDelay > 0 then { a with activeDeadLine := now.Add expirationDelay } else a

/-- Source `MetricVec` (without its lock). -/
structure MetricVec where
  metricVec : PromVec
  labelNames : List String
  opts : metricOpts
  metricAttrs : GoMap Nat metricAttr
  tags : tagMap

/-- Source `newMetricVec`. -/
def newMetricVec (opts : metricOpts) (labelNames : List String) : MetricVec :=
  { metricVec :=
      { labelNames := labelNames ++ [labelLifeCycleTag], children := [], nextMetric := 0 },
    labelNames := labelNames,
    opts := opts,
    metricAttrs := [],
    tags := newTagMap }

/-- Source `MetricVec.getMetric`, at clock value `now`, for the slice
`labelValues`; the registry is given the strings `append(labelValues, tag)`. -/
def MetricVec.getMetric (mv : MetricVec) (heap : Heap) (now : Time) (labelValues : Nat) :
    (Option Nat × Option String) × MetricVec :=
  let (tag, present) := mv.tags.Get heap labelValues
  if present = false then ((none, none), mv)
  else
    match mv.metricVec.GetMetricWithLabelValues (readSlice heap labelValues ++ [tag]) with
    | (Except.error err, pv) => ((none, some err), { mv with metricVec := pv })
    | (Except.ok metric, pv) =>
      match GoMap.get mv.metricAttrs metric with
      | none => ((none, none), { mv with metricVec := pv })
      | some attr =>
        if attr.hasExpired then ((none, none), { mv with metricVec := pv })
        else
          ((some metric, none),
            { mv with metricVec := pv,
                      metricAttrs := GoMap.set mv.metricAttrs metric
                        (attr.onAccess mv.opts.ExpirationDelay now) })

/-- Source `MetricVec.addMetric`, at clock value `now`; the index and the new
entry keep the slice `labelValues`. -/
def MetricVec.addMetric (mv : MetricVec) (heap : Heap) (now : Time) (labelValues : Nat) :
    (Option Nat × Option String) × MetricVec :=
  let tag := generateLifeCycleTag now
  match mv.metricVec.GetMetricWithLabelValues (readSlice heap labelValues ++ [tag]) with
  | (Except.error err, pv) => ((none, some err), { mv with metricVec := pv })
  | (Except.ok metric, pv) =>
    let attr : metricAttr := { tag := tag, labelValues := labelValues }
    ((some metric, none),
      { mv with metricVec := pv,
                tags := mv.tags.Add heap labelValues tag,
                metricAttrs := GoMap.set mv.metricAttrs metric
                  (attr.onAccess mv.opts.ExpirationDelay now) })

/-- Source `MetricVec.deleteMetric`. -/
def MetricVec.deleteMetric (mv : MetricVec) (heap : Heap) (labelValues : Nat) :
    Bool × MetricVec :=
  let (tag, present) := mv.tags.Get heap labelValues
  if present = false then (false, mv)
  else
    let (r, pv) := mv.metricVec.GetMetricWithLabelValues (readSlice heap labelValues ++ [tag])
    let attrs :=
      match r with
      | Except.ok metric => GoMap.delete mv.metricAttrs metric
      | Except.error _ => mv.metricAttrs
    (true,
      { mv with tags := mv.tags.Delete heap labelValues,
                metricAttrs := attrs,
                metricVec := (pv.DeleteLabelValues (readSlice heap labelValues ++ [tag])).2 })

/-- Source `MetricVec.deleteMetricByInstance`. -/
def MetricVec.deleteMetricByInstance (mv : MetricVec) (heap : Heap) (metric : Option Nat) :
    Bool × MetricVec :=
  match metric with
  | none => (false, mv)
  | some m =>
    match GoMap.get mv.metricAttrs m with
    | none => (false, mv)
    | some attr =>
      let pv :=
        (mv.metricVec.DeleteLabelValues (readSlice heap attr.labelValues ++ [attr.tag])).2
      let attrs := GoMap.delete mv.metricAttrs m
      let (tag, present) := mv.tags.Get heap attr.labelValues
      if present = true ∧ tag = attr.tag then
        (true, { mv with metricVec := pv, metricAttrs := attrs,
                         tags := mv.tags.Delete heap attr.labelValues })
      else
        (true, { mv with metricVec := pv, metricAttrs := attrs })

/-- Source `MetricVec.GetMetricWithLabelValues`, at clock value `now`. -/
def MetricVec.GetMetricWithLabelValues (mv : MetricVec) (heap : Heap) (now : Time)
    (labelValues : Nat) : CallResult × MetricVec :=
  match mv.getMetric heap now labelValues with
  | ((none, none), mv1) =>
    match mv1.getMetric heap now labelValues with
    | ((none, none), mv2) =>
      let (r, mv3) := mv2.addMetric heap now labelValues
      (assertM r, mv3)
    | (r, mv2) => (assertM r, mv2)
  | (r, mv1) => (assertM r, mv1)

/-- Source `MetricVec.Reset`. -/
def MetricVec.Reset (mv : MetricVec) : MetricVec :=
  { mv with metricAttrs := [], metricVec := mv.metricVec.Reset, tags := newTagMap }

/-- Loop of source `MetricVec.Collect` over the entries of the instance map. -/
def collectLoop (opts : metricOpts) (heap : Heap) (now : Time) :
    GoMap Nat metricAttr → List Sample × List (Option Nat) × GoMap Nat metricAttr
  | [] => ([], [], [])
  | (metric, attr) :: rest =>
    let attr1 := attr.onCollect opts.WarmUpDuration now
    let r := collectLoop opts heap now rest
    if attr1.state = stateExpired then
      (r.1, some metric :: r.2.1, (metric, attr1) :: r.2.2)
    else if attr1.state = stateWarmUpOngoing then
      (Sample.initial metric (readSlice heap attr1.labelValues ++ [attr1.tag]) :: r.1, r.2.1,
        (metric, attr1) :: r.2.2)
    else
      (Sample.live metric :: r.1, r.2.1, (metric, attr1) :: r.2.2)

/-- Source `MetricVec.Collect` up to the start of the goroutine. -/
def MetricVec.Collect (mv : MetricVec) (heap : Heap) (now : Time) :
    List Sample × List (Option Nat) × MetricVec :=
  let r := collectLoop mv.opts heap now mv.metricAttrs
  (r.1, List.replicate 16 none ++ r.2.1, { mv with metricAttrs := r.2.2 })

/-- The goroutine started by source `MetricVec.Collect`. -/
def MetricVec.sweep (mv : MetricVec) (heap : Heap) : List (Option Nat) → MetricVec
  | [] => mv
  | metric :: rest => MetricVec.sweep (mv.deleteMetricByInstance heap metric).2 heap rest

end Ref

namespace Ref

/-- The operations on the vector with slices held by reference; the label
values of a call are the slice that is passed. -/
inductive Op where
  | get (now : Time) (labelValues : Nat)
  | delete (labelValues : Nat)
  | reset
  | collect (now : Time)
  | sweep (k : Nat)
  | deleteByInstance (metric : Option Nat)
deriving DecidableEq, Repr

/-- A vector together with the removal lists of the sweeps that were started by
collections and have not run yet. -/
structure System where
  vec : MetricVec
  pending : List (List (Option Nat))

/-- One operation on the system, the slices holding the strings of `heap`: the
samples it sends and the system afterwards. -/
def System.step (s : System) (heap : Heap) : Op → List Sample × System
  | Op.get now labelValues =>
    ([], { s with vec := (s.vec.GetMetricWithLabelValues heap now labelValues).2 })
  | Op.delete labelValues => ([], { s with vec := (s.vec.deleteMetric heap labelValues).2 })
  | Op.reset => ([], { s with vec := s.vec.Reset })
  | Op.collect now =>
    let r := s.vec.Collect heap now
    (r.1, { vec := r.2.2, pending := s.pending ++ [r.2.1] })
  | Op.sweep k =>
    match s.pending.get? k with
    | none => ([], s)
    | some l => ([], { vec := s.vec.sweep heap l, pending := s.pending.eraseIdx k })
  | Op.deleteByInstance metric =>
    ([], { s with vec := (s.vec.deleteMetricByInstance heap metric).2 })

/-- A sequence of operations on the system during which no slice is written:
the slices hold the strings of `heap` throughout. -/
def System.run (s : System) (heap : Heap) : List Op → System
  | [] => s
  | op :: ops => System.run (s.step heap op).2 heap ops

/-- The empty vector with its options and label names. -/
def System.init (opts : metricOpts) (labelNames : List String) : System :=
  { vec := newMetricVec opts labelNames, pending := [] }

/-- The element of the index with its key read from the heap. -/
def mapElement.deref (heap : Heap) (e : mapElement) : SmartProm.mapElement :=
  { key := readSlice heap e.key, value := e.value }

/-- The index with the keys of its elements read from the heap. -/
def tagMap.deref (heap : Heap) (m : tagMap) : SmartProm.tagMap :=
  { index := m.index.map (fun p => (p.1, p.2.map (mapElement.deref heap))), hash := m.hash }

/-- The entry with its label values read from the heap. -/
def metricAttr.deref (heap : Heap) (a : metricAttr) : SmartProm.metricAttr :=
  { tag := a.tag, labelValues := readSlice heap a.labelValues, state := a.state,
    warmUpDeadLine := a.warmUpDeadLine, activeDeadLine := a.activeDeadLine }

/-- The vector with every slice it holds read from the heap. -/
def MetricVec.deref (heap : Heap) (mv : MetricVec) : SmartProm.MetricVec :=
  { metricVec := mv.metricVec, labelNames := mv.labelNames, opts := mv.opts,
    metricAttrs := mv.metricAttrs.map (fun p => (p.1, metricAttr.deref heap p.2)),
    tags := tagMap.deref heap mv.tags }

/-- The system with every slice it holds read from the heap. -/
def System.deref (heap : Heap) (s : System) : SmartProm.System :=
  { vec := MetricVec.deref heap s.vec, pending := s.pending }

/-- The operation with the slice it passes read from the heap. -/
def Op.deref (heap : Heap) : Op → VecOp
  | Op.get now labelValues => VecOp.op (SmartProm.Op.get now (readSlice heap labelValues))
  | Op.delete labelValues => VecOp.op (SmartProm.Op.delete (readSlice heap labelValues))
  | Op.reset => VecOp.op SmartProm.Op.reset
  | Op.collect now => VecOp.op (SmartProm.Op.collect now)
  | Op.sweep k => VecOp.op (SmartProm.Op.sweep k)
  | Op.deleteByInstance metric => VecOp.deleteByInstance metric

end Ref

namespace Ref

/-- The elements the index stores, bucket after bucket. -/
def tagMap.elems (m : tagMap) : List mapElement := m.index.flatMap (fun p => p.2)

/-- The index holds the slice: it is the key of a stored element. -/
def tagMap.holds (m : tagMap) (slice : Nat) : Bool :=
  m.index.any (fun p => p.2.any (fun e => decide (e.key = slice)))

/-- The vector holds the slice: it is the key of an element of the index or the
label values of an entry of the instance map. -/
def MetricVec.holds (mv : MetricVec) (slice : Nat) : Bool :=
  mv.tags.holds slice || mv.metricAttrs.any (fun p => decide (p.2.labelValues = slice))

/-- What happens to an index: a call of `Add` or of `Delete` with a slice as the
key, or the assignment `slice[i] = value` of a caller. -/
inductive IndexEvent where
  | add (key : Nat) (value : String)
  | delete (key : Nat)
  | write (slice : Nat) (i : Nat) (value : String)
deriving DecidableEq, Repr

/-- An index together with the strings the slices hold. -/
structure IndexWorld where
  heap : Heap
  index : tagMap

/-- One event on the index. -/
def IndexWorld.step (w : IndexWorld) : IndexEvent → IndexWorld
  | IndexEvent.add key value => { w with index := w.index.Add w.heap key value }
  | IndexEvent.delete key => { w with index := w.index.Delete w.heap key }
  | IndexEvent.write slice i value => { w with heap := writeSlice w.heap slice i value }

/-- A sequence of events on the index. -/
def IndexWorld.run (w : IndexWorld) : List IndexEvent → IndexWorld
  | [] => w
  | e :: es => IndexWorld.run (w.step e) es

/-- No assignment of the sequence writes a slice that the index holds at that
time. -/
def IndexWorld.keepsKeys (w : IndexWorld) : List IndexEvent → Bool
  | [] => true
  | IndexEvent.write slice i value :: es =>
    !w.index.holds slice && IndexWorld.keepsKeys (w.step (IndexEvent.write slice i value)) es
  | e :: es => IndexWorld.keepsKeys (w.step e) es

/-- The empty index with the given hash function, the slices holding the
strings of `heap`. -/
def IndexWorld.init (heap : Heap) (hash : List String → Nat) : IndexWorld :=
  { heap := heap, index := { index := [], hash := hash } }

/-- What happens to a vector: a call of one of its operations, or the
assignment `slice[i] = value` of a caller. -/
inductive Event where
  | call (op : Op)
  | write (slice : Nat) (i : Nat) (value : String)
deriving DecidableEq, Repr

/-- A vector with its pending sweeps, together with the strings the slices
hold. -/
structure World where
  heap : Heap
  sys : System

/-- One event on the vector: the samples it sends and the world afterwards. -/
def World.step (w : World) : Event → List Sample × World
  | Event.call op => ((w.sys.step w.heap op).1, { w with sys := (w.sys.step w.heap op).2 })
  | Event.write slice i value => ([], { w with heap := writeSlice w.heap slice i value })

/-- A sequence of events on the vector. -/
def World.run (w : World) : List Event → World
  | [] => w
  | e :: es => World.run (w.step e).2 es

/-- No assignment of the sequence writes a slice that the vector holds at that
time. -/
def World.keepsSlices (w : World) : List Event → Bool
  | [] => true
  | Event.write slice i value :: es =>
    !w.sys.vec.holds slice && World.keepsSlices (w.step (Event.write slice i value)).2 es
  | e :: es => World.keepsSlices (w.step e).2 es

/-- The empty vector with its options and label names, no sweep pending, the
slices holding the strings of `heap`. -/
def World.init (heap : Heap) (opts : metricOpts) (labelNames : List String) : World :=
  { heap := heap, sys := System.init opts labelNames }

/-- The samples a scan at clock value `now` sends, each with the label values
(without the tag) that the slice of its entry holds. -/
def MetricVec.collectedEntries (mv : MetricVec) (heap : Heap) (now : Time) :
    List (Sample × List String) :=
  mv.metricAttrs.filterMap (fun p =>
    (sampleOf p.1 (metricAttr.deref heap (p.2.onCollect mv.opts.WarmUpDuration now))).map
      (fun smp => (smp, readSlice heap p.2.labelValues)))

end Ref

/-- One slice, holding the label value `toto`. -/
def aliasHeap : Heap := [(0, ["toto"])]

/-- The slice of `aliasHeap` is added to the index, the caller then assigns
`titi` to its string, and the same slice is added again. -/
def aliasIndexEvents : List Ref.IndexEvent :=
  [Ref.IndexEvent.add 0 "48ab9774", Ref.IndexEvent.write 0 0 "titi",
    Ref.IndexEvent.add 0 "48ab9775"]

/-- The index after `aliasIndexEvents`, from the empty index of source
`newTagMap`. -/
def aliasIndexWorld : Ref.IndexWorld :=
  (Ref.IndexWorld.init aliasHeap hashStringSlice).run aliasIndexEvents

/-- Two slices; the first is added to the index, deleted, and written by the
caller only then, while the second is written before it is added. -/
def quietIndexEvents : List Ref.IndexEvent :=
  [Ref.IndexEvent.add 0 "48ab9774", Ref.IndexEvent.write 1 0 "tata",
    Ref.IndexEvent.add 1 "48ab9775", Ref.IndexEvent.delete 0,
    Ref.IndexEvent.write 0 0 "titi", Ref.IndexEvent.add 0 "48ab9776"]

/-- The system of `quickOpts` after `toto` has been requested at `defaultTime`
and three scans have run, at `defaultTime`, one millisecond and 600
milliseconds later: the third scan has found the entry expired, and none of
the three sweeps has run yet. -/
def staleSystem : System :=
  (System.init quickOpts ["label"]).run
    [Op.get defaultTime ["toto"], Op.collect defaultTime, Op.collect (defaultTime + 1000000),
      Op.collect (defaultTime + 600000000)]

/-- A caller holds one slice, `toto` being its string: it requests the label
values of the slice at `defaultTime`, assigns `titi` to the string of the
slice, and requests the label values of the slice again. -/
def aliasEvents : List Ref.Event :=
  [Ref.Event.call (Ref.Op.get defaultTime 0), Ref.Event.write 0 0 "titi",
    Ref.Event.call (Ref.Op.get defaultTime 0)]

/-- The vector of the tests after `aliasEvents`. -/
def aliasWorld : Ref.World := (Ref.World.init aliasHeap exampleOpts ["label"]).run aliasEvents

/-- Two slices, holding `toto` and `titi`. -/
def quietHeap : Heap := [(0, ["toto"]), (1, ["titi"])]

/-- Calls on the vector with assignments to slices the vector does not hold at
that time: the second slice is written before it is passed, the first one
after its entry has been deleted. -/
def quietEvents : List Ref.Event :=
  [Ref.Event.call (Ref.Op.get defaultTime 0), Ref.Event.write 1 0 "tata",
    Ref.Event.call (Ref.Op.get defaultTime 1),
    Ref.Event.call (Ref.Op.collect (defaultTime + 1000000000)),
    Ref.Event.call (Ref.Op.delete 0), Ref.Event.write 0 0 "tutu",
    Ref.Event.call (Ref.Op.get (defaultTime + 1000000000) 0),
    Ref.Event.call (Ref.Op.sweep 0)]

namespace Ref

/-- The instance map holds for the instance an entry that is not expired and
whose label values read as the given strings. -/
def MetricVec.holdsEntryOf (mv : MetricVec) (heap : Heap) (metric : Nat)
    (labelValues : List String) : Bool :=
  match GoMap.get mv.metricAttrs metric with
  | some a => decide (a.state ≠ stateExpired ∧ readSlice heap a.labelValues = labelValues)
  | none => false

end Ref

/-- Two slices that both hold `toto`, and one that holds `titi`. -/
def twinHeap : Heap := [(0, ["toto"]), (1, ["toto"]), (2, ["titi"])]

/-- Between two requests of `toto`: `titi` is requested, a slice the vector does
not hold is written, and a scan and its sweep run. -/
def betweenEvents : List Ref.Event :=
  [Ref.Event.call (Ref.Op.get defaultTime 2), Ref.Event.write 1 0 "toto",
    Ref.Event.call (Ref.Op.collect (defaultTime + 1000000000)),
    Ref.Event.call (Ref.Op.sweep 0)]

/-- The vector of `quickOpts` after the label values of the slice 0 have been
requested at `defaultTime` and three scans have run, the third of which has
found the entry expired; none of the three sweeps has run yet. -/
def staleEvents : List Ref.Event :=
  [Ref.Event.call (Ref.Op.get defaultTime 0), Ref.Event.call (Ref.Op.collect defaultTime),
    Ref.Event.call (Ref.Op.collect (defaultTime + 1000000)),
    Ref.Event.call (Ref.Op.collect (defaultTime + 600000000))]

namespace Ref

/-- The instance map holds an entry for the instance and the entry is not
expired. -/
def MetricVec.holdsEntry (mv : MetricVec) (metric : Nat) : Bool :=
  match GoMap.get mv.metricAttrs metric with
  | some a => decide (a.state ≠ stateExpired)
  | none => false

/-- The entry of the instance is neither removed nor expired during the events:
after every one of them the instance map holds a non-expired entry for the
instance. -/
def World.keepsEntry (w : World) (metric : Nat) : List Event → Bool
  | [] => true
  | e :: es => (w.step e).2.sys.vec.holdsEntry metric && World.keepsEntry (w.step e).2 metric es

end Ref

/-- The events of the test of the warm-up: the label values `toto` are
requested at `defaultTime` and a scan runs one second later. -/
def warmUpEvents : List Ref.Event :=
  [Ref.Event.call (Ref.Op.get defaultTime 0),
    Ref.Event.call (Ref.Op.collect (defaultTime + 1000000000))]

/-- After the scan that ends the warm-up: `toto` is requested again, with
another slice, a slice the vector does not hold is written, and a scan and its
sweep run. -/
def afterWarmUpEvents : List Ref.Event :=
  [Ref.Event.call (Ref.Op.get (defaultTime + 5000000000) 1), Ref.Event.write 2 0 "tata",
    Ref.Event.call (Ref.Op.collect (defaultTime + 6000000000)),
    Ref.Event.call (Ref.Op.sweep 0)]

/-- Without warm-up: the label values `toto` are requested at `defaultTime` and
a scan runs at `defaultTime`. -/
def noWarmUpEvents : List Ref.Event :=
  [Ref.Event.call (Ref.Op.get defaultTime 0), Ref.Event.call (Ref.Op.collect defaultTime)]

/-- The caller assigns `titi` to the string of the slice it passed, and
requests `toto` with another slice, two milliseconds after `defaultTime`. -/
def rewriteEvents : List Ref.Event :=
  [Ref.Event.write 0 0 "titi", Ref.Event.call (Ref.Op.get (defaultTime + 2000000) 1)]

/-! ## Go maps: laws -/

namespace GoMap

variable {K V : Type} [DecidableEq K]

theorem get_set_same (m : GoMap K V) (k : K) (v : V) : get (set m k v) k = some v := by
  induction m with
  | nil => simp [set, get]
  | cons p t ih =>
    obtain ⟨k', v'⟩ := p
    by_cases h : k' = k
    · simp [set, get, h]
    · simp [set, get, h, ih]

theorem get_set_ne (m : GoMap K V) {k k' : K} (v : V) (h : k' ≠ k) :
    get (set m k v) k' = get m k' := by
  induction m with
  | nil => simp [set, get, Ne.symm h]
  | cons p t ih =>
    obtain ⟨k1, v1⟩ := p
    by_cases h1 : k1 = k
    · subst h1
      simp [set, get, Ne.symm h]
    · by_cases h2 : k1 = k'
      · subst h2
        simp [set, get, h1]
      · simp [set, get, h1, h2, ih]

theorem get_delete_same (m : GoMap K V) (k : K) : get (delete m k) k = none := by
  induction m with
  | nil => simp [delete, get]
  | cons p t ih =>
    obtain ⟨k', v'⟩ := p
    by_cases h : k' = k
    · simpa [delete, List.filter_cons, h] using ih
    · simpa [delete, List.filter_cons, h, get] using ih

theorem get_delete_ne (m : GoMap K V) {k k' : K} (h : k' ≠ k) :
    get (delete m k) k' = get m k' := by
  induction m with
  | nil => simp [delete, get]
  | cons p t ih =>
    obtain ⟨k1, v1⟩ := p
    by_cases h1 : k1 = k
    · subst h1
      simpa [delete, List.filter_cons, get, Ne.symm h] using ih
    · by_cases h2 : k1 = k'
      · subst h2
        simp [delete, List.filter_cons, h1, get]
      · simpa [delete, List.filter_cons, h1, get, h2] using ih

theorem mem_of_get {m : GoMap K V} {k : K} {v : V} (h : get m k = some v) : (k, v) ∈ m := by
  induction m with
  | nil => simp [get] at h
  | cons p t ih =>
    obtain ⟨k1, v1⟩ := p
    by_cases h1 : k1 = k
    · simp [get, h1] at h
      simp [h1, h]
    · simp [get, h1] at h
      exact List.mem_cons_of_mem _ (ih h)

theorem get_of_mem {m : GoMap K V} {k : K} {v : V} (hn : (keys m).Nodup) (h : (k, v) ∈ m) :
    get m k = some v := by
  induction m with
  | nil => simp at h
  | cons p t ih =>
    obtain ⟨k1, v1⟩ := p
    simp only [keys, List.map_cons, List.nodup_cons, List.mem_map, not_exists] at hn
    rcases List.mem_cons.mp h with h1 | h1
    · simp only [Prod.mk.injEq] at h1
      simp [get, h1.1, h1.2]
    · have hne : k1 ≠ k := fun e => hn.1 (k, v) ⟨h1, e.symm⟩
      simp only [get, hne, if_false]
      exact ih hn.2 h1

theorem keys_set_of_get {m : GoMap K V} {k : K} {v0 : V} (v : V) (h : get m k = some v0) :
    keys (set m k v) = keys m := by
  induction m with
  | nil => simp [get] at h
  | cons p t ih =>
    obtain ⟨k1, v1⟩ := p
    by_cases h1 : k1 = k
    · simp [set, keys, h1]
    · simp only [get, h1, if_false] at h
      have := ih h
      simp only [keys] at this
      simp [set, keys, h1, this]

theorem length_set_of_get {m : GoMap K V} {k : K} {v0 : V} (v : V) (h : get m k = some v0) :
    (set m k v).length = m.length := by
  have := congrArg List.length (keys_set_of_get v h)
  simpa [keys] using this

theorem get_mem_value {m : GoMap K V} {k : K} {v : V} (h : get m k = some v) :
    ∃ p ∈ m, p.2 = v := ⟨(k, v), mem_of_get h, rfl⟩

end GoMap

/-! ## The index: laws -/

theorem equalStrings_iff (s1 s2 : List String) : equalStrings s1 s2 = true ↔ s1 = s2 := by
  induction s1 generalizing s2 with
  | nil => cases s2 <;> simp [equalStrings]
  | cons a t ih =>
    cases s2 with
    | nil => simp [equalStrings]
    | cons b u =>
      by_cases h : b = a
      · simp [equalStrings, h, ih]
      · simp [equalStrings, h, Ne.symm h]

theorem findIdx_cons (key : List String) (e : mapElement) (es : List mapElement) :
    findIdx key (e :: es) =
      if e.key = key then some 0 else (findIdx key es).map (· + 1) := by
  by_cases hk : e.key = key
  · subst hk
    have : equalStrings e.key e.key = true := (equalStrings_iff _ _).mpr rfl
    simp [findIdx, this]
  · have hk1 : ¬ equalStrings key e.key = true :=
      fun c => hk ((equalStrings_iff _ _).mp c).symm
    simp [findIdx, hk1, hk]

theorem bucketFind_cons (key : List String) (e : mapElement) (es : List mapElement) :
    bucketFind key (e :: es) = if e.key = key then some e else bucketFind key es := by
  by_cases hk : e.key = key <;> simp [bucketFind, List.find?_cons, hk]

theorem findIdx_none {key : List String} {l : List mapElement} (h : findIdx key l = none) :
    bucketFind key l = none := by
  induction l with
  | nil => rfl
  | cons e es ih =>
    rw [findIdx_cons] at h
    rw [bucketFind_cons]
    by_cases hk : e.key = key
    · simp [hk] at h
    · simp only [hk, if_false, Option.map_eq_none'] at h
      simp [hk, ih h]

theorem findIdx_some {key : List String} {l : List mapElement} {i : Nat}
    (h : findIdx key l = some i) :
    ∃ e, l.get? i = some e ∧ bucketFind key l = some e ∧ e.key = key := by
  induction l generalizing i with
  | nil => simp [findIdx] at h
  | cons e es ih =>
    rw [findIdx_cons] at h
    rw [bucketFind_cons]
    by_cases hk : e.key = key
    · simp only [hk, if_true, Option.some.injEq] at h
      subst h
      exact ⟨e, by simp, by simp [hk], hk⟩
    · simp only [hk, if_false, Option.map_eq_some'] at h
      obtain ⟨j, hj, rfl⟩ := h
      obtain ⟨e1, h1, h2, h3⟩ := ih hj
      exact ⟨e1, by simpa using h1, by simpa [hk] using h2, h3⟩

theorem findIdx_lt {key : List String} {l : List mapElement} {i : Nat}
    (h : findIdx key l = some i) : i < l.length := by
  obtain ⟨e, h1, _⟩ := findIdx_some h
  exact (List.get?_eq_some.mp h1).1

/-- The lookup of the index reads the first element of the bucket with the key. -/
theorem tagMap.Get_eq (m : tagMap) (key : List String) :
    m.Get key =
      match bucketFind key (m.bucket (m.hash key)) with
      | some e => (e.value, true)
      | none => ("", false) := by
  simp only [tagMap.Get, tagMap.findElem]
  cases h : findIdx key (m.bucket (m.hash key)) with
  | none => simp [findIdx_none h]
  | some i =>
    obtain ⟨e, h1, h2, _⟩ := findIdx_some h
    simp only [List.get?_eq_getElem?] at h1
    simp [h1, h2]

theorem tagMap.Get_snd_false {m : tagMap} {key : List String} (h : (m.Get key).2 = false) :
    m.Get key = ("", false) := by
  rw [tagMap.Get_eq] at h ⊢
  cases hb : bucketFind key (m.bucket (m.hash key)) with
  | none => rfl
  | some e => simp [hb] at h

theorem bucketAdd_cons (key : List String) (value : String) (e : mapElement)
    (es : List mapElement) :
    bucketAdd key value (e :: es) =
      if e.key = key then { e with value := value } :: es
      else e :: bucketAdd key value es := by
  by_cases hk : e.key = key
  · simp [bucketAdd, findIdx_cons, hk]
  · cases hf : findIdx key es <;> simp [bucketAdd, findIdx_cons, hk, hf]

theorem bucketFind_bucketAdd_same (key : List String) (value : String) (l : List mapElement) :
    bucketFind key (bucketAdd key value l) = some { key := key, value := value } := by
  induction l with
  | nil => simp [bucketAdd, findIdx, bucketFind]
  | cons e es ih =>
    rw [bucketAdd_cons]
    by_cases hk : e.key = key
    · simp [hk, bucketFind_cons]
    · simp [hk, bucketFind_cons, ih]

theorem bucketFind_bucketAdd_ne {key key' : List String} (value : String)
    (l : List mapElement) (hne : key' ≠ key) :
    bucketFind key' (bucketAdd key value l) = bucketFind key' l := by
  induction l with
  | nil => simp [bucketAdd, findIdx, bucketFind, Ne.symm hne]
  | cons e es ih =>
    rw [bucketAdd_cons]
    by_cases hk : e.key = key
    · have hk2 : ¬ key = key' := fun c => hne c.symm
      have hk3 : ¬ e.key = key' := fun c => hne (c.symm.trans hk)
      simp [hk, bucketFind_cons, hk2, hk3]
    · by_cases hk2 : e.key = key'
      · rw [if_neg hk, bucketFind_cons, bucketFind_cons, if_pos hk2, if_pos hk2]
      · simp [hk, bucketFind_cons, hk2, ih]

theorem tagMap.Add_hash (m : tagMap) (key : List String) (value : String) :
    (m.Add key value).hash = m.hash := by
  simp only [tagMap.Add]
  split <;> rfl

theorem tagMap.Add_index (m : tagMap) (key : List String) (value : String) :
    (m.Add key value).index =
      GoMap.set m.index (m.hash key) (bucketAdd key value (m.bucket (m.hash key))) := by
  simp only [tagMap.Add, tagMap.findElem, bucketAdd]
  split <;> rename_i h <;> simp [h]

theorem tagMap.bucket_Add (m : tagMap) (key : List String) (value : String) (h : Nat) :
    (m.Add key value).bucket h =
      if h = m.hash key then bucketAdd key value (m.bucket (m.hash key)) else m.bucket h := by
  unfold tagMap.bucket
  rw [tagMap.Add_index]
  by_cases hh : h = m.hash key
  · subst hh
    simp [GoMap.get_set_same, tagMap.bucket]
  · simp [GoMap.get_set_ne _ _ hh, hh]

/-- Reading a key back after `Add` gives the value written. -/
theorem tagMap.Get_Add_same (m : tagMap) (key : List String) (value : String) :
    (m.Add key value).Get key = (value, true) := by
  rw [tagMap.Get_eq, tagMap.Add_hash, tagMap.bucket_Add]
  simp [bucketFind_bucketAdd_same]

/-- Writing a key does not change what is read for another key. -/
theorem tagMap.Get_Add_ne (m : tagMap) {key key' : List String} (value : String)
    (hne : key' ≠ key) : (m.Add key value).Get key' = m.Get key' := by
  rw [tagMap.Get_eq, tagMap.Get_eq, tagMap.Add_hash, tagMap.bucket_Add]
  by_cases hh : m.hash key' = m.hash key
  · simp only [hh, if_true]
    rw [bucketFind_bucketAdd_ne value _ hne]
  · simp [hh]

/-- Overwriting a position by the last element and dropping the last element
leaves the elements of the list without that position, in some order. -/
theorem swapRemove_perm {α : Type} (d : α) : ∀ (l : List α) (i : Nat), i < l.length →
    ((l.set i (l.getLastD d)).dropLast).Perm (l.eraseIdx i)
  | [], i, h => by simp at h
  | [x], i, h => by
    have : i = 0 := by simpa using h
    subst this
    simp
  | x :: y :: t, 0, _ => by
    have hyt : y :: t ≠ [] := by simp
    have h1 : (x :: y :: t).getLastD d = (y :: t).getLast hyt := by
      simp [List.getLastD, List.getLast?_eq_getLast]
    rw [h1]
    simp only [List.set_cons_zero, List.eraseIdx_cons_zero]
    rw [List.dropLast_cons₂]
    have h2 := List.dropLast_append_getLast hyt
    have h3 : ((y :: t).getLast hyt :: (y :: t).dropLast).Perm
        ((y :: t).dropLast ++ [(y :: t).getLast hyt]) := by
      simpa using (List.perm_append_comm :
        ([(y :: t).getLast hyt] ++ (y :: t).dropLast).Perm _)
    rw [h2] at h3
    exact h3
  | x :: y :: t, i + 1, h => by
    have h1 : (x :: y :: t).getLastD d = (y :: t).getLastD d := by
      simp [List.getLastD]
    rw [h1]
    simp only [List.set_cons_succ, List.eraseIdx_cons_succ]
    have hi : i < (y :: t).length := by simpa using h
    have hne : (y :: t).set i ((y :: t).getLastD d) ≠ [] := by
      intro e
      have := congrArg List.length e
      simp at this
    obtain ⟨a, b, hab⟩ := List.exists_cons_of_ne_nil hne
    rw [hab, List.dropLast_cons₂, ← hab]
    exact List.Perm.cons x (swapRemove_perm d (y :: t) i hi)

theorem bucketFind_none_iff {key : List String} {l : List mapElement} :
    bucketFind key l = none ↔ ∀ e ∈ l, e.key ≠ key := by
  simp [bucketFind, List.find?_eq_none]

theorem bucketFind_some_iff {key : List String} {l : List mapElement} {e : mapElement}
    (hn : (l.map mapElement.key).Nodup) :
    bucketFind key l = some e ↔ e ∈ l ∧ e.key = key := by
  induction l with
  | nil => simp [bucketFind]
  | cons x xs ih =>
    simp only [List.map_cons, List.nodup_cons, List.mem_map, not_exists, not_and] at hn
    rw [bucketFind_cons]
    by_cases hk : x.key = key
    · simp only [hk, if_true, Option.some.injEq, List.mem_cons]
      constructor
      · rintro rfl
        exact ⟨Or.inl rfl, hk⟩
      · rintro ⟨h1 | h1, h2⟩
        · exact h1.symm
        · exact absurd (h2.trans hk.symm) (hn.1 e h1)
    · simp only [hk, if_false, List.mem_cons, ih hn.2]
      constructor
      · rintro ⟨h1, h2⟩
        exact ⟨Or.inr h1, h2⟩
      · rintro ⟨h1 | h1, h2⟩
        · subst h1
          exact absurd h2 hk
        · exact ⟨h1, h2⟩

theorem bucketFind_perm {key : List String} {l1 l2 : List mapElement} (hp : l1.Perm l2)
    (hn : (l1.map mapElement.key).Nodup) : bucketFind key l1 = bucketFind key l2 := by
  have hn2 : (l2.map mapElement.key).Nodup := (hp.map _).nodup_iff.mp hn
  apply Option.ext
  intro e
  simp only [Option.mem_def]
  rw [bucketFind_some_iff hn, bucketFind_some_iff hn2, hp.mem_iff]

theorem bucketFind_filter (key key' : List String) (l : List mapElement) :
    bucketFind key' (l.filter (fun e => decide (e.key ≠ key))) =
      if key' = key then none else bucketFind key' l := by
  induction l with
  | nil => simp [bucketFind]
  | cons x xs ih =>
    by_cases hk : x.key = key
    · by_cases hk2 : key' = key
      · simpa [List.filter_cons, hk, hk2] using ih
      · have hk3 : ¬ x.key = key' := fun c => hk2 (c.symm.trans hk)
        rw [bucketFind_cons, if_neg hk3]
        simpa [List.filter_cons, hk, hk2] using ih
    · by_cases hk2 : key' = key
      · subst hk2
        simp only [List.filter_cons, hk, ne_eq, not_false_eq_true, decide_True, if_true,
          bucketFind_cons, if_false]
        simpa using ih
      · simp only [List.filter_cons, hk, ne_eq, not_false_eq_true, decide_True, if_true,
          bucketFind_cons, hk2, if_false]
        simp only [hk2, if_false] at ih
        rw [ih]

theorem eraseIdx_findIdx {key : List String} {l : List mapElement} {i : Nat}
    (hn : (l.map mapElement.key).Nodup) (h : findIdx key l = some i) :
    l.eraseIdx i = l.filter (fun e => decide (e.key ≠ key)) := by
  induction l generalizing i with
  | nil => simp [findIdx] at h
  | cons x xs ih =>
    simp only [List.map_cons, List.nodup_cons, List.mem_map, not_exists, not_and] at hn
    rw [findIdx_cons] at h
    by_cases hk : x.key = key
    · simp only [hk, if_true, Option.some.injEq] at h
      subst h
      have : ∀ e ∈ xs, decide (e.key ≠ key) = true := by
        intro e he
        have := hn.1 e he
        simpa [hk] using this
      have hf : xs.filter (fun e => decide (e.key ≠ key)) = xs := List.filter_eq_self.mpr this
      rw [List.eraseIdx_cons_zero, List.filter_cons, hf]
      simp [hk]
    · simp only [hk, if_false, Option.map_eq_some'] at h
      obtain ⟨j, hj, rfl⟩ := h
      rw [List.eraseIdx_cons_succ, List.filter_cons, ih hn.2 hj]
      simp [hk]

theorem bucketDelete_perm {key : List String} {l : List mapElement}
    (hn : (l.map mapElement.key).Nodup) :
    (bucketDelete key l).Perm (l.filter (fun e => decide (e.key ≠ key))) := by
  unfold bucketDelete
  cases h : findIdx key l with
  | none =>
    have h1 := bucketFind_none_iff.mp (findIdx_none h)
    have : ∀ e ∈ l, decide (e.key ≠ key) = true := by
      intro e he
      simpa using h1 e he
    rw [List.filter_eq_self.mpr this]
  | some i =>
    have hi := findIdx_lt h
    simp only
    rw [← eraseIdx_findIdx hn h]
    by_cases hl : l.length > 1
    · simp only [hl, if_true]
      exact swapRemove_perm _ l i hi
    · simp only [hl, if_false]
      have h1 : l.length = 1 := by omega
      obtain ⟨x, rfl⟩ := List.length_eq_one.mp h1
      have : i = 0 := by simpa using hi
      subst this
      simp

theorem bucketDelete_nodup {key : List String} {l : List mapElement}
    (hn : (l.map mapElement.key).Nodup) : ((bucketDelete key l).map mapElement.key).Nodup := by
  have hp := (@bucketDelete_perm key l hn).map mapElement.key
  refine hp.nodup_iff.mpr ?_
  exact hn.sublist ((List.filter_sublist _).map _)

theorem bucketFind_bucketDelete (key key' : List String) {l : List mapElement}
    (hn : (l.map mapElement.key).Nodup) :
    bucketFind key' (bucketDelete key l) = if key' = key then none else bucketFind key' l := by
  rw [bucketFind_perm (bucketDelete_perm hn) (bucketDelete_nodup hn), bucketFind_filter]

theorem tagMap.WF.bucket {m : tagMap} (hw : m.WF) (h : Nat) :
    ((m.bucket h).map mapElement.key).Nodup := by
  unfold tagMap.bucket
  cases hg : GoMap.get m.index h with
  | none => simp
  | some b => simpa using hw _ (GoMap.mem_of_get hg)

theorem tagMap.Delete_hash (m : tagMap) (key : List String) :
    (m.Delete key).hash = m.hash := by
  simp only [tagMap.Delete]
  split
  · split <;> rfl
  · rfl

theorem tagMap.bucket_Delete (m : tagMap) (key : List String) (h : Nat) :
    (m.Delete key).bucket h =
      if h = m.hash key then bucketDelete key (m.bucket (m.hash key)) else m.bucket h := by
  simp only [tagMap.Delete, tagMap.findElem, bucketDelete]
  cases hf : findIdx key (m.bucket (m.hash key)) with
  | none => by_cases hh : h = m.hash key <;> simp [hh]
  | some i =>
    simp only
    by_cases hl : (m.bucket (m.hash key)).length > 1
    · rw [if_pos hl, if_pos hl]
      by_cases hh : h = m.hash key
      · subst hh
        simp only [tagMap.bucket, GoMap.get_set_same, if_true, Option.getD_some]
      · simp only [tagMap.bucket, GoMap.get_set_ne _ _ hh, hh, if_false]
    · rw [if_neg hl, if_neg hl]
      by_cases hh : h = m.hash key
      · subst hh
        simp only [tagMap.bucket, GoMap.get_delete_same, if_true, Option.getD_none]
      · simp only [tagMap.bucket, GoMap.get_delete_ne _ hh, hh, if_false]

/-- After `Delete` the key is no longer found (in a well-formed index). -/
theorem tagMap.Get_Delete_same {m : tagMap} (hw : m.WF) (key : List String) :
    (m.Delete key).Get key = ("", false) := by
  rw [tagMap.Get_eq, tagMap.Delete_hash, tagMap.bucket_Delete]
  simp [bucketFind_bucketDelete key key (hw.bucket _)]

/-- Deleting a key does not change what is read for another key (in a
well-formed index). -/
theorem tagMap.Get_Delete_ne {m : tagMap} (hw : m.WF) {key key' : List String}
    (hne : key' ≠ key) : (m.Delete key).Get key' = m.Get key' := by
  rw [tagMap.Get_eq, tagMap.Get_eq, tagMap.Delete_hash, tagMap.bucket_Delete]
  by_cases hh : m.hash key' = m.hash key
  · simp only [hh, if_true]
    rw [bucketFind_bucketDelete key key' (hw.bucket _), if_neg hne]
  · simp [hh]

/-! ## The registry and the lookup path of the vector -/

theorem PromVec.get_ok {v pv : PromVec} {lvs : List String} {m : Nat}
    (h : v.GetMetricWithLabelValues lvs = (Except.ok m, pv)) :
    lvs.length = v.labelNames.length ∧ pv.labelNames = v.labelNames ∧
      GoMap.get pv.children lvs = some m := by
  unfold PromVec.GetMetricWithLabelValues at h
  by_cases hl : lvs.length ≠ v.labelNames.length
  · simp [hl] at h
  · rw [if_neg hl] at h
    cases hg : GoMap.get v.children lvs with
    | some m0 =>
      simp only [hg, Prod.mk.injEq, Except.ok.injEq] at h
      obtain ⟨h1, h2⟩ := h
      subst h1 h2
      exact ⟨not_not.mp hl, rfl, hg⟩
    | none =>
      simp only [hg, Prod.mk.injEq, Except.ok.injEq] at h
      obtain ⟨h1, h2⟩ := h
      subst h1 h2
      exact ⟨not_not.mp hl, rfl, GoMap.get_set_same _ _ _⟩

theorem PromVec.get_of_child {v : PromVec} {lvs : List String} {m : Nat}
    (hl : lvs.length = v.labelNames.length) (hg : GoMap.get v.children lvs = some m) :
    v.GetMetricWithLabelValues lvs = (Except.ok m, v) := by
  simp [PromVec.GetMetricWithLabelValues, hl, hg]

theorem metricAttr.onAccess_state (a : metricAttr) (d : Duration) (now : Time) :
    (a.onAccess d now).state = a.state := by
  unfold metricAttr.onAccess
  split <;> rfl

theorem metricAttr.onAccess_tag (a : metricAttr) (d : Duration) (now : Time) :
    (a.onAccess d now).tag = a.tag := by
  unfold metricAttr.onAccess
  split <;> rfl

theorem metricAttr.onAccess_labelValues (a : metricAttr) (d : Duration) (now : Time) :
    (a.onAccess d now).labelValues = a.labelValues := by
  unfold metricAttr.onAccess
  split <;> rfl

theorem metricAttr.onAccess_warmUpDeadLine (a : metricAttr) (d : Duration) (now : Time) :
    (a.onAccess d now).warmUpDeadLine = a.warmUpDeadLine := by
  unfold metricAttr.onAccess
  split <;> rfl

/-- On a live entry the lookup path succeeds and only refreshes the entry. -/
theorem MetricVec.getMetric_of_Live {mv : MetricVec} {labelValues : List String} {metric : Nat}
    {a : metricAttr} (now : Time) (hl : mv.Live labelValues metric)
    (ha : GoMap.get mv.metricAttrs metric = some a) :
    mv.getMetric now labelValues =
      ((some metric, none),
        { mv with metricAttrs := GoMap.set mv.metricAttrs metric
                    (a.onAccess mv.opts.ExpirationDelay now) }) := by
  obtain ⟨h1, h2, h3, a1, h4, h5⟩ := hl
  rw [ha] at h4
  cases h4
  have hget : mv.tags.Get labelValues = ((mv.tags.Get labelValues).1, true) := by
    rw [← h1]
  unfold MetricVec.getMetric
  rw [hget]
  simp only [Bool.true_eq_false, if_false]
  rw [PromVec.get_of_child h2 h3]
  simp only [ha]
  have : a.hasExpired = false := by simp [metricAttr.hasExpired, h5]
  simp [this]

/-- What the lookup path leaves behind, whatever its result: the index and the
options are unchanged; a returned metric has a live entry; an error comes with
a nil metric. -/
theorem MetricVec.getMetric_spec (mv : MetricVec) (now : Time) (labelValues : List String) :
    (mv.getMetric now labelValues).2.tags = mv.tags ∧
    (mv.getMetric now labelValues).2.opts = mv.opts ∧
    (∀ m, (mv.getMetric now labelValues).1.1 = some m →
      (mv.getMetric now labelValues).1.2 = none ∧
      (mv.getMetric now labelValues).2.Live labelValues m) := by
  unfold MetricVec.getMetric
  cases hg : mv.tags.Get labelValues with
  | mk tag present =>
    cases present with
    | false => simp
    | true =>
      simp only [Bool.true_eq_false, if_false]
      cases hr : mv.metricVec.GetMetricWithLabelValues (labelValues ++ [tag]) with
      | mk r pv =>
        cases r with
        | error e => simp
        | ok metric =>
          obtain ⟨hl1, hl2, hl3⟩ := PromVec.get_ok hr
          cases ha : GoMap.get mv.metricAttrs metric with
          | none => simp [ha]
          | some attr =>
            simp only [ha]
            by_cases hx : attr.hasExpired = true
            · simp [hx]
            · rw [if_neg hx]
              refine ⟨rfl, rfl, ?_⟩
              intro m hm
              simp only [Option.some.injEq] at hm
              subst hm
              refine ⟨rfl, ?_⟩
              refine ⟨by simp [hg], ?_, ?_, ?_⟩
              · simp only [hg, hl2]
                exact hl1
              · simp only [hg]
                exact hl3
              · refine ⟨_, GoMap.get_set_same _ _ _, ?_⟩
                rw [metricAttr.onAccess_state]
                simpa [metricAttr.hasExpired] using hx

/-- What a successful creation leaves behind: the new entry is the zero entry
with the generated tag and the label values, refreshed by `onAccess`; it is
live, and the index maps the label values to the generated tag. -/
theorem MetricVec.addMetric_ok {mv mv1 : MetricVec} {now : Time} {labelValues : List String}
    {m : Nat} {err : Option String}
    (h : mv.addMetric now labelValues = ((some m, err), mv1)) :
    err = none ∧ mv1.Live labelValues m ∧
      GoMap.get mv1.metricAttrs m =
        some (metricAttr.onAccess { tag := generateLifeCycleTag now, labelValues := labelValues }
          mv.opts.ExpirationDelay now) ∧
      mv1.tags = mv.tags.Add labelValues (generateLifeCycleTag now) ∧
      mv1.opts = mv.opts := by
  simp only [MetricVec.addMetric] at h
  cases hr : mv.metricVec.GetMetricWithLabelValues
      (labelValues ++ [generateLifeCycleTag now]) with
  | mk r pv =>
    rw [hr] at h
    cases r with
    | error e => simp at h
    | ok metric =>
      obtain ⟨hl1, hl2, hl3⟩ := PromVec.get_ok hr
      simp only [Prod.mk.injEq, Option.some.injEq] at h
      obtain ⟨⟨h1, h2⟩, h3⟩ := h
      subst h1 h2 h3
      refine ⟨rfl, ⟨?_, ?_, ?_, ?_⟩, GoMap.get_set_same _ _ _, rfl, rfl⟩
      · simp [tagMap.Get_Add_same]
      · simp only [tagMap.Get_Add_same, hl2]
        exact hl1
      · simp only [tagMap.Get_Add_same]
        exact hl3
      · refine ⟨_, GoMap.get_set_same _ _ _, ?_⟩
        rw [metricAttr.onAccess_state]
        simp

/-- A call of `GetMetricWithLabelValues` that returns a metric returns it
without error and leaves a live entry for the label values behind. -/
theorem MetricVec.GetMetricWithLabelValues_returned {mv mv1 : MetricVec} {now : Time}
    {labelValues : List String} {m : Nat} {err : Option String}
    (h : mv.GetMetricWithLabelValues now labelValues = (CallResult.returned m err, mv1)) :
    err = none ∧ mv1.Live labelValues m := by
  unfold MetricVec.GetMetricWithLabelValues at h
  have key : ∀ (mv0 : MetricVec) (r : (Option Nat × Option String) × MetricVec),
      r = mv0.getMetric now labelValues → assertM r.1 = CallResult.returned m err →
      err = none ∧ r.2.Live labelValues m := by
    intro mv0 r hr ha
    obtain ⟨⟨x, e⟩, mv2⟩ := r
    cases x with
    | none => simp [assertM] at ha
    | some m0 =>
      simp only [assertM, CallResult.returned.injEq] at ha
      obtain ⟨ha1, ha2⟩ := ha
      subst ha1 ha2
      have hs := (MetricVec.getMetric_spec mv0 now labelValues).2.2 m0 (by rw [← hr])
      rw [← hr] at hs
      exact hs
  split at h
  · rename_i mv2 h2
    split at h
    · rename_i mv3 h3
      cases ha : mv3.addMetric now labelValues with
      | mk r mv4 =>
        rw [ha] at h
        simp only [Prod.mk.injEq] at h
        obtain ⟨h4, h5⟩ := h
        subst h5
        obtain ⟨x, e⟩ := r
        cases x with
        | none => simp [assertM] at h4
        | some m0 =>
          simp only [assertM, CallResult.returned.injEq] at h4
          obtain ⟨h41, h42⟩ := h4
          subst h41 h42
          exact ⟨(MetricVec.addMetric_ok ha).1, (MetricVec.addMetric_ok ha).2.1⟩
    · rename_i r mv3 hne h3
      simp only [Prod.mk.injEq] at h
      obtain ⟨h4, h5⟩ := h
      subst h5
      exact key mv2 (r, mv3) h3.symm h4
  · rename_i r mv2 hne h2
    simp only [Prod.mk.injEq] at h
    obtain ⟨h4, h5⟩ := h
    subst h5
    exact key mv (r, mv2) h2.symm h4

/-! ## The collection scan -/

theorem sampleOf_metric {metric : Nat} {a1 : metricAttr} {smp : Sample}
    (h : sampleOf metric a1 = some smp) : smp.metric = metric := by
  unfold sampleOf at h
  split at h
  · simp at h
  · split at h <;> (simp only [Option.some.injEq] at h; subst h; rfl)

theorem collectLoop_samples (opts : metricOpts) (now : Time) (l : GoMap Nat metricAttr) :
    (collectLoop opts now l).1 =
      l.filterMap (fun p => sampleOf p.1 (p.2.onCollect opts.WarmUpDuration now)) := by
  induction l with
  | nil => rfl
  | cons p t ih =>
    obtain ⟨m, a⟩ := p
    simp only [collectLoop, List.filterMap_cons]
    by_cases h1 : (a.onCollect opts.WarmUpDuration now).state = stateExpired
    · have hs : sampleOf m (a.onCollect opts.WarmUpDuration now) = none := by
        simp [sampleOf, h1]
      simp only [h1, if_true, hs]
      exact ih
    · by_cases h2 : (a.onCollect opts.WarmUpDuration now).state = stateWarmUpOngoing
      · have hs : sampleOf m (a.onCollect opts.WarmUpDuration now) =
            some (Sample.initial m ((a.onCollect opts.WarmUpDuration now).labelValues ++
              [(a.onCollect opts.WarmUpDuration now).tag])) := by
          simp [sampleOf, h2]
        simp [h2, hs, ih]
      · have hs : sampleOf m (a.onCollect opts.WarmUpDuration now) = some (Sample.live m) := by
          simp [sampleOf, h1, h2]
        simp [h1, h2, hs, ih]

theorem collectLoop_expired (opts : metricOpts) (now : Time) (l : GoMap Nat metricAttr) :
    (collectLoop opts now l).2.1 =
      l.filterMap (fun p =>
        if (p.2.onCollect opts.WarmUpDuration now).state = stateExpired then some (some p.1)
        else none) := by
  induction l with
  | nil => rfl
  | cons p t ih =>
    obtain ⟨m, a⟩ := p
    simp only [collectLoop, List.filterMap_cons]
    by_cases h1 : (a.onCollect opts.WarmUpDuration now).state = stateExpired
    · simp [h1, ih]
    · by_cases h2 : (a.onCollect opts.WarmUpDuration now).state = stateWarmUpOngoing
      · simp [h1, h2, ih]
      · simp [h1, h2, ih]

theorem collectLoop_attrs (opts : metricOpts) (now : Time) (l : GoMap Nat metricAttr) :
    (collectLoop opts now l).2.2 =
      l.map (fun p => (p.1, p.2.onCollect opts.WarmUpDuration now)) := by
  induction l with
  | nil => rfl
  | cons p t ih =>
    obtain ⟨m, a⟩ := p
    simp only [collectLoop, List.map_cons]
    by_cases h1 : (a.onCollect opts.WarmUpDuration now).state = stateExpired
    · simp [h1, ih]
    · by_cases h2 : (a.onCollect opts.WarmUpDuration now).state = stateWarmUpOngoing
      · simp [h1, h2, ih]
      · simp [h1, h2, ih]

theorem GoMap.get_map_value {K V : Type} [DecidableEq K] (f : V → V) (l : GoMap K V) (k : K) :
    GoMap.get (l.map (fun p => (p.1, f p.2))) k = (GoMap.get l k).map f := by
  induction l with
  | nil => rfl
  | cons p t ih =>
    obtain ⟨k1, v1⟩ := p
    by_cases h : k1 = k <;> simp [GoMap.get, h, ih]

theorem GoMap.keys_map_value {K V : Type} [DecidableEq K] (f : V → V) (l : GoMap K V) :
    GoMap.keys (l.map (fun p => (p.1, f p.2))) = GoMap.keys l := by
  unfold GoMap.keys
  rw [List.map_map]
  rfl

/-- After a scan every entry of the instance map has gone through `onCollect`. -/
theorem MetricVec.Collect_get (mv : MetricVec) (now : Time) (m : Nat) :
    GoMap.get (mv.Collect now).2.2.metricAttrs m =
      (GoMap.get mv.metricAttrs m).map (fun a => a.onCollect mv.opts.WarmUpDuration now) := by
  simp only [MetricVec.Collect, collectLoop_attrs]
  exact GoMap.get_map_value (fun a : metricAttr => a.onCollect mv.opts.WarmUpDuration now)
    mv.metricAttrs m

theorem MetricVec.Collect_keys (mv : MetricVec) (now : Time) :
    GoMap.keys (mv.Collect now).2.2.metricAttrs = GoMap.keys mv.metricAttrs := by
  simp only [MetricVec.Collect, collectLoop_attrs]
  exact GoMap.keys_map_value (fun a : metricAttr => a.onCollect mv.opts.WarmUpDuration now) _

theorem MetricVec.Collect_opts (mv : MetricVec) (now : Time) :
    (mv.Collect now).2.2.opts = mv.opts := rfl

/-- The samples of a scan are the samples of the entries of the instance map. -/
theorem MetricVec.mem_Collect_samples (mv : MetricVec) (now : Time) (smp : Sample) :
    smp ∈ (mv.Collect now).1 ↔
      ∃ p ∈ mv.metricAttrs,
        sampleOf p.1 (p.2.onCollect mv.opts.WarmUpDuration now) = some smp := by
  simp only [MetricVec.Collect, collectLoop_samples, List.mem_filterMap]

/-- The removal list of a scan holds its nil elements and the entries that the
scan found expired. -/
theorem MetricVec.mem_Collect_expired (mv : MetricVec) (now : Time) (m : Nat) :
    some m ∈ (mv.Collect now).2.1 ↔
      ∃ a, (m, a) ∈ mv.metricAttrs ∧
        (a.onCollect mv.opts.WarmUpDuration now).state = stateExpired := by
  simp only [MetricVec.Collect, collectLoop_expired, List.mem_append, List.mem_replicate,
    List.mem_filterMap]
  constructor
  · rintro (h | ⟨p, hp, h⟩)
    · simp at h
    · split at h
      · simp only [Option.some.injEq] at h
        subst h
        exact ⟨p.2, hp, by assumption⟩
      · simp at h
  · rintro ⟨a, ha, hs⟩
    exact Or.inr ⟨(m, a), ha, by simp [hs]⟩

/-- With distinct keys, the samples a scan sends for the instance `m` are
exactly the sample of its entry. -/
theorem MetricVec.Collect_sample_of_get {mv : MetricVec} {m : Nat} {a : metricAttr}
    (hk : (GoMap.keys mv.metricAttrs).Nodup) (ha : GoMap.get mv.metricAttrs m = some a)
    (now : Time) (smp : Sample) :
    (smp ∈ (mv.Collect now).1 ∧ smp.metric = m) ↔
      sampleOf m (a.onCollect mv.opts.WarmUpDuration now) = some smp := by
  rw [MetricVec.mem_Collect_samples]
  constructor
  · rintro ⟨⟨p, hp, hs⟩, hm⟩
    obtain ⟨m1, a1⟩ := p
    have : m1 = m := (sampleOf_metric hs).symm.trans hm
    subst this
    have := GoMap.get_of_mem hk hp
    rw [ha] at this
    cases this
    exact hs
  · intro hs
    exact ⟨⟨(m, a), GoMap.mem_of_get ha, hs⟩, sampleOf_metric hs⟩

theorem MetricVec.Collect_expired_of_get {mv : MetricVec} {m : Nat} {a : metricAttr}
    (hk : (GoMap.keys mv.metricAttrs).Nodup) (ha : GoMap.get mv.metricAttrs m = some a)
    (now : Time) :
    some m ∈ (mv.Collect now).2.1 ↔
      (a.onCollect mv.opts.WarmUpDuration now).state = stateExpired := by
  rw [MetricVec.mem_Collect_expired]
  constructor
  · rintro ⟨a1, hp, hs⟩
    have := GoMap.get_of_mem hk hp
    rw [ha] at this
    cases this
    exact hs
  · intro hs
    exact ⟨a, GoMap.mem_of_get ha, hs⟩

/-! ## The lifecycle of an entry: laws -/

theorem metricAttr.onCollect_pending {a : metricAttr} (W : Duration) (now : Time)
    (h : a.state = stateWarmUpPending) :
    a.onCollect W now = { a with warmUpDeadLine := now + W, state := stateWarmUpOngoing } := by
  simp [metricAttr.onCollect, h, Time.Add]

theorem metricAttr.onCollect_ongoing {a : metricAttr} (W : Duration) (now : Time)
    (h : a.state = stateWarmUpOngoing) :
    a.onCollect W now =
      if a.warmUpDeadLine < now then { a with state := stateWarmUpComplete } else a := by
  simp [metricAttr.onCollect, h, Time.After]

theorem metricAttr.onCollect_complete {a : metricAttr} (W : Duration) (now : Time)
    (h : a.state = stateWarmUpComplete) :
    a.onCollect W now =
      if a.activeDeadLine ≠ 0 ∧ a.activeDeadLine < now then { a with state := stateExpired }
      else a := by
  simp [metricAttr.onCollect, h, Time.After, Time.IsZero]

theorem metricAttr.onCollect_expired {a : metricAttr} (W : Duration) (now : Time)
    (h : a.state = stateExpired) : a.onCollect W now = a := by
  simp [metricAttr.onCollect, h]

theorem metricAttr.onCollect_activeDeadLine (a : metricAttr) (W : Duration) (now : Time) :
    (a.onCollect W now).activeDeadLine = a.activeDeadLine := by
  unfold metricAttr.onCollect
  split
  · rfl
  · split
    · rfl
    · split <;> rfl

theorem metricAttr.onCollect_tag (a : metricAttr) (W : Duration) (now : Time) :
    (a.onCollect W now).tag = a.tag := by
  unfold metricAttr.onCollect
  split
  · rfl
  · split
    · rfl
    · split <;> rfl

theorem metricAttr.onCollect_labelValues (a : metricAttr) (W : Duration) (now : Time) :
    (a.onCollect W now).labelValues = a.labelValues := by
  unfold metricAttr.onCollect
  split
  · rfl
  · split
    · rfl
    · split <;> rfl

/-- An entry that has completed its warm-up, or has expired, stays so. -/
theorem metricAttr.onCollect_done {a : metricAttr} (W : Duration) (now : Time)
    (h : a.state = stateWarmUpComplete ∨ a.state = stateExpired) :
    (a.onCollect W now).state = stateWarmUpComplete ∨
      (a.onCollect W now).state = stateExpired := by
  rcases h with h | h
  · rw [metricAttr.onCollect_complete W now h]
    split
    · exact Or.inr rfl
    · exact Or.inl h
  · rw [metricAttr.onCollect_expired W now h]
    exact Or.inr h

/-- An entry does not expire at a clock value that is not after its active
deadline. -/
theorem metricAttr.onCollect_not_expired {a : metricAttr} (W : Duration) (now : Time)
    (h : a.state ≠ stateExpired) (ht : now ≤ a.activeDeadLine) :
    (a.onCollect W now).state ≠ stateExpired := by
  cases hs : a.state with
  | stateWarmUpPending => rw [metricAttr.onCollect_pending W now hs]; simp
  | stateWarmUpOngoing =>
    rw [metricAttr.onCollect_ongoing W now hs]
    split
    · simp
    · rw [hs]; simp
  | stateWarmUpComplete =>
    rw [metricAttr.onCollect_complete W now hs]
    have : ¬ (a.activeDeadLine ≠ 0 ∧ a.activeDeadLine < now) :=
      fun c => absurd c.2 (not_lt.mpr ht)
    rw [if_neg this, hs]
    simp
  | stateExpired => exact absurd hs h

/-! ## Operations on the instance map: laws -/

theorem GoMap.keys_set {K V : Type} [DecidableEq K] (m : GoMap K V) (k : K) (v : V) :
    GoMap.keys (GoMap.set m k v) = GoMap.keys m ∨
      (k ∉ GoMap.keys m ∧ GoMap.keys (GoMap.set m k v) = GoMap.keys m ++ [k]) := by
  induction m with
  | nil => exact Or.inr ⟨by simp [GoMap.keys], rfl⟩
  | cons p t ih =>
    obtain ⟨k1, v1⟩ := p
    by_cases h : k1 = k
    · left
      simp [GoMap.set, GoMap.keys, h]
    · rcases ih with ih | ⟨ih1, ih2⟩
      · left
        simp only [GoMap.keys] at ih
        simp [GoMap.set, GoMap.keys, h, ih]
      · right
        simp only [GoMap.keys] at ih1 ih2
        refine ⟨?_, ?_⟩
        · simp only [GoMap.keys, List.map_cons, List.mem_cons, not_or]
          exact ⟨fun c => h c.symm, ih1⟩
        · simp [GoMap.set, GoMap.keys, h, ih2]

theorem GoMap.nodup_keys_set {K V : Type} [DecidableEq K] {m : GoMap K V}
    (hn : (GoMap.keys m).Nodup) (k : K) (v : V) : (GoMap.keys (GoMap.set m k v)).Nodup := by
  rcases GoMap.keys_set m k v with h | ⟨h1, h2⟩
  · rw [h]; exact hn
  · rw [h2]
    exact List.Nodup.append hn (List.nodup_singleton k) (by simpa using h1)

theorem GoMap.nodup_keys_delete {K V : Type} [DecidableEq K] {m : GoMap K V}
    (hn : (GoMap.keys m).Nodup) (k : K) : (GoMap.keys (GoMap.delete m k)).Nodup := by
  unfold GoMap.keys GoMap.delete
  exact hn.sublist ((List.filter_sublist _).map _)

/-- The lookup path, case by case: a hit refreshes the entry found; a miss and
an error leave the index and the instance map as they are. -/
theorem MetricVec.getMetric_cases (mv : MetricVec) (now : Time) (labelValues : List String) :
    (mv.getMetric now labelValues).2.tags = mv.tags ∧
    (mv.getMetric now labelValues).2.opts = mv.opts ∧
    ((∃ m a0, (mv.getMetric now labelValues).1 = (some m, none) ∧
        GoMap.get mv.metricAttrs m = some a0 ∧ a0.state ≠ stateExpired ∧
        (mv.getMetric now labelValues).2.metricAttrs =
          GoMap.set mv.metricAttrs m (a0.onAccess mv.opts.ExpirationDelay now)) ∨
      ((∃ e, (mv.getMetric now labelValues).1 = (none, e)) ∧
        (mv.getMetric now labelValues).2.metricAttrs = mv.metricAttrs)) := by
  unfold MetricVec.getMetric
  cases hg : mv.tags.Get labelValues with
  | mk tag present =>
    cases present with
    | false => exact ⟨rfl, rfl, Or.inr ⟨⟨none, rfl⟩, rfl⟩⟩
    | true =>
      simp only [Bool.true_eq_false, if_false]
      cases hr : mv.metricVec.GetMetricWithLabelValues (labelValues ++ [tag]) with
      | mk r pv =>
        cases r with
        | error e => exact ⟨rfl, rfl, Or.inr ⟨⟨some e, rfl⟩, rfl⟩⟩
        | ok metric =>
          cases ha : GoMap.get mv.metricAttrs metric with
          | none =>
            dsimp only
            rw [ha]
            exact ⟨rfl, rfl, Or.inr ⟨⟨none, rfl⟩, rfl⟩⟩
          | some attr =>
            dsimp only
            rw [ha]
            dsimp only
            by_cases hx : attr.hasExpired = true
            · rw [if_pos hx]
              exact ⟨rfl, rfl, Or.inr ⟨⟨none, rfl⟩, rfl⟩⟩
            · rw [if_neg hx]
              refine ⟨rfl, rfl, Or.inl ⟨metric, attr, rfl, ha, ?_, rfl⟩⟩
              simpa [metricAttr.hasExpired] using hx

/-- The creation path, case by case: a success writes the index and the new
entry; an error leaves the index and the instance map as they are. -/
theorem MetricVec.addMetric_cases (mv : MetricVec) (now : Time) (labelValues : List String) :
    (mv.addMetric now labelValues).2.opts = mv.opts ∧
    ((∃ m, (mv.addMetric now labelValues).1 = (some m, none) ∧
        (mv.addMetric now labelValues).2.tags =
          mv.tags.Add labelValues (generateLifeCycleTag now) ∧
        (mv.addMetric now labelValues).2.metricAttrs =
          GoMap.set mv.metricAttrs m
            (metricAttr.onAccess { tag := generateLifeCycleTag now, labelValues := labelValues }
              mv.opts.ExpirationDelay now)) ∨
      ((∃ e, (mv.addMetric now labelValues).1 = (none, some e)) ∧
        (mv.addMetric now labelValues).2.tags = mv.tags ∧
        (mv.addMetric now labelValues).2.metricAttrs = mv.metricAttrs)) := by
  simp only [MetricVec.addMetric]
  cases hr : mv.metricVec.GetMetricWithLabelValues
      (labelValues ++ [generateLifeCycleTag now]) with
  | mk r pv =>
    cases r with
    | error e => exact ⟨rfl, Or.inr ⟨⟨e, rfl⟩, rfl, rfl⟩⟩
    | ok metric => exact ⟨rfl, Or.inl ⟨metric, rfl, rfl, rfl⟩⟩

/-- The three outcomes of `GetMetricWithLabelValues`: an existing entry is
found and refreshed; a new entry is created; or no metric is obtained and the
call panics, leaving the index and the instance map as they are. -/
theorem MetricVec.GetMetricWithLabelValues_cases (mv : MetricVec) (now : Time)
    (labelValues : List String) :
    (mv.GetMetricWithLabelValues now labelValues).2.opts = mv.opts ∧
    ((∃ m a0, (mv.GetMetricWithLabelValues now labelValues).1 = CallResult.returned m none ∧
        GoMap.get mv.metricAttrs m = some a0 ∧ a0.state ≠ stateExpired ∧
        (mv.GetMetricWithLabelValues now labelValues).2.tags = mv.tags ∧
        (mv.GetMetricWithLabelValues now labelValues).2.metricAttrs =
          GoMap.set mv.metricAttrs m (a0.onAccess mv.opts.ExpirationDelay now)) ∨
      (∃ m, (mv.GetMetricWithLabelValues now labelValues).1 = CallResult.returned m none ∧
        (mv.GetMetricWithLabelValues now labelValues).2.tags =
          mv.tags.Add labelValues (generateLifeCycleTag now) ∧
        (mv.GetMetricWithLabelValues now labelValues).2.metricAttrs =
          GoMap.set mv.metricAttrs m
            (metricAttr.onAccess { tag := generateLifeCycleTag now, labelValues := labelValues }
              mv.opts.ExpirationDelay now)) ∨
      ((∃ e, (mv.GetMetricWithLabelValues now labelValues).1 = CallResult.panicked e) ∧
        (mv.GetMetricWithLabelValues now labelValues).2.tags = mv.tags ∧
        (mv.GetMetricWithLabelValues now labelValues).2.metricAttrs = mv.metricAttrs)) := by
  have hit : ∀ (mv0 : MetricVec), mv0.tags = mv.tags → mv0.opts = mv.opts →
      mv0.metricAttrs = mv.metricAttrs →
      ∀ x e, ¬ (x = none ∧ e = none) → (mv0.getMetric now labelValues).1 = (x, e) →
      ((mv0.getMetric now labelValues).2.opts = mv.opts ∧
      ((∃ m a0, assertM (mv0.getMetric now labelValues).1 = CallResult.returned m none ∧
        GoMap.get mv.metricAttrs m = some a0 ∧ a0.state ≠ stateExpired ∧
        (mv0.getMetric now labelValues).2.tags = mv.tags ∧
        (mv0.getMetric now labelValues).2.metricAttrs =
          GoMap.set mv.metricAttrs m (a0.onAccess mv.opts.ExpirationDelay now)) ∨
      ((∃ e, assertM (mv0.getMetric now labelValues).1 = CallResult.panicked e) ∧
        (mv0.getMetric now labelValues).2.tags = mv.tags ∧
        (mv0.getMetric now labelValues).2.metricAttrs = mv.metricAttrs))) := by
    intro mv0 ht ho hm x e hne hx
    obtain ⟨h1, h2, h3⟩ := MetricVec.getMetric_cases mv0 now labelValues
    refine ⟨h2.trans ho, ?_⟩
    rcases h3 with ⟨m, a0, h4, h5, h6, h7⟩ | ⟨⟨e1, h4⟩, h5⟩
    · left
      refine ⟨m, a0, by rw [h4]; rfl, hm ▸ h5, h6, h1.trans ht, ?_⟩
      rw [h7, hm, ho]
    · right
      exact ⟨⟨e1, by rw [h4]; rfl⟩, h1.trans ht, h5.trans hm⟩
  unfold MetricVec.GetMetricWithLabelValues
  split
  · rename_i mv1 h1
    have g1 := MetricVec.getMetric_cases mv now labelValues
    rw [h1] at g1
    obtain ⟨g1t, g1o, g1c⟩ := g1
    have g1a : mv1.metricAttrs = mv.metricAttrs := by
      rcases g1c with ⟨m, a0, h4, _⟩ | ⟨_, h5⟩
      · simp at h4
      · exact h5
    split
    · rename_i mv2 h2
      have g2 := MetricVec.getMetric_cases mv1 now labelValues
      rw [h2] at g2
      obtain ⟨g2t, g2o, g2c⟩ := g2
      have g2a : mv2.metricAttrs = mv1.metricAttrs := by
        rcases g2c with ⟨m, a0, h4, _⟩ | ⟨_, h5⟩
        · simp at h4
        · exact h5
      obtain ⟨c1, c2⟩ := MetricVec.addMetric_cases mv2 now labelValues
      refine ⟨c1.trans (g2o.trans g1o), ?_⟩
      rcases c2 with ⟨m, h4, h5, h6⟩ | ⟨⟨e, h4⟩, h5, h6⟩
      · right; left
        refine ⟨m, by simp only [h4]; rfl, ?_, ?_⟩
        · rw [h5, g2t, g1t]
        · rw [h6, g2a, g1a, g2o, g1o]
      · right; right
        exact ⟨⟨some e, by simp only [h4]; rfl⟩, h5.trans (g2t.trans g1t),
          h6.trans (g2a.trans g1a)⟩
    · rename_i r mv2 hne h2
      obtain ⟨x, e⟩ := r
      have hh := hit mv1 g1t g1o g1a x e
        (by rintro ⟨rfl, rfl⟩; exact hne rfl) (by rw [h2])
      rw [h2] at hh
      rcases hh with ⟨hh1, hh2 | hh2⟩
      · exact ⟨hh1, Or.inl hh2⟩
      · exact ⟨hh1, Or.inr (Or.inr hh2)⟩
  · rename_i r mv1 hne h1
    obtain ⟨x, e⟩ := r
    have hh := hit mv rfl rfl rfl x e
      (by rintro ⟨rfl, rfl⟩; exact hne rfl) (by rw [h1])
    rw [h1] at hh
    rcases hh with ⟨hh1, hh2 | hh2⟩
    · exact ⟨hh1, Or.inl hh2⟩
    · exact ⟨hh1, Or.inr (Or.inr hh2)⟩

/-! ## The sweep and runs of operations: laws -/

theorem MetricVec.deleteMetricByInstance_attrs (mv : MetricVec) (x : Option Nat) :
    (mv.deleteMetricByInstance x).2.opts = mv.opts ∧
    ((mv.deleteMetricByInstance x).2.metricAttrs = mv.metricAttrs ∨
      ∃ m0, x = some m0 ∧
        (mv.deleteMetricByInstance x).2.metricAttrs = GoMap.delete mv.metricAttrs m0) := by
  unfold MetricVec.deleteMetricByInstance
  cases x with
  | none => exact ⟨rfl, Or.inl rfl⟩
  | some m0 =>
    dsimp only
    cases ha : GoMap.get mv.metricAttrs m0 with
    | none => exact ⟨rfl, Or.inl rfl⟩
    | some attr =>
      dsimp only
      split <;> exact ⟨rfl, Or.inr ⟨m0, rfl, rfl⟩⟩

theorem MetricVec.sweep_opts (mv : MetricVec) (l : List (Option Nat)) :
    (mv.sweep l).opts = mv.opts := by
  induction l generalizing mv with
  | nil => rfl
  | cons x t ih =>
    simp only [MetricVec.sweep]
    rw [ih, (MetricVec.deleteMetricByInstance_attrs mv x).1]

theorem MetricVec.sweep_nodup {mv : MetricVec} (hk : (GoMap.keys mv.metricAttrs).Nodup)
    (l : List (Option Nat)) : (GoMap.keys (mv.sweep l).metricAttrs).Nodup := by
  induction l generalizing mv with
  | nil => exact hk
  | cons x t ih =>
    simp only [MetricVec.sweep]
    apply ih
    rcases (MetricVec.deleteMetricByInstance_attrs mv x).2 with h | ⟨m0, _, h⟩
    · rw [h]; exact hk
    · rw [h]; exact GoMap.nodup_keys_delete hk m0

/-- A sweep leaves alone the entries of the instances that are not on its list. -/
theorem MetricVec.sweep_get_of_not_mem (mv : MetricVec) {l : List (Option Nat)} {k : Nat}
    (h : some k ∉ l) : GoMap.get (mv.sweep l).metricAttrs k = GoMap.get mv.metricAttrs k := by
  induction l generalizing mv with
  | nil => rfl
  | cons x t ih =>
    simp only [List.mem_cons, not_or] at h
    simp only [MetricVec.sweep]
    rw [ih _ h.2]
    rcases (MetricVec.deleteMetricByInstance_attrs mv x).2 with h1 | ⟨m0, hx, h1⟩
    · rw [h1]
    · rw [h1]
      apply GoMap.get_delete_ne
      intro c
      exact h.1 (by rw [hx, c])

/-- A sweep only removes entries. -/
theorem MetricVec.sweep_get_cases (mv : MetricVec) (l : List (Option Nat)) (k : Nat) :
    GoMap.get (mv.sweep l).metricAttrs k = GoMap.get mv.metricAttrs k ∨
      GoMap.get (mv.sweep l).metricAttrs k = none := by
  induction l generalizing mv with
  | nil => exact Or.inl rfl
  | cons x t ih =>
    simp only [MetricVec.sweep]
    rcases ih (mv.deleteMetricByInstance x).2 with h | h
    · rw [h]
      rcases (MetricVec.deleteMetricByInstance_attrs mv x).2 with h1 | ⟨m0, hx, h1⟩
      · rw [h1]; exact Or.inl rfl
      · rw [h1]
        by_cases hk : k = m0
        · subst hk
          exact Or.inr (GoMap.get_delete_same _ _)
        · exact Or.inl (GoMap.get_delete_ne _ hk)
    · exact Or.inr h

/-- A property of the system that every permitted operation preserves holds
after every run of permitted operations. -/
theorem System.run_induction (P : System → Prop) (ok : Op → Prop)
    (h : ∀ s op, ok op → P s → P (s.step op).2) :
    ∀ (ops : List Op) (s : System), (∀ op ∈ ops, ok op) → P s → P (s.run ops)
  | [], _, _, hs => hs
  | op :: ops, s, hops, hs =>
    System.run_induction P ok h ops (s.step op).2
      (fun o ho => hops o (List.mem_cons_of_mem _ ho))
      (h s op (hops op (List.mem_cons_self _ _)) hs)

theorem System.step_collect (s : System) (now : Time) :
    (s.step (Op.collect now)).2 =
      { vec := (s.vec.Collect now).2.2, pending := s.pending ++ [(s.vec.Collect now).2.1] } :=
  rfl

theorem System.step_sweep (s : System) (k : Nat) :
    (s.step (Op.sweep k)).2 = s ∨
      ∃ l ∈ s.pending, (s.step (Op.sweep k)).2 =
        { vec := s.vec.sweep l, pending := s.pending.eraseIdx k } := by
  simp only [System.step]
  cases h : s.pending.get? k with
  | none => exact Or.inl rfl
  | some l => exact Or.inr ⟨l, List.get?_mem h, rfl⟩

/-- A property of the entry of an instance that `onCollect` preserves is
preserved, together with the distinctness of the keys, by every run of
collection scans and sweeps. -/
theorem System.entry_invariant (m : Nat) (Q : metricAttr → Prop)
    (hQ : ∀ a W now, Q a → Q (metricAttr.onCollect a W now)) (ops : List Op) (s : System)
    (hops : ∀ op ∈ ops, op.isCollection = true)
    (hs : (GoMap.keys s.vec.metricAttrs).Nodup ∧
      ∀ a, GoMap.get s.vec.metricAttrs m = some a → Q a) :
    (GoMap.keys (s.run ops).vec.metricAttrs).Nodup ∧
      ∀ a, GoMap.get (s.run ops).vec.metricAttrs m = some a → Q a := by
  refine System.run_induction
    (fun s => (GoMap.keys s.vec.metricAttrs).Nodup ∧
      ∀ a, GoMap.get s.vec.metricAttrs m = some a → Q a)
    (fun op => op.isCollection = true) ?_ ops s hops hs
  intro s op hop ⟨h1, h2⟩
  cases op with
  | get now labelValues => simp [Op.isCollection] at hop
  | delete labelValues => simp [Op.isCollection] at hop
  | reset => simp [Op.isCollection] at hop
  | collect now =>
    rw [System.step_collect]
    refine ⟨by rw [MetricVec.Collect_keys]; exact h1, ?_⟩
    intro a ha
    rw [MetricVec.Collect_get] at ha
    cases hg : GoMap.get s.vec.metricAttrs m with
    | none => simp [hg] at ha
    | some a0 =>
      simp only [hg, Option.map_some', Option.some.injEq] at ha
      subst ha
      exact hQ _ _ _ (h2 a0 hg)
  | sweep k =>
    rcases System.step_sweep s k with h | ⟨l, _, h⟩
    · rw [h]; exact ⟨h1, h2⟩
    · rw [h]
      refine ⟨MetricVec.sweep_nodup h1 l, ?_⟩
      intro a ha
      rcases MetricVec.sweep_get_cases s.vec l m with h3 | h3
      · exact h2 a (by rw [← h3]; exact ha)
      · simp only at ha
        rw [h3] at ha
        cases ha

/-- After a successful `GetMetricWithLabelValues` at clock value `now` the
instance map has distinct keys if it had before, and holds for the returned
instance a non-expired entry whose active deadline is `now` plus the expiration
delay when that delay is positive. -/
theorem MetricVec.GetMetricWithLabelValues_entry {mv mv1 : MetricVec} {now : Time}
    {labelValues : List String} {m : Nat} {err : Option String}
    (hk : (GoMap.keys mv.metricAttrs).Nodup)
    (h : mv.GetMetricWithLabelValues now labelValues = (CallResult.returned m err, mv1)) :
    mv1.opts = mv.opts ∧ (GoMap.keys mv1.metricAttrs).Nodup ∧
      ∃ a1, GoMap.get mv1.metricAttrs m = some a1 ∧ a1.state ≠ stateExpired ∧
        (0 < mv.opts.ExpirationDelay → a1.activeDeadLine = now + mv.opts.ExpirationDelay) := by
  have hd : ∀ a0 : metricAttr, 0 < mv.opts.ExpirationDelay →
      (a0.onAccess mv.opts.ExpirationDelay now).activeDeadLine
        = now + mv.opts.ExpirationDelay := by
    intro a0 hD
    simp [metricAttr.onAccess, hD, Time.Add]
  obtain ⟨c1, c2⟩ := MetricVec.GetMetricWithLabelValues_cases mv now labelValues
  rw [h] at c1 c2
  refine ⟨c1, ?_⟩
  rcases c2 with ⟨m1, a0, h1, h2, h3, _, h5⟩ | ⟨m1, h1, _, h5⟩ | ⟨⟨e, h1⟩, _⟩
  · simp only [CallResult.returned.injEq] at h1
    obtain ⟨rfl, _⟩ := h1
    simp only at h5
    rw [h5]
    refine ⟨GoMap.nodup_keys_set hk _ _, _, GoMap.get_set_same _ _ _, ?_, hd a0⟩
    rw [metricAttr.onAccess_state]
    exact h3
  · simp only [CallResult.returned.injEq] at h1
    obtain ⟨rfl, _⟩ := h1
    simp only at h5
    rw [h5]
    refine ⟨GoMap.nodup_keys_set hk _ _, _, GoMap.get_set_same _ _ _, ?_, hd _⟩
    rw [metricAttr.onAccess_state]
    simp
  · simp at h1

/-- A scan sends no sample for an instance whose entries are all expired or
absent. -/
theorem MetricVec.Collect_no_sample {mv : MetricVec} {m : Nat}
    (hk : (GoMap.keys mv.metricAttrs).Nodup)
    (h : ∀ a, GoMap.get mv.metricAttrs m = some a → a.state = stateExpired) (now : Time) :
    ∀ smp ∈ (mv.Collect now).1, smp.metric ≠ m := by
  intro smp hs hm
  rw [MetricVec.mem_Collect_samples] at hs
  obtain ⟨⟨m1, a1⟩, hp, hsm⟩ := hs
  have : m1 = m := (sampleOf_metric hsm).symm.trans hm
  subst this
  have hg := GoMap.get_of_mem hk hp
  have he := h a1 hg
  simp only at hsm
  rw [metricAttr.onCollect_expired _ _ he] at hsm
  simp [sampleOf, he] at hsm

/-! ## Claims -/

/-- C2: for every vector (hence every warm-up duration), every clock value and
every instance `m` of its instance map.  First, when the entry of `m` is in
state `stateWarmUpPending`, the scan sends for the instance exactly one sample,
the initial (neutral) metric built from the label values followed by the tag;
the instance is not put on the removal list; and the entry is in state
`stateWarmUpOngoing` afterwards, its warm-up deadline being the clock value
plus the warm-up duration.  Second, a newly created entry is in that state:
when the vector results from a `GetMetricWithLabelValues` that returned `m`
and the instance map held no entry for `m` before, or an expired one, the
entry of `m` is in state `stateWarmUpPending` and carries the label values and
the tag generated at the call.  The scan does not read the value recorded in
the live instance. -/
theorem C2_first_collect_emits_initial (mv : MetricVec) (now : Time) (m : Nat)
    (hk : (GoMap.keys mv.metricAttrs).Nodup) :
    (∀ a, GoMap.get mv.metricAttrs m = some a → a.state = stateWarmUpPending →
      (∀ smp, (smp ∈ (mv.Collect now).1 ∧ smp.metric = m) ↔
        smp = Sample.initial m (a.labelValues ++ [a.tag])) ∧
      some m ∉ (mv.Collect now).2.1 ∧
      GoMap.get (mv.Collect now).2.2.metricAttrs m =
        some { a with warmUpDeadLine := now + mv.opts.WarmUpDuration,
                      state := stateWarmUpOngoing }) ∧
    (∀ (mv0 : MetricVec) (c : Time) (labelValues : List String) (err : Option String),
      mv0.GetMetricWithLabelValues c labelValues = (CallResult.returned m err, mv) →
      (∀ a0, GoMap.get mv0.metricAttrs m = some a0 → a0.state = stateExpired) →
      ∃ a, GoMap.get mv.metricAttrs m = some a ∧ a.state = stateWarmUpPending ∧
        a.labelValues = labelValues ∧ a.tag = generateLifeCycleTag c) := by
  refine ⟨?_, ?_⟩
  · intro a ha hs
    have hc := metricAttr.onCollect_pending mv.opts.WarmUpDuration now hs
    refine ⟨?_, ?_, ?_⟩
    · intro smp
      rw [MetricVec.Collect_sample_of_get hk ha, hc]
      simp [sampleOf, eq_comm]
    · rw [MetricVec.Collect_expired_of_get hk ha, hc]
      simp
    · rw [MetricVec.Collect_get, ha, Option.map_some', hc]
  · intro mv0 c labelValues err hg hnew
    obtain ⟨_, c2⟩ := MetricVec.GetMetricWithLabelValues_cases mv0 c labelValues
    rw [hg] at c2
    rcases c2 with ⟨m1, a0, h1, h2, h3, _⟩ | ⟨m1, h1, _, h5⟩ | ⟨⟨e, h1⟩, _⟩
    · simp only [CallResult.returned.injEq] at h1
      obtain ⟨rfl, _⟩ := h1
      exact absurd (hnew a0 h2) h3
    · simp only [CallResult.returned.injEq] at h1
      obtain ⟨rfl, _⟩ := h1
      simp only at h5
      refine ⟨_, by rw [h5]; exact GoMap.get_set_same _ _ _, ?_, ?_, ?_⟩
      · rw [metricAttr.onAccess_state]
      · rw [metricAttr.onAccess_labelValues]
      · rw [metricAttr.onAccess_tag]
    · simp at h1

/-- Witness of C2: the first collection of `exampleVec`, one second after the
creation of its entry. -/
theorem C2_first_collect_emits_initial_witness :
    (GoMap.keys exampleVec.metricAttrs).Nodup ∧
    GoMap.get exampleVec.metricAttrs 0 = some exampleAttr ∧
    exampleAttr.state = stateWarmUpPending ∧
    (Sample.initial 0 ["toto", "48ab9774"] ∈ (exampleVec.Collect (defaultTime + 1000000000)).1 ∧
      (Sample.initial 0 ["toto", "48ab9774"]).metric = 0) :=
  ⟨by decide, by decide, rfl,
    (((C2_first_collect_emits_initial exampleVec (defaultTime + 1000000000) 0
      (by decide)).1 exampleAttr (by decide) rfl).1
        (Sample.initial 0 ["toto", "48ab9774"])).mpr rfl⟩

/-- C4, counterexample: the expiration delay of `exampleVec` is ten seconds and
its entry was last requested at `defaultTime`; the collection scan eleven
seconds later is the first one of the entry, and it sends a sample for the
entry instead of omitting it. -/
theorem C4_counterexample :
    0 < exampleVec.opts.ExpirationDelay ∧
    defaultTime + exampleVec.opts.ExpirationDelay < defaultTime + 11000000000 ∧
    (exampleVec.Collect (defaultTime + 11000000000)).1
      = [Sample.initial 0 ["toto", "48ab9774"]] := by
  decide

/-- C4, amended: in a vector with a positive expiration delay, let an entry be
requested by `GetMetricWithLabelValues` at clock value `a`, let collection
scans and sweeps follow, and let the entry then be in state
`stateWarmUpComplete`.  If `a` plus the delay is not the zero time instant,
every scan at a clock value strictly after `a` plus the delay sends no sample
for the instance and puts it on the removal list, and after any further
collection scans and sweeps no scan sends a sample for the instance. -/
theorem C4_complete_entry_expires (s : System) (a : Time) (labelValues : List String)
    (m : Nat) (err : Option String) (mv1 : MetricVec)
    (hD : 0 < s.vec.opts.ExpirationDelay)
    (hk : (GoMap.keys s.vec.metricAttrs).Nodup)
    (hg : s.vec.GetMetricWithLabelValues a labelValues = (CallResult.returned m err, mv1))
    (ops1 : List Op) (h1 : ∀ op ∈ ops1, op.isCollection = true) (a1 : metricAttr)
    (ha1 : GoMap.get (System.run { vec := mv1, pending := s.pending } ops1).vec.metricAttrs m
      = some a1)
    (hs : a1.state = stateWarmUpComplete)
    (hz : a + s.vec.opts.ExpirationDelay ≠ 0)
    (t : Time) (ht : a + s.vec.opts.ExpirationDelay < t) :
    (∀ smp ∈ ((System.run { vec := mv1, pending := s.pending } ops1).vec.Collect t).1,
      smp.metric ≠ m) ∧
    some m ∈ ((System.run { vec := mv1, pending := s.pending } ops1).vec.Collect t).2.1 ∧
    ∀ (ops2 : List Op), (∀ op ∈ ops2, op.isCollection = true) → ∀ (t2 : Time),
      ∀ smp ∈ ((System.run
          ((System.run { vec := mv1, pending := s.pending } ops1).step (Op.collect t)).2
          ops2).vec.Collect t2).1,
        smp.metric ≠ m := by
  obtain ⟨e1, e2, a0, e3, _, e5⟩ := MetricVec.GetMetricWithLabelValues_entry hk hg
  have h0 : (GoMap.keys mv1.metricAttrs).Nodup ∧
      ∀ a2, GoMap.get mv1.metricAttrs m = some a2 →
        a2.activeDeadLine = a + s.vec.opts.ExpirationDelay := by
    refine ⟨e2, ?_⟩
    intro a2 h2
    rw [e3] at h2
    cases h2
    exact e5 hD
  obtain ⟨i1, i2⟩ := System.entry_invariant m
    (fun a2 => a2.activeDeadLine = a + s.vec.opts.ExpirationDelay)
    (fun a2 W t1 h => (metricAttr.onCollect_activeDeadLine a2 W t1).trans h) ops1
    { vec := mv1, pending := s.pending } h1 h0
  generalize System.run { vec := mv1, pending := s.pending } ops1 = s1 at ha1 i1 i2 ⊢
  have hdl := i2 a1 ha1
  have hc : a1.onCollect s1.vec.opts.WarmUpDuration t = { a1 with state := stateExpired } := by
    rw [metricAttr.onCollect_complete _ _ hs, if_pos]
    rw [hdl]
    exact ⟨hz, ht⟩
  have hafter : (GoMap.keys (s1.step (Op.collect t)).2.vec.metricAttrs).Nodup ∧
      ∀ a2, GoMap.get (s1.step (Op.collect t)).2.vec.metricAttrs m = some a2 →
        a2.state = stateExpired := by
    rw [System.step_collect]
    refine ⟨by rw [MetricVec.Collect_keys]; exact i1, ?_⟩
    intro a2 h2
    simp only at h2
    rw [MetricVec.Collect_get, ha1, Option.map_some', hc] at h2
    cases h2
    rfl
  refine ⟨?_, ?_, ?_⟩
  · intro smp hmem hm
    have := (MetricVec.Collect_sample_of_get i1 ha1 t smp).mp ⟨hmem, hm⟩
    rw [hc] at this
    simp [sampleOf] at this
  · rw [MetricVec.Collect_expired_of_get i1 ha1, hc]
  · intro ops2 h2 t2
    obtain ⟨j1, j2⟩ := System.entry_invariant m (fun a2 => a2.state = stateExpired)
      (fun a2 W t1 h => (congrArg metricAttr.state (metricAttr.onCollect_expired W t1 h)).trans h)
      ops2
      (s1.step (Op.collect t)).2 h2 hafter
    exact MetricVec.Collect_no_sample j1 j2 t2

/-- Witness of C4 (amended): the entry of the tests is created at
`defaultTime`, collected one and four seconds later, which completes its
warm-up, and collected again eleven seconds after its creation. -/
theorem C4_complete_entry_expires_witness :
    (0 : Int) < exampleOpts.ExpirationDelay ∧
    some 0 ∈ ((System.run { vec := exampleVec, pending := [] }
        [Op.collect (defaultTime + 1000000000),
         Op.collect (defaultTime + 4000000000)]).vec.Collect
          (defaultTime + 11000000000)).2.1 :=
  ⟨by decide,
    (C4_complete_entry_expires { vec := newMetricVec exampleOpts ["label"], pending := [] }
      defaultTime ["toto"] 0 none exampleVec (by decide) (by decide)
      (Prod.ext (by decide) rfl)
      [Op.collect (defaultTime + 1000000000), Op.collect (defaultTime + 4000000000)]
      (by decide)
      { exampleAttr with warmUpDeadLine := defaultTime + 3000000000,
                         state := stateWarmUpComplete }
      (by decide) rfl (by decide) (defaultTime + 11000000000) (by decide)).2.1⟩

/-- C5, counterexample: the expiration delay is 500 milliseconds.  In
`staleSystem` the third scan has found the entry of `toto` expired and the
sweep of that scan, which lists the instance 0, has not run yet.  `toto` is
requested 700 milliseconds after `defaultTime`: the call returns the instance
0 again and its entry is new, not expired, with the active deadline 1200
milliseconds after `defaultTime`.  The pending sweep then runs and removes the
entry, and the scan 800 milliseconds after `defaultTime`, the only scan since
the request and not after the deadline, sends no sample. -/
theorem C5_counterexample :
    0 < staleSystem.vec.opts.ExpirationDelay ∧
    (GoMap.keys staleSystem.vec.metricAttrs).Nodup ∧
    (∃ l ∈ staleSystem.pending, some 0 ∈ l) ∧
    (staleSystem.vec.GetMetricWithLabelValues (defaultTime + 700000000) ["toto"]).1
      = CallResult.returned 0 none ∧
    (GoMap.get (staleSystem.vec.GetMetricWithLabelValues (defaultTime + 700000000)
        ["toto"]).2.metricAttrs 0).map (fun a => (a.state, a.activeDeadLine))
      = some (stateWarmUpPending, defaultTime + 1200000000) ∧
    defaultTime + 800000000 ≤ defaultTime + 700000000 + staleSystem.vec.opts.ExpirationDelay ∧
    ((System.run
        { vec := (staleSystem.vec.GetMetricWithLabelValues (defaultTime + 700000000)
            ["toto"]).2,
          pending := staleSystem.pending } [Op.sweep 2]).vec.Collect
        (defaultTime + 800000000)).1 = [] ∧
    GoMap.get (System.run
        { vec := (staleSystem.vec.GetMetricWithLabelValues (defaultTime + 700000000)
            ["toto"]).2,
          pending := staleSystem.pending } [Op.sweep 2]).vec.metricAttrs 0 = none := by
  decide

/-- C5, amended: in a vector with a positive expiration delay, let an entry be
requested by `GetMetricWithLabelValues` at clock value `a`, no sweep of an
earlier scan that is still pending having the returned instance on its list.
After any collection scans and sweeps whose scans all happen at clock values
not after `a` plus the delay, a scan at a clock value not after `a` plus the
delay sends a sample for the instance, does not put it on the removal list,
and leaves its entry in the instance map in a state other than
`stateExpired`. -/
theorem C5_no_premature_expiration (s : System) (a : Time) (labelValues : List String)
    (m : Nat) (err : Option String) (mv1 : MetricVec)
    (hD : 0 < s.vec.opts.ExpirationDelay)
    (hk : (GoMap.keys s.vec.metricAttrs).Nodup)
    (hp : ∀ l ∈ s.pending, some m ∉ l)
    (hg : s.vec.GetMetricWithLabelValues a labelValues = (CallResult.returned m err, mv1))
    (ops : List Op)
    (hops : ∀ op ∈ ops, op.isCollection = true ∧
      op.notAfter (a + s.vec.opts.ExpirationDelay) = true)
    (t : Time) (ht : t ≤ a + s.vec.opts.ExpirationDelay) :
    (∃ smp ∈ ((System.run { vec := mv1, pending := s.pending } ops).vec.Collect t).1,
      smp.metric = m) ∧
    some m ∉ ((System.run { vec := mv1, pending := s.pending } ops).vec.Collect t).2.1 ∧
    ∃ a2, GoMap.get ((System.run { vec := mv1, pending := s.pending } ops).vec.Collect
        t).2.2.metricAttrs m = some a2 ∧ a2.state ≠ stateExpired := by
  obtain ⟨e1, e2, a0, e3, e4, e5⟩ := MetricVec.GetMetricWithLabelValues_entry hk hg
  have inv := System.run_induction
    (fun s1 => (GoMap.keys s1.vec.metricAttrs).Nodup ∧ (∀ l ∈ s1.pending, some m ∉ l) ∧
      ∃ a1, GoMap.get s1.vec.metricAttrs m = some a1 ∧ a1.state ≠ stateExpired ∧
        a1.activeDeadLine = a + s.vec.opts.ExpirationDelay)
    (fun op => op.isCollection = true ∧ op.notAfter (a + s.vec.opts.ExpirationDelay) = true)
    (by
      intro s1 op hop hinv
      obtain ⟨k1, k2, a1, k3, k4, k5⟩ := hinv
      cases op with
      | get now lv => simp [Op.isCollection] at hop
      | delete lv => simp [Op.isCollection] at hop
      | reset => simp [Op.isCollection] at hop
      | collect now =>
        have hnow : now ≤ a1.activeDeadLine := by
          rw [k5]
          simpa [Op.notAfter] using hop.2
        have hne := metricAttr.onCollect_not_expired s1.vec.opts.WarmUpDuration now k4 hnow
        rw [System.step_collect]
        refine ⟨by rw [MetricVec.Collect_keys]; exact k1, ?_, ?_⟩
        · intro l hl
          rcases List.mem_append.mp hl with hl | hl
          · exact k2 l hl
          · simp only [List.mem_singleton] at hl
            subst hl
            rw [MetricVec.Collect_expired_of_get k1 k3]
            exact hne
        · refine ⟨_, by rw [MetricVec.Collect_get, k3]; rfl, hne, ?_⟩
          rw [metricAttr.onCollect_activeDeadLine]
          exact k5
      | sweep k =>
        rcases System.step_sweep s1 k with h | ⟨l, hl, h⟩
        · rw [h]; exact ⟨k1, k2, a1, k3, k4, k5⟩
        · rw [h]
          refine ⟨MetricVec.sweep_nodup k1 l, ?_, a1, ?_, k4, k5⟩
          · intro l2 hl2
            exact k2 l2 (List.mem_of_mem_eraseIdx hl2)
          · simp only
            rw [MetricVec.sweep_get_of_not_mem _ (k2 l hl)]
            exact k3)
    ops { vec := mv1, pending := s.pending } hops
    ⟨e2, hp, a0, e3, e4, e5 hD⟩
  generalize System.run { vec := mv1, pending := s.pending } ops = s1 at inv ⊢
  obtain ⟨k1, _, a1, k3, k4, k5⟩ := inv
  have hnow : t ≤ a1.activeDeadLine := by rw [k5]; exact ht
  have hne := metricAttr.onCollect_not_expired s1.vec.opts.WarmUpDuration t k4 hnow
  refine ⟨?_, ?_, _, by rw [MetricVec.Collect_get, k3]; rfl, hne⟩
  · cases hso : sampleOf m (a1.onCollect s1.vec.opts.WarmUpDuration t) with
    | none =>
      exfalso
      simp only [sampleOf] at hso
      split at hso
      · exact hne (by assumption)
      · split at hso <;> simp at hso
    | some smp =>
      exact ⟨smp, ((MetricVec.Collect_sample_of_get k1 k3 t smp).mpr hso).1,
        sampleOf_metric hso⟩
  · rw [MetricVec.Collect_expired_of_get k1 k3]
    exact hne

/-- Witness of C5: the entry of the tests is created at `defaultTime` with an
expiration delay of ten seconds and collected one, four and ten seconds later. -/
theorem C5_no_premature_expiration_witness :
    (0 : Int) < exampleOpts.ExpirationDelay ∧
    some 0 ∉ ((System.run { vec := exampleVec, pending := [] }
        [Op.collect (defaultTime + 1000000000),
         Op.collect (defaultTime + 4000000000)]).vec.Collect
          (defaultTime + 10000000000)).2.1 :=
  ⟨by decide,
    (C5_no_premature_expiration { vec := newMetricVec exampleOpts ["label"], pending := [] }
      defaultTime ["toto"] 0 none exampleVec (by decide) (by decide) (by decide)
      (Prod.ext (by decide) rfl)
      [Op.collect (defaultTime + 1000000000), Op.collect (defaultTime + 4000000000)]
      (by decide) (defaultTime + 10000000000) (by decide)).2.1⟩

theorem MetricVec.deleteMetric_absent {mv : MetricVec} {labelValues : List String}
    (h : (mv.tags.Get labelValues).2 = false) : mv.deleteMetric labelValues = (false, mv) := by
  unfold MetricVec.deleteMetric
  cases hg : mv.tags.Get labelValues with
  | mk tag present =>
    rw [hg] at h
    simp only at h
    subst h
    rfl

theorem MetricVec.deleteMetric_present {mv : MetricVec} {labelValues : List String}
    (h : (mv.tags.Get labelValues).2 = true) :
    mv.deleteMetric labelValues =
      (true,
        { mv with
          tags := mv.tags.Delete labelValues,
          metricAttrs :=
            match (mv.metricVec.GetMetricWithLabelValues
              (labelValues ++ [(mv.tags.Get labelValues).1])).1 with
            | Except.ok metric => GoMap.delete mv.metricAttrs metric
            | Except.error _ => mv.metricAttrs,
          metricVec :=
            ((mv.metricVec.GetMetricWithLabelValues
                (labelValues ++ [(mv.tags.Get labelValues).1])).2.DeleteLabelValues
              (labelValues ++ [(mv.tags.Get labelValues).1])).2 }) := by
  unfold MetricVec.deleteMetric
  cases hg : mv.tags.Get labelValues with
  | mk tag present =>
    rw [hg] at h
    simp only at h
    subst h
    rfl

/-- C7: for every vector state, after `Reset` the index and the instance map
are empty, a collection scan sends no sample and leaves the removal list at
its sixteen nil elements, and `DeleteLabelValues` of any label values returns
false. -/
theorem C7_reset_empties (mv : MetricVec) (now : Time) (labelValues : List String) :
    mv.Reset.tags.index = [] ∧ mv.Reset.metricAttrs = [] ∧
    (mv.Reset.Collect now).1 = [] ∧
    (mv.Reset.Collect now).2.1 = List.replicate 16 none ∧
    (mv.Reset.DeleteLabelValues labelValues).1 = false := by
  refine ⟨rfl, rfl, rfl, rfl, ?_⟩
  have : (mv.Reset.tags.Get labelValues).2 = false := by
    simp [MetricVec.Reset, newTagMap, tagMap.Get, tagMap.findElem, tagMap.bucket, GoMap.get,
      findIdx]
  simp [MetricVec.DeleteLabelValues, MetricVec.deleteMetric_absent this]

/-- C8: for every vector state with a well-formed index and every label
values: `DeleteLabelValues` returns true exactly when the index holds an entry
for the label values; afterwards the index holds no entry for them and a
second `DeleteLabelValues` returns false; when the registry has (or creates)
an instance for the label values and their tag, the registry holds no instance
for them afterwards and that instance has no entry in the instance map; what
the index holds for any other label values and what the instance map holds for
any other instance is unchanged. -/
theorem C8_delete_label_values (mv : MetricVec) (labelValues : List String)
    (hw : mv.tags.WF) :
    ((mv.DeleteLabelValues labelValues).1 = true ↔ (mv.tags.Get labelValues).2 = true) ∧
    ((mv.DeleteLabelValues labelValues).2.tags.Get labelValues).2 = false ∧
    ((mv.DeleteLabelValues labelValues).2.DeleteLabelValues labelValues).1 = false ∧
    (∀ other, other ≠ labelValues →
      (mv.DeleteLabelValues labelValues).2.tags.Get other = mv.tags.Get other) ∧
    ((mv.tags.Get labelValues).2 = true →
      (∀ m pv, mv.metricVec.GetMetricWithLabelValues
          (labelValues ++ [(mv.tags.Get labelValues).1]) = (Except.ok m, pv) →
        GoMap.get (mv.DeleteLabelValues labelValues).2.metricVec.children
          (labelValues ++ [(mv.tags.Get labelValues).1]) = none ∧
        GoMap.get (mv.DeleteLabelValues labelValues).2.metricAttrs m = none ∧
        ∀ m2, m2 ≠ m →
          GoMap.get (mv.DeleteLabelValues labelValues).2.metricAttrs m2
            = GoMap.get mv.metricAttrs m2) ∧
      (∀ e pv, mv.metricVec.GetMetricWithLabelValues
          (labelValues ++ [(mv.tags.Get labelValues).1]) = (Except.error e, pv) →
        (mv.DeleteLabelValues labelValues).2.metricAttrs = mv.metricAttrs)) := by
  unfold MetricVec.DeleteLabelValues
  cases hp : (mv.tags.Get labelValues).2 with
  | false =>
    rw [MetricVec.deleteMetric_absent hp]
    simp only [MetricVec.deleteMetric_absent hp, hp]
    simp
  | true =>
    rw [MetricVec.deleteMetric_present hp]
    have hgone : ((mv.tags.Delete labelValues).Get labelValues).2 = false := by
      rw [tagMap.Get_Delete_same hw]
    refine ⟨by simp, hgone, ?_, ?_, ?_⟩
    · rw [MetricVec.deleteMetric_absent hgone]
    · intro other hne
      exact tagMap.Get_Delete_ne hw hne
    · intro _
      refine ⟨?_, ?_⟩
      · intro m pv hr
        obtain ⟨hl1, hl2, _⟩ := PromVec.get_ok hr
        simp only [hr]
        refine ⟨?_, GoMap.get_delete_same _ _, fun m2 hne => GoMap.get_delete_ne _ hne⟩
        simp only [PromVec.DeleteLabelValues]
        rw [if_neg (by rw [hl2]; exact not_not.mpr hl1)]
        exact GoMap.get_delete_same _ _
      · intro e pv hr
        simp only [hr]

/-- Witness of C8: `toto` is deleted from a vector that holds `toto` and `titi`. -/
theorem C8_delete_label_values_witness :
    exampleVec2.tags.WF ∧
    (exampleVec2.DeleteLabelValues ["toto"]).1 = true ∧
    ((exampleVec2.DeleteLabelValues ["toto"]).2.DeleteLabelValues ["toto"]).1 = false ∧
    (exampleVec2.DeleteLabelValues ["toto"]).2.tags.Get ["titi"] = ("48ab9774", true) :=
  ⟨by decide,
    (C8_delete_label_values exampleVec2 ["toto"] (by decide)).1.mpr (by decide),
    (C8_delete_label_values exampleVec2 ["toto"] (by decide)).2.2.1,
    ((C8_delete_label_values exampleVec2 ["toto"] (by decide)).2.2.2.1 ["titi"]
      (by decide)).trans (by decide)⟩

theorem singleCollector.collectMany_length (c : singleCollector) (ts : List Time) :
    (c.collectMany ts).1.length = ts.length := by
  induction ts generalizing c with
  | nil => rfl
  | cons t ts ih => simp [singleCollector.collectMany, ih]

theorem singleCollector.Collect_metric (c : singleCollector) (t : Time) :
    (c.Collect t).2.metric = c.metric := by
  simp only [singleCollector.Collect]
  split <;> rfl

theorem singleCollector.Collect_keeps_opts (c : singleCollector) (t : Time) :
    (c.Collect t).2.opts = c.opts := by
  simp only [singleCollector.Collect]
  split <;> rfl

theorem singleCollector.Collect_attr (c : singleCollector) (t : Time) :
    (c.Collect t).2.attr = c.attr.onCollect c.opts.WarmUpDuration t := by
  simp only [singleCollector.Collect]
  split <;> rfl

theorem singleCollector.Collect_sample (c : singleCollector) (t : Time) :
    (c.Collect t).1 =
      if (c.attr.onCollect c.opts.WarmUpDuration t).state = stateWarmUpOngoing then
        Sample.initial c.metric (c.attr.onCollect c.opts.WarmUpDuration t).labelValues
      else Sample.live c.metric := by
  simp only [singleCollector.Collect]
  by_cases h : (c.attr.onCollect c.opts.WarmUpDuration t).state = stateWarmUpOngoing
  · rw [if_pos h, if_pos h]
  · rw [if_neg h, if_neg h]

/-- A single collector whose warm-up is complete and whose active deadline is
unset sends its live instance at every collection and stays as it is. -/
theorem singleCollector.collectMany_complete (c : singleCollector)
    (hs : c.attr.state = stateWarmUpComplete) (hz : c.attr.activeDeadLine = 0)
    (ts : List Time) :
    (∀ i, i < ts.length → (c.collectMany ts).1.get? i = some (Sample.live c.metric)) ∧
      (c.collectMany ts).2.attr.state = stateWarmUpComplete := by
  induction ts generalizing c with
  | nil => exact ⟨fun i hi => absurd hi (by simp), hs⟩
  | cons t ts ih =>
    have hc : c.attr.onCollect c.opts.WarmUpDuration t = c.attr := by
      rw [metricAttr.onCollect_complete _ _ hs, if_neg]
      simp [hz]
    have h1 : (c.Collect t).2.attr = c.attr := by rw [singleCollector.Collect_attr, hc]
    have h2 : (c.Collect t).1 = Sample.live c.metric := by
      rw [singleCollector.Collect_sample, hc, hs]
      simp
    obtain ⟨ih1, ih2⟩ := ih (c.Collect t).2 (by rw [h1]; exact hs) (by rw [h1]; exact hz)
    rw [singleCollector.Collect_metric] at ih1
    refine ⟨?_, ih2⟩
    intro i hi
    cases i with
    | zero => simp [singleCollector.collectMany, h2]
    | succ j =>
      simp only [singleCollector.collectMany, List.get?_cons_succ]
      exact ih1 j (by simpa using hi)

theorem allNotAfter_cons (d t : Time) (l : List Time) :
    allNotAfter d (t :: l) = (decide (t ≤ d) && allNotAfter d l) := by
  simp [allNotAfter]

/-- A single collector in its warm-up, with active deadline unset: a collection
sends the initial metric as long as no collection so far, itself included,
happened after the warm-up deadline, and the live instance otherwise. -/
theorem singleCollector.collectMany_ongoing (c : singleCollector)
    (hs : c.attr.state = stateWarmUpOngoing) (hz : c.attr.activeDeadLine = 0)
    (ts : List Time) :
    (∀ i, i < ts.length → (c.collectMany ts).1.get? i =
      some (if allNotAfter c.attr.warmUpDeadLine (ts.take (i + 1)) = true then
          Sample.initial c.metric c.attr.labelValues
        else Sample.live c.metric)) ∧
      (c.collectMany ts).2.attr.state ≠ stateExpired := by
  induction ts generalizing c with
  | nil =>
    refine ⟨fun i hi => absurd hi (by simp), ?_⟩
    show c.attr.state ≠ stateExpired
    rw [hs]
    simp
  | cons t ts ih =>
    by_cases ht : c.attr.warmUpDeadLine < t
    · have hc : c.attr.onCollect c.opts.WarmUpDuration t
          = { c.attr with state := stateWarmUpComplete } := by
        rw [metricAttr.onCollect_ongoing _ _ hs, if_pos ht]
      have h1 : (c.Collect t).2.attr = { c.attr with state := stateWarmUpComplete } := by
        rw [singleCollector.Collect_attr, hc]
      have h2 : (c.Collect t).1 = Sample.live c.metric := by
        rw [singleCollector.Collect_sample, hc]
        simp
      obtain ⟨k1, k2⟩ := singleCollector.collectMany_complete (c.Collect t).2
        (by rw [h1]) (by rw [h1]; exact hz) ts
      rw [singleCollector.Collect_metric] at k1
      have hcond : ∀ i, allNotAfter c.attr.warmUpDeadLine ((t :: ts).take (i + 1)) = false := by
        intro i
        rw [List.take_succ_cons, allNotAfter_cons]
        simp [not_le.mpr ht]
      refine ⟨?_, by rw [singleCollector.collectMany, k2]; simp⟩
      intro i hi
      rw [hcond i]
      cases i with
      | zero => simp [singleCollector.collectMany, h2]
      | succ j =>
        simp only [singleCollector.collectMany, List.get?_cons_succ]
        rw [k1 j (by simpa using hi)]
        simp
    · have hc : c.attr.onCollect c.opts.WarmUpDuration t = c.attr := by
        rw [metricAttr.onCollect_ongoing _ _ hs, if_neg ht]
      have h1 : (c.Collect t).2.attr = c.attr := by rw [singleCollector.Collect_attr, hc]
      have h2 : (c.Collect t).1 = Sample.initial c.metric c.attr.labelValues := by
        rw [singleCollector.Collect_sample, hc, hs]
        simp
      obtain ⟨k1, k2⟩ := ih (c.Collect t).2 (by rw [h1]; exact hs) (by rw [h1]; exact hz)
      rw [singleCollector.Collect_metric, h1] at k1
      have hle : t ≤ c.attr.warmUpDeadLine := not_lt.mp ht
      refine ⟨?_, k2⟩
      intro i hi
      rw [List.take_succ_cons, allNotAfter_cons]
      cases i with
      | zero => simp [singleCollector.collectMany, h2, hle, allNotAfter]
      | succ j =>
        simp only [singleCollector.collectMany, List.get?_cons_succ]
        rw [k1 j (by simpa using hi)]
        simp [hle]

/-- C9: a single collector with a warm-up duration `W` that is not negative is
collected at clock value `t0` and then at the clock values `ts`.  Every
`Collect` sends exactly one sample; the sample of a collection is the initial
(neutral) metric when that collection and all collections before it happened
at clock values not after `t0 + W`, and the live instance otherwise; the state
of the collector is never `stateExpired`. -/
theorem C9_single_collector_warmup (metric : Nat) (opts : metricOpts) (t0 : Time)
    (ts : List Time) (hW : 0 ≤ opts.WarmUpDuration) :
    ((newSingleCollector metric opts).collectMany (t0 :: ts)).1.length = ts.length + 1 ∧
    (∀ i, i < ts.length + 1 →
      ((newSingleCollector metric opts).collectMany (t0 :: ts)).1.get? i =
        some (if allNotAfter (t0 + opts.WarmUpDuration) ((t0 :: ts).take (i + 1)) = true then
            Sample.initial metric []
          else Sample.live metric)) ∧
    ((newSingleCollector metric opts).collectMany (t0 :: ts)).2.attr.state ≠ stateExpired := by
  have hle : t0 ≤ t0 + opts.WarmUpDuration := le_add_of_nonneg_right hW
  have hc : (newSingleCollector metric opts).attr.onCollect opts.WarmUpDuration t0
      = { warmUpDeadLine := t0 + opts.WarmUpDuration, state := stateWarmUpOngoing } := by
    rw [metricAttr.onCollect_pending _ _ rfl]
    rfl
  have h1 : ((newSingleCollector metric opts).Collect t0).2.attr
      = { warmUpDeadLine := t0 + opts.WarmUpDuration, state := stateWarmUpOngoing } := by
    rw [singleCollector.Collect_attr]
    exact hc
  have h2 : ((newSingleCollector metric opts).Collect t0).1 = Sample.initial metric [] := by
    rw [singleCollector.Collect_sample]
    show (if ((newSingleCollector metric opts).attr.onCollect opts.WarmUpDuration t0).state
        = stateWarmUpOngoing then _ else _) = _
    rw [hc]
    rfl
  obtain ⟨k1, k2⟩ := singleCollector.collectMany_ongoing
    ((newSingleCollector metric opts).Collect t0).2 (by rw [h1]) (by rw [h1]) ts
  rw [h1] at k1
  refine ⟨by simp [singleCollector.collectMany_length], ?_, k2⟩
  intro i hi
  rw [List.take_succ_cons, allNotAfter_cons]
  cases i with
  | zero => simp [singleCollector.collectMany, h2, hle, allNotAfter]
  | succ j =>
    simp only [singleCollector.collectMany, List.get?_cons_succ]
    rw [k1 j (by omega)]
    simp [hle, singleCollector.Collect_metric, newSingleCollector]

/-- Witness of C9: with a warm-up of ten seconds, the collections at `t0`, five
seconds later and eleven seconds later send the initial metric, the initial
metric and the live instance. -/
theorem C9_single_collector_warmup_witness :
    (0 : Int) ≤ warmUpOpts.WarmUpDuration ∧
    ((newSingleCollector 7 warmUpOpts).collectMany
      [defaultTime, defaultTime + 5000000000, defaultTime + 11000000000]).1.get? 2
        = some (Sample.live 7) ∧
    ((newSingleCollector 7 warmUpOpts).collectMany
      [defaultTime, defaultTime + 5000000000, defaultTime + 11000000000]).1
        = [Sample.initial 7 [], Sample.initial 7 [], Sample.live 7] :=
  ⟨by decide,
    ((C9_single_collector_warmup 7 warmUpOpts defaultTime
      [defaultTime + 5000000000, defaultTime + 11000000000] (by decide)).2.1 2
        (by decide)).trans (by decide),
    by decide⟩

/-- C10, counterexample: in the scenario as stated (expiration delay ten
seconds, warm-up duration zero, entry created at `t0`), the collection at
`t0 + 1s`, being the first one, sends the initial (neutral) metric and not the
live instance, and the collection at `t0 + 11s` then sends the live instance
instead of omitting the entry. -/
theorem C10_counterexample :
    ((newMetricVec expireOpts ["label"]).GetMetricWithLabelValues defaultTime ["toto"]).1
      = CallResult.returned 0 none ∧
    (expireVec.Collect (defaultTime + 1000000000)).1
      = [Sample.initial 0 ["toto", "48ab9774"]] ∧
    ((expireVec.Collect (defaultTime + 1000000000)).2.2.Collect
      (defaultTime + 11000000000)).1 = [Sample.live 0] := by
  decide

/-- The first `GetMetricWithLabelValues` on a new vector creates instance 0 with
a fresh entry. -/
theorem newMetricVec_get (opts : metricOpts) (labelNames labelValues : List String)
    (now : Time) (hlen : labelValues.length = labelNames.length) :
    ((newMetricVec opts labelNames).GetMetricWithLabelValues now labelValues).1
      = CallResult.returned 0 none ∧
    ((newMetricVec opts labelNames).GetMetricWithLabelValues now labelValues).2.metricAttrs
      = [(0, metricAttr.onAccess
          { tag := generateLifeCycleTag now, labelValues := labelValues }
          opts.ExpirationDelay now)] ∧
    ((newMetricVec opts labelNames).GetMetricWithLabelValues now labelValues).2.opts = opts := by
  have hg : (newMetricVec opts labelNames).getMetric now labelValues
      = ((none, none), newMetricVec opts labelNames) := by
    simp [MetricVec.getMetric, newMetricVec, newTagMap, tagMap.Get, tagMap.findElem,
      tagMap.bucket, GoMap.get, findIdx]
  have ha : (newMetricVec opts labelNames).addMetric now labelValues
      = ((some 0, none),
          { newMetricVec opts labelNames with
            metricVec :=
              { labelNames := labelNames ++ [labelLifeCycleTag],
                children := [(labelValues ++ [generateLifeCycleTag now], 0)],
                nextMetric := 1 },
            tags := newTagMap.Add labelValues (generateLifeCycleTag now),
            metricAttrs := [(0, metricAttr.onAccess
              { tag := generateLifeCycleTag now, labelValues := labelValues }
              opts.ExpirationDelay now)] }) := by
    simp [MetricVec.addMetric, newMetricVec, PromVec.GetMetricWithLabelValues, hlen,
      GoMap.get, GoMap.set]
  have hr : (newMetricVec opts labelNames).GetMetricWithLabelValues now labelValues
      = (assertM ((newMetricVec opts labelNames).addMetric now labelValues).1,
          ((newMetricVec opts labelNames).addMetric now labelValues).2) := by
    simp only [MetricVec.GetMetricWithLabelValues, hg]
  rw [hr, ha]
  exact ⟨rfl, rfl, rfl⟩

/-- C10, amended: in a new vector with expiration delay ten seconds and warm-up
duration zero, an entry is created by `GetMetricWithLabelValues` at `t0` (ten
seconds after which is not the zero time instant).  A first collection scan at
`t0` sends the initial (neutral) metric; the scan at `t0 + 1s` then sends the
live instance, the one the caller recorded its value in; with no further
access, the scan at `t0 + 11s` sends no sample and puts the instance on the
removal list. -/
theorem C10_expiration_scenario (labelNames labelValues : List String) (t0 : Time)
    (hlen : labelValues.length = labelNames.length) (hz : t0 + 10000000000 ≠ 0) :
    ((newMetricVec expireOpts labelNames).GetMetricWithLabelValues t0 labelValues).1
      = CallResult.returned 0 none ∧
    (((newMetricVec expireOpts labelNames).GetMetricWithLabelValues t0 labelValues).2.Collect
      t0).1 = [Sample.initial 0 (labelValues ++ [generateLifeCycleTag t0])] ∧
    ((((newMetricVec expireOpts labelNames).GetMetricWithLabelValues t0 labelValues).2.Collect
      t0).2.2.Collect (t0 + 1000000000)).1 = [Sample.live 0] ∧
    (((((newMetricVec expireOpts labelNames).GetMetricWithLabelValues t0
      labelValues).2.Collect t0).2.2.Collect (t0 + 1000000000)).2.2.Collect
        (t0 + 11000000000)).1 = [] ∧
    (((((newMetricVec expireOpts labelNames).GetMetricWithLabelValues t0
      labelValues).2.Collect t0).2.2.Collect (t0 + 1000000000)).2.2.Collect
        (t0 + 11000000000)).2.1 = List.replicate 16 none ++ [some 0] := by
  obtain ⟨h1, h2, h3⟩ := newMetricVec_get expireOpts labelNames labelValues t0 hlen
  refine ⟨h1, ?_⟩
  generalize ((newMetricVec expireOpts labelNames).GetMetricWithLabelValues t0 labelValues).2
    = v at h2 h3
  have e2 : t0 + 10000000000 < t0 + 11000000000 := Int.add_lt_add_left (by decide) t0
  have e3 : t0 < t0 + 1000000000 := Int.lt_add_of_pos_right t0 (by decide)
  have e4 : ¬ (t0 + 10000000000 < t0 + 1000000000) :=
    not_lt.mpr (Int.add_le_add_left (by decide) t0)
  simp [MetricVec.Collect, h2, h3, collectLoop, metricAttr.onAccess, expireOpts,
    metricAttr.onCollect, Time.Add, Time.After, Time.IsZero, hz, e2, e3, e4]

/-- Witness of C10 (amended): the label values `toto` at `defaultTime`. -/
theorem C10_expiration_scenario_witness :
    ["toto"].length = ["label"].length ∧ defaultTime + 10000000000 ≠ 0 ∧
    (((((newMetricVec expireOpts ["label"]).GetMetricWithLabelValues defaultTime
      ["toto"]).2.Collect defaultTime).2.2.Collect (defaultTime + 1000000000)).2.2.Collect
        (defaultTime + 11000000000)).1 = [] :=
  ⟨rfl, by decide,
    (C10_expiration_scenario ["label"] ["toto"] defaultTime rfl (by decide)).2.2.2.1⟩

/-! ## The generation tag -/

theorem hexValue_hexDigit : ∀ d, d < 16 → hexValue (hexDigit d) = d := by
  decide

theorem hexDigit_ne_minus : ∀ d, d < 16 → hexDigit d ≠ '-' := by
  decide

theorem hexParse_append (l : List Char) (c : Char) :
    hexParse (l ++ [c]) = hexParse l * 16 + hexValue c := by
  simp [hexParse, List.foldl_append]

theorem hexParse_hexDigits : ∀ (fuel n : Nat), n < fuel → hexParse (hexDigits fuel n) = n
  | 0, n, h => absurd h (Nat.not_lt_zero n)
  | fuel + 1, n, h => by
    unfold hexDigits
    by_cases hn : n < 16
    · rw [if_pos hn]
      simp [hexParse, hexValue_hexDigit n hn]
    · rw [if_neg hn, hexParse_append, hexParse_hexDigits fuel (n / 16) (by omega),
        hexValue_hexDigit (n % 16) (Nat.mod_lt n (by decide))]
      omega

theorem hexDigits_no_minus : ∀ (fuel n : Nat), ∀ c ∈ hexDigits fuel n, c ≠ '-'
  | 0, n, c, h => by simp [hexDigits] at h
  | fuel + 1, n, c, h => by
    unfold hexDigits at h
    by_cases hn : n < 16
    · rw [if_pos hn] at h
      simp only [List.mem_singleton] at h
      rw [h]
      exact hexDigit_ne_minus n hn
    · rw [if_neg hn] at h
      rcases List.mem_append.mp h with h1 | h1
      · exact hexDigits_no_minus fuel (n / 16) c h1
      · simp only [List.mem_singleton] at h1
        rw [h1]
        exact hexDigit_ne_minus (n % 16) (Nat.mod_lt n (by decide))

theorem hexDigits_injective {a b : Nat}
    (h : hexDigits (a + 1) a = hexDigits (b + 1) b) : a = b := by
  have := congrArg hexParse h
  rwa [hexParse_hexDigits _ _ (Nat.lt_succ_self a),
    hexParse_hexDigits _ _ (Nat.lt_succ_self b)] at this

/-- The base 16 representation determines the number. -/
theorem formatInt16_injective {i j : Int} (h : formatInt16 i = formatInt16 j) : i = j := by
  unfold formatInt16 at h
  by_cases hi : i < 0
  · by_cases hj : j < 0
    · rw [if_pos hi, if_pos hj] at h
      have h1 : '-' :: hexDigits (i.natAbs + 1) i.natAbs
          = '-' :: hexDigits (j.natAbs + 1) j.natAbs := congrArg String.data h
      have h2 := hexDigits_injective (List.cons.inj h1).2
      omega
    · rw [if_pos hi, if_neg hj] at h
      have h1 : '-' :: hexDigits (i.natAbs + 1) i.natAbs = hexDigits (j.natAbs + 1) j.natAbs :=
        congrArg String.data h
      have hm : '-' ∈ hexDigits (j.natAbs + 1) j.natAbs := by rw [← h1]; simp
      exact absurd rfl (hexDigits_no_minus _ _ _ hm)
  · by_cases hj : j < 0
    · rw [if_neg hi, if_pos hj] at h
      have h1 : hexDigits (i.natAbs + 1) i.natAbs = '-' :: hexDigits (j.natAbs + 1) j.natAbs :=
        congrArg String.data h
      have hm : '-' ∈ hexDigits (i.natAbs + 1) i.natAbs := by rw [h1]; simp
      exact absurd rfl (hexDigits_no_minus _ _ _ hm)
    · rw [if_neg hi, if_neg hj] at h
      have h1 : hexDigits (i.natAbs + 1) i.natAbs = hexDigits (j.natAbs + 1) j.natAbs :=
        congrArg String.data h
      have h2 := hexDigits_injective h1
      omega

/-- Two generation tags are equal exactly when they are generated in the same
Unix second. -/
theorem generateLifeCycleTag_eq_iff (t1 t2 : Time) :
    generateLifeCycleTag t1 = generateLifeCycleTag t2 ↔ t1.Unix = t2.Unix :=
  ⟨fun h => formatInt16_injective h, fun h => by unfold generateLifeCycleTag; rw [h]⟩

theorem PromVec.get_accepts (v : PromVec) (lvs : List String)
    (hl : lvs.length = v.labelNames.length) :
    ∃ m pv, v.GetMetricWithLabelValues lvs = (Except.ok m, pv) := by
  unfold PromVec.GetMetricWithLabelValues
  rw [if_neg (not_not.mpr hl)]
  cases GoMap.get v.children lvs with
  | some m => exact ⟨m, _, rfl⟩
  | none => exact ⟨_, _, rfl⟩

/-- With the right number of label values, the creation path succeeds. -/
theorem MetricVec.addMetric_accepts (mv : MetricVec) (now : Time) {labelValues : List String}
    (hl : labelValues.length + 1 = mv.metricVec.labelNames.length) :
    ∃ m mv1, mv.addMetric now labelValues = ((some m, none), mv1) := by
  obtain ⟨m, pv, h⟩ := PromVec.get_accepts mv.metricVec
    (labelValues ++ [generateLifeCycleTag now]) (by simpa using hl)
  simp only [MetricVec.addMetric, h]
  exact ⟨m, _, rfl⟩

/-- C6, counterexample: the entry of `toto` in `quickVec` has the tag
`48ab9774` and was found expired by a collection scan; the
`GetMetricWithLabelValues` that follows, 700 milliseconds after the creation
of the expired entry and so in the same Unix second, creates an entry in state
`stateWarmUpPending` whose tag is again `48ab9774`. -/
theorem C6_counterexample :
    (GoMap.get quickVec.metricAttrs 0).map (fun a => (a.tag, a.state))
      = some ("48ab9774", stateExpired) ∧
    (quickVec.GetMetricWithLabelValues (defaultTime + 700000000) ["toto"]).1
      = CallResult.returned 0 none ∧
    (GoMap.get (quickVec.GetMetricWithLabelValues (defaultTime + 700000000)
        ["toto"]).2.metricAttrs 0).map (fun a => (a.tag, a.state))
      = some ("48ab9774", stateWarmUpPending) := by
  decide

/-- C6, amended: let the label values be accepted by the registry and let their
entry have been found expired by a collection, so that either the expired
entry is still in place or the index holds no entry for the label values any
more.  Then `GetMetricWithLabelValues`, at any clock value, returns an
instance whose entry is new: its state is `stateWarmUpPending`, it holds the
label values, and its tag, which is also the tag the index now holds for the
label values, is the tag generated at that clock value.  This tag differs from
a tag generated at another clock value exactly when the two clock values lie
in different Unix seconds. -/
theorem C6_recreation_after_expiry (mv : MetricVec) (now : Time) (labelValues : List String)
    (hl : labelValues.length + 1 = mv.metricVec.labelNames.length)
    (hx : (∃ m0 a0, (mv.tags.Get labelValues).2 = true ∧
            GoMap.get mv.metricVec.children (labelValues ++ [(mv.tags.Get labelValues).1])
              = some m0 ∧
            GoMap.get mv.metricAttrs m0 = some a0 ∧ a0.state = stateExpired) ∨
          (mv.tags.Get labelValues).2 = false) :
    (∃ m a1, (mv.GetMetricWithLabelValues now labelValues).1 = CallResult.returned m none ∧
      GoMap.get (mv.GetMetricWithLabelValues now labelValues).2.metricAttrs m = some a1 ∧
      a1.state = stateWarmUpPending ∧ a1.labelValues = labelValues ∧
      a1.tag = generateLifeCycleTag now ∧
      (mv.GetMetricWithLabelValues now labelValues).2.tags.Get labelValues
        = (generateLifeCycleTag now, true)) ∧
    ∀ c0 : Time, generateLifeCycleTag now ≠ generateLifeCycleTag c0 ↔ now.Unix ≠ c0.Unix := by
  refine ⟨?_, fun c0 => not_congr (generateLifeCycleTag_eq_iff now c0)⟩
  have hg : mv.getMetric now labelValues = ((none, none), mv) := by
    rcases hx with ⟨m0, a0, h1, h2, h3, h4⟩ | h1
    · have hget : mv.tags.Get labelValues = ((mv.tags.Get labelValues).1, true) := by
        rw [← h1]
      have hlen : (labelValues ++ [(mv.tags.Get labelValues).1]).length
          = mv.metricVec.labelNames.length := by simpa using hl
      unfold MetricVec.getMetric
      rw [hget]
      simp only [Bool.true_eq_false, if_false]
      rw [PromVec.get_of_child hlen h2]
      simp only [h3]
      have : a0.hasExpired = true := by simp [metricAttr.hasExpired, h4]
      simp [this]
    · have hget : mv.tags.Get labelValues = ((mv.tags.Get labelValues).1, false) := by
        rw [← h1]
      unfold MetricVec.getMetric
      rw [hget]
      simp
  obtain ⟨m, mv1, had⟩ := MetricVec.addMetric_accepts mv now hl
  have hr : mv.GetMetricWithLabelValues now labelValues = (CallResult.returned m none, mv1) := by
    simp only [MetricVec.GetMetricWithLabelValues, hg, had]
    rfl
  obtain ⟨_, _, k3, k4, _⟩ := MetricVec.addMetric_ok had
  rw [hr]
  refine ⟨m, _, rfl, k3, ?_, ?_, ?_, ?_⟩
  · rw [metricAttr.onAccess_state]
  · rw [metricAttr.onAccess_labelValues]
  · rw [metricAttr.onAccess_tag]
  · simp only [k4]
    exact tagMap.Get_Add_same _ _ _

/-- Witness of C6 (amended): the expired entry of `quickVec` is recreated
fifteen seconds after its creation. -/
theorem C6_recreation_after_expiry_witness :
    ["toto"].length + 1 = quickVec.metricVec.labelNames.length ∧
    (quickVec.tags.Get ["toto"]).2 = true ∧
    generateLifeCycleTag (defaultTime + 15000000000) ≠ generateLifeCycleTag defaultTime :=
  ⟨by decide, by decide,
    ((C6_recreation_after_expiry quickVec (defaultTime + 15000000000) ["toto"] (by decide)
      (Or.inl ⟨0, { tag := "48ab9774", labelValues := ["toto"], state := stateExpired,
                    warmUpDeadLine := defaultTime,
                    activeDeadLine := defaultTime + 500000000 },
        by decide, by decide, by decide, rfl⟩)).2 defaultTime).mpr (by decide)⟩

/-! ## Claims about the index -/

theorem tagMap.WellFormed.toWF {m : tagMap} (h : m.WellFormed) : m.WF :=
  fun p hp => (h.2 p hp).1

theorem tagMap.Get_snd (m : tagMap) (key : List String) :
    (m.Get key).2 = (bucketFind key (m.bucket (m.hash key))).isSome := by
  rw [tagMap.Get_eq]
  cases bucketFind key (m.bucket (m.hash key)) <;> rfl

theorem findIdx_isSome (key : List String) (l : List mapElement) :
    (findIdx key l).isSome = (bucketFind key l).isSome := by
  cases h : findIdx key l with
  | none => simp [findIdx_none h]
  | some i =>
    obtain ⟨e, _, h2, _⟩ := findIdx_some h
    simp [h2]

/-- C11: for every hash function (it is a field of the index), every index in
which no bucket holds a key twice, and every two keys that differ as
sequences: neither `Add` nor `Delete` of the one key changes what `Get` returns
for the other key, also when both keys lie in the same bucket and the deleted
element is overwritten by the last element of the bucket. -/
theorem C11_add_delete_frame (m : tagMap) (hw : m.WF) (key other : List String)
    (value : String) (hne : other ≠ key) :
    (m.Add key value).Get other = m.Get other ∧ (m.Delete key).Get other = m.Get other :=
  ⟨tagMap.Get_Add_ne m value hne, tagMap.Get_Delete_ne hw hne⟩

/-- Witness of C11: in the index of the test with a constant hash, the first
element of the only bucket is deleted, so that the last element takes its
place, and the key in the middle is still found with its value. -/
theorem C11_add_delete_frame_witness :
    collisionMap.WF ∧ ["abc", "toto"] ≠ ["abce", "toto2"] ∧
    (collisionMap.Delete ["abce", "toto2"]).Get ["abc", "toto"] = ("value1", true) ∧
    (collisionMap.Delete ["abce", "toto2"]).Get ["abcd", "toto1"] = ("value2", true) :=
  ⟨by decide, by decide,
    (C11_add_delete_frame collisionMap (by decide) ["abce", "toto2"] ["abc", "toto"] "x"
      (by decide)).2.trans (by decide),
    by decide⟩

theorem GoMap.sum_length_set (idx : GoMap Nat (List mapElement)) (h : Nat)
    (b : List mapElement) :
    ((GoMap.set idx h b).map (fun p => p.2.length)).sum + ((GoMap.get idx h).getD []).length
      = (idx.map (fun p => p.2.length)).sum + b.length := by
  induction idx with
  | nil => simp [GoMap.set, GoMap.get]
  | cons p t ih =>
    obtain ⟨k1, v1⟩ := p
    by_cases hk : k1 = h
    · simp only [GoMap.set, GoMap.get, hk, if_true, List.map_cons, List.sum_cons,
        Option.getD_some]
      omega
    · simp only [GoMap.set, GoMap.get, hk, if_false, List.map_cons, List.sum_cons]
      omega

theorem bucketAdd_length (key : List String) (value : String) (l : List mapElement) :
    (bucketAdd key value l).length =
      if (bucketFind key l).isSome then l.length else l.length + 1 := by
  rw [← findIdx_isSome]
  unfold bucketAdd
  cases findIdx key l with
  | none => simp
  | some i => simp

theorem tagMap.size_Add (m : tagMap) (key : List String) (value : String) :
    (m.Add key value).size = if (m.Get key).2 = true then m.size else m.size + 1 := by
  have h := GoMap.sum_length_set m.index (m.hash key)
    (bucketAdd key value (m.bucket (m.hash key)))
  rw [bucketAdd_length] at h
  unfold tagMap.size
  rw [tagMap.Add_index, tagMap.Get_snd]
  unfold tagMap.bucket at h ⊢
  cases hb : (bucketFind key ((GoMap.get m.index (m.hash key)).getD [])).isSome with
  | true =>
    rw [hb] at h
    simp only [if_true] at h ⊢
    omega
  | false =>
    rw [hb] at h
    simp only [Bool.false_eq_true, if_false] at h ⊢
    omega

/-- C12: for every hash function, every index, every key and value: `Get` of
the key after `Add` of the key and the value returns the value and found,
whether or not the key had an element before; the number of stored elements is
unchanged when the key had an element (its value is overwritten) and grows by
exactly one otherwise. -/
theorem C12_add_then_get (m : tagMap) (key : List String) (value : String) :
    (m.Add key value).Get key = (value, true) ∧
    ((m.Get key).2 = true → (m.Add key value).size = m.size) ∧
    ((m.Get key).2 = false → (m.Add key value).size = m.size + 1) := by
  refine ⟨tagMap.Get_Add_same m key value, ?_, ?_⟩
  · intro h
    rw [tagMap.size_Add, if_pos h]
  · intro h
    rw [tagMap.size_Add, if_neg (by simp [h])]

theorem tagMap.mem_elems {m : tagMap} {e : mapElement} :
    e ∈ m.elems ↔ ∃ p ∈ m.index, e ∈ p.2 := by
  simp [tagMap.elems, List.mem_flatMap]

theorem tagMap.bucket_of_mem {m : tagMap} (hk : (GoMap.keys m.index).Nodup)
    {p : Nat × List mapElement} (hp : p ∈ m.index) : m.bucket p.1 = p.2 := by
  unfold tagMap.bucket
  rw [GoMap.get_of_mem hk hp]
  rfl

theorem tagMap.bucket_subset_elems (m : tagMap) (h : Nat) :
    ∀ e ∈ m.bucket h, e ∈ m.elems := by
  intro e he
  unfold tagMap.bucket at he
  cases hg : GoMap.get m.index h with
  | none => simp [hg] at he
  | some b =>
    rw [hg] at he
    exact tagMap.mem_elems.mpr ⟨(h, b), GoMap.mem_of_get hg, he⟩

/-- In a well-formed index `Get` returns the value of the stored element with
the key. -/
theorem tagMap.Get_of_mem_elems {m : tagMap} (hw : m.WellFormed) {e : mapElement}
    (he : e ∈ m.elems) : m.Get e.key = (e.value, true) := by
  obtain ⟨p, hp, hep⟩ := tagMap.mem_elems.mp he
  obtain ⟨h1, h2, _⟩ := hw.2 p hp
  have hb : m.bucket (m.hash e.key) = p.2 := by
    rw [h2 e hep]
    exact tagMap.bucket_of_mem hw.1 hp
  rw [tagMap.Get_eq, hb, (bucketFind_some_iff h1).mpr ⟨hep, rfl⟩]

/-- C13: for every hash function, every well-formed index and every key: `Get`
of the key after `Delete` of the key returns the empty string and not found;
`Get` reports found exactly when an element whose key equals the key is stored
in the index, and then returns the value of that element; it returns the empty
string whenever it reports not found; in particular a key that shares its hash
with stored keys, without being one of them, is not found. -/
theorem C13_get_found_iff_stored (m : tagMap) (hw : m.WellFormed) (key : List String) :
    (m.Delete key).Get key = ("", false) ∧
    ((m.Get key).2 = true ↔ ∃ e ∈ m.elems, e.key = key) ∧
    (∀ e ∈ m.elems, e.key = key → m.Get key = (e.value, true)) ∧
    ((m.Get key).2 = false → (m.Get key).1 = "") ∧
    ((∀ e ∈ m.elems, e.key ≠ key) → m.Get key = ("", false)) := by
  have hiff : (m.Get key).2 = true ↔ ∃ e ∈ m.elems, e.key = key := by
    constructor
    · intro h
      rw [tagMap.Get_snd] at h
      cases hb : bucketFind key (m.bucket (m.hash key)) with
      | none => simp [hb] at h
      | some e =>
        have hmem : e ∈ m.bucket (m.hash key) := List.mem_of_find?_eq_some hb
        have hkey : e.key = key := by
          have := List.find?_some hb
          simpa using this
        exact ⟨e, tagMap.bucket_subset_elems m _ e hmem, hkey⟩
    · rintro ⟨e, he, hk⟩
      rw [← hk, tagMap.Get_of_mem_elems hw he]
  refine ⟨tagMap.Get_Delete_same hw.toWF key, hiff, ?_, ?_, ?_⟩
  · intro e he hk
    rw [← hk]
    exact tagMap.Get_of_mem_elems hw he
  · intro h
    rw [tagMap.Get_snd_false h]
  · intro h
    apply tagMap.Get_snd_false
    cases hf : (m.Get key).2 with
    | false => rfl
    | true =>
      obtain ⟨e, he, hk⟩ := hiff.mp hf
      exact absurd hk (h e he)

/-- Witness of C13: in the index of the test with a constant hash, a key that
is not stored shares its hash with the three stored keys and is not found,
and a stored key is not found any more after its `Delete`. -/
theorem C13_get_found_iff_stored_witness :
    collisionMap.WellFormed ∧
    collisionMap.hash ["abcd", "toto"] = collisionMap.hash ["abc", "toto"] ∧
    collisionMap.Get ["abcd", "toto"] = ("", false) ∧
    (collisionMap.Delete ["abc", "toto"]).Get ["abc", "toto"] = ("", false) :=
  ⟨by decide, rfl,
    (C13_get_found_iff_stored collisionMap (by decide) ["abcd", "toto"]).2.2.2.2 (by decide),
    (C13_get_found_iff_stored collisionMap (by decide) ["abc", "toto"]).1⟩

/-! ## Claims about the lifecycle -/

/-- C14: `onCollect` is the transition function of the specification
(`onCollectSpec`), the value it returns being the state of the result; it
never changes the active deadline, the tag or the label values, and it changes
the warm-up deadline only for an entry in state `stateWarmUpPending`. -/
theorem C14_onCollect_transition (a : metricAttr) (warmUpDuration : Duration) (now : Time) :
    a.onCollect warmUpDuration now = onCollectSpec a warmUpDuration now ∧
    (a.onCollect warmUpDuration now).activeDeadLine = a.activeDeadLine ∧
    (a.onCollect warmUpDuration now).tag = a.tag ∧
    (a.onCollect warmUpDuration now).labelValues = a.labelValues ∧
    (a.state ≠ stateWarmUpPending →
      (a.onCollect warmUpDuration now).warmUpDeadLine = a.warmUpDeadLine) := by
  refine ⟨?_, metricAttr.onCollect_activeDeadLine a _ _, metricAttr.onCollect_tag a _ _,
    metricAttr.onCollect_labelValues a _ _, ?_⟩
  · unfold onCollectSpec
    cases hs : a.state with
    | stateWarmUpPending => rw [metricAttr.onCollect_pending _ _ hs]
    | stateWarmUpOngoing => rw [metricAttr.onCollect_ongoing _ _ hs]
    | stateWarmUpComplete => rw [metricAttr.onCollect_complete _ _ hs]
    | stateExpired => rw [metricAttr.onCollect_expired _ _ hs]
  · intro hne
    cases hs : a.state with
    | stateWarmUpPending => exact absurd hs hne
    | stateWarmUpOngoing =>
      rw [metricAttr.onCollect_ongoing _ _ hs]
      split <;> rfl
    | stateWarmUpComplete =>
      rw [metricAttr.onCollect_complete _ _ hs]
      split <;> rfl
    | stateExpired => rw [metricAttr.onCollect_expired _ _ hs]

theorem metricAttr.rank_call (a : metricAttr) (c : AttrCall) :
    a.state.rank ≤ (a.call c).state.rank ∧
      (a.state = stateExpired → (a.call c).state = stateExpired) := by
  cases c with
  | onAccess d now =>
    simp only [metricAttr.call, metricAttr.onAccess_state]
    exact ⟨le_refl _, fun h => h⟩
  | onCollect w now =>
    simp only [metricAttr.call]
    cases hs : a.state with
    | stateWarmUpPending =>
      rw [metricAttr.onCollect_pending _ _ hs]
      simp [metricState.rank]
    | stateWarmUpOngoing =>
      rw [metricAttr.onCollect_ongoing _ _ hs]
      split <;> simp [metricState.rank, hs]
    | stateWarmUpComplete =>
      rw [metricAttr.onCollect_complete _ _ hs]
      split <;> simp [metricState.rank, hs]
    | stateExpired =>
      rw [metricAttr.onCollect_expired _ _ hs]
      simp [hs]

theorem metricAttr.rank_calls (a : metricAttr) (cs : List AttrCall) :
    a.state.rank ≤ (a.calls cs).state.rank ∧
      (a.state = stateExpired → (a.calls cs).state = stateExpired) := by
  induction cs generalizing a with
  | nil => exact ⟨le_refl _, fun h => h⟩
  | cons c cs ih =>
    obtain ⟨h1, h2⟩ := metricAttr.rank_call a c
    obtain ⟨h3, h4⟩ := ih (a.call c)
    exact ⟨le_trans h1 h3, fun h => h4 (h2 h)⟩

theorem metricAttr.calls_append (a : metricAttr) (cs1 cs2 : List AttrCall) :
    a.calls (cs1 ++ cs2) = (a.calls cs1).calls cs2 := by
  induction cs1 generalizing a with
  | nil => rfl
  | cons c cs ih => exact ih (a.call c)

/-- C15: for every entry and every sequence of `onCollect` and `onAccess`
calls, with arbitrary durations and arbitrary clock values in any order: the
state after any part of the sequence is at or below, in the order pending,
ongoing, complete, expired, the state after any longer part; and an entry that
is expired stays expired. -/
theorem C15_state_monotone (a : metricAttr) (cs1 cs2 : List AttrCall) :
    (a.calls cs1).state.rank ≤ (a.calls (cs1 ++ cs2)).state.rank ∧
    ((a.calls cs1).state = stateExpired → (a.calls (cs1 ++ cs2)).state = stateExpired) := by
  rw [metricAttr.calls_append]
  exact metricAttr.rank_calls (a.calls cs1) cs2

/-- C16, counterexample: a fresh single collector with warm-up duration zero is
collected twice at the same clock value; the second collection still sends
the initial (neutral) metric and the state stays `stateWarmUpOngoing`. -/
theorem C16_counterexample :
    defaultTime ≤ defaultTime ∧
    ((newSingleCollector 7 zeroOpts).collectMany [defaultTime, defaultTime]).1
      = [Sample.initial 7 [], Sample.initial 7 []] ∧
    ((newSingleCollector 7 zeroOpts).collectMany [defaultTime, defaultTime]).2.attr.state
      = stateWarmUpOngoing := by
  decide

/-- C16, amended: with warm-up duration zero and two successive collections at
clock values `t1 < t2`.  For a fresh single collector the first collection
sends the initial (neutral) metric and the second the live instance, the state
then being `stateWarmUpComplete`.  For an entry of a vector in state
`stateWarmUpPending` the first scan sends for the instance exactly the initial
metric and the second scan exactly the live instance, the state then being
`stateWarmUpComplete`. -/
theorem C16_zero_warmup_two_collections (t1 t2 : Time) (ht : t1 < t2) :
    (∀ (metric : Nat) (opts : metricOpts), opts.WarmUpDuration = 0 →
      ((newSingleCollector metric opts).collectMany [t1, t2]).1
        = [Sample.initial metric [], Sample.live metric] ∧
      ((newSingleCollector metric opts).collectMany [t1, t2]).2.attr.state
        = stateWarmUpComplete) ∧
    (∀ (mv : MetricVec) (m : Nat) (a : metricAttr), mv.opts.WarmUpDuration = 0 →
      (GoMap.keys mv.metricAttrs).Nodup → GoMap.get mv.metricAttrs m = some a →
      a.state = stateWarmUpPending →
      (∀ smp, (smp ∈ (mv.Collect t1).1 ∧ smp.metric = m) ↔
        smp = Sample.initial m (a.labelValues ++ [a.tag])) ∧
      (∀ smp, (smp ∈ ((mv.Collect t1).2.2.Collect t2).1 ∧ smp.metric = m) ↔
        smp = Sample.live m) ∧
      (GoMap.get ((mv.Collect t1).2.2.Collect t2).2.2.metricAttrs m).map metricAttr.state
        = some stateWarmUpComplete) := by
  refine ⟨?_, ?_⟩
  · intro metric opts hW
    have h1 : ∀ a : metricAttr, a.state = stateWarmUpPending →
        (a.onCollect 0 t1).onCollect 0 t2
          = { a with warmUpDeadLine := t1 + 0, state := stateWarmUpComplete } := by
      intro a hs
      rw [metricAttr.onCollect_pending _ _ hs, metricAttr.onCollect_ongoing _ _ rfl]
      simp [ht]
    have ho : (newSingleCollector metric opts).opts.WarmUpDuration = 0 := hW
    have h0 : (newSingleCollector metric opts).attr.state = stateWarmUpPending := rfl
    simp only [singleCollector.collectMany, singleCollector.Collect_sample,
      singleCollector.Collect_attr, singleCollector.Collect_metric,
      singleCollector.Collect_keeps_opts, ho]
    rw [h1 _ h0, metricAttr.onCollect_pending _ _ h0]
    simp [newSingleCollector]
  · intro mv m a hW hk ha hs
    have hc1 := metricAttr.onCollect_pending mv.opts.WarmUpDuration t1 hs
    have hk1 : (GoMap.keys (mv.Collect t1).2.2.metricAttrs).Nodup := by
      rw [MetricVec.Collect_keys]; exact hk
    have ha1 : GoMap.get (mv.Collect t1).2.2.metricAttrs m
        = some { a with warmUpDeadLine := t1 + mv.opts.WarmUpDuration,
                        state := stateWarmUpOngoing } := by
      rw [MetricVec.Collect_get, ha, Option.map_some', hc1]
    have hc2 : metricAttr.onCollect
        { a with warmUpDeadLine := t1 + mv.opts.WarmUpDuration, state := stateWarmUpOngoing }
        (mv.Collect t1).2.2.opts.WarmUpDuration t2
          = { a with warmUpDeadLine := t1 + mv.opts.WarmUpDuration,
                     state := stateWarmUpComplete } := by
      rw [metricAttr.onCollect_ongoing _ _ rfl]
      simp [hW, ht]
    refine ⟨?_, ?_, ?_⟩
    · intro smp
      rw [MetricVec.Collect_sample_of_get hk ha, hc1]
      simp [sampleOf, eq_comm]
    · intro smp
      rw [MetricVec.Collect_sample_of_get hk1 ha1, hc2]
      simp [sampleOf, eq_comm]
    · rw [MetricVec.Collect_get, ha1, Option.map_some', hc2]
      rfl

/-- Witness of C16 (amended): the two collections of the test, one nanosecond
apart. -/
theorem C16_zero_warmup_two_collections_witness :
    defaultTime < defaultTime + 1 ∧
    ((newSingleCollector 7 zeroOpts).collectMany [defaultTime, defaultTime + 1]).1
      = [Sample.initial 7 [], Sample.live 7] :=
  ⟨by decide,
    ((C16_zero_warmup_two_collections defaultTime (defaultTime + 1) (by decide)).1 7 zeroOpts
      rfl).1⟩

/-! ## Claims about get-or-create and the collection scan -/

theorem metricAttr.onAccess_activeDeadLine (a : metricAttr) (d : Duration) (now : Time) :
    (a.onAccess d now).activeDeadLine = if 0 < d then now + d else a.activeDeadLine := by
  unfold metricAttr.onAccess
  split <;> rfl

/-- C17: when `GetMetricWithLabelValues` at clock value `now` returns an
instance, the instance map holds an entry for it afterwards whose active
deadline is `now` plus the expiration delay when that delay is positive.
Either the entry was found: an entry that is not expired was there before, the
index is unchanged, and the state, the warm-up deadline, the tag and the label
values of the entry are unchanged, as is its active deadline when the delay is
not positive.  Or the entry was created: the index now maps the label values
to the tag generated at `now`, and the entry is the new entry with that tag
and the label values, in state `stateWarmUpPending`, whose active deadline is
unset (the zero time instant) when the delay is not positive.  The entries of
all other instances and the options are unchanged. -/
theorem C17_get_refreshes_deadline (mv mv1 : MetricVec) (now : Time)
    (labelValues : List String) (m : Nat) (err : Option String)
    (h : mv.GetMetricWithLabelValues now labelValues = (CallResult.returned m err, mv1)) :
    (∃ a1, GoMap.get mv1.metricAttrs m = some a1 ∧
      (0 < mv.opts.ExpirationDelay → a1.activeDeadLine = now + mv.opts.ExpirationDelay) ∧
      ((∃ a0, GoMap.get mv.metricAttrs m = some a0 ∧ a0.state ≠ stateExpired ∧
          mv1.tags = mv.tags ∧ a1.state = a0.state ∧
          a1.warmUpDeadLine = a0.warmUpDeadLine ∧ a1.tag = a0.tag ∧
          a1.labelValues = a0.labelValues ∧
          (mv.opts.ExpirationDelay ≤ 0 → a1.activeDeadLine = a0.activeDeadLine)) ∨
        (mv1.tags = mv.tags.Add labelValues (generateLifeCycleTag now) ∧
          a1.state = stateWarmUpPending ∧ a1.warmUpDeadLine = 0 ∧
          a1.tag = generateLifeCycleTag now ∧ a1.labelValues = labelValues ∧
          (mv.opts.ExpirationDelay ≤ 0 → a1.activeDeadLine.IsZero = true)))) ∧
    (∀ m2, m2 ≠ m → GoMap.get mv1.metricAttrs m2 = GoMap.get mv.metricAttrs m2) ∧
    mv1.opts = mv.opts := by
  obtain ⟨c1, c2⟩ := MetricVec.GetMetricWithLabelValues_cases mv now labelValues
  rw [h] at c1 c2
  simp only at c1 c2
  rcases c2 with ⟨m1, a0, h1, h2, h3, h4, h5⟩ | ⟨m1, h1, h4, h5⟩ | ⟨⟨e, h1⟩, _⟩
  · simp only [CallResult.returned.injEq] at h1
    obtain ⟨rfl, _⟩ := h1
    refine ⟨⟨_, by rw [h5]; exact GoMap.get_set_same _ _ _, ?_, Or.inl ⟨a0, h2, h3, h4, ?_, ?_,
      ?_, ?_, ?_⟩⟩, ?_, c1⟩
    · intro hD
      rw [metricAttr.onAccess_activeDeadLine, if_pos hD]
    · rw [metricAttr.onAccess_state]
    · rw [metricAttr.onAccess_warmUpDeadLine]
    · rw [metricAttr.onAccess_tag]
    · rw [metricAttr.onAccess_labelValues]
    · intro hD
      rw [metricAttr.onAccess_activeDeadLine, if_neg (not_lt.mpr hD)]
    · intro m2 hne
      rw [h5]
      exact GoMap.get_set_ne _ _ hne
  · simp only [CallResult.returned.injEq] at h1
    obtain ⟨rfl, _⟩ := h1
    refine ⟨⟨_, by rw [h5]; exact GoMap.get_set_same _ _ _, ?_, Or.inr ⟨h4, ?_, ?_, ?_, ?_,
      ?_⟩⟩, ?_, c1⟩
    · intro hD
      rw [metricAttr.onAccess_activeDeadLine, if_pos hD]
    · rw [metricAttr.onAccess_state]
    · rw [metricAttr.onAccess_warmUpDeadLine]
    · rw [metricAttr.onAccess_tag]
    · rw [metricAttr.onAccess_labelValues]
    · intro hD
      rw [metricAttr.onAccess_activeDeadLine, if_neg (not_lt.mpr hD)]
      rfl
    · intro m2 hne
      rw [h5]
      exact GoMap.get_set_ne _ _ hne
  · simp at h1

/-- Witness of C17: `toto` is requested again from `exampleVec`, five seconds
after its creation; the expiration delay is ten seconds. -/
theorem C17_get_refreshes_deadline_witness :
    exampleVec.GetMetricWithLabelValues (defaultTime + 5000000000) ["toto"]
      = (CallResult.returned 0 none,
          (exampleVec.GetMetricWithLabelValues (defaultTime + 5000000000) ["toto"]).2) ∧
    (exampleVec.GetMetricWithLabelValues (defaultTime + 5000000000) ["toto"]).2.opts
      = exampleVec.opts ∧
    (GoMap.get (exampleVec.GetMetricWithLabelValues (defaultTime + 5000000000)
        ["toto"]).2.metricAttrs 0).map metricAttr.activeDeadLine
      = some (defaultTime + 15000000000) :=
  ⟨Prod.ext (by decide) rfl,
    (C17_get_refreshes_deadline exampleVec _ (defaultTime + 5000000000) ["toto"] 0 none
      (Prod.ext (by decide) rfl)).2.2,
    by decide⟩

/-- C19: for every vector state and clock value, the scan of a collection
leaves the instance map with every entry replaced by its `onCollect`, under
the same instance and in the same order.  In terms of the entries after the
scan: the samples sent are, entry by entry, nothing for an entry in state
`stateExpired`, the initial (neutral) metric built from the label values of
the entry followed by its tag for an entry in state `stateWarmUpOngoing`, and
the live instance otherwise; the number of samples is the number of entries
that are not expired; and the removal list is its sixteen nil elements followed
by the instances of the expired entries, so that every instance on it has an
expired entry. -/
theorem C19_collect_scan (mv : MetricVec) (now : Time) :
    (mv.Collect now).2.2.metricAttrs
      = mv.metricAttrs.map (fun p => (p.1, p.2.onCollect mv.opts.WarmUpDuration now)) ∧
    (mv.Collect now).1
      = (mv.Collect now).2.2.metricAttrs.filterMap (fun p =>
          if p.2.state = stateExpired then none
          else if p.2.state = stateWarmUpOngoing then
            some (Sample.initial p.1 (p.2.labelValues ++ [p.2.tag]))
          else some (Sample.live p.1)) ∧
    (mv.Collect now).1.length
      = ((mv.Collect now).2.2.metricAttrs.filter
          (fun p => decide (p.2.state ≠ stateExpired))).length ∧
    (mv.Collect now).2.1
      = List.replicate 16 none ++
        ((mv.Collect now).2.2.metricAttrs.filter
          (fun p => decide (p.2.state = stateExpired))).map (fun p => some p.1) ∧
    (∀ m, some m ∈ (mv.Collect now).2.1 →
      ∃ a1, (m, a1) ∈ (mv.Collect now).2.2.metricAttrs ∧ a1.state = stateExpired) := by
  have hattrs : (mv.Collect now).2.2.metricAttrs
      = mv.metricAttrs.map (fun p => (p.1, p.2.onCollect mv.opts.WarmUpDuration now)) := by
    simp only [MetricVec.Collect, collectLoop_attrs]
  have hsamples : (mv.Collect now).1
      = (mv.Collect now).2.2.metricAttrs.filterMap (fun p =>
          if p.2.state = stateExpired then none
          else if p.2.state = stateWarmUpOngoing then
            some (Sample.initial p.1 (p.2.labelValues ++ [p.2.tag]))
          else some (Sample.live p.1)) := by
    rw [hattrs, List.filterMap_map]
    simp only [MetricVec.Collect, collectLoop_samples]
    rfl
  have hexp : (mv.Collect now).2.1
      = List.replicate 16 none ++
        ((mv.Collect now).2.2.metricAttrs.filter
          (fun p => decide (p.2.state = stateExpired))).map (fun p => some p.1) := by
    rw [hattrs]
    simp only [MetricVec.Collect, collectLoop_expired]
    congr 1
    induction mv.metricAttrs with
    | nil => rfl
    | cons p t ih =>
      by_cases hs : (p.2.onCollect mv.opts.WarmUpDuration now).state = stateExpired
      · simp [List.filterMap_cons, List.filter_cons, hs, ih]
      · simp [List.filterMap_cons, List.filter_cons, hs, ih]
  refine ⟨hattrs, hsamples, ?_, hexp, ?_⟩
  · rw [hsamples]
    induction (mv.Collect now).2.2.metricAttrs with
    | nil => rfl
    | cons p t ih =>
      by_cases h1 : p.2.state = stateExpired
      · simp [List.filterMap_cons, List.filter_cons, h1, ih]
      · by_cases h2 : p.2.state = stateWarmUpOngoing
        · simp [List.filterMap_cons, List.filter_cons, h1, h2, ih]
        · simp [List.filterMap_cons, List.filter_cons, h1, h2, ih]
  · intro m hm
    rw [hexp] at hm
    rcases List.mem_append.mp hm with h1 | h1
    · simp at h1
    · simp only [List.mem_map, List.mem_filter, decide_eq_true_eq] at h1
      obtain ⟨p, ⟨hp, hs⟩, hpm⟩ := h1
      simp only [Option.some.injEq] at hpm
      subst hpm
      exact ⟨p.2, hp, hs⟩

/-! ## Consistency of the vector -/

theorem GoMap.mem_set {K V : Type} [DecidableEq K] {m : GoMap K V} {k : K} {v : V}
    {p : K × V} (h : p ∈ GoMap.set m k v) : p = (k, v) ∨ p ∈ m := by
  induction m with
  | nil =>
    simp only [GoMap.set, List.mem_singleton] at h
    exact Or.inl h
  | cons q t ih =>
    obtain ⟨k1, v1⟩ := q
    by_cases hk : k1 = k
    · simp only [GoMap.set, hk, if_true, List.mem_cons] at h
      rcases h with h | h
      · exact Or.inl h
      · exact Or.inr (List.mem_cons_of_mem _ h)
    · simp only [GoMap.set, hk, if_false, List.mem_cons] at h
      rcases h with h | h
      · exact Or.inr (by rw [h]; exact List.mem_cons_self _ _)
      · rcases ih h with h1 | h1
        · exact Or.inl h1
        · exact Or.inr (List.mem_cons_of_mem _ h1)

theorem GoMap.mem_delete {K V : Type} [DecidableEq K] {m : GoMap K V} {k : K}
    {p : K × V} (h : p ∈ GoMap.delete m k) : p ∈ m ∧ p.1 ≠ k := by
  unfold GoMap.delete at h
  simpa using h

theorem bucketAdd_keys (key : List String) (value : String) (l : List mapElement) :
    ∀ x ∈ (bucketAdd key value l).map mapElement.key, x = key ∨ x ∈ l.map mapElement.key := by
  induction l with
  | nil =>
    intro x hx
    simp [bucketAdd, findIdx] at hx
    exact Or.inl hx
  | cons e es ih =>
    intro x hx
    rw [bucketAdd_cons] at hx
    by_cases hk : e.key = key
    · rw [if_pos hk] at hx
      exact Or.inr (by simpa using hx)
    · rw [if_neg hk] at hx
      simp only [List.map_cons, List.mem_cons] at hx ⊢
      rcases hx with hx | hx
      · exact Or.inr (Or.inl hx)
      · rcases ih x hx with h1 | h1
        · exact Or.inl h1
        · exact Or.inr (Or.inr h1)

theorem bucketAdd_nodup (key : List String) (value : String) {l : List mapElement}
    (hn : (l.map mapElement.key).Nodup) :
    ((bucketAdd key value l).map mapElement.key).Nodup := by
  induction l with
  | nil => simp [bucketAdd, findIdx]
  | cons e es ih =>
    simp only [List.map_cons, List.nodup_cons] at hn
    rw [bucketAdd_cons]
    by_cases hk : e.key = key
    · rw [if_pos hk]
      simpa using hn
    · rw [if_neg hk]
      simp only [List.map_cons, List.nodup_cons]
      refine ⟨?_, ih hn.2⟩
      intro hmem
      rcases bucketAdd_keys key value es _ hmem with h1 | h1
      · exact hk h1
      · exact hn.1 h1

/-- `Add` keeps the buckets free of repeated keys. -/
theorem tagMap.WF_Add {m : tagMap} (hw : m.WF) (key : List String) (value : String) :
    (m.Add key value).WF := by
  intro p hp
  rw [tagMap.Add_index] at hp
  rcases GoMap.mem_set hp with h | h
  · rw [h]
    exact bucketAdd_nodup key value (hw.bucket _)
  · exact hw p h

theorem tagMap.Delete_index (m : tagMap) (key : List String) :
    (m.Delete key).index = m.index ∨
    (m.Delete key).index
      = GoMap.set m.index (m.hash key) (bucketDelete key (m.bucket (m.hash key))) ∨
    (m.Delete key).index = GoMap.delete m.index (m.hash key) := by
  simp only [tagMap.Delete, tagMap.findElem, bucketDelete]
  cases hf : findIdx key (m.bucket (m.hash key)) with
  | none => exact Or.inl rfl
  | some i =>
    dsimp only
    by_cases hl : (m.bucket (m.hash key)).length > 1
    · rw [if_pos hl, if_pos hl]
      exact Or.inr (Or.inl rfl)
    · rw [if_neg hl]
      exact Or.inr (Or.inr rfl)

/-- `Delete` keeps the buckets free of repeated keys. -/
theorem tagMap.WF_Delete {m : tagMap} (hw : m.WF) (key : List String) :
    (m.Delete key).WF := by
  intro p hp
  rcases tagMap.Delete_index m key with h | h | h
  · rw [h] at hp
    exact hw p hp
  · rw [h] at hp
    rcases GoMap.mem_set hp with h1 | h1
    · rw [h1]
      exact bucketDelete_nodup (hw.bucket _)
    · exact hw p h1
  · rw [h] at hp
    exact hw p (GoMap.mem_delete hp).1

theorem newTagMap_WF : newTagMap.WF := by
  intro p hp
  simp [newTagMap] at hp

theorem PromVec.extends_refl (v : PromVec) : v.Extends v := ⟨rfl, fun _ _ h => h⟩

theorem PromVec.extends_trans {v1 v2 v3 : PromVec} (h12 : v1.Extends v2) (h23 : v2.Extends v3) :
    v1.Extends v3 :=
  ⟨h23.1.trans h12.1, fun k x h => h23.2 k x (h12.2 k x h)⟩

/-- The lookup/create of the registry only adds to the registry. -/
theorem PromVec.get_extends (v : PromVec) (lvs : List String) :
    v.Extends (v.GetMetricWithLabelValues lvs).2 := by
  unfold PromVec.GetMetricWithLabelValues
  by_cases hl : lvs.length ≠ v.labelNames.length
  · rw [if_pos hl]
    exact PromVec.extends_refl v
  · rw [if_neg hl]
    cases hg : GoMap.get v.children lvs with
    | some m => exact PromVec.extends_refl v
    | none =>
      refine ⟨rfl, ?_⟩
      intro k x hk
      have hne : k ≠ lvs := by
        intro c
        rw [c, hg] at hk
        cases hk
      simp only
      rw [GoMap.get_set_ne _ _ hne]
      exact hk

theorem PromVec.get_error {v pv : PromVec} {lvs : List String} {e : String}
    (h : v.GetMetricWithLabelValues lvs = (Except.error e, pv)) :
    lvs.length ≠ v.labelNames.length ∧ pv = v := by
  unfold PromVec.GetMetricWithLabelValues at h
  by_cases hl : lvs.length ≠ v.labelNames.length
  · rw [if_pos hl] at h
    exact ⟨hl, (Prod.mk.inj h).2.symm⟩
  · rw [if_neg hl] at h
    cases hg : GoMap.get v.children lvs with
    | some m => simp [hg] at h
    | none => simp [hg] at h

theorem PromVec.delete_labelNames (v : PromVec) (lvs : List String) :
    (v.DeleteLabelValues lvs).2.labelNames = v.labelNames := by
  unfold PromVec.DeleteLabelValues
  split <;> rfl

/-- The delete of the registry leaves the instances of other label values. -/
theorem PromVec.delete_get_ne (v : PromVec) {lvs k : List String} (hne : k ≠ lvs) :
    GoMap.get (v.DeleteLabelValues lvs).2.children k = GoMap.get v.children k := by
  unfold PromVec.DeleteLabelValues
  split
  · rfl
  · exact GoMap.get_delete_ne _ hne

theorem MetricVec.getMetric_registry (mv : MetricVec) (now : Time) (labelValues : List String) :
    mv.metricVec.Extends (mv.getMetric now labelValues).2.metricVec := by
  unfold MetricVec.getMetric
  cases hg : mv.tags.Get labelValues with
  | mk tag present =>
    cases present with
    | false => exact PromVec.extends_refl _
    | true =>
      simp only [Bool.true_eq_false, if_false]
      have hx := PromVec.get_extends mv.metricVec (labelValues ++ [tag])
      cases hr : mv.metricVec.GetMetricWithLabelValues (labelValues ++ [tag]) with
      | mk r pv =>
        rw [hr] at hx
        cases r with
        | error e => exact hx
        | ok metric =>
          dsimp only
          cases ha : GoMap.get mv.metricAttrs metric with
          | none => exact hx
          | some attr =>
            dsimp only
            split <;> exact hx

/-- A vector stays consistent when its index is kept, its registry extended,
and every entry of its instance map comes from an entry of the same instance
with the same label values and tag that is expired only if the former one
was. -/
theorem MetricVec.consistent_mono {mv mv1 : MetricVec} (h : mv.Consistent)
    (hk : (GoMap.keys mv1.metricAttrs).Nodup) (ht : mv1.tags = mv.tags)
    (hr : mv.metricVec.Extends mv1.metricVec)
    (he : ∀ p ∈ mv1.metricAttrs, ∃ q ∈ mv.metricAttrs, q.1 = p.1 ∧
      q.2.labelValues = p.2.labelValues ∧ q.2.tag = p.2.tag ∧
      (p.2.state ≠ stateExpired → q.2.state ≠ stateExpired)) :
    mv1.Consistent := by
  obtain ⟨h1, h2, h3⟩ := h
  refine ⟨hk, by rw [ht]; exact h2, ?_⟩
  intro p hp
  obtain ⟨q, hq, e1, e2, e3, e4⟩ := he p hp
  obtain ⟨g1, g2, g3⟩ := h3 q hq
  rw [e2, e3] at g1 g2 g3
  refine ⟨by rw [hr.1]; exact g1, ?_, ?_⟩
  · rw [← e1]
    exact hr.2 _ _ g2
  · intro hne
    rw [ht]
    exact g3 (e4 hne)

/-- The lookup path keeps the vector consistent. -/
theorem MetricVec.consistent_getMetric {mv : MetricVec} (h : mv.Consistent) (now : Time)
    (labelValues : List String) : (mv.getMetric now labelValues).2.Consistent := by
  obtain ⟨c1, _, c3⟩ := MetricVec.getMetric_cases mv now labelValues
  have hr := MetricVec.getMetric_registry mv now labelValues
  rcases c3 with ⟨m, a0, _, h2, _, h4⟩ | ⟨_, h4⟩
  · refine MetricVec.consistent_mono h (by rw [h4]; exact GoMap.nodup_keys_set h.1 _ _) c1 hr ?_
    intro p hp
    rw [h4] at hp
    rcases GoMap.mem_set hp with hp1 | hp1
    · refine ⟨(m, a0), GoMap.mem_of_get h2, ?_⟩
      rw [hp1]
      refine ⟨rfl, ?_, ?_, ?_⟩
      · simp [metricAttr.onAccess_labelValues]
      · simp [metricAttr.onAccess_tag]
      · simp [metricAttr.onAccess_state]
    · exact ⟨p, hp1, rfl, rfl, rfl, fun x => x⟩
  · refine MetricVec.consistent_mono h (by rw [h4]; exact h.1) c1 hr ?_
    intro p hp
    rw [h4] at hp
    exact ⟨p, hp, rfl, rfl, rfl, fun x => x⟩

/-- The scan of a collection keeps the vector consistent. -/
theorem MetricVec.consistent_Collect {mv : MetricVec} (h : mv.Consistent) (now : Time) :
    (mv.Collect now).2.2.Consistent := by
  refine MetricVec.consistent_mono h (by rw [MetricVec.Collect_keys]; exact h.1) rfl (PromVec.extends_refl _) ?_
  intro p hp
  simp only [MetricVec.Collect, collectLoop_attrs, List.mem_map] at hp
  obtain ⟨q, hq, rfl⟩ := hp
  refine ⟨q, hq, rfl, ?_, ?_, ?_⟩
  · simp [metricAttr.onCollect_labelValues]
  · simp [metricAttr.onCollect_tag]
  · intro hne hex
    apply hne
    simp only
    rw [metricAttr.onCollect_expired _ _ hex]
    exact hex

/-- In a consistent vector, a lookup that finds nothing means that every entry
with the label values is expired. -/
theorem MetricVec.consistent_miss {mv : MetricVec} (h : mv.Consistent) {now : Time}
    {labelValues : List String} (hm : (mv.getMetric now labelValues).1 = (none, none)) :
    ∀ p ∈ mv.metricAttrs, p.2.labelValues = labelValues → p.2.state = stateExpired := by
  intro p hp hl
  by_contra hne
  obtain ⟨g1, g2, g3⟩ := h.2.2 p hp
  have g3 := g3 hne
  rw [hl] at g1 g2 g3
  have hlive : mv.Live labelValues p.1 := by
    refine ⟨by rw [g3], ?_, ?_, p.2, GoMap.get_of_mem h.1 hp, hne⟩
    · rw [g3]; exact g1
    · rw [g3]; exact g2
  rw [MetricVec.getMetric_of_Live now hlive (GoMap.get_of_mem h.1 hp)] at hm
  simp at hm

theorem registryKey_inj {l1 l2 : List String} {t1 t2 : String}
    (h : l1 ++ [t1] = l2 ++ [t2]) : l1 = l2 ∧ t1 = t2 := by
  have hlen : l1.length = l2.length := by
    have := congrArg List.length h
    simpa using this
  obtain ⟨h1, h2⟩ := List.append_inj h hlen
  exact ⟨h1, by simpa using h2⟩

/-- The creation path keeps the vector consistent when every entry with the
label values is expired. -/
theorem MetricVec.consistent_addMetric {mv : MetricVec} (h : mv.Consistent) (now : Time)
    (labelValues : List String)
    (hx : ∀ p ∈ mv.metricAttrs, p.2.labelValues = labelValues → p.2.state = stateExpired) :
    (mv.addMetric now labelValues).2.Consistent := by
  simp only [MetricVec.addMetric]
  have hext := PromVec.get_extends mv.metricVec (labelValues ++ [generateLifeCycleTag now])
  cases hr : mv.metricVec.GetMetricWithLabelValues
      (labelValues ++ [generateLifeCycleTag now]) with
  | mk r pv =>
    rw [hr] at hext
    cases r with
    | error e =>
      exact MetricVec.consistent_mono h h.1 rfl hext
        (fun p hp => ⟨p, hp, rfl, rfl, rfl, fun x => x⟩)
    | ok metric =>
      obtain ⟨hl1, hl2, hl3⟩ := PromVec.get_ok hr
      obtain ⟨c1, c2, c3⟩ := h
      refine ⟨GoMap.nodup_keys_set c1 _ _, tagMap.WF_Add c2 _ _, ?_⟩
      intro p hp
      rcases GoMap.mem_set hp with hp1 | hp1
      · subst hp1
        simp only [metricAttr.onAccess_labelValues, metricAttr.onAccess_tag,
          metricAttr.onAccess_state]
        refine ⟨by rw [hl2]; exact hl1, hl3, fun _ => tagMap.Get_Add_same _ _ _⟩
      · obtain ⟨g1, g2, g3⟩ := c3 p hp1
        refine ⟨by simp only [hl2]; exact g1, hext.2 _ _ g2, ?_⟩
        intro hne
        have hl : p.2.labelValues ≠ labelValues := fun c => hne (hx p hp1 c)
        simp only
        rw [tagMap.Get_Add_ne _ _ hl]
        exact g3 hne

/-- Get-or-create keeps the vector consistent. -/
theorem MetricVec.consistent_GetMetricWithLabelValues {mv : MetricVec} (h : mv.Consistent)
    (now : Time) (labelValues : List String) :
    (mv.GetMetricWithLabelValues now labelValues).2.Consistent := by
  have h1 := MetricVec.consistent_getMetric h now labelValues
  unfold MetricVec.GetMetricWithLabelValues
  split
  · rename_i mv1 e1
    rw [e1] at h1
    have h2 := MetricVec.consistent_getMetric h1 now labelValues
    have m1 : ∀ p ∈ mv1.metricAttrs, p.2.labelValues = labelValues →
        p.2.state = stateExpired := by
      have g := MetricVec.getMetric_cases mv now labelValues
      rw [e1] at g
      have ga : mv1.metricAttrs = mv.metricAttrs := by
        rcases g.2.2 with ⟨m, a0, h4, _⟩ | ⟨_, h5⟩
        · simp at h4
        · exact h5
      rw [ga]
      exact MetricVec.consistent_miss h (by rw [e1])
    split
    · rename_i mv2 e2
      rw [e2] at h2
      have g := MetricVec.getMetric_cases mv1 now labelValues
      rw [e2] at g
      have ga : mv2.metricAttrs = mv1.metricAttrs := by
        rcases g.2.2 with ⟨m, a0, h4, _⟩ | ⟨_, h5⟩
        · simp at h4
        · exact h5
      exact MetricVec.consistent_addMetric h2 now labelValues (by rw [ga]; exact m1)
    · rename_i r mv2 hne e2
      rw [e2] at h2
      exact h2
  · rename_i r mv1 hne e1
    rw [e1] at h1
    exact h1

/-- Deleting by label values keeps the vector consistent. -/
theorem MetricVec.consistent_deleteMetric {mv : MetricVec} (h : mv.Consistent)
    (labelValues : List String) : (mv.deleteMetric labelValues).2.Consistent := by
  cases hp : (mv.tags.Get labelValues).2 with
  | false =>
    rw [MetricVec.deleteMetric_absent hp]
    exact h
  | true =>
    rw [MetricVec.deleteMetric_present hp]
    obtain ⟨c1, c2, c3⟩ := h
    have hext := PromVec.get_extends mv.metricVec
      (labelValues ++ [(mv.tags.Get labelValues).1])
    have hget : mv.tags.Get labelValues = ((mv.tags.Get labelValues).1, true) :=
      Prod.ext rfl hp
    cases hr : mv.metricVec.GetMetricWithLabelValues
        (labelValues ++ [(mv.tags.Get labelValues).1]) with
    | mk r pv =>
      rw [hr] at hext
      simp only
      -- every remaining entry has another registry key than the deleted one
      have key : ∀ p ∈ (match r with
            | Except.ok metric => GoMap.delete mv.metricAttrs metric
            | Except.error _ => mv.metricAttrs),
          p ∈ mv.metricAttrs ∧
            p.2.labelValues ++ [p.2.tag] ≠ labelValues ++ [(mv.tags.Get labelValues).1] := by
        intro p hpm
        cases r with
        | error e =>
          simp only at hpm
          refine ⟨hpm, ?_⟩
          intro c
          have hl := (PromVec.get_error hr).1
          rw [← c] at hl
          exact hl (c3 p hpm).1
        | ok metric =>
          simp only at hpm
          obtain ⟨hm1, hm2⟩ := GoMap.mem_delete hpm
          refine ⟨hm1, ?_⟩
          intro c
          obtain ⟨_, _, hl3⟩ := PromVec.get_ok hr
          have g2 := hext.2 _ _ (c3 p hm1).2.1
          rw [c, hl3] at g2
          exact hm2 (Option.some.inj g2).symm
      refine ⟨?_, tagMap.WF_Delete c2 _, ?_⟩
      · cases r with
        | error e => exact c1
        | ok metric => exact GoMap.nodup_keys_delete c1 _
      · intro p hpm
        obtain ⟨hm, hk⟩ := key p hpm
        obtain ⟨g1, g2, g3⟩ := c3 p hm
        refine ⟨?_, ?_, ?_⟩
        · simp only
          rw [PromVec.delete_labelNames, hext.1]
          exact g1
        · simp only
          rw [PromVec.delete_get_ne _ hk]
          exact hext.2 _ _ g2
        · intro hne
          have hl : p.2.labelValues ≠ labelValues := by
            intro c
            have g := g3 hne
            rw [c, hget] at g
            apply hk
            rw [c, (Prod.mk.inj g).1]
          simp only
          rw [tagMap.Get_Delete_ne c2 hl]
          exact g3 hne

/-- Deleting by instance keeps the vector consistent. -/
theorem MetricVec.consistent_deleteMetricByInstance {mv : MetricVec} (h : mv.Consistent)
    (x : Option Nat) : (mv.deleteMetricByInstance x).2.Consistent := by
  unfold MetricVec.deleteMetricByInstance
  cases x with
  | none => exact h
  | some m =>
    dsimp only
    cases ha : GoMap.get mv.metricAttrs m with
    | none => exact h
    | some attr =>
      dsimp only
      obtain ⟨c1, c2, c3⟩ := h
      have hma := c3 (m, attr) (GoMap.mem_of_get ha)
      -- every remaining entry has another registry key than the deleted one
      have key : ∀ p ∈ GoMap.delete mv.metricAttrs m,
          p ∈ mv.metricAttrs ∧
            p.2.labelValues ++ [p.2.tag] ≠ attr.labelValues ++ [attr.tag] := by
        intro p hpm
        obtain ⟨hm1, hm2⟩ := GoMap.mem_delete hpm
        refine ⟨hm1, ?_⟩
        intro c
        have g2 := (c3 p hm1).2.1
        rw [c, hma.2.1] at g2
        exact hm2 (Option.some.inj g2).symm
      have reg : ∀ p ∈ GoMap.delete mv.metricAttrs m,
          (p.2.labelValues ++ [p.2.tag]).length
            = (mv.metricVec.DeleteLabelValues
                (attr.labelValues ++ [attr.tag])).2.labelNames.length ∧
          GoMap.get (mv.metricVec.DeleteLabelValues
              (attr.labelValues ++ [attr.tag])).2.children (p.2.labelValues ++ [p.2.tag])
            = some p.1 := by
        intro p hpm
        obtain ⟨hm, hk⟩ := key p hpm
        obtain ⟨g1, g2, _⟩ := c3 p hm
        refine ⟨?_, ?_⟩
        · rw [PromVec.delete_labelNames]
          exact g1
        · rw [PromVec.delete_get_ne _ hk]
          exact g2
      cases hg : mv.tags.Get attr.labelValues with
      | mk tag present =>
        dsimp only
        split
        · rename_i hc
          refine ⟨GoMap.nodup_keys_delete c1 _, tagMap.WF_Delete c2 _, ?_⟩
          intro p hpm
          refine ⟨(reg p hpm).1, (reg p hpm).2, ?_⟩
          intro hne
          obtain ⟨hm, hk⟩ := key p hpm
          have g3 := (c3 p hm).2.2 hne
          have hl : p.2.labelValues ≠ attr.labelValues := by
            intro c
            rw [c, hg] at g3
            apply hk
            rw [c, ← (Prod.mk.inj g3).1, hc.2]
          simp only
          rw [tagMap.Get_Delete_ne c2 hl]
          exact g3
        · refine ⟨GoMap.nodup_keys_delete c1 _, c2, ?_⟩
          intro p hpm
          exact ⟨(reg p hpm).1, (reg p hpm).2, (c3 p (key p hpm).1).2.2⟩

/-- The sweep keeps the vector consistent. -/
theorem MetricVec.consistent_sweep (l : List (Option Nat)) :
    ∀ {mv : MetricVec}, mv.Consistent → (mv.sweep l).Consistent := by
  induction l with
  | nil => intro mv h; exact h
  | cons x rest ih =>
    intro mv h
    exact ih (MetricVec.consistent_deleteMetricByInstance h x)

/-- The vector is consistent after `Reset`. -/
theorem MetricVec.consistent_Reset (mv : MetricVec) : mv.Reset.Consistent := by
  refine ⟨List.nodup_nil, newTagMap_WF, ?_⟩
  intro p hp
  cases hp

/-- The empty vector is consistent. -/
theorem newMetricVec_consistent (opts : metricOpts) (labelNames : List String) :
    (newMetricVec opts labelNames).Consistent := by
  refine ⟨List.nodup_nil, newTagMap_WF, ?_⟩
  intro p hp
  cases hp

/-- Every operation keeps the vector of the system consistent. -/
theorem System.step_consistent (s : System) (op : Op) (h : s.vec.Consistent) :
    (s.step op).2.vec.Consistent := by
  cases op with
  | get now labelValues => exact MetricVec.consistent_GetMetricWithLabelValues h now labelValues
  | delete labelValues => exact MetricVec.consistent_deleteMetric h labelValues
  | reset => exact MetricVec.consistent_Reset s.vec
  | collect now => exact MetricVec.consistent_Collect h now
  | sweep k =>
    simp only [System.step]
    cases hk : s.pending.get? k with
    | none => exact h
    | some l => exact MetricVec.consistent_sweep l h

/-- Every state reached from the empty vector is consistent. -/
theorem System.reachable_consistent (opts : metricOpts) (labelNames : List String)
    (ops : List Op) : ((System.init opts labelNames).run ops).vec.Consistent :=
  System.run_induction (fun s => s.vec.Consistent) (fun _ => True)
    (fun s op _ h => System.step_consistent s op h) ops (System.init opts labelNames)
    (fun _ _ => trivial) (newMetricVec_consistent opts labelNames)

/-- In a consistent vector two non-expired entries with the same label values
are the same entry. -/
theorem MetricVec.consistent_unique {mv : MetricVec} (h : mv.Consistent)
    {p q : Nat × metricAttr} (hp : p ∈ mv.metricAttrs) (hq : q ∈ mv.metricAttrs)
    (hpe : p.2.state ≠ stateExpired) (hqe : q.2.state ≠ stateExpired)
    (hl : p.2.labelValues = q.2.labelValues) : p = q := by
  obtain ⟨c1, _, c3⟩ := h
  obtain ⟨_, p2, p3⟩ := c3 p hp
  obtain ⟨_, q2, q3⟩ := c3 q hq
  have p3 := p3 hpe
  have q3 := q3 hqe
  rw [hl, q3] at p3
  have ht : q.2.tag = p.2.tag := (Prod.mk.inj p3).1
  rw [hl, ← ht, q2] at p2
  have h1 : q.1 = p.1 := Option.some.inj p2
  have g1 := GoMap.get_of_mem c1 hp
  have g2 := GoMap.get_of_mem c1 hq
  rw [h1, g1] at g2
  exact Prod.ext h1.symm (Option.some.inj g2)

/-! ## One entry per label tuple -/

theorem nodup_filterMap_on {α β : Type} (f : α → Option β) :
    ∀ (l : List α), l.Nodup →
      (∀ p ∈ l, ∀ q ∈ l, ∀ b, f p = some b → f q = some b → p = q) →
      (l.filterMap f).Nodup
  | [], _, _ => by simp
  | a :: t, hn, hinj => by
    have ht := nodup_filterMap_on f t (List.nodup_cons.mp hn).2
      (fun p hp q hq => hinj p (List.mem_cons_of_mem _ hp) q (List.mem_cons_of_mem _ hq))
    cases hfa : f a with
    | none =>
      simp only [List.filterMap_cons, hfa]
      exact ht
    | some b =>
      simp only [List.filterMap_cons, hfa]
      refine List.nodup_cons.mpr ⟨?_, ht⟩
      intro hb
      obtain ⟨q, hq, hfq⟩ := List.mem_filterMap.mp hb
      have e := hinj a (List.mem_cons_self _ _) q (List.mem_cons_of_mem _ hq) b hfa hfq
      subst e
      exact (List.nodup_cons.mp hn).1 hq

theorem sampleOf_not_expired {metric : Nat} {a : metricAttr} {W : Duration} {now : Time}
    {smp : Sample} (h : sampleOf metric (a.onCollect W now) = some smp) :
    a.state ≠ stateExpired := by
  intro hex
  rw [metricAttr.onCollect_expired _ _ hex] at h
  simp [sampleOf, hex] at h

/-- In a consistent vector the samples a scan at any clock value sends are
sent for entries whose label values are pairwise different. -/
theorem MetricVec.consistent_collected {mv : MetricVec} (hc : mv.Consistent) (now : Time) :
    ((mv.collectedEntries now).map Prod.fst = (mv.Collect now).1) ∧
    ((mv.collectedEntries now).map Prod.snd).Nodup := by
  refine ⟨?_, ?_⟩
  · simp only [MetricVec.collectedEntries, MetricVec.Collect, collectLoop_samples,
      List.map_filterMap]
    congr 1
    funext p
    cases sampleOf p.1 (p.2.onCollect mv.opts.WarmUpDuration now) <;> rfl
  · simp only [MetricVec.collectedEntries, List.map_filterMap]
    apply nodup_filterMap_on
    · exact List.Nodup.of_map _ hc.1
    · intro p hp q hq b h1 h2
      cases hsp : sampleOf p.1 (p.2.onCollect mv.opts.WarmUpDuration now) with
      | none => simp [hsp] at h1
      | some x =>
        cases hsq : sampleOf q.1 (q.2.onCollect mv.opts.WarmUpDuration now) with
        | none => simp [hsq] at h2
        | some y =>
          simp only [hsp, Option.map_some', Option.bind_some, Option.some.injEq] at h1
          simp only [hsq, Option.map_some', Option.bind_some, Option.some.injEq] at h2
          exact MetricVec.consistent_unique hc hp hq (sampleOf_not_expired hsp)
            (sampleOf_not_expired hsq) (h1.trans h2.symm)

/-! ## Expiration delay zero -/

theorem metricAttr.onCollect_no_deadline {a : metricAttr} (W : Duration) (now : Time)
    (hd : a.activeDeadLine = 0) (hs : a.state ≠ stateExpired) :
    (a.onCollect W now).state ≠ stateExpired := by
  unfold metricAttr.onCollect
  split_ifs with h1 h2 h3
  · simp
  · simp
  · simp [Time.IsZero, hd] at h3
  · exact hs

theorem MetricVec.deleteMetric_attrs (mv : MetricVec) (labelValues : List String) :
    (mv.deleteMetric labelValues).2.opts = mv.opts ∧
    ∀ p ∈ (mv.deleteMetric labelValues).2.metricAttrs, p ∈ mv.metricAttrs := by
  cases hp : (mv.tags.Get labelValues).2 with
  | false =>
    rw [MetricVec.deleteMetric_absent hp]
    exact ⟨rfl, fun _ h => h⟩
  | true =>
    rw [MetricVec.deleteMetric_present hp]
    refine ⟨rfl, ?_⟩
    intro p hpm
    simp only at hpm
    split at hpm
    · exact (GoMap.mem_delete hpm).1
    · exact hpm

theorem MetricVec.sweep_subset (l : List (Option Nat)) :
    ∀ (mv : MetricVec), ∀ p ∈ (mv.sweep l).metricAttrs, p ∈ mv.metricAttrs := by
  induction l with
  | nil => intro mv p hp; exact hp
  | cons x rest ih =>
    intro mv p hp
    have h1 := ih (mv.deleteMetricByInstance x).2 p hp
    rcases (MetricVec.deleteMetricByInstance_attrs mv x).2 with e | ⟨m0, _, e⟩
    · rw [e] at h1
      exact h1
    · rw [e] at h1
      exact (GoMap.mem_delete h1).1

/-- Every operation keeps the vector without expiry. -/
theorem System.step_noExpiry (s : System) (op : Op) (h : s.vec.NoExpiry) :
    (s.step op).2.vec.NoExpiry := by
  obtain ⟨hD, hE⟩ := h
  cases op with
  | get now labelValues =>
    obtain ⟨c1, c2⟩ := MetricVec.GetMetricWithLabelValues_cases s.vec now labelValues
    refine ⟨(congrArg metricOpts.ExpirationDelay c1).trans hD, ?_⟩
    intro p hp
    simp only [System.step] at hp
    rcases c2 with ⟨m, a0, _, h2, _, _, h5⟩ | ⟨m, _, _, h5⟩ | ⟨_, _, h5⟩
    · rw [h5] at hp
      rcases GoMap.mem_set hp with e | hp1
      · have h0 := hE _ (GoMap.mem_of_get h2)
        subst e
        simp only [metricAttr.onAccess_activeDeadLine, metricAttr.onAccess_state, hD]
        exact ⟨by simpa using h0.1, h0.2⟩
      · exact hE p hp1
    · rw [h5] at hp
      rcases GoMap.mem_set hp with e | hp1
      · subst e
        simp only [metricAttr.onAccess_activeDeadLine, metricAttr.onAccess_state, hD]
        exact ⟨by simp, by simp⟩
      · exact hE p hp1
    · rw [h5] at hp
      exact hE p hp
  | delete labelValues =>
    obtain ⟨c1, c2⟩ := MetricVec.deleteMetric_attrs s.vec labelValues
    exact ⟨(congrArg metricOpts.ExpirationDelay c1).trans hD, fun p hp => hE p (c2 p hp)⟩
  | reset =>
    refine ⟨hD, ?_⟩
    intro p hp
    cases hp
  | collect now =>
    refine ⟨hD, ?_⟩
    intro p hp
    simp only [System.step, MetricVec.Collect, collectLoop_attrs, List.mem_map] at hp
    obtain ⟨q, hq, rfl⟩ := hp
    obtain ⟨q1, q2⟩ := hE q hq
    refine ⟨?_, metricAttr.onCollect_no_deadline _ _ q1 q2⟩
    simp only [metricAttr.onCollect_activeDeadLine]
    exact q1
  | sweep k =>
    simp only [System.step]
    cases hk : s.pending.get? k with
    | none => exact ⟨hD, hE⟩
    | some l =>
      exact ⟨(congrArg metricOpts.ExpirationDelay (MetricVec.sweep_opts s.vec l)).trans hD,
        fun p hp => hE p (MetricVec.sweep_subset l s.vec p hp)⟩

theorem collectLoop_all_sampled (opts : metricOpts) (now : Time) :
    ∀ (l : GoMap Nat metricAttr),
      (∀ p ∈ l, (p.2.onCollect opts.WarmUpDuration now).state ≠ stateExpired) →
      (collectLoop opts now l).1.map Sample.metric = GoMap.keys l ∧
        (collectLoop opts now l).2.1 = []
  | [], _ => ⟨rfl, rfl⟩
  | (metric, attr) :: rest, h => by
    obtain ⟨i1, i2⟩ := collectLoop_all_sampled opts now rest
      (fun p hp => h p (List.mem_cons_of_mem _ hp))
    have h0 := h (metric, attr) (List.mem_cons_self _ _)
    simp only at h0
    simp only [collectLoop, if_neg h0]
    split
    · exact ⟨by simpa [Sample.metric, GoMap.keys] using i1, i2⟩
    · exact ⟨by simpa [Sample.metric, GoMap.keys] using i1, i2⟩

/-- C18: for every vector configured with expiration delay zero, in every state
reached from the empty vector by get-or-create, delete, reset, collection scans
and sweeps at any clock values, no entry of the instance map is in state
Expired; a scan at any clock value then sends one sample per entry, in the
order of the entries, and its removal list holds nothing but its 16 initial
nil elements. -/
theorem C18_no_expiration_with_zero_delay (opts : metricOpts) (labelNames : List String)
    (hD : opts.ExpirationDelay = 0) (ops : List Op) (now : Time) :
    (∀ p ∈ ((System.init opts labelNames).run ops).vec.metricAttrs,
      p.2.state ≠ stateExpired) ∧
    ((((System.init opts labelNames).run ops).vec.Collect now).1.map Sample.metric
      = GoMap.keys ((System.init opts labelNames).run ops).vec.metricAttrs) ∧
    (((System.init opts labelNames).run ops).vec.Collect now).2.1 = List.replicate 16 none ∧
    (∀ p ∈ (((System.init opts labelNames).run ops).vec.Collect now).2.2.metricAttrs,
      p.2.state ≠ stateExpired) := by
  have hn : ((System.init opts labelNames).run ops).vec.NoExpiry :=
    System.run_induction (fun s => s.vec.NoExpiry) (fun _ => True)
      (fun s op _ h => System.step_noExpiry s op h) ops (System.init opts labelNames)
      (fun _ _ => trivial) ⟨hD, fun p hp => by cases hp⟩
  generalize ((System.init opts labelNames).run ops).vec = mv at hn
  have hs : ∀ p ∈ mv.metricAttrs,
      (p.2.onCollect mv.opts.WarmUpDuration now).state ≠ stateExpired :=
    fun p hp => metricAttr.onCollect_no_deadline _ _ (hn.2 p hp).1 (hn.2 p hp).2
  obtain ⟨a1, a2⟩ := collectLoop_all_sampled mv.opts now mv.metricAttrs hs
  refine ⟨fun p hp => (hn.2 p hp).2, a1, ?_, ?_⟩
  · simp only [MetricVec.Collect, a2, List.append_nil]
  · intro p hp
    simp only [MetricVec.Collect, collectLoop_attrs, List.mem_map] at hp
    obtain ⟨q, hq, rfl⟩ := hp
    exact hs q hq

theorem C18_no_expiration_with_zero_delay_witness :
    zeroOpts.ExpirationDelay = 0 ∧
    (((System.init zeroOpts ["label"]).run
        [Op.get defaultTime ["toto"], Op.collect (defaultTime + 1),
          Op.collect (defaultTime + 2)]).vec.Collect
      (defaultTime + 1000000000000000)).1 = [Sample.live 0] ∧
    (((System.init zeroOpts ["label"]).run
        [Op.get defaultTime ["toto"], Op.collect (defaultTime + 1),
          Op.collect (defaultTime + 2)]).vec.Collect
      (defaultTime + 1000000000000000)).2.1 = List.replicate 16 none :=
  ⟨rfl, by decide,
    (C18_no_expiration_with_zero_delay zeroOpts ["label"] rfl
      [Op.get defaultTime ["toto"], Op.collect (defaultTime + 1),
        Op.collect (defaultTime + 2)] (defaultTime + 1000000000000000)).2.2.1⟩

/-! ## Claims about the removal of expired instances -/

/-- C21: for every vector state whose index holds no key twice in a bucket, and
every instance `m` with an entry `a` in the instance map:
`deleteMetricByInstance` returns true and removes that entry, leaving the
entries of all other instances (in particular an entry of a newer generation
of the same label values) as they are.  When the index does not map the label
values of `a` to the tag of `a` (it maps them to another tag, or to none) the
index is unchanged; when it maps them to the tag of `a` the index entry of
these label values is deleted and they are not found any more.  In every case
what the index holds for other label values is unchanged. -/
theorem C21_delete_by_instance (mv : MetricVec) (hw : mv.tags.WF) (m : Nat) (a : metricAttr)
    (ha : GoMap.get mv.metricAttrs m = some a) :
    (mv.deleteMetricByInstance (some m)).1 = true ∧
    GoMap.get (mv.deleteMetricByInstance (some m)).2.metricAttrs m = none ∧
    (∀ m2, m2 ≠ m →
      GoMap.get (mv.deleteMetricByInstance (some m)).2.metricAttrs m2
        = GoMap.get mv.metricAttrs m2) ∧
    (∀ m2 a2, GoMap.get mv.metricAttrs m2 = some a2 → a2.tag ≠ a.tag →
      GoMap.get (mv.deleteMetricByInstance (some m)).2.metricAttrs m2 = some a2) ∧
    (mv.tags.Get a.labelValues ≠ (a.tag, true) →
      (mv.deleteMetricByInstance (some m)).2.tags = mv.tags) ∧
    (mv.tags.Get a.labelValues = (a.tag, true) →
      (mv.deleteMetricByInstance (some m)).2.tags = mv.tags.Delete a.labelValues ∧
      (mv.deleteMetricByInstance (some m)).2.tags.Get a.labelValues = ("", false)) ∧
    (∀ other, other ≠ a.labelValues →
      (mv.deleteMetricByInstance (some m)).2.tags.Get other = mv.tags.Get other) := by
  have hne : ∀ m2 a2, GoMap.get mv.metricAttrs m2 = some a2 → a2.tag ≠ a.tag → m2 ≠ m := by
    intro m2 a2 h2 ht c
    rw [c, ha] at h2
    exact ht (congrArg metricAttr.tag (Option.some.inj h2)).symm
  unfold MetricVec.deleteMetricByInstance
  simp only [ha]
  cases hg : mv.tags.Get a.labelValues with
  | mk tag present =>
    by_cases hc : present = true ∧ tag = a.tag
    · simp only [if_pos hc]
      obtain ⟨hc1, hc2⟩ := hc
      subst hc1 hc2
      refine ⟨trivial, GoMap.get_delete_same _ _, fun m2 h2 => GoMap.get_delete_ne _ h2,
        ?_, fun h => absurd rfl h, fun _ => ⟨trivial, tagMap.Get_Delete_same hw _⟩,
        fun other ho => tagMap.Get_Delete_ne hw ho⟩
      intro m2 a2 h2 ht
      rw [GoMap.get_delete_ne _ (hne m2 a2 h2 ht)]
      exact h2
    · simp only [if_neg hc]
      refine ⟨trivial, GoMap.get_delete_same _ _, fun m2 h2 => GoMap.get_delete_ne _ h2,
        ?_, fun _ => trivial, ?_, fun other _ => trivial⟩
      · intro m2 a2 h2 ht
        rw [GoMap.get_delete_ne _ (hne m2 a2 h2 ht)]
        exact h2
      · intro h
        exfalso
        apply hc
        exact ⟨(Prod.mk.inj h).2, (Prod.mk.inj h).1⟩

/-- Witness of C21: in the vector of the tests after `toto` was requested, the
instance 0 is deleted while the index maps `toto` to its tag. -/
theorem C21_delete_by_instance_witness :
    exampleVec.tags.WF ∧ GoMap.get exampleVec.metricAttrs 0 = some exampleAttr ∧
    (exampleVec.deleteMetricByInstance (some 0)).1 = true ∧
    GoMap.get (exampleVec.deleteMetricByInstance (some 0)).2.metricAttrs 0 = none :=
  ⟨by decide, by decide,
    (C21_delete_by_instance exampleVec (by decide) 0 exampleAttr (by decide)).1,
    (C21_delete_by_instance exampleVec (by decide) 0 exampleAttr (by decide)).2.1⟩

/-! ## The instances of the registry -/

theorem GoMap.get_delete_some {K V : Type} [DecidableEq K] {m : GoMap K V} {k k1 : K} {x : V}
    (h : GoMap.get (GoMap.delete m k) k1 = some x) : k1 ≠ k ∧ GoMap.get m k1 = some x := by
  by_cases hk : k1 = k
  · rw [hk, GoMap.get_delete_same] at h
    cases h
  · rw [GoMap.get_delete_ne _ hk] at h
    exact ⟨hk, h⟩

/-- An instance returned by the lookup/create of the registry was stored for
the label values, or is the newly allocated one. -/
theorem PromVec.get_ok_cases {v pv : PromVec} {lvs : List String} {m : Nat}
    (h : v.GetMetricWithLabelValues lvs = (Except.ok m, pv)) :
    GoMap.get v.children lvs = some m ∨ m = v.nextMetric := by
  unfold PromVec.GetMetricWithLabelValues at h
  by_cases hl : lvs.length ≠ v.labelNames.length
  · rw [if_pos hl] at h
    simp at h
  · rw [if_neg hl] at h
    cases hg : GoMap.get v.children lvs with
    | some x =>
      rw [hg] at h
      simp only [Prod.mk.injEq, Except.ok.injEq] at h
      exact Or.inl (by rw [h.1])
    | none =>
      rw [hg] at h
      simp only [Prod.mk.injEq, Except.ok.injEq] at h
      exact Or.inr h.1.symm

theorem PromVec.sound_get {v : PromVec} (h : v.Sound) (lvs : List String) :
    (v.GetMetricWithLabelValues lvs).2.Sound := by
  unfold PromVec.GetMetricWithLabelValues
  by_cases hl : lvs.length ≠ v.labelNames.length
  · rw [if_pos hl]
    exact h
  · rw [if_neg hl]
    cases hg : GoMap.get v.children lvs with
    | some x => exact h
    | none =>
      obtain ⟨h1, h2⟩ := h
      have old : ∀ k x, k ≠ lvs →
          GoMap.get (GoMap.set v.children lvs v.nextMetric) k = some x →
          GoMap.get v.children k = some x := by
        intro k x hk hx
        rw [GoMap.get_set_ne _ _ hk] at hx
        exact hx
      have new : ∀ x, GoMap.get (GoMap.set v.children lvs v.nextMetric) lvs = some x →
          x = v.nextMetric := by
        intro x hx
        rw [GoMap.get_set_same] at hx
        exact (Option.some.inj hx).symm
      refine ⟨?_, ?_⟩
      · intro k x hx
        simp only at hx ⊢
        by_cases hk : k = lvs
        · rw [hk] at hx
          rw [new x hx]
          exact Nat.lt_succ_self _
        · exact Nat.lt_succ_of_lt (h1 k x (old k x hk hx))
      · intro k1 k2 x hx1 hx2
        simp only at hx1 hx2
        by_cases hk1 : k1 = lvs
        · by_cases hk2 : k2 = lvs
          · rw [hk1, hk2]
          · exfalso
            rw [hk1] at hx1
            have e := new x hx1
            have := h1 k2 x (old k2 x hk2 hx2)
            rw [e] at this
            exact Nat.lt_irrefl _ this
        · by_cases hk2 : k2 = lvs
          · exfalso
            rw [hk2] at hx2
            have e := new x hx2
            have := h1 k1 x (old k1 x hk1 hx1)
            rw [e] at this
            exact Nat.lt_irrefl _ this
          · exact h2 k1 k2 x (old k1 x hk1 hx1) (old k2 x hk2 hx2)

theorem PromVec.sound_delete {v : PromVec} (h : v.Sound) (lvs : List String) :
    (v.DeleteLabelValues lvs).2.Sound := by
  unfold PromVec.DeleteLabelValues
  split
  · exact h
  · obtain ⟨h1, h2⟩ := h
    refine ⟨?_, ?_⟩
    · intro k x hx
      exact h1 k x (GoMap.get_delete_some hx).2
    · intro k1 k2 x hx1 hx2
      exact h2 k1 k2 x (GoMap.get_delete_some hx1).2 (GoMap.get_delete_some hx2).2

theorem PromVec.sound_reset {v : PromVec} : v.Reset.Sound := by
  refine ⟨?_, ?_⟩
  · intro k x hx
    cases hx
  · intro k1 k2 x hx1
    cases hx1

theorem MetricVec.sound_getMetric {mv : MetricVec} (h : mv.metricVec.Sound) (now : Time)
    (labelValues : List String) : (mv.getMetric now labelValues).2.metricVec.Sound := by
  unfold MetricVec.getMetric
  cases hg : mv.tags.Get labelValues with
  | mk tag present =>
    cases present with
    | false => exact h
    | true =>
      simp only [Bool.true_eq_false, if_false]
      have hx := PromVec.sound_get h (labelValues ++ [tag])
      cases hr : mv.metricVec.GetMetricWithLabelValues (labelValues ++ [tag]) with
      | mk r pv =>
        rw [hr] at hx
        cases r with
        | error e => exact hx
        | ok metric =>
          dsimp only
          cases ha : GoMap.get mv.metricAttrs metric with
          | none => exact hx
          | some attr =>
            dsimp only
            split <;> exact hx

theorem MetricVec.sound_addMetric {mv : MetricVec} (h : mv.metricVec.Sound) (now : Time)
    (labelValues : List String) : (mv.addMetric now labelValues).2.metricVec.Sound := by
  simp only [MetricVec.addMetric]
  have hx := PromVec.sound_get h (labelValues ++ [generateLifeCycleTag now])
  cases hr : mv.metricVec.GetMetricWithLabelValues
      (labelValues ++ [generateLifeCycleTag now]) with
  | mk r pv =>
    rw [hr] at hx
    cases r with
    | error e => exact hx
    | ok metric => exact hx

theorem MetricVec.sound_GetMetricWithLabelValues {mv : MetricVec} (h : mv.metricVec.Sound)
    (now : Time) (labelValues : List String) :
    (mv.GetMetricWithLabelValues now labelValues).2.metricVec.Sound := by
  have h1 := MetricVec.sound_getMetric h now labelValues
  unfold MetricVec.GetMetricWithLabelValues
  split
  · rename_i mv1 e1
    rw [e1] at h1
    have h2 := MetricVec.sound_getMetric h1 now labelValues
    split
    · rename_i mv2 e2
      rw [e2] at h2
      exact MetricVec.sound_addMetric h2 now labelValues
    · rename_i r mv2 hne e2
      rw [e2] at h2
      exact h2
  · rename_i r mv1 hne e1
    rw [e1] at h1
    exact h1

theorem MetricVec.sound_deleteMetric {mv : MetricVec} (h : mv.metricVec.Sound)
    (labelValues : List String) : (mv.deleteMetric labelValues).2.metricVec.Sound := by
  cases hp : (mv.tags.Get labelValues).2 with
  | false =>
    rw [MetricVec.deleteMetric_absent hp]
    exact h
  | true =>
    rw [MetricVec.deleteMetric_present hp]
    exact PromVec.sound_delete (PromVec.sound_get h _) _

theorem MetricVec.sound_deleteMetricByInstance {mv : MetricVec} (h : mv.metricVec.Sound)
    (x : Option Nat) : (mv.deleteMetricByInstance x).2.metricVec.Sound := by
  unfold MetricVec.deleteMetricByInstance
  cases x with
  | none => exact h
  | some m =>
    dsimp only
    cases ha : GoMap.get mv.metricAttrs m with
    | none => exact h
    | some attr =>
      dsimp only
      split <;> exact PromVec.sound_delete h _

theorem MetricVec.sound_sweep (l : List (Option Nat)) :
    ∀ {mv : MetricVec}, mv.metricVec.Sound → (mv.sweep l).metricVec.Sound := by
  induction l with
  | nil => intro mv h; exact h
  | cons x rest ih =>
    intro mv h
    exact ih (MetricVec.sound_deleteMetricByInstance h x)

/-- Every operation keeps the registry of the system sound. -/
theorem System.step_sound (s : System) (op : Op) (h : s.vec.metricVec.Sound) :
    (s.step op).2.vec.metricVec.Sound := by
  cases op with
  | get now labelValues => exact MetricVec.sound_GetMetricWithLabelValues h now labelValues
  | delete labelValues => exact MetricVec.sound_deleteMetric h labelValues
  | reset => exact PromVec.sound_reset
  | collect now => exact h
  | sweep k =>
    simp only [System.step]
    cases hk : s.pending.get? k with
    | none => exact h
    | some l => exact MetricVec.sound_sweep l h

/-- In every state reached from the empty vector the registry is sound. -/
theorem System.reachable_sound (opts : metricOpts) (labelNames : List String)
    (ops : List Op) : ((System.init opts labelNames).run ops).vec.metricVec.Sound :=
  System.run_induction (fun s => s.vec.metricVec.Sound) (fun _ => True)
    (fun s op _ h => System.step_sound s op h) ops (System.init opts labelNames)
    (fun _ _ => trivial)
    ⟨fun _ _ hx => (by cases hx), fun _ _ _ hx => (by cases hx)⟩

/-- In a consistent vector, deleting another instance keeps a live entry in
place: the index entry of its label values, its registry child and its entry
of the instance map. -/
theorem MetricVec.live_deleteMetricByInstance {mv : MetricVec} (h : mv.Consistent)
    {labelValues : List String} {m : Nat} (hl : mv.Live labelValues m) {x : Option Nat}
    (hx : x ≠ some m) :
    (mv.deleteMetricByInstance x).2.Live labelValues m ∧
    GoMap.get (mv.deleteMetricByInstance x).2.metricAttrs m = GoMap.get mv.metricAttrs m ∧
    (mv.deleteMetricByInstance x).2.tags.Get labelValues = mv.tags.Get labelValues := by
  obtain ⟨l1, l2, l3, a, l4, l5⟩ := hl
  unfold MetricVec.deleteMetricByInstance
  cases x with
  | none => exact ⟨⟨l1, l2, l3, a, l4, l5⟩, rfl, rfl⟩
  | some m0 =>
    have hm : m ≠ m0 := fun c => hx (by rw [c])
    dsimp only
    cases ha : GoMap.get mv.metricAttrs m0 with
    | none => exact ⟨⟨l1, l2, l3, a, l4, l5⟩, rfl, rfl⟩
    | some attr =>
      dsimp only
      obtain ⟨c1, c2, c3⟩ := h
      have hk : labelValues ++ [(mv.tags.Get labelValues).1]
          ≠ attr.labelValues ++ [attr.tag] := by
        intro c
        have g := (c3 (m0, attr) (GoMap.mem_of_get ha)).2.1
        simp only at g
        rw [← c, l3] at g
        exact hm (Option.some.inj g)
      have reg : GoMap.get (mv.metricVec.DeleteLabelValues
            (attr.labelValues ++ [attr.tag])).2.children
            (labelValues ++ [(mv.tags.Get labelValues).1]) = some m := by
        rw [PromVec.delete_get_ne _ hk]
        exact l3
      have len : (labelValues ++ [(mv.tags.Get labelValues).1]).length
          = (mv.metricVec.DeleteLabelValues
              (attr.labelValues ++ [attr.tag])).2.labelNames.length := by
        rw [PromVec.delete_labelNames]
        exact l2
      have hat : GoMap.get (GoMap.delete mv.metricAttrs m0) m = some a := by
        rw [GoMap.get_delete_ne _ hm]
        exact l4
      cases hg : mv.tags.Get attr.labelValues with
      | mk tag present =>
        dsimp only
        split
        · rename_i hc
          have hne : labelValues ≠ attr.labelValues := by
            intro c
            apply hk
            rw [c, hg, hc.2]
          have ht : (mv.tags.Delete attr.labelValues).Get labelValues
              = mv.tags.Get labelValues := tagMap.Get_Delete_ne c2 hne
          refine ⟨⟨?_, ?_, ?_, a, hat, l5⟩, ?_, ht⟩
          · simp only [ht]
            exact l1
          · simp only [ht]
            exact len
          · simp only [ht]
            exact reg
          · simp only
            rw [GoMap.get_delete_ne _ hm]
        · refine ⟨⟨l1, len, reg, a, hat, l5⟩, ?_, rfl⟩
          simp only
          rw [GoMap.get_delete_ne _ hm]

/-- In a consistent vector, a sweep whose removal list does not hold the
instance of a live entry keeps that entry in place. -/
theorem MetricVec.live_sweep (l : List (Option Nat)) :
    ∀ {mv : MetricVec}, mv.Consistent → ∀ {labelValues : List String} {m : Nat},
      mv.Live labelValues m → some m ∉ l →
      (mv.sweep l).Live labelValues m ∧
      GoMap.get (mv.sweep l).metricAttrs m = GoMap.get mv.metricAttrs m ∧
      (mv.sweep l).tags.Get labelValues = mv.tags.Get labelValues := by
  induction l with
  | nil => intro mv _ labelValues m hl _; exact ⟨hl, rfl, rfl⟩
  | cons x rest ih =>
    intro mv h labelValues m hl hn
    have hx : x ≠ some m := fun c => hn (by rw [c]; exact List.mem_cons_self _ _)
    obtain ⟨s1, s2, s3⟩ := MetricVec.live_deleteMetricByInstance h hl hx
    obtain ⟨r1, r2, r3⟩ := ih (MetricVec.consistent_deleteMetricByInstance h x) s1
      (fun c => hn (List.mem_cons_of_mem _ c))
    exact ⟨r1, r2.trans s2, r3.trans s3⟩

/-- In a consistent vector with a sound registry, when no entry of the label
values carries the tag generated at `now`, the instance the creation path
returns has no entry in the instance map before. -/
theorem MetricVec.addMetric_fresh {mv : MetricVec} (h : mv.Consistent)
    (hs : mv.metricVec.Sound) {now : Time} {labelValues : List String}
    (ht : ∀ p ∈ mv.metricAttrs, p.2.labelValues = labelValues →
      p.2.tag ≠ generateLifeCycleTag now)
    {m : Nat} {err : Option String}
    (hm : (mv.addMetric now labelValues).1 = (some m, err)) :
    GoMap.get mv.metricAttrs m = none := by
  simp only [MetricVec.addMetric] at hm
  cases hr : mv.metricVec.GetMetricWithLabelValues
      (labelValues ++ [generateLifeCycleTag now]) with
  | mk r pv =>
    rw [hr] at hm
    cases r with
    | error e => simp at hm
    | ok metric =>
      simp only [Prod.mk.injEq, Option.some.injEq] at hm
      obtain ⟨hm1, _⟩ := hm
      subst hm1
      cases hg : GoMap.get mv.metricAttrs metric with
      | none => rfl
      | some a =>
        exfalso
        have hmem := GoMap.mem_of_get hg
        have g2 := (h.2.2 (metric, a) hmem).2.1
        simp only at g2
        rcases PromVec.get_ok_cases hr with hc | hc
        · have hk := hs.2 _ _ _ g2 hc
          obtain ⟨k1, k2⟩ := registryKey_inj hk
          exact ht (metric, a) hmem k1 k2
        · have := hs.1 _ _ g2
          rw [hc] at this
          exact Nat.lt_irrefl _ this

theorem assertM_returned {r : Option Nat × Option String} {m : Nat} {err : Option String}
    (h : assertM r = CallResult.returned m err) : r = (some m, err) := by
  obtain ⟨x, e⟩ := r
  cases x with
  | none => simp [assertM] at h
  | some y =>
    simp only [assertM, CallResult.returned.injEq] at h
    rw [h.1, h.2]

theorem MetricVec.getMetric_hit {mv : MetricVec} {now : Time} {labelValues : List String}
    {m : Nat} {err : Option String}
    (h : (mv.getMetric now labelValues).1 = (some m, err)) :
    ∃ a0, GoMap.get mv.metricAttrs m = some a0 ∧ a0.state ≠ stateExpired := by
  rcases (MetricVec.getMetric_cases mv now labelValues).2.2 with
    ⟨m0, a0, h1, h2, h3, _⟩ | ⟨⟨e, h1⟩, _⟩
  · rw [h1] at h
    simp only [Prod.mk.injEq, Option.some.injEq] at h
    rw [← h.1]
    exact ⟨a0, h2, h3⟩
  · rw [h1] at h
    simp at h

theorem MetricVec.getMetric_miss_attrs {mv : MetricVec} {now : Time}
    {labelValues : List String} (h : (mv.getMetric now labelValues).1 = (none, none)) :
    (mv.getMetric now labelValues).2.metricAttrs = mv.metricAttrs := by
  rcases (MetricVec.getMetric_cases mv now labelValues).2.2 with
    ⟨m0, a0, h1, _⟩ | ⟨_, h5⟩
  · rw [h1] at h
    simp at h
  · exact h5

/-- In a consistent vector with a sound registry, when no expired entry of the
label values carries the tag generated at `now`, the instance that
`GetMetricWithLabelValues` returns has no expired entry in the instance map
before the call: it has no entry (it is created) or one that is not expired
(it is found). -/
theorem MetricVec.GetMetricWithLabelValues_origin {mv mv2 : MetricVec} (h : mv.Consistent)
    (hs : mv.metricVec.Sound) {now : Time} {labelValues : List String} {m1 : Nat}
    {err : Option String}
    (ht : ∀ p ∈ mv.metricAttrs, p.2.labelValues = labelValues → p.2.state = stateExpired →
      p.2.tag ≠ generateLifeCycleTag now)
    (hget : mv.GetMetricWithLabelValues now labelValues = (CallResult.returned m1 err, mv2)) :
    ∀ a, GoMap.get mv.metricAttrs m1 = some a → a.state ≠ stateExpired := by
  intro a ha
  unfold MetricVec.GetMetricWithLabelValues at hget
  split at hget
  · rename_i mv1 e1
    have a1 : mv1.metricAttrs = mv.metricAttrs := by
      have := MetricVec.getMetric_miss_attrs (congrArg Prod.fst e1)
      rw [e1] at this
      exact this
    have c1 : mv1.Consistent := by
      have := MetricVec.consistent_getMetric h now labelValues
      rw [e1] at this
      exact this
    have s1 : mv1.metricVec.Sound := by
      have := MetricVec.sound_getMetric hs now labelValues
      rw [e1] at this
      exact this
    have miss := MetricVec.consistent_miss h (congrArg Prod.fst e1)
    split at hget
    · rename_i mv3 e2
      have a3 : mv3.metricAttrs = mv1.metricAttrs := by
        have := MetricVec.getMetric_miss_attrs (congrArg Prod.fst e2)
        rw [e2] at this
        exact this
      have c3 : mv3.Consistent := by
        have := MetricVec.consistent_getMetric c1 now labelValues
        rw [e2] at this
        exact this
      have s3 : mv3.metricVec.Sound := by
        have := MetricVec.sound_getMetric s1 now labelValues
        rw [e2] at this
        exact this
      have hr := assertM_returned (congrArg Prod.fst hget)
      have hf := MetricVec.addMetric_fresh c3 s3
        (by
          intro p hp hl
          rw [a3, a1] at hp
          exact ht p hp hl (miss p hp hl)) hr
      rw [a3, a1, ha] at hf
      cases hf
    · rename_i r mv3 hne e2
      have hr := assertM_returned (congrArg Prod.fst hget)
      simp only at hr
      obtain ⟨a0, g1, g2⟩ := MetricVec.getMetric_hit
        (show (mv1.getMetric now labelValues).1 = (some m1, err) by rw [e2]; exact hr)
      rw [a1, ha] at g1
      rw [Option.some.inj g1]
      exact g2
  · rename_i r mv1 hne e1
    have hr := assertM_returned (congrArg Prod.fst hget)
    simp only at hr
    obtain ⟨a0, g1, g2⟩ := MetricVec.getMetric_hit
      (show (mv.getMetric now labelValues).1 = (some m1, err) by rw [e1]; exact hr)
    rw [ha] at g1
    rw [Option.some.inj g1]
    exact g2

theorem MetricVec.GetMetricWithLabelValues_of_Live {mv : MetricVec} {labelValues : List String}
    {m : Nat} (now : Time) (hl : mv.Live labelValues m) :
    (mv.GetMetricWithLabelValues now labelValues).1 = CallResult.returned m none := by
  obtain ⟨a, ha, _⟩ := hl.2.2.2
  have hg := MetricVec.getMetric_of_Live now hl ha
  unfold MetricVec.GetMetricWithLabelValues
  rw [hg]
  rfl

/-- C22, counterexample: the entry of `toto` is created at `defaultTime` and a
scan 600 milliseconds later finds it expired and puts its instance 0 on the
removal list.  Before the sweep runs, `toto` is requested again, 700
milliseconds after `defaultTime` and so in the same Unix second: the entry is
recreated under the same tag and the same instance 0.  The sweep then removes
the recreated entry and its index entry, and the next request of `toto`
returns another instance. -/
theorem C22_counterexample :
    some 0 ∈ quickPending ∧
    (GoMap.get quickVec.metricAttrs 0).map metricAttr.state = some stateExpired ∧
    (quickVec.GetMetricWithLabelValues (defaultTime + 700000000) ["toto"]).1
      = CallResult.returned 0 none ∧
    (GoMap.get raceVec.metricAttrs 0).map metricAttr.state = some stateWarmUpPending ∧
    raceVec.tags.Get ["toto"] = ("48ab9774", true) ∧
    GoMap.get (raceVec.sweep quickPending).metricAttrs 0 = none ∧
    (raceVec.sweep quickPending).tags.Get ["toto"] = ("", false) ∧
    ((raceVec.sweep quickPending).GetMetricWithLabelValues (defaultTime + 800000000)
      ["toto"]).1 = CallResult.returned 1 none := by
  decide

/-- C22, amended: in a state reached from the empty vector a scan at `t` runs,
then `GetMetricWithLabelValues` of the label values at `now1` returns an
instance, before the sweep of the scan has run, and the tag generated at
`now1` differs from the tag of every entry of these label values that the scan
left expired (the recreation happens in another Unix second than their
creation).  Then after the sweep of the scan the returned instance is still
live for the label values: the index maps them to the same tag as before the
sweep, the registry maps them with that tag to the instance, and the entry of
the instance is the one it was before the sweep, not expired; and a following
`GetMetricWithLabelValues` of the label values, at any clock value, returns
the same instance. -/
theorem C22_recreation_survives_sweep (opts : metricOpts) (labelNames : List String)
    (ops : List Op) (t now1 now2 : Time) (labelValues : List String) (m1 : Nat)
    (err : Option String) (mv2 : MetricVec)
    (ht : ∀ p ∈ (((System.init opts labelNames).run ops).vec.Collect t).2.2.metricAttrs,
      p.2.labelValues = labelValues → p.2.state = stateExpired →
      p.2.tag ≠ generateLifeCycleTag now1)
    (hget : (((System.init opts labelNames).run ops).vec.Collect t).2.2.GetMetricWithLabelValues
      now1 labelValues = (CallResult.returned m1 err, mv2)) :
    (mv2.sweep (((System.init opts labelNames).run ops).vec.Collect t).2.1).Live
      labelValues m1 ∧
    GoMap.get (mv2.sweep (((System.init opts labelNames).run ops).vec.Collect t).2.1).metricAttrs
      m1 = GoMap.get mv2.metricAttrs m1 ∧
    (mv2.sweep (((System.init opts labelNames).run ops).vec.Collect t).2.1).tags.Get labelValues
      = mv2.tags.Get labelValues ∧
    ((mv2.sweep (((System.init opts labelNames).run ops).vec.Collect
      t).2.1).GetMetricWithLabelValues now2 labelValues).1 = CallResult.returned m1 none := by
  have hc := System.reachable_consistent opts labelNames ops
  have hs := System.reachable_sound opts labelNames ops
  generalize ((System.init opts labelNames).run ops).vec = mv at hc hs ht hget
  have hc1 : (mv.Collect t).2.2.Consistent := MetricVec.consistent_Collect hc t
  have hs1 : (mv.Collect t).2.2.metricVec.Sound := hs
  have hc2 : mv2.Consistent := by
    have := MetricVec.consistent_GetMetricWithLabelValues hc1 now1 labelValues
    rw [hget] at this
    exact this
  have hl2 : mv2.Live labelValues m1 := (MetricVec.GetMetricWithLabelValues_returned hget).2
  have horigin := MetricVec.GetMetricWithLabelValues_origin hc1 hs1 ht hget
  have hn : some m1 ∉ (mv.Collect t).2.1 := by
    intro hm
    obtain ⟨a, ha, hx⟩ := (MetricVec.mem_Collect_expired mv t m1).mp hm
    have hmem : (m1, a.onCollect mv.opts.WarmUpDuration t) ∈ (mv.Collect t).2.2.metricAttrs := by
      simp only [MetricVec.Collect, collectLoop_attrs, List.mem_map]
      exact ⟨(m1, a), ha, rfl⟩
    exact horigin _ (GoMap.get_of_mem hc1.1 hmem) hx
  obtain ⟨r1, r2, r3⟩ := MetricVec.live_sweep (mv.Collect t).2.1 hc2 hl2 hn
  exact ⟨r1, r2, r3, MetricVec.GetMetricWithLabelValues_of_Live now2 r1⟩

/-- Witness of C22: with an expiration delay of ten seconds the entry of `toto`
is found expired by the scan eleven seconds after its creation; it is recreated
one second later, as instance 1, before the sweep; after the sweep the next
request of `toto` returns instance 1. -/
theorem C22_recreation_survives_sweep_witness :
    some 0 ∈ (((System.init expireOpts ["label"]).run recreateOps).vec.Collect
      (defaultTime + 11000000000)).2.1 ∧
    ((((System.init expireOpts ["label"]).run recreateOps).vec.Collect
      (defaultTime + 11000000000)).2.2.GetMetricWithLabelValues
        (defaultTime + 12000000000) ["toto"]).1 = CallResult.returned 1 none ∧
    ((((((System.init expireOpts ["label"]).run recreateOps).vec.Collect
        (defaultTime + 11000000000)).2.2.GetMetricWithLabelValues
        (defaultTime + 12000000000) ["toto"]).2.sweep
      (((System.init expireOpts ["label"]).run recreateOps).vec.Collect
        (defaultTime + 11000000000)).2.1).GetMetricWithLabelValues
      (defaultTime + 13000000000) ["toto"]).1 = CallResult.returned 1 none :=
  ⟨by decide, by decide,
    (C22_recreation_survives_sweep expireOpts ["label"] recreateOps
      (defaultTime + 11000000000) (defaultTime + 12000000000) (defaultTime + 13000000000)
      ["toto"] 1 none _ (by decide) (Prod.ext (by decide) rfl)).2.2.2⟩

/-! ## Claims about errors and label maps -/

theorem MetricVec.getMetric_rejects (mv : MetricVec) (now : Time) {labelValues : List String}
    (hl : labelValues.length + 1 ≠ mv.metricVec.labelNames.length) :
    ((mv.getMetric now labelValues).1 = (none, none) ∨
      (mv.getMetric now labelValues).1 = (none, some "inconsistent label cardinality")) ∧
    (mv.getMetric now labelValues).2 = mv := by
  unfold MetricVec.getMetric
  cases hg : mv.tags.Get labelValues with
  | mk tag present =>
    cases present with
    | false => exact ⟨Or.inl rfl, rfl⟩
    | true =>
      have hr : mv.metricVec.GetMetricWithLabelValues (labelValues ++ [tag])
          = (Except.error "inconsistent label cardinality", mv.metricVec) := by
        unfold PromVec.GetMetricWithLabelValues
        rw [if_pos (by simpa using hl)]
      simp only [Bool.true_eq_false, if_false, hr]
      exact ⟨Or.inr trivial, trivial⟩

theorem MetricVec.addMetric_rejects (mv : MetricVec) (now : Time) {labelValues : List String}
    (hl : labelValues.length + 1 ≠ mv.metricVec.labelNames.length) :
    mv.addMetric now labelValues = ((none, some "inconsistent label cardinality"), mv) := by
  have hr : mv.metricVec.GetMetricWithLabelValues (labelValues ++ [generateLifeCycleTag now])
      = (Except.error "inconsistent label cardinality", mv.metricVec) := by
    unfold PromVec.GetMetricWithLabelValues
    rw [if_pos (by simpa using hl)]
  simp only [MetricVec.addMetric, hr]

/-- C23, the behaviour of the code: when the number of label values is not the
number of label names the registry was declared with less the tag, so that
the registry rejects the label values with an error and a nil metric,
`GetMetricWithLabelValues` does not return the error: the type assertion on the
nil metric raises a run-time panic, the vector being unchanged; and in no case
does `GetMetricWithLabelValues` return an error next to a metric, so that
`WithLabelValues` is the same function. -/
theorem C23_registry_error_panics (mv : MetricVec) (now : Time) (labelValues : List String)
    (hl : labelValues.length + 1 ≠ mv.metricVec.labelNames.length) :
    mv.GetMetricWithLabelValues now labelValues
      = (CallResult.panicked (some "inconsistent label cardinality"), mv) ∧
    (∀ (mv0 : MetricVec) (t : Time) (lvs : List String) (m : Nat) (err : Option String),
      (mv0.GetMetricWithLabelValues t lvs).1 = CallResult.returned m err → err = none) ∧
    (∀ (mv0 : MetricVec) (t : Time) (lvs : List String),
      mv0.WithLabelValues t lvs = mv0.GetMetricWithLabelValues t lvs) := by
  have never : ∀ (mv0 : MetricVec) (t : Time) (lvs : List String) (m : Nat)
      (err : Option String),
      (mv0.GetMetricWithLabelValues t lvs).1 = CallResult.returned m err → err = none := by
    intro mv0 t lvs m err h
    exact (MetricVec.GetMetricWithLabelValues_returned
      (show mv0.GetMetricWithLabelValues t lvs
        = (CallResult.returned m err, (mv0.GetMetricWithLabelValues t lvs).2) from
        Prod.ext h rfl)).1
  refine ⟨?_, never, ?_⟩
  · obtain ⟨g1, g2⟩ := MetricVec.getMetric_rejects mv now hl
    have e : mv.getMetric now labelValues = ((mv.getMetric now labelValues).1, mv) :=
      Prod.ext rfl g2
    unfold MetricVec.GetMetricWithLabelValues
    rcases g1 with g1 | g1
    · rw [g1] at e
      rw [e]
      simp only
      rw [e]
      simp only [MetricVec.addMetric_rejects mv now hl]
      rfl
    · rw [g1] at e
      rw [e]
      rfl
  · intro mv0 t lvs
    unfold MetricVec.WithLabelValues
    split
    · rename_i m err mv1 h
      have := never mv0 t lvs m (some err) (by rw [h])
      cases this
    · rfl

/-- Witness of C23: the counter vector of the tests, declared with the label
`label`, is asked for two label values. -/
theorem C23_registry_error_panics_witness :
    ["a", "b"].length + 1 ≠ (newMetricVec exampleOpts ["label"]).metricVec.labelNames.length ∧
    ((newMetricVec exampleOpts ["label"]).GetMetricWithLabelValues defaultTime ["a", "b"]).1
      = CallResult.panicked (some "inconsistent label cardinality") :=
  ⟨by decide,
    congrArg Prod.fst (C23_registry_error_panics (newMetricVec exampleOpts ["label"])
      defaultTime ["a", "b"] (by decide)).1⟩

/-- The loop over the declared label names, in closed form: it fills the first
positions of the slice with the values read from the map and leaves the others
empty, and it runs out of the slice when there are more names than positions. -/
theorem fillLabelValues_eq (labels : Labels) :
    ∀ (names pre : List String) (k : Nat),
      fillLabelValues labels names pre.length (pre ++ List.replicate k "")
        = if names.length ≤ k then
            some (pre ++ names.map (fun name => (GoMap.get labels name).getD "")
              ++ List.replicate (k - names.length) "")
          else none
  | [], pre, k => by simp [fillLabelValues]
  | name :: rest, pre, k => by
    unfold fillLabelValues
    cases k with
    | zero => simp
    | succ k1 =>
      have hlt : pre.length < (pre ++ List.replicate (k1 + 1) "").length := by simp
      rw [if_pos hlt]
      have hset : (pre ++ List.replicate (k1 + 1) "").set pre.length
          ((GoMap.get labels name).getD "")
          = (pre ++ [(GoMap.get labels name).getD ""]) ++ List.replicate k1 "" := by
        simp [List.set_append, List.replicate_succ]
      have hlen : pre.length + 1 = (pre ++ [(GoMap.get labels name).getD ""]).length := by
        simp
      rw [hset, hlen, fillLabelValues_eq labels rest _ k1]
      by_cases hk : rest.length ≤ k1
      · simp [hk]
      · simp [hk]

theorem labelValuesOf_eq (labelNames : List String) (labels : Labels) :
    labelValuesOf labelNames labels
      = if labelNames.length ≤ labels.length then
          some (labelNames.map (fun name => (GoMap.get labels name).getD "")
            ++ List.replicate (labels.length - labelNames.length) "")
        else none := by
  have h := fillLabelValues_eq labels labelNames [] labels.length
  simpa [labelValuesOf] using h

/-- C24, the behaviour of the code: the vector of the tests is declared with
the label `label`, and the label map holds the single entry `labl ↦ toto`,
whose name is not a declared one.  `GetMetricWith` signals nothing: it returns
an instance without error and creates an entry for the label value `""`; and
`Delete` with the same map then returns true and deletes that entry. -/
theorem C24_misspelled_label_accepted :
    "labl" ∉ (newMetricVec exampleOpts ["label"]).labelNames ∧
    ((newMetricVec exampleOpts ["label"]).GetMetricWith defaultTime [("labl", "toto")]).map
      Prod.fst = some (CallResult.returned 0 none) ∧
    misspelledVec.map (fun mv => mv.metricAttrs.map (fun p => (p.1, p.2.labelValues)))
      = some [(0, [""])] ∧
    misspelledVec.map (fun mv => mv.tags.Get [""]) = some ("48ab9774", true) ∧
    (misspelledVec.bind (fun mv => mv.Delete [("labl", "x")])).map
      (fun r => (r.1, r.2.metricAttrs.length, r.2.tags.Get [""]))
      = some (true, 0, ("", false)) := by
  decide

theorem GoMap.get_of_mem_keys {K V : Type} [DecidableEq K] {m : GoMap K V} {k : K}
    (h : k ∈ GoMap.keys m) : ∃ v, GoMap.get m k = some v := by
  induction m with
  | nil => simp [GoMap.keys] at h
  | cons p t ih =>
    obtain ⟨k1, v1⟩ := p
    unfold GoMap.get
    by_cases hk : k1 = k
    · exact ⟨v1, by rw [if_pos hk]⟩
    · rw [if_neg hk]
      apply ih
      simp only [GoMap.keys, List.map_cons, List.mem_cons] at h
      rcases h with h | h
      · exact absurd h.symm hk
      · exact h

theorem valuesInOrder_eq (labels : Labels) :
    ∀ (names : List String), (∀ name ∈ names, name ∈ GoMap.keys labels) →
      names.map (fun name => (GoMap.get labels name).getD "") = valuesInOrder names labels
  | [], _ => rfl
  | name :: rest, h => by
    obtain ⟨v, hv⟩ := GoMap.get_of_mem_keys (h name (List.mem_cons_self _ _))
    have ih := valuesInOrder_eq labels rest (fun n hn => h n (List.mem_cons_of_mem _ hn))
    simp only [valuesInOrder] at ih ⊢
    simp only [List.map_cons, List.filterMap_cons, hv, Option.getD_some, ih]

/-- C25: for every vector state whose declared label names are distinct and
every label map (a Go map, so its names are distinct) whose names are exactly
the declared label names:
`GetMetricWith` is `GetMetricWithLabelValues` applied to the values of the map
listed in the order of the declared label names, in the result and in the
vector left behind; likewise `Delete` is `DeleteLabelValues` and `With` is
`WithLabelValues` on those values; and the list holds one value for each
declared label name. -/
theorem C25_label_map_by_name (mv : MetricVec) (now : Time) (labels : Labels)
    (hn : mv.labelNames.Nodup) (hk : (GoMap.keys labels).Nodup)
    (hs1 : ∀ name ∈ GoMap.keys labels, name ∈ mv.labelNames)
    (hs2 : ∀ name ∈ mv.labelNames, name ∈ GoMap.keys labels) :
    mv.GetMetricWith now labels
      = some (mv.GetMetricWithLabelValues now (valuesInOrder mv.labelNames labels)) ∧
    mv.Delete labels = some (mv.DeleteLabelValues (valuesInOrder mv.labelNames labels)) ∧
    mv.With now labels
      = some (mv.WithLabelValues now (valuesInOrder mv.labelNames labels)) ∧
    (valuesInOrder mv.labelNames labels).map some
      = mv.labelNames.map (fun name => GoMap.get labels name) := by
  have hs : ∀ name, name ∈ GoMap.keys labels ↔ name ∈ mv.labelNames :=
    fun name => ⟨hs1 name, hs2 name⟩
  have hlen : labels.length = mv.labelNames.length := by
    have hp : (GoMap.keys labels).Perm mv.labelNames :=
      (List.perm_ext_iff_of_nodup hk hn).mpr hs
    have := hp.length_eq
    simpa [GoMap.keys] using this
  have hv := valuesInOrder_eq labels mv.labelNames (fun name h => (hs name).mpr h)
  have hl : labelValuesOf mv.labelNames labels = some (valuesInOrder mv.labelNames labels) := by
    rw [labelValuesOf_eq, if_pos (le_of_eq hlen.symm), hlen, hv]
    simp
  have hg : mv.GetMetricWith now labels
      = some (mv.GetMetricWithLabelValues now (valuesInOrder mv.labelNames labels)) := by
    simp only [MetricVec.GetMetricWith, hl]
  refine ⟨hg, ?_, ?_, ?_⟩
  · simp only [MetricVec.Delete, hl]
  · simp only [MetricVec.With, hg, MetricVec.WithLabelValues]
    split <;> split <;> simp_all
  · rw [← hv, List.map_map]
    apply List.map_congr_left
    intro name h
    obtain ⟨v, hv1⟩ := GoMap.get_of_mem_keys ((hs name).mpr h)
    simp [hv1]

/-- Witness of C25: the label map of the test `TestCounterVec_Delete`, whose
entries are listed in another order than the declared label names. -/
theorem C25_label_map_by_name_witness :
    valuesInOrder ["name", "instance"] exampleLabels = ["titi", "10.0.0.3"] ∧
    ((newMetricVec exampleOpts ["name", "instance"]).Delete exampleLabels).map Prod.fst
      = some false ∧
    (newMetricVec exampleOpts ["name", "instance"]).GetMetricWith defaultTime exampleLabels
      = some ((newMetricVec exampleOpts ["name", "instance"]).GetMetricWithLabelValues
          defaultTime (valuesInOrder ["name", "instance"] exampleLabels)) :=
  ⟨by decide, by decide,
    (C25_label_map_by_name (newMetricVec exampleOpts ["name", "instance"]) defaultTime
      exampleLabels (by decide) (by decide) (by decide) (by decide)).1⟩

/-! ## Claims about the generation tag and the neutral snapshots -/

theorem hexDigit_lower : ∀ d, d < 16 → hexDigit d ∈ "0123456789abcdef".data := by
  decide

theorem hexDigits_lower : ∀ (fuel n : Nat), ∀ c ∈ hexDigits fuel n, c ∈ "0123456789abcdef".data
  | 0, n, c, h => by simp [hexDigits] at h
  | fuel + 1, n, c, h => by
    unfold hexDigits at h
    by_cases hn : n < 16
    · rw [if_pos hn] at h
      simp only [List.mem_singleton] at h
      rw [h]
      exact hexDigit_lower n hn
    · rw [if_neg hn] at h
      rcases List.mem_append.mp h with h1 | h1
      · exact hexDigits_lower fuel (n / 16) c h1
      · simp only [List.mem_singleton] at h1
        rw [h1]
        exact hexDigit_lower (n % 16) (Nat.mod_lt n (by decide))

theorem hexDigits_ne_nil : ∀ (fuel n : Nat), hexDigits (fuel + 1) n ≠ [] := by
  intro fuel n
  unfold hexDigits
  split <;> simp

/-- C26: the tag generated at a clock value is the number of whole seconds of
its Unix time written in base 16 with lower-case digits: at the Unix times
1219204980 and 1219204995 of the tests it is `48ab9774` and `48ab9783`; when
the Unix time is not negative the tag is a non-empty string of the digits
`0123456789abcdef` whose value in base 16 is the number of seconds; and the
tags generated at two clock values are equal if and only if the two clock
values have the same Unix second. -/
theorem C26_generation_tag (t1 t2 : Time) :
    generateLifeCycleTag (Time.ofUnix 1219204980) = "48ab9774" ∧
    generateLifeCycleTag (Time.ofUnix 1219204995) = "48ab9783" ∧
    (0 ≤ t1.Unix →
      (generateLifeCycleTag t1).data ≠ [] ∧
      (∀ c ∈ (generateLifeCycleTag t1).data, c ∈ "0123456789abcdef".data) ∧
      (hexParse (generateLifeCycleTag t1).data : Int) = t1.Unix) ∧
    (generateLifeCycleTag t1 = generateLifeCycleTag t2 ↔ t1.Unix = t2.Unix) := by
  refine ⟨by decide, by decide, ?_, generateLifeCycleTag_eq_iff t1 t2⟩
  intro h0
  have hnn : ¬ t1.Unix < 0 := not_lt.mpr h0
  simp only [generateLifeCycleTag, formatInt16, if_neg hnn]
  refine ⟨hexDigits_ne_nil _ _, hexDigits_lower _ _, ?_⟩
  rw [hexParse_hexDigits _ _ (Nat.lt_succ_self _)]
  exact Int.natAbs_of_nonneg h0

theorem GoMap.mem_keys_set {K V : Type} [DecidableEq K] (m : GoMap K V) (k : K) (v : V)
    (x : K) : x ∈ GoMap.keys (GoMap.set m k v) ↔ x = k ∨ x ∈ GoMap.keys m := by
  induction m with
  | nil => simp [GoMap.set, GoMap.keys]
  | cons p t ih =>
    obtain ⟨k1, v1⟩ := p
    unfold GoMap.set
    by_cases hk : k1 = k
    · rw [if_pos hk]
      simp only [GoMap.keys, List.map_cons, List.mem_cons, hk]
      tauto
    · rw [if_neg hk]
      simp only [GoMap.keys, List.map_cons, List.mem_cons] at ih ⊢
      rw [ih]
      tauto

/-- Writing the same value under the keys `f a` for the elements `a` of a list:
the keys afterwards are the keys before and the keys written. -/
theorem GoMap.foldl_set_keys {K V α : Type} [DecidableEq K] (f : α → K) (v : V) :
    ∀ (l : List α) (acc : GoMap K V) (x : K),
      x ∈ GoMap.keys (l.foldl (fun acc a => GoMap.set acc (f a) v) acc)
        ↔ x ∈ GoMap.keys acc ∨ ∃ a ∈ l, f a = x
  | [], acc, x => by simp
  | a :: rest, acc, x => by
    rw [List.foldl_cons, GoMap.foldl_set_keys f v rest, GoMap.mem_keys_set]
    simp only [List.mem_cons, exists_eq_or_imp]
    constructor
    · rintro ((h | h) | h)
      · exact Or.inr (Or.inl h.symm)
      · exact Or.inl h
      · exact Or.inr (Or.inr h)
    · rintro (h | h | h)
      · exact Or.inl (Or.inr h)
      · exact Or.inl (Or.inl h.symm)
      · exact Or.inr h

theorem GoMap.foldl_set_values {K V α : Type} [DecidableEq K] (f : α → K) (v : V) :
    ∀ (l : List α) (acc : GoMap K V), (∀ p ∈ acc, p.2 = v) →
      ∀ p ∈ l.foldl (fun acc a => GoMap.set acc (f a) v) acc, p.2 = v
  | [], acc, h => h
  | a :: rest, acc, h => by
    rw [List.foldl_cons]
    apply GoMap.foldl_set_values f v rest
    intro p hp
    rcases GoMap.mem_set hp with e | hp1
    · rw [e]
    · exact h p hp1

theorem GoMap.foldl_set_nodup {K V α : Type} [DecidableEq K] (f : α → K) (v : V) :
    ∀ (l : List α) (acc : GoMap K V), (GoMap.keys acc).Nodup →
      (GoMap.keys (l.foldl (fun acc a => GoMap.set acc (f a) v) acc)).Nodup
  | [], acc, h => h
  | a :: rest, acc, h => by
    rw [List.foldl_cons]
    exact GoMap.foldl_set_nodup f v rest _ (GoMap.nodup_keys_set h _ _)

/-- C27, the behaviour of the code: for every summary configuration the
initial metric has count 0 and sum 0 and all its quantiles have the value 0,
but its quantile ranks are the values of the objectives map, the allowed
errors, and not its keys.  For the objectives 0.5 ↦ 0.05, 0.9 ↦ 0.01 and
0.99 ↦ 0.001 the initial metric has the quantile ranks 0.05, 0.01 and 0.001;
none of the ranks 0.5, 0.9 and 0.99 is among them. -/
theorem C27_summary_snapshot_ranks (opts : SummaryOpts) (metric : Nat)
    (labelValues : List String) :
    ((createSummaryMetricOpts opts).2 metric labelValues).count = 0 ∧
    ((createSummaryMetricOpts opts).2 metric labelValues).sum = 0 ∧
    (∀ p ∈ ((createSummaryMetricOpts opts).2 metric labelValues).quantiles, p.2 = 0) ∧
    (∀ q, q ∈ GoMap.keys ((createSummaryMetricOpts opts).2 metric labelValues).quantiles
      ↔ ∃ p ∈ opts.Objectives, p.2 = q) ∧
    GoMap.keys exampleSummaryOpts.Objectives = [0.5, 0.9, 0.99] ∧
    GoMap.keys ((createSummaryMetricOpts exampleSummaryOpts).2 0 []).quantiles
      = [0.05, 0.01, 0.001] ∧
    (∀ q ∈ GoMap.keys exampleSummaryOpts.Objectives,
      q ∉ GoMap.keys ((createSummaryMetricOpts exampleSummaryOpts).2 0 []).quantiles) := by
  refine ⟨rfl, rfl, ?_, ?_, ?_, ?_, ?_⟩
  · exact GoMap.foldl_set_values (fun p : Float64 × Float64 => p.2) 0 opts.Objectives []
      (fun p hp => by cases hp)
  · intro q
    have h := GoMap.foldl_set_keys (V := Float64) (fun p : Float64 × Float64 => p.2) 0
      opts.Objectives [] q
    simpa [GoMap.keys] using h
  · norm_num [exampleSummaryOpts, GoMap.keys]
  · norm_num [createSummaryMetricOpts, exampleSummaryOpts, GoMap.keys, GoMap.set]
  · norm_num [createSummaryMetricOpts, exampleSummaryOpts, GoMap.keys, GoMap.set]

/-- C28: for every histogram configuration with the bucket list `B`, the
initial metric has count 0 and sum 0, its buckets are exactly the upper bounds
of `B`, each of them once, and each has the cumulative count 0; for the bucket
list 1, 2, 10 of the tests the buckets are 1, 2 and 10 with count 0. -/
theorem C28_histogram_snapshot (opts : HistogramOpts) (metric : Nat)
    (labelValues : List String) :
    ((createHistogramMetricOpts opts).2 metric labelValues).count = 0 ∧
    ((createHistogramMetricOpts opts).2 metric labelValues).sum = 0 ∧
    (∀ b, b ∈ GoMap.keys ((createHistogramMetricOpts opts).2 metric labelValues).buckets
      ↔ b ∈ opts.Buckets) ∧
    (GoMap.keys ((createHistogramMetricOpts opts).2 metric labelValues).buckets).Nodup ∧
    (∀ p ∈ ((createHistogramMetricOpts opts).2 metric labelValues).buckets, p.2 = 0) ∧
    ((createHistogramMetricOpts exampleHistogramOpts).2 metric labelValues).buckets
      = [(1, 0), (2, 0), (10, 0)] := by
  refine ⟨rfl, rfl, ?_, ?_, ?_, ?_⟩
  · intro b
    have h := GoMap.foldl_set_keys (V := Nat) (fun x : Float64 => x) 0 opts.Buckets [] b
    simpa [GoMap.keys] using h
  · exact GoMap.foldl_set_nodup (fun x : Float64 => x) 0 opts.Buckets [] List.nodup_nil
  · exact GoMap.foldl_set_values (fun x : Float64 => x) 0 opts.Buckets []
      (fun p hp => by cases hp)
  · norm_num [createHistogramMetricOpts, exampleHistogramOpts, GoMap.set]

/-! ## Two concurrent calls -/

/-- A call of `GetMetricWithLabelValues` is its two critical sections run one
after the other. -/
theorem MetricVec.GetMetricWithLabelValues_sections (mv : MetricVec) (now : Time)
    (labelValues : List String) :
    (CallPhase.done (mv.GetMetricWithLabelValues now labelValues).1,
        (mv.GetMetricWithLabelValues now labelValues).2)
      = (mv.runSection now labelValues CallPhase.start).2.runSection now labelValues
          (mv.runSection now labelValues CallPhase.start).1 := by
  unfold MetricVec.GetMetricWithLabelValues
  cases h : mv.getMetric now labelValues with
  | mk r mv1 =>
    obtain ⟨x, e⟩ := r
    cases x with
    | some m => simp [MetricVec.runSection, h]
    | none =>
      cases e with
      | some err => simp [MetricVec.runSection, h]
      | none =>
        simp only [MetricVec.runSection, h]
        cases h2 : mv1.getMetric now labelValues with
        | mk r2 mv2 =>
          obtain ⟨x2, e2⟩ := r2
          cases x2 <;> cases e2 <;> simp

theorem MetricVec.runSection_absent_start {mv : MetricVec} {labelValues : List String}
    (now : Time) (h : (mv.tags.Get labelValues).2 = false) :
    mv.runSection now labelValues CallPhase.start = (CallPhase.slow, mv) := by
  have hg : mv.getMetric now labelValues = ((none, none), mv) := by
    unfold MetricVec.getMetric
    cases hx : mv.tags.Get labelValues with
    | mk tag present =>
      rw [hx] at h
      simp only at h
      subst h
      rfl
  simp only [MetricVec.runSection, hg]

theorem MetricVec.runSection_absent_slow {mv : MetricVec} {labelValues : List String}
    (now : Time) (h : (mv.tags.Get labelValues).2 = false)
    (hl : labelValues.length + 1 = mv.metricVec.labelNames.length) :
    ∃ m, (mv.runSection now labelValues CallPhase.slow).1
        = CallPhase.done (CallResult.returned m none) ∧
      (mv.runSection now labelValues CallPhase.slow).2.Live labelValues m ∧
      (mv.runSection now labelValues CallPhase.slow).2.tags
        = mv.tags.Add labelValues (generateLifeCycleTag now) ∧
      ∃ a, (mv.runSection now labelValues CallPhase.slow).2.metricAttrs
        = GoMap.set mv.metricAttrs m a := by
  have hg : mv.getMetric now labelValues = ((none, none), mv) := by
    unfold MetricVec.getMetric
    cases hx : mv.tags.Get labelValues with
    | mk tag present =>
      rw [hx] at h
      simp only at h
      subst h
      rfl
  obtain ⟨m, mv1, ha⟩ := MetricVec.addMetric_accepts mv now hl
  obtain ⟨_, hlive, _, htags, _⟩ := MetricVec.addMetric_ok ha
  have hattrs : ∃ a, mv1.metricAttrs = GoMap.set mv.metricAttrs m a := by
    rcases (MetricVec.addMetric_cases mv now labelValues).2 with ⟨m2, h1, _, h3⟩ | ⟨⟨e, h1⟩, _⟩
    · rw [ha] at h1 h3
      simp only [Prod.mk.injEq, Option.some.injEq] at h1
      rw [← h1.1] at h3
      exact ⟨_, h3⟩
    · rw [ha] at h1
      simp at h1
  have hs : mv.runSection now labelValues CallPhase.slow
      = (CallPhase.done (CallResult.returned m none), mv1) := by
    simp only [MetricVec.runSection, hg, ha]
    rfl
  rw [hs]
  exact ⟨m, rfl, hlive, htags, hattrs⟩

/-- A critical section run on a vector in which the entry of the label values
is live finishes the call with the instance of that entry and creates nothing:
index and registry are unchanged and the instance map keeps its keys. -/
theorem MetricVec.runSection_live {mv : MetricVec} {labelValues : List String} {m : Nat}
    (now : Time) (hl : mv.Live labelValues m) {p : CallPhase}
    (hp : p = CallPhase.start ∨ p = CallPhase.slow) :
    (mv.runSection now labelValues p).1 = CallPhase.done (CallResult.returned m none) ∧
    (mv.runSection now labelValues p).2.Live labelValues m ∧
    (mv.runSection now labelValues p).2.tags = mv.tags ∧
    (mv.runSection now labelValues p).2.metricVec = mv.metricVec ∧
    GoMap.keys (mv.runSection now labelValues p).2.metricAttrs = GoMap.keys mv.metricAttrs := by
  obtain ⟨l1, l2, l3, a, l4, l5⟩ := hl
  have hg := MetricVec.getMetric_of_Live now ⟨l1, l2, l3, a, l4, l5⟩ l4
  have hlive : MetricVec.Live
      { mv with metricAttrs := GoMap.set mv.metricAttrs m
                  (a.onAccess mv.opts.ExpirationDelay now) } labelValues m :=
    ⟨l1, l2, l3, _, GoMap.get_set_same _ _ _, by rw [metricAttr.onAccess_state]; exact l5⟩
  have hs : mv.runSection now labelValues p
      = (CallPhase.done (CallResult.returned m none),
          { mv with metricAttrs := GoMap.set mv.metricAttrs m
                      (a.onAccess mv.opts.ExpirationDelay now) }) := by
    rcases hp with hp | hp
    · subst hp
      simp only [MetricVec.runSection, hg]
      rfl
    · subst hp
      simp only [MetricVec.runSection, hg]
      rfl
  rw [hs]
  exact ⟨rfl, hlive, rfl, rfl, GoMap.keys_set_of_get _ l4⟩

theorem TwoCalls.section_absent {mv0 : MetricVec} {labelValues : List String}
    (hl : labelValues.length + 1 = mv0.metricVec.labelNames.length)
    (habs : (mv0.tags.Get labelValues).2 = false) (now : Time) {p : CallPhase}
    (hp : p = CallPhase.start ∨ p = CallPhase.slow) :
    ((mv0.runSection now labelValues p).2 = mv0 ∧
      (mv0.runSection now labelValues p).1 = CallPhase.slow) ∨
    ∃ m, (mv0.runSection now labelValues p).1 = CallPhase.done (CallResult.returned m none) ∧
      (mv0.runSection now labelValues p).2.Live labelValues m ∧
      (∃ now0, (mv0.runSection now labelValues p).2.tags
        = mv0.tags.Add labelValues (generateLifeCycleTag now0)) ∧
      ∃ a, GoMap.keys (mv0.runSection now labelValues p).2.metricAttrs
        = GoMap.keys (GoMap.set mv0.metricAttrs m a) := by
  rcases hp with hp | hp
  · subst hp
    rw [MetricVec.runSection_absent_start now habs]
    exact Or.inl ⟨rfl, rfl⟩
  · subst hp
    obtain ⟨m, h1, h2, h3, a, h4⟩ := MetricVec.runSection_absent_slow now habs hl
    exact Or.inr ⟨m, h1, h2, ⟨now, h3⟩, a, by rw [h4]⟩

theorem TwoCalls.section_created {mv : MetricVec} {labelValues : List String} {m : Nat}
    (hl : mv.Live labelValues m) (now : Time) {p : CallPhase} (hp : p.agrees m) :
    (mv.runSection now labelValues p).1.agrees m ∧
    (mv.runSection now labelValues p).2.Live labelValues m ∧
    (mv.runSection now labelValues p).2.tags = mv.tags ∧
    GoMap.keys (mv.runSection now labelValues p).2.metricAttrs = GoMap.keys mv.metricAttrs := by
  rcases hp with hp | hp | hp
  · obtain ⟨h1, h2, h3, _, h5⟩ := MetricVec.runSection_live now hl (Or.inl hp)
    exact ⟨Or.inr (Or.inr h1), h2, h3, h5⟩
  · obtain ⟨h1, h2, h3, _, h5⟩ := MetricVec.runSection_live now hl (Or.inr hp)
    exact ⟨Or.inr (Or.inr h1), h2, h3, h5⟩
  · subst hp
    exact ⟨Or.inr (Or.inr rfl), hl, rfl, rfl⟩

/-- Every step of a schedule keeps the invariant of two calls. -/
theorem TwoCalls.step_inv {mv0 : MetricVec} {labelValues : List String}
    (hl : labelValues.length + 1 = mv0.metricVec.labelNames.length)
    (habs : (mv0.tags.Get labelValues).2 = false) (s : TwoCalls) (x : Bool × Time)
    (h : TwoCalls.Inv mv0 labelValues s) : TwoCalls.Inv mv0 labelValues (s.step labelValues x) := by
  obtain ⟨b, now⟩ := x
  rcases h with ⟨hv, hf, hs⟩ | ⟨m, hlive, ht, hk, ha1, ha2⟩
  · cases b with
    | true =>
      simp only [TwoCalls.step, hv]
      rcases TwoCalls.section_absent hl habs now hf with ⟨e1, e2⟩ | ⟨m, e1, e2, e3, e4⟩
      · exact Or.inl ⟨e1, Or.inr e2, hs⟩
      · refine Or.inr ⟨m, e2, e3, e4, Or.inr (Or.inr e1), ?_⟩
        rcases hs with hs | hs
        · exact Or.inl hs
        · exact Or.inr (Or.inl hs)
    | false =>
      simp only [TwoCalls.step, hv]
      rcases TwoCalls.section_absent hl habs now hs with ⟨e1, e2⟩ | ⟨m, e1, e2, e3, e4⟩
      · exact Or.inl ⟨e1, hf, Or.inr e2⟩
      · refine Or.inr ⟨m, e2, e3, e4, ?_, Or.inr (Or.inr e1)⟩
        rcases hf with hf | hf
        · exact Or.inl hf
        · exact Or.inr (Or.inl hf)
  · obtain ⟨now0, ht⟩ := ht
    obtain ⟨a, hk⟩ := hk
    cases b with
    | true =>
      obtain ⟨e1, e2, e3, e4⟩ := TwoCalls.section_created hlive now ha1
      exact Or.inr ⟨m, e2, ⟨now0, e3.trans ht⟩, ⟨a, e4.trans hk⟩, e1, ha2⟩
    | false =>
      obtain ⟨e1, e2, e3, e4⟩ := TwoCalls.section_created hlive now ha2
      exact Or.inr ⟨m, e2, ⟨now0, e3.trans ht⟩, ⟨a, e4.trans hk⟩, ha1, e1⟩

theorem TwoCalls.run_inv {mv0 : MetricVec} {labelValues : List String}
    (hl : labelValues.length + 1 = mv0.metricVec.labelNames.length)
    (habs : (mv0.tags.Get labelValues).2 = false) :
    ∀ (sched : List (Bool × Time)) (s : TwoCalls), TwoCalls.Inv mv0 labelValues s →
      TwoCalls.Inv mv0 labelValues (s.run labelValues sched)
  | [], _, h => h
  | x :: rest, s, h =>
    TwoCalls.run_inv hl habs rest (s.step labelValues x) (TwoCalls.step_inv hl habs s x h)

/-- C29: two calls of `GetMetricWithLabelValues` for the same label values,
accepted by the registry and without an entry in the index, run concurrently
on a vector: each call is its two critical sections (the lookup under the read
lock; the second lookup and the creation under the write lock), which the lock
makes atomic, and a schedule interleaves the sections of the two calls in any
order and at any clock values.  When both calls have finished, both have
returned the same instance without error; its entry is live; the index is the
former one with one tag added for the label values, so that it holds one
element more; and the instance map has the keys of the former one with that
one instance written.  Sequential shadow: the critical section of the slow
path, run while the entry of the label values is live, returns the instance of
that entry and creates nothing. -/
theorem C29_concurrent_get_or_create (mv : MetricVec) (labelValues : List String)
    (hl : labelValues.length + 1 = mv.metricVec.labelNames.length)
    (habs : (mv.tags.Get labelValues).2 = false) (sched : List (Bool × Time))
    (r1 r2 : CallResult)
    (h1 : (TwoCalls.run { vec := mv, first := CallPhase.start, second := CallPhase.start }
      labelValues sched).first = CallPhase.done r1)
    (h2 : (TwoCalls.run { vec := mv, first := CallPhase.start, second := CallPhase.start }
      labelValues sched).second = CallPhase.done r2) :
    (∃ m, r1 = CallResult.returned m none ∧ r2 = CallResult.returned m none ∧
      (TwoCalls.run { vec := mv, first := CallPhase.start, second := CallPhase.start }
        labelValues sched).vec.Live labelValues m ∧
      (∃ now0, (TwoCalls.run { vec := mv, first := CallPhase.start, second := CallPhase.start }
        labelValues sched).vec.tags = mv.tags.Add labelValues (generateLifeCycleTag now0)) ∧
      (TwoCalls.run { vec := mv, first := CallPhase.start, second := CallPhase.start }
        labelValues sched).vec.tags.size = mv.tags.size + 1 ∧
      ∃ a, GoMap.keys (TwoCalls.run
          { vec := mv, first := CallPhase.start, second := CallPhase.start }
          labelValues sched).vec.metricAttrs = GoMap.keys (GoMap.set mv.metricAttrs m a)) ∧
    (∀ (mv1 : MetricVec) (m1 : Nat) (now : Time), mv1.Live labelValues m1 →
      (mv1.runSection now labelValues CallPhase.slow).1
        = CallPhase.done (CallResult.returned m1 none) ∧
      (mv1.runSection now labelValues CallPhase.slow).2.tags = mv1.tags ∧
      (mv1.runSection now labelValues CallPhase.slow).2.metricVec = mv1.metricVec ∧
      GoMap.keys (mv1.runSection now labelValues CallPhase.slow).2.metricAttrs
        = GoMap.keys mv1.metricAttrs) ∧
    (∀ (mv1 : MetricVec) (now : Time),
      (CallPhase.done (mv1.GetMetricWithLabelValues now labelValues).1,
          (mv1.GetMetricWithLabelValues now labelValues).2)
        = (mv1.runSection now labelValues CallPhase.start).2.runSection now labelValues
            (mv1.runSection now labelValues CallPhase.start).1) := by
  have hinv := TwoCalls.run_inv hl habs sched
    { vec := mv, first := CallPhase.start, second := CallPhase.start }
    (Or.inl ⟨rfl, Or.inl rfl, Or.inl rfl⟩)
  refine ⟨?_, ?_, fun mv1 now => MetricVec.GetMetricWithLabelValues_sections mv1 now labelValues⟩
  · rcases hinv with ⟨_, hf, _⟩ | ⟨m, hlive, ⟨now0, ht⟩, hk, ha1, ha2⟩
    · rw [h1] at hf
      rcases hf with hf | hf <;> cases hf
    · refine ⟨m, ?_, ?_, hlive, ⟨now0, ht⟩, ?_, hk⟩
      · rw [h1] at ha1
        rcases ha1 with c | c | c
        · cases c
        · cases c
        · exact CallPhase.done.inj c
      · rw [h2] at ha2
        rcases ha2 with c | c | c
        · cases c
        · cases c
        · exact CallPhase.done.inj c
      · rw [ht, tagMap.size_Add, if_neg (by rw [habs]; decide)]
  · intro mv1 m1 now hlive
    obtain ⟨e1, _, e3, e4, e5⟩ := MetricVec.runSection_live now hlive (Or.inr rfl)
    exact ⟨e1, e3, e4, e5⟩

/-- Witness of C29: on the empty vector of the tests both calls for `toto` run
their first critical section and find nothing, then both run their second one,
at three different clock values; both return instance 0, and one index
element and one entry of the instance map exist afterwards. -/
theorem C29_concurrent_get_or_create_witness :
    (TwoCalls.run exampleTwoCalls ["toto"] exampleSchedule).vec.metricAttrs.length = 1 ∧
    ∃ m, CallResult.returned 0 none = CallResult.returned m none ∧
      CallResult.returned 0 none = CallResult.returned m none ∧
      (TwoCalls.run exampleTwoCalls ["toto"] exampleSchedule).vec.tags.size
        = (newMetricVec exampleOpts ["label"]).tags.size + 1 :=
  ⟨by decide,
    (C29_concurrent_get_or_create (newMetricVec exampleOpts ["label"]) ["toto"] (by decide)
      (by decide) exampleSchedule (CallResult.returned 0 none) (CallResult.returned 0 none)
      (by decide) (by decide)).1.imp
      (fun _ h => ⟨h.1, h.2.1, h.2.2.2.2.1⟩)⟩

/-! ## Well-formedness of the index -/

theorem bucketAdd_ne_nil (key : List String) (value : String) (l : List mapElement) :
    bucketAdd key value l ≠ [] := by
  intro c
  have h := bucketFind_bucketAdd_same key value l
  rw [c] at h
  simp [bucketFind] at h

theorem tagMap.WellFormed.mem_bucket {m : tagMap} (hw : m.WellFormed) (h : Nat) :
    ∀ e ∈ m.bucket h, m.hash e.key = h := by
  intro e he
  unfold tagMap.bucket at he
  cases hg : GoMap.get m.index h with
  | none => simp [hg] at he
  | some b =>
    rw [hg] at he
    exact (hw.2 (h, b) (GoMap.mem_of_get hg)).2.1 e he

/-- `Add` keeps the index well-formed. -/
theorem tagMap.wellFormed_Add {m : tagMap} (hw : m.WellFormed) (key : List String)
    (value : String) : (m.Add key value).WellFormed := by
  refine ⟨?_, ?_⟩
  · rw [tagMap.Add_index]
    exact GoMap.nodup_keys_set hw.1 _ _
  · intro p hp
    rw [tagMap.Add_hash]
    rw [tagMap.Add_index] at hp
    rcases GoMap.mem_set hp with h1 | h1
    · rw [h1]
      refine ⟨bucketAdd_nodup key value (hw.toWF.bucket _), ?_, bucketAdd_ne_nil _ _ _⟩
      intro e he
      rcases bucketAdd_keys key value _ e.key (List.mem_map_of_mem _ he) with hk | hk
      · simp only [hk]
      · obtain ⟨e1, he1, hk1⟩ := List.mem_map.mp hk
        simp only
        rw [← hk1]
        exact hw.mem_bucket _ e1 he1
    · exact hw.2 p h1

theorem bucketDelete_ne_nil {key : List String} {l : List mapElement} {i : Nat}
    (hf : findIdx key l = some i) (hl : l.length > 1) : bucketDelete key l ≠ [] := by
  intro c
  have h := congrArg List.length c
  simp only [bucketDelete, hf, if_pos hl, List.length_dropLast, List.length_set,
    List.length_nil] at h
  omega

theorem tagMap.Delete_index_cases (m : tagMap) (key : List String) :
    (m.Delete key).index = m.index ∨
    ((m.Delete key).index
        = GoMap.set m.index (m.hash key) (bucketDelete key (m.bucket (m.hash key))) ∧
      bucketDelete key (m.bucket (m.hash key)) ≠ []) ∨
    (m.Delete key).index = GoMap.delete m.index (m.hash key) := by
  simp only [tagMap.Delete, tagMap.findElem]
  cases hf : findIdx key (m.bucket (m.hash key)) with
  | none => exact Or.inl rfl
  | some i =>
    dsimp only
    by_cases hl : (m.bucket (m.hash key)).length > 1
    · rw [if_pos hl]
      refine Or.inr (Or.inl ⟨?_, bucketDelete_ne_nil hf hl⟩)
      simp only [bucketDelete, hf, if_pos hl]
    · rw [if_neg hl]
      exact Or.inr (Or.inr rfl)

/-- `Delete` keeps the index well-formed. -/
theorem tagMap.wellFormed_Delete {m : tagMap} (hw : m.WellFormed) (key : List String) :
    (m.Delete key).WellFormed := by
  rcases tagMap.Delete_index_cases m key with h | ⟨h, hne⟩ | h
  · refine ⟨by rw [h]; exact hw.1, ?_⟩
    intro p hp
    rw [h] at hp
    rw [tagMap.Delete_hash]
    exact hw.2 p hp
  · refine ⟨by rw [h]; exact GoMap.nodup_keys_set hw.1 _ _, ?_⟩
    intro p hp
    rw [h] at hp
    rw [tagMap.Delete_hash]
    rcases GoMap.mem_set hp with h1 | h1
    · rw [h1]
      refine ⟨bucketDelete_nodup (hw.toWF.bucket _), ?_, hne⟩
      intro e he
      have hmem := (bucketDelete_perm (hw.toWF.bucket (m.hash key))).subset he
      exact hw.mem_bucket _ e (List.mem_filter.mp hmem).1
    · exact hw.2 p h1
  · refine ⟨by rw [h]; exact GoMap.nodup_keys_delete hw.1 _, ?_⟩
    intro p hp
    rw [h] at hp
    rw [tagMap.Delete_hash]
    exact hw.2 p (GoMap.mem_delete hp).1

theorem tagMap.runOps_wellFormed :
    ∀ (ops : List IndexOp) (m : tagMap), m.WellFormed → (m.runOps ops).WellFormed
  | [], _, h => h
  | IndexOp.add key value :: ops, _, h =>
    tagMap.runOps_wellFormed ops _ (tagMap.wellFormed_Add h key value)
  | IndexOp.delete key :: ops, _, h =>
    tagMap.runOps_wellFormed ops _ (tagMap.wellFormed_Delete h key)

theorem tagMap.runOps_hash : ∀ (ops : List IndexOp) (m : tagMap), (m.runOps ops).hash = m.hash
  | [], _ => rfl
  | IndexOp.add key value :: ops, m =>
    (tagMap.runOps_hash ops _).trans (tagMap.Add_hash m key value)
  | IndexOp.delete key :: ops, m =>
    (tagMap.runOps_hash ops _).trans (tagMap.Delete_hash m key)

/-- In a well-formed index no two stored elements have the same key. -/
theorem tagMap.WellFormed.elems_nodup {m : tagMap} (hw : m.WellFormed) :
    (m.elems.map mapElement.key).Nodup := by
  unfold tagMap.elems
  rw [List.map_flatMap, List.nodup_flatMap]
  refine ⟨fun p hp => (hw.2 p hp).1, ?_⟩
  have hk : m.index.Pairwise (fun a b => a.1 ≠ b.1) := by
    have := hw.1
    unfold GoMap.keys List.Nodup at this
    exact List.pairwise_map.mp this
  refine hk.imp_of_mem ?_
  intro a b ha hb hab
  simp only [Function.onFun]
  intro x hxa hxb
  obtain ⟨e1, he1, hk1⟩ := List.mem_map.mp hxa
  obtain ⟨e2, he2, hk2⟩ := List.mem_map.mp hxb
  apply hab
  rw [← (hw.2 a ha).2.1 e1 he1, ← (hw.2 b hb).2.1 e2 he2, hk1, hk2]

/-- With the keys held by value: starting from the empty index, for every hash
function, after every sequence of `Add` and `Delete` calls the index is
well-formed and still has that hash function; no two stored elements have
equal keys, every element stored in the bucket of a hash value has a key with
that hash value, the buckets having distinct hash values, and no bucket is
empty, so that the bucket map is empty exactly when no element is stored. -/
theorem emptyTagMap_runOps_wellFormed (hash : List String → Nat) (ops : List IndexOp) :
    ((emptyTagMap hash).runOps ops).WellFormed ∧
    ((emptyTagMap hash).runOps ops).hash = hash ∧
    (((emptyTagMap hash).runOps ops).elems.map mapElement.key).Nodup ∧
    (∀ p ∈ ((emptyTagMap hash).runOps ops).index, ∀ e ∈ p.2, hash e.key = p.1) ∧
    (GoMap.keys ((emptyTagMap hash).runOps ops).index).Nodup ∧
    (∀ p ∈ ((emptyTagMap hash).runOps ops).index, p.2 ≠ []) ∧
    (((emptyTagMap hash).runOps ops).index = [] ↔ ((emptyTagMap hash).runOps ops).elems = []) := by
  have h0 : (emptyTagMap hash).WellFormed := ⟨List.nodup_nil, fun p hp => by cases hp⟩
  have hw := tagMap.runOps_wellFormed ops _ h0
  have hh : ((emptyTagMap hash).runOps ops).hash = hash := tagMap.runOps_hash ops _
  refine ⟨hw, hh, hw.elems_nodup, ?_, hw.1, fun p hp => (hw.2 p hp).2.2, ?_⟩
  · intro p hp e he
    rw [← hh]
    exact (hw.2 p hp).2.1 e he
  · constructor
    · intro h
      simp [tagMap.elems, h]
    · intro h
      unfold tagMap.elems at h
      rw [List.flatMap_eq_nil_iff] at h
      cases hi : ((emptyTagMap hash).runOps ops).index with
      | nil => rfl
      | cons p t =>
        exfalso
        have hp : p ∈ ((emptyTagMap hash).runOps ops).index := by
          rw [hi]
          exact List.mem_cons_self _ _
        exact (hw.2 p hp).2.2 (h p hp)

/-! ## Claims about single steps -/

/-- C37: for every entry, warm-up duration and clock value, the state after
`onCollect` is the state before or the next one in the order pending, ongoing,
complete, expired: a pending entry becomes ongoing, an ongoing entry stays
ongoing or becomes complete, and neither is expired by the call, whatever the
deadlines and the clock value are. -/
theorem C37_one_step_per_collect (a : metricAttr) (warmUpDuration : Duration) (now : Time) :
    ((a.onCollect warmUpDuration now).state = a.state ∨
      (a.onCollect warmUpDuration now).state.rank = a.state.rank + 1) ∧
    (a.state = stateWarmUpPending →
      (a.onCollect warmUpDuration now).state = stateWarmUpOngoing) ∧
    (a.state = stateWarmUpOngoing →
      (a.onCollect warmUpDuration now).state = stateWarmUpOngoing ∨
      (a.onCollect warmUpDuration now).state = stateWarmUpComplete) ∧
    (a.state = stateWarmUpPending ∨ a.state = stateWarmUpOngoing →
      (a.onCollect warmUpDuration now).state ≠ stateExpired) := by
  cases hs : a.state with
  | stateWarmUpPending =>
    rw [metricAttr.onCollect_pending _ _ hs]
    simp [metricState.rank]
  | stateWarmUpOngoing =>
    simp only [metricAttr.onCollect, hs]
    split_ifs <;> simp_all [metricState.rank]
  | stateWarmUpComplete =>
    simp only [metricAttr.onCollect, hs]
    split_ifs <;> simp_all [metricState.rank]
  | stateExpired =>
    rw [metricAttr.onCollect_expired _ _ hs]
    simp [hs]

/-- C38: for every vector state, clock value and label values for which the
registry rejects the lookup/creation of the label values followed by the
generated tag, `addMetric` returns no metric and the error of the registry,
and leaves the index, the instance map and the options exactly as they were. -/
theorem C38_creation_atomic_on_failure (mv : MetricVec) (now : Time)
    (labelValues : List String) (err : String)
    (h : (mv.metricVec.GetMetricWithLabelValues
      (labelValues ++ [generateLifeCycleTag now])).1 = Except.error err) :
    (mv.addMetric now labelValues).1 = (none, some err) ∧
    (mv.addMetric now labelValues).2.tags = mv.tags ∧
    (mv.addMetric now labelValues).2.metricAttrs = mv.metricAttrs ∧
    (mv.addMetric now labelValues).2.opts = mv.opts ∧
    (mv.addMetric now labelValues).2.metricVec = mv.metricVec := by
  simp only [MetricVec.addMetric]
  cases hr : mv.metricVec.GetMetricWithLabelValues
      (labelValues ++ [generateLifeCycleTag now]) with
  | mk r pv =>
    rw [hr] at h
    simp only at h
    subst h
    exact ⟨rfl, rfl, rfl, rfl, (PromVec.get_error hr).2⟩

/-- Witness of C38: the vector of the tests, declared with one label, rejects
two label values; the entry of `toto` and its index entry stay as they are. -/
theorem C38_creation_atomic_on_failure_witness :
    (exampleVec.metricVec.GetMetricWithLabelValues
      (["a", "b"] ++ [generateLifeCycleTag defaultTime])).1
        = Except.error "inconsistent label cardinality" ∧
    (exampleVec.addMetric defaultTime ["a", "b"]).2.metricAttrs = exampleVec.metricAttrs ∧
    (exampleVec.addMetric defaultTime ["a", "b"]).2.tags.Get ["toto"] = ("48ab9774", true) :=
  ⟨rfl,
    (C38_creation_atomic_on_failure exampleVec defaultTime ["a", "b"]
      "inconsistent label cardinality" rfl).2.2.1,
    by decide⟩

/-! ## Claims about the hash function -/

theorem hashBytes_eq_foldl (bs : List Nat) :
    ∀ hash, hashBytes hash bs = bs.foldl (fun h b => ((h * prime) % 2 ^ 64) ^^^ b) hash := by
  induction bs with
  | nil => intro hash; rfl
  | cons b rest ih => intro hash; exact ih _

theorem hashBytes_append (hash : Nat) (l1 l2 : List Nat) :
    hashBytes hash (l1 ++ l2) = hashBytes (hashBytes hash l1) l2 := by
  rw [hashBytes_eq_foldl, hashBytes_eq_foldl, hashBytes_eq_foldl, List.foldl_append]

theorem hashStringSliceFrom_eq (stringList : List String) :
    ∀ hash, hashStringSliceFrom hash stringList = hashBytes hash (byteStream stringList) := by
  induction stringList with
  | nil => intro hash; rfl
  | cons s rest ih =>
    intro hash
    simp only [hashStringSliceFrom, byteStream, List.flatMap_cons, hashString] at ih ⊢
    rw [ih, hashBytes_append, hashBytes_append]

theorem stringBytes_lt (s : String) : ∀ b ∈ stringBytes s, b < 256 := by
  intro b hb
  simp only [stringBytes, List.mem_map] at hb
  obtain ⟨x, _, rfl⟩ := hb
  exact x.toNat_lt

theorem hashBytes_lt : ∀ (bs : List Nat) (hash : Nat), hash < 2 ^ 64 → (∀ b ∈ bs, b < 256) →
    hashBytes hash bs < 2 ^ 64
  | [], _, h, _ => h
  | b :: rest, hash, _, hb => by
    apply hashBytes_lt rest
    · apply Nat.xor_lt_two_pow (Nat.mod_lt _ (by decide))
      exact lt_trans (hb b (List.mem_cons_self _ _)) (by decide)
    · exact fun x hx => hb x (List.mem_cons_of_mem _ hx)

/-- C32: for every list of strings `hashStringSlice` is the 64-bit fold of the
specification: it starts from the offset basis 14695981039346656037 and
processes, for each string in order, the bytes of the string and then the
separator byte `0x0A` with the step `h := ((h * 1099511628211) mod 2 ^ 64) xor
byte`; the result is below `2 ^ 64`, the hash of the empty list is the offset
basis, and equal lists have equal hashes. -/
theorem C32_hash_is_fold (stringList : List String) :
    hashStringSlice stringList = hashFoldSpec stringList ∧
    hashStringSlice stringList < 2 ^ 64 ∧
    hashStringSlice [] = 14695981039346656037 ∧
    (∀ other, other = stringList → hashStringSlice other = hashStringSlice stringList) := by
  have hb : hashStringSlice stringList = hashBytes offset (byteStream stringList) :=
    hashStringSliceFrom_eq stringList offset
  refine ⟨?_, ?_, rfl, fun other h => by rw [h]⟩
  · rw [hb, hashBytes_eq_foldl]
    rfl
  · rw [hb]
    apply hashBytes_lt _ _ (by decide)
    intro b hbm
    simp only [byteStream, List.mem_flatMap, List.mem_append] at hbm
    obtain ⟨s, _, h1 | h1⟩ := hbm
    · exact stringBytes_lt s b h1
    · exact stringBytes_lt stringSep b h1

/-- C33, counterexample: the lists `["a\na", "a"]` and `["a", "a\na"]` are
permutations of each other and differ as sequences, and have the same hash:
the separator is itself a byte that a string may hold, so that both lists are
read as the same bytes. -/
theorem C33_counterexample :
    ["a\na", "a"].Perm ["a", "a\na"] ∧ ["a\na", "a"] ≠ ["a", "a\na"] ∧
    hashStringSlice ["a\na", "a"] = hashStringSlice ["a", "a\na"] := by
  decide

theorem hashStringSlice_lt (stringList : List String) : hashStringSlice stringList < 2 ^ 64 := by
  have hb : hashStringSlice stringList = hashBytes offset (byteStream stringList) :=
    hashStringSliceFrom_eq stringList offset
  rw [hb]
  apply hashBytes_lt _ _ (by decide)
  intro b hbm
  simp only [byteStream, List.mem_flatMap, List.mem_append] at hbm
  obtain ⟨s, _, h1 | h1⟩ := hbm
  · exact stringBytes_lt s b h1
  · exact stringBytes_lt stringSep b h1

/-- There are more orders of twenty-one different strings than 64-bit values:
two different orders of `letters` have the same hash. -/
theorem hashStringSlice_collision :
    ∃ l p : List String, p.Perm l ∧ p ≠ l ∧ l.Perm letters ∧
      hashStringSlice p = hashStringSlice l := by
  have hcard : (Finset.range (2 ^ 64)).card < letters.permutations.toFinset.card := by
    rw [List.toFinset_card_of_nodup (List.nodup_permutations letters (by decide)),
      List.length_permutations, Finset.card_range]
    decide
  obtain ⟨x, hx, y, hy, hne, he⟩ :=
    Finset.exists_ne_map_eq_of_card_lt_of_maps_to hcard
      (fun a _ => Finset.mem_range.mpr (hashStringSlice_lt a))
  have hx1 : x.Perm letters := List.mem_permutations.mp (List.mem_toFinset.mp hx)
  have hy1 : y.Perm letters := List.mem_permutations.mp (List.mem_toFinset.mp hy)
  exact ⟨y, x, hx1.trans hy1.symm, hne, hy1, he⟩

/-- C33, amended: `hashStringSlice` is sensitive to the order in that a
permutation of a list can have another hash, as for the lists `["a", "b"]` and
`["b", "a"]` and for the label values `["abc", "toto"]` of the tests and their
transposition; the hash is a function of the bytes read, every string in order
followed by the separator, so that two lists that are read as the same bytes
have the same hash.  It does not separate all orders, also of strings without
the separator: two different orders of the twenty-one strings `letters` have
the same hash. -/
theorem C33_hash_order_sensitive (l p : List String) :
    hashStringSlice ["a", "b"] ≠ hashStringSlice ["b", "a"] ∧
    hashStringSlice ["abc", "toto"] ≠ hashStringSlice ["toto", "abc"] ∧
    hashStringSlice l = hashBytes offset (byteStream l) ∧
    (byteStream p = byteStream l → hashStringSlice p = hashStringSlice l) ∧
    (∀ s ∈ letters, stringBytes stringSep ≠ stringBytes s ∧ '\n' ∉ s.data) ∧
    (∃ l1 p1 : List String, p1.Perm l1 ∧ p1 ≠ l1 ∧ l1.Perm letters ∧
      hashStringSlice p1 = hashStringSlice l1) := by
  refine ⟨by decide, by decide, hashStringSliceFrom_eq l offset, ?_, by decide,
    hashStringSlice_collision⟩
  intro h
  have h1 : hashStringSlice p = hashBytes offset (byteStream p) :=
    hashStringSliceFrom_eq p offset
  have h2 : hashStringSlice l = hashBytes offset (byteStream l) :=
    hashStringSliceFrom_eq l offset
  rw [h1, h2, h]

/-- C34, the behaviour of the code: `hashString` multiplies the hash by the
prime before it xors the byte in, which is the FNV-1 hash; the FNV-1a hash of
`hash/fnv` xors the byte in before it multiplies.  On the empty string both are
the offset basis; on the string `a` the code gives `0xaf63bd4c8601b7be` and FNV-1a
gives `0xaf63dc4c8601ec8c`. -/
theorem C34_hash_is_not_fnv1a :
    hashString offset "" = fnv64a (stringBytes "") ∧
    hashString offset "a" = 12638153115695167422 ∧
    fnv64a (stringBytes "a") = 12638187200555641996 ∧
    hashString offset "a" ≠ fnv64a (stringBytes "a") := by
  decide

/-! ## Claims about a scan followed by its sweep -/

theorem MetricVec.deleteMetricByInstance_absent {mv : MetricVec} {m : Nat}
    (h : GoMap.get mv.metricAttrs m = none) :
    mv.deleteMetricByInstance (some m) = (false, mv) := by
  simp only [MetricVec.deleteMetricByInstance, h]

theorem MetricVec.sweep_replicate_none (n : Nat) (mv : MetricVec) :
    mv.sweep (List.replicate n none) = mv := by
  induction n with
  | zero => rfl
  | succ k ih =>
    rw [List.replicate_succ]
    exact ih

/-- C35: when a scan leaves no entry expired, its removal list holds nothing
but its 16 nil elements and the sweep of that list leaves the vector as the
scan left it; `deleteMetricByInstance` of the nil metric, or of an instance
without entry in the instance map, returns false and leaves the whole vector,
index, instance map and registry, unchanged. -/
theorem C35_sweep_without_expired (mv : MetricVec) (now : Time)
    (h : ∀ p ∈ (mv.Collect now).2.2.metricAttrs, p.2.state ≠ stateExpired) :
    (mv.Collect now).2.1 = List.replicate 16 none ∧
    (mv.Collect now).2.2.sweep (mv.Collect now).2.1 = (mv.Collect now).2.2 ∧
    (∀ mv1 : MetricVec, mv1.deleteMetricByInstance none = (false, mv1)) ∧
    (∀ (mv1 : MetricVec) (m : Nat), GoMap.get mv1.metricAttrs m = none →
      mv1.deleteMetricByInstance (some m) = (false, mv1)) := by
  have hs : ∀ p ∈ mv.metricAttrs,
      (p.2.onCollect mv.opts.WarmUpDuration now).state ≠ stateExpired := by
    intro p hp
    apply h (p.1, p.2.onCollect mv.opts.WarmUpDuration now)
    simp only [MetricVec.Collect, collectLoop_attrs, List.mem_map]
    exact ⟨p, hp, rfl⟩
  have hl : (mv.Collect now).2.1 = List.replicate 16 none := by
    simp only [MetricVec.Collect, (collectLoop_all_sampled mv.opts now mv.metricAttrs hs).2,
      List.append_nil]
  refine ⟨hl, ?_, fun _ => rfl, fun _ _ hm => MetricVec.deleteMetricByInstance_absent hm⟩
  rw [hl]
  exact MetricVec.sweep_replicate_none 16 _

/-- Witness of C35: the scan of the vector of the tests one second after the
creation of its entry, which is then in its warm-up. -/
theorem C35_sweep_without_expired_witness :
    (∀ p ∈ (exampleVec.Collect (defaultTime + 1000000000)).2.2.metricAttrs,
      p.2.state ≠ stateExpired) ∧
    (exampleVec.Collect (defaultTime + 1000000000)).2.1 = List.replicate 16 none :=
  ⟨by decide, (C35_sweep_without_expired exampleVec (defaultTime + 1000000000) (by decide)).1⟩

theorem GoMap.key_ne_of_get_none {K V : Type} [DecidableEq K] {m : GoMap K V} {k : K}
    (h : GoMap.get m k = none) : ∀ p ∈ m, p.1 ≠ k := by
  intro p hp hk
  obtain ⟨v, hv⟩ := GoMap.get_of_mem_keys (show k ∈ GoMap.keys m from
    List.mem_map.mpr ⟨p, hp, hk⟩)
  rw [h] at hv
  cases hv

/-- What `deleteMetricByInstance` leaves of the instance map: the entries of
the other instances. -/
theorem MetricVec.deleteMetricByInstance_filter (mv : MetricVec) (x : Option Nat) :
    (mv.deleteMetricByInstance x).2.metricAttrs
      = mv.metricAttrs.filter (fun p => decide (some p.1 ≠ x)) := by
  unfold MetricVec.deleteMetricByInstance
  cases x with
  | none =>
    symm
    apply List.filter_eq_self.mpr
    intro p _
    simp
  | some m =>
    dsimp only
    cases ha : GoMap.get mv.metricAttrs m with
    | none =>
      symm
      apply List.filter_eq_self.mpr
      intro p hp
      simpa using GoMap.key_ne_of_get_none ha p hp
    | some attr =>
      have hd : GoMap.delete mv.metricAttrs m
          = mv.metricAttrs.filter (fun p => decide (some p.1 ≠ some m)) := by
        unfold GoMap.delete
        apply List.filter_congr
        intro p _
        simp
      dsimp only
      split <;> exact hd

/-- What a sweep leaves of the instance map: the entries of the instances that
are not on the removal list. -/
theorem MetricVec.sweep_filter (l : List (Option Nat)) :
    ∀ (mv : MetricVec),
      (mv.sweep l).metricAttrs = mv.metricAttrs.filter (fun p => decide (some p.1 ∉ l)) := by
  induction l with
  | nil =>
    intro mv
    symm
    apply List.filter_eq_self.mpr
    intro p _
    simp
  | cons x rest ih =>
    intro mv
    simp only [MetricVec.sweep]
    rw [ih, MetricVec.deleteMetricByInstance_filter, List.filter_filter]
    apply List.filter_congr
    intro p _
    simp only [List.mem_cons, not_or, Bool.decide_and, ne_eq, Bool.and_comm]

theorem List.length_filter_add_filter_not {α : Type} (f : α → Bool) (l : List α) :
    (l.filter f).length + (l.filter (fun a => !f a)).length = l.length := by
  induction l with
  | nil => rfl
  | cons a t ih =>
    cases hf : f a
    · simp only [List.filter_cons, hf, Bool.not_false, if_true, Bool.false_eq_true, if_false,
        List.length_cons]
      omega
    · simp only [List.filter_cons, hf, Bool.not_true, if_true, Bool.false_eq_true, if_false,
        List.length_cons]
      omega

/-- C36: for every vector state and clock value, when a scan is followed by its
sweep with nothing in between, the instance map afterwards is the one the scan
left without its expired entries: no entry of it is expired, no instance of
the removal list has an entry, and the number of entries is the number before
less the number of entries the scan left expired. -/
theorem C36_scan_then_sweep (mv : MetricVec) (now : Time)
    (hk : (GoMap.keys mv.metricAttrs).Nodup) :
    ((mv.Collect now).2.2.sweep (mv.Collect now).2.1).metricAttrs
      = (mv.Collect now).2.2.metricAttrs.filter (fun p => decide (p.2.state ≠ stateExpired)) ∧
    (∀ p ∈ ((mv.Collect now).2.2.sweep (mv.Collect now).2.1).metricAttrs,
      p.2.state ≠ stateExpired) ∧
    (∀ m, some m ∈ (mv.Collect now).2.1 →
      GoMap.get ((mv.Collect now).2.2.sweep (mv.Collect now).2.1).metricAttrs m = none) ∧
    ((mv.Collect now).2.2.sweep (mv.Collect now).2.1).metricAttrs.length
      + ((mv.Collect now).2.2.metricAttrs.filter
          (fun p => decide (p.2.state = stateExpired))).length
      = mv.metricAttrs.length ∧
    ((mv.Collect now).2.1.filter (fun x => x.isSome)).length
      = ((mv.Collect now).2.2.metricAttrs.filter
          (fun p => decide (p.2.state = stateExpired))).length := by
  have hk1 : (GoMap.keys (mv.Collect now).2.2.metricAttrs).Nodup := by
    rw [MetricVec.Collect_keys]
    exact hk
  have hlen : (mv.Collect now).2.2.metricAttrs.length = mv.metricAttrs.length := by
    simp only [MetricVec.Collect, collectLoop_attrs, List.length_map]
  have hmem : ∀ p ∈ (mv.Collect now).2.2.metricAttrs,
      (some p.1 ∈ (mv.Collect now).2.1 ↔ p.2.state = stateExpired) := by
    intro p hp
    constructor
    · intro hm
      obtain ⟨a1, ha1, hx⟩ := (MetricVec.mem_Collect_expired mv now p.1).mp hm
      have hp1 : (p.1, a1.onCollect mv.opts.WarmUpDuration now)
          ∈ (mv.Collect now).2.2.metricAttrs := by
        simp only [MetricVec.Collect, collectLoop_attrs, List.mem_map]
        exact ⟨(p.1, a1), ha1, rfl⟩
      have g1 := GoMap.get_of_mem hk1 hp1
      have g2 := GoMap.get_of_mem hk1 (show (p.1, p.2) ∈ (mv.Collect now).2.2.metricAttrs from hp)
      rw [g1] at g2
      rw [← Option.some.inj g2]
      exact hx
    · intro hx
      simp only [MetricVec.Collect, collectLoop_attrs, List.mem_map] at hp
      obtain ⟨q, hq, rfl⟩ := hp
      exact (MetricVec.mem_Collect_expired mv now q.1).mpr ⟨q.2, hq, hx⟩
  have hf : ((mv.Collect now).2.2.sweep (mv.Collect now).2.1).metricAttrs
      = (mv.Collect now).2.2.metricAttrs.filter
          (fun p => decide (p.2.state ≠ stateExpired)) := by
    rw [MetricVec.sweep_filter]
    apply List.filter_congr
    intro p hp
    simp only [decide_not, hmem p hp]
  refine ⟨hf, ?_, ?_, ?_, ?_⟩
  · intro p hp
    rw [hf] at hp
    simpa using (List.mem_filter.mp hp).2
  · intro m hm
    cases hg : GoMap.get ((mv.Collect now).2.2.sweep (mv.Collect now).2.1).metricAttrs m with
    | none => rfl
    | some a =>
      exfalso
      have hin := GoMap.mem_of_get hg
      rw [hf] at hin
      obtain ⟨h1, h2⟩ := List.mem_filter.mp hin
      have hx : a.state = stateExpired := (hmem (m, a) h1).mp hm
      simp [hx] at h2
  · rw [hf, ← hlen]
    have := List.length_filter_add_filter_not
      (fun p : Nat × metricAttr => decide (p.2.state ≠ stateExpired))
      (mv.Collect now).2.2.metricAttrs
    simpa using this
  · simp only [MetricVec.Collect, collectLoop_expired, collectLoop_attrs, List.filter_append,
      List.length_append]
    have h16 : (List.filter (fun x : Option Nat => x.isSome) (List.replicate 16 none)).length
        = 0 := by decide
    rw [h16, Nat.zero_add]
    generalize mv.metricAttrs = l
    induction l with
    | nil => rfl
    | cons q t ih =>
      by_cases hx : (q.2.onCollect mv.opts.WarmUpDuration now).state = stateExpired
      · simp [List.filter_cons, hx, ih]
      · simp [List.filter_cons, hx, ih]

/-- Witness of C36: the scan of `quickVec` 700 milliseconds after the creation
of its one entry, which the scan before left expired, and its sweep. -/
theorem C36_scan_then_sweep_witness :
    (GoMap.keys quickVec.metricAttrs).Nodup ∧
    ((quickVec.Collect (defaultTime + 700000000)).2.2.sweep
      (quickVec.Collect (defaultTime + 700000000)).2.1).metricAttrs = [] :=
  ⟨by decide,
    (C36_scan_then_sweep quickVec (defaultTime + 700000000) (by decide)).1.trans (by decide)⟩

/-! ## Consistency of the vector as an invariant -/

theorem tagMap.mem_elems_of_Get {m : tagMap} {key : List String}
    (h : (m.Get key).2 = true) : ∃ e ∈ m.elems, e.key = key := by
  rw [tagMap.Get_snd] at h
  cases hb : bucketFind key (m.bucket (m.hash key)) with
  | none => simp [hb] at h
  | some e =>
    have hmem : e ∈ m.bucket (m.hash key) := List.mem_of_find?_eq_some hb
    have hkey : e.key = key := by
      have := List.find?_some hb
      simpa using this
    exact ⟨e, tagMap.bucket_subset_elems m _ e hmem, hkey⟩

theorem filter_key_length_one {α β : Type} [DecidableEq β] (f : α → β) :
    ∀ (l : List α), (l.map f).Nodup → ∀ e ∈ l,
      (l.filter (fun x => decide (f x = f e))).length = 1
  | [], _, e, he => by cases he
  | a :: t, hn, e, he => by
    simp only [List.map_cons, List.nodup_cons] at hn
    obtain ⟨hn1, hn2⟩ := hn
    rcases List.mem_cons.mp he with h | h
    · subst h
      have ht : t.filter (fun x => decide (f x = f e)) = [] := by
        apply List.filter_eq_nil_iff.mpr
        intro x hx
        simp only [decide_eq_true_eq]
        intro c
        exact hn1 (c ▸ List.mem_map_of_mem f hx)
      simp [List.filter_cons, ht]
    · have hne : f a ≠ f e := fun c => hn1 (c ▸ List.mem_map_of_mem f h)
      simp only [List.filter_cons, hne, decide_False, Bool.false_eq_true, if_false]
      exact filter_key_length_one f t hn2 e h

theorem newTagMap_wellFormed : newTagMap.WellFormed :=
  ⟨List.nodup_nil, fun p hp => by cases hp⟩

theorem MetricVec.deleteMetric_tags (mv : MetricVec) (labelValues : List String) :
    (mv.deleteMetric labelValues).2.tags = mv.tags ∨
    (mv.deleteMetric labelValues).2.tags = mv.tags.Delete labelValues := by
  cases hp : (mv.tags.Get labelValues).2 with
  | false =>
    rw [MetricVec.deleteMetric_absent hp]
    exact Or.inl rfl
  | true =>
    rw [MetricVec.deleteMetric_present hp]
    exact Or.inr rfl

theorem MetricVec.deleteMetricByInstance_tags (mv : MetricVec) (x : Option Nat) :
    (mv.deleteMetricByInstance x).2.tags = mv.tags ∨
    ∃ key, (mv.deleteMetricByInstance x).2.tags = mv.tags.Delete key := by
  unfold MetricVec.deleteMetricByInstance
  cases x with
  | none => exact Or.inl rfl
  | some m =>
    dsimp only
    cases ha : GoMap.get mv.metricAttrs m with
    | none => exact Or.inl rfl
    | some attr =>
      dsimp only
      split
      · exact Or.inr ⟨attr.labelValues, rfl⟩
      · exact Or.inl rfl

theorem MetricVec.wellFormed_deleteMetricByInstance {mv : MetricVec}
    (h : mv.tags.WellFormed) (x : Option Nat) :
    (mv.deleteMetricByInstance x).2.tags.WellFormed := by
  rcases MetricVec.deleteMetricByInstance_tags mv x with e | ⟨key, e⟩
  · rw [e]
    exact h
  · rw [e]
    exact tagMap.wellFormed_Delete h key

theorem MetricVec.wellFormed_sweep (l : List (Option Nat)) :
    ∀ {mv : MetricVec}, mv.tags.WellFormed → (mv.sweep l).tags.WellFormed := by
  induction l with
  | nil => intro mv h; exact h
  | cons x rest ih =>
    intro mv h
    exact ih (MetricVec.wellFormed_deleteMetricByInstance h x)

/-- Every operation keeps the index of the vector well-formed. -/
theorem System.step_wellFormed (s : System) (op : Op) (h : s.vec.tags.WellFormed) :
    (s.step op).2.vec.tags.WellFormed := by
  cases op with
  | get now labelValues =>
    simp only [System.step]
    rcases (MetricVec.GetMetricWithLabelValues_cases s.vec now labelValues).2 with
      ⟨_, _, _, _, _, e, _⟩ | ⟨_, _, e, _⟩ | ⟨_, e, _⟩
    · rw [e]
      exact h
    · rw [e]
      exact tagMap.wellFormed_Add h _ _
    · rw [e]
      exact h
  | delete labelValues =>
    simp only [System.step, MetricVec.DeleteLabelValues]
    rcases MetricVec.deleteMetric_tags s.vec labelValues with e | e
    · rw [e]
      exact h
    · rw [e]
      exact tagMap.wellFormed_Delete h _
  | reset => exact newTagMap_wellFormed
  | collect now => exact h
  | sweep k =>
    simp only [System.step]
    cases hk : s.pending.get? k with
    | none => exact h
    | some l => exact MetricVec.wellFormed_sweep l h

/-- Every state reached from the empty vector, `deleteMetricByInstance` of
arbitrary metrics included, is consistent and has a well-formed index. -/
theorem System.runAny_invariant :
    ∀ (ops : List VecOp) (s : System), s.vec.Consistent → s.vec.tags.WellFormed →
      (s.runAny ops).vec.Consistent ∧ (s.runAny ops).vec.tags.WellFormed
  | [], _, h1, h2 => ⟨h1, h2⟩
  | VecOp.op o :: ops, s, h1, h2 =>
    System.runAny_invariant ops _ (System.step_consistent s o h1)
      (System.step_wellFormed s o h2)
  | VecOp.deleteByInstance metric :: ops, _, h1, h2 =>
    System.runAny_invariant ops _ (MetricVec.consistent_deleteMetricByInstance h1 metric)
      (MetricVec.wellFormed_deleteMetricByInstance h2 metric)

/-- In a consistent vector with a well-formed index, for every entry of the
instance map that is not expired the index finds the label values of the entry
with the tag of the entry, holds exactly one element for these label values,
and every element it holds for them carries the tag of the entry. -/
theorem MetricVec.consistent_index_entry {mv : MetricVec} (hc : mv.Consistent)
    (hw : mv.tags.WellFormed) :
    ∀ p ∈ mv.metricAttrs, p.2.state ≠ stateExpired →
      mv.tags.Get p.2.labelValues = (p.2.tag, true) ∧
      ((mv.tags.elems.filter (fun e => decide (e.key = p.2.labelValues))).length = 1) ∧
      (∀ e ∈ mv.tags.elems, e.key = p.2.labelValues → e.value = p.2.tag) := by
  intro p hp hne
  have hg := (hc.2.2 p hp).2.2 hne
  refine ⟨hg, ?_, ?_⟩
  · obtain ⟨e, he, hk⟩ := tagMap.mem_elems_of_Get (show (mv.tags.Get p.2.labelValues).2 = true by
      rw [hg])
    rw [← hk]
    exact filter_key_length_one mapElement.key mv.tags.elems hw.elems_nodup e he
  · intro e he hk
    have h1 := tagMap.Get_of_mem_elems hw he
    rw [hk, hg] at h1
    exact (Prod.mk.inj h1).1.symm

/-! ## Slices held by reference: the index while no slice is written -/

theorem GoMap.get_map_val {K V W : Type} [DecidableEq K] (f : V → W) (l : GoMap K V) (k : K) :
    GoMap.get (l.map (fun p => (p.1, f p.2))) k = (GoMap.get l k).map f := by
  induction l with
  | nil => rfl
  | cons p t ih =>
    obtain ⟨k1, v1⟩ := p
    by_cases h : k1 = k <;> simp [GoMap.get, h, ih]

theorem GoMap.set_map_val {K V W : Type} [DecidableEq K] (f : V → W) (l : GoMap K V) (k : K)
    (v : V) :
    (GoMap.set l k v).map (fun p => (p.1, f p.2))
      = GoMap.set (l.map (fun p => (p.1, f p.2))) k (f v) := by
  induction l with
  | nil => rfl
  | cons p t ih =>
    obtain ⟨k1, v1⟩ := p
    by_cases h : k1 = k <;> simp [GoMap.set, h, ih]

theorem GoMap.delete_map_val {K V W : Type} [DecidableEq K] (f : V → W) (l : GoMap K V)
    (k : K) :
    (GoMap.delete l k).map (fun p => (p.1, f p.2))
      = GoMap.delete (l.map (fun p => (p.1, f p.2))) k := by
  unfold GoMap.delete
  rw [List.filter_map]
  rfl

theorem deref_findIdx (heap : Heap) (key : List String) (l : List Ref.mapElement) :
    Ref.findIdx heap key l = findIdx key (l.map (Ref.mapElement.deref heap)) := by
  induction l with
  | nil => rfl
  | cons e es ih =>
    simp only [Ref.findIdx, findIdx, List.map_cons, ih]
    rfl

theorem deref_bucket (heap : Heap) (m : Ref.tagMap) (h : Nat) :
    (Ref.tagMap.deref heap m).bucket h = (m.bucket h).map (Ref.mapElement.deref heap) := by
  simp only [tagMap.bucket, Ref.tagMap.bucket, Ref.tagMap.deref]
  rw [GoMap.get_map_val (fun b : List Ref.mapElement => b.map (Ref.mapElement.deref heap))]
  cases GoMap.get m.index h <;> rfl

theorem deref_findElem (heap : Heap) (m : Ref.tagMap) (h : Nat)
    (key : List String) :
    m.findElem heap h key = (Ref.tagMap.deref heap m).findElem h key := by
  simp only [Ref.tagMap.findElem, tagMap.findElem, deref_bucket, deref_findIdx]

theorem List.map_modify_comm {α β : Type} (F : α → β) (f : α → α) (g : β → β)
    (hc : ∀ a, F (f a) = g (F a)) :
    ∀ (l : List α) (i : Nat), (l.modify f i).map F = (l.map F).modify g i
  | [], i => by cases i <;> rfl
  | a :: t, 0 => by simp [List.modify, hc]
  | a :: t, i + 1 => by
    simp only [List.modify_succ_cons, List.map_cons, List.map_modify_comm F f g hc t i]

/-- While no slice is written, `Get` by reference is `Get` by value. -/
theorem deref_Get (heap : Heap) (m : Ref.tagMap) (key : Nat) :
    m.Get heap key = (Ref.tagMap.deref heap m).Get (readSlice heap key) := by
  simp only [Ref.tagMap.Get, tagMap.Get, deref_findElem, deref_bucket]
  have hh : (Ref.tagMap.deref heap m).hash = m.hash := rfl
  rw [hh]
  cases (Ref.tagMap.deref heap m).findElem (m.hash (readSlice heap key)) (readSlice heap key) with
  | none => rfl
  | some i =>
    simp only [List.get?_eq_getElem?, List.getElem?_map, Option.map_map]
    rfl

/-- While no slice is written, `Add` by reference is `Add` by value. -/
theorem deref_Add (heap : Heap) (m : Ref.tagMap) (key : Nat) (value : String) :
    Ref.tagMap.deref heap (m.Add heap key value)
      = (Ref.tagMap.deref heap m).Add (readSlice heap key) value := by
  simp only [Ref.tagMap.Add, tagMap.Add, deref_findElem, deref_bucket]
  have hh : (Ref.tagMap.deref heap m).hash = m.hash := rfl
  rw [hh]
  cases (Ref.tagMap.deref heap m).findElem (m.hash (readSlice heap key)) (readSlice heap key) with
  | none =>
    simp only [Ref.tagMap.deref]
    rw [GoMap.set_map_val (fun b : List Ref.mapElement => b.map (Ref.mapElement.deref heap))]
    simp [Ref.mapElement.deref]
  | some i =>
    simp only [Ref.tagMap.deref]
    rw [GoMap.set_map_val (fun b : List Ref.mapElement => b.map (Ref.mapElement.deref heap))]
    rw [List.map_modify_comm (Ref.mapElement.deref heap)
      (fun e : Ref.mapElement => { e with value := value })
      (fun e : mapElement => { e with value := value }) (fun _ => rfl)]

theorem List.getLastD_map_comm {α β : Type} (F : α → β) :
    ∀ (l : List α) (d : α), (l.map F).getLastD (F d) = F (l.getLastD d)
  | [], _ => rfl
  | a :: t, _ => by
    simp only [List.map_cons, List.getLastD_cons]
    exact List.getLastD_map_comm F t a

/-- While no slice is written, `Delete` by reference is `Delete` by value. -/
theorem deref_Delete (heap : Heap) (m : Ref.tagMap) (key : Nat) :
    Ref.tagMap.deref heap (m.Delete heap key)
      = (Ref.tagMap.deref heap m).Delete (readSlice heap key) := by
  simp only [Ref.tagMap.Delete, tagMap.Delete, deref_findElem, deref_bucket]
  have hh : (Ref.tagMap.deref heap m).hash = m.hash := rfl
  rw [hh]
  cases (Ref.tagMap.deref heap m).findElem (m.hash (readSlice heap key)) (readSlice heap key) with
  | none => rfl
  | some i =>
    simp only [List.length_map]
    by_cases hl : (m.bucket (m.hash (readSlice heap key))).length > 1
    · rw [if_pos hl, if_pos hl]
      simp only [Ref.tagMap.deref]
      rw [GoMap.set_map_val (fun b : List Ref.mapElement => b.map (Ref.mapElement.deref heap))]
      congr 2
      have hne : m.bucket (m.hash (readSlice heap key)) ≠ [] := by
        intro c
        rw [c] at hl
        simp at hl
      simp only [List.map_dropLast, List.map_set]
      congr 2
      cases hb : m.bucket (m.hash (readSlice heap key)) with
      | nil => exact absurd hb hne
      | cons a t =>
        simp only [List.getLastD_cons, List.map_cons]
        exact (List.getLastD_map_comm (Ref.mapElement.deref heap) t a).symm
    · rw [if_neg hl, if_neg hl]
      simp only [Ref.tagMap.deref]
      rw [GoMap.delete_map_val (fun b : List Ref.mapElement => b.map (Ref.mapElement.deref heap))]

theorem deref_onAccess (heap : Heap) (a : Ref.metricAttr) (d : Duration) (now : Time) :
    Ref.metricAttr.deref heap (a.onAccess d now)
      = (Ref.metricAttr.deref heap a).onAccess d now := by
  unfold Ref.metricAttr.onAccess metricAttr.onAccess
  split <;> rfl

theorem deref_onCollect (heap : Heap) (a : Ref.metricAttr) (w : Duration) (now : Time) :
    Ref.metricAttr.deref heap (a.onCollect w now)
      = (Ref.metricAttr.deref heap a).onCollect w now := by
  unfold Ref.metricAttr.onCollect metricAttr.onCollect
  simp only [Ref.metricAttr.deref]
  split_ifs <;> rfl

theorem deref_hasExpired (heap : Heap) (a : Ref.metricAttr) :
    a.hasExpired = (Ref.metricAttr.deref heap a).hasExpired := rfl

theorem deref_attrs_get (heap : Heap) (mv : Ref.MetricVec) (m : Nat) :
    GoMap.get (Ref.MetricVec.deref heap mv).metricAttrs m
      = (GoMap.get mv.metricAttrs m).map (Ref.metricAttr.deref heap) :=
  GoMap.get_map_val (Ref.metricAttr.deref heap) mv.metricAttrs m

/-! ## Slices held by reference: the vector while no slice is written -/

/-- While no slice is written, the lookup path by reference is the lookup path
by value. -/
theorem deref_getMetric (heap : Heap) (mv : Ref.MetricVec) (now : Time) (s : Nat) :
    (mv.getMetric heap now s).1
      = ((Ref.MetricVec.deref heap mv).getMetric now (readSlice heap s)).1 ∧
    Ref.MetricVec.deref heap (mv.getMetric heap now s).2
      = ((Ref.MetricVec.deref heap mv).getMetric now (readSlice heap s)).2 := by
  unfold Ref.MetricVec.getMetric MetricVec.getMetric
  have ht : (Ref.MetricVec.deref heap mv).tags.Get (readSlice heap s) = mv.tags.Get heap s :=
    (deref_Get heap mv.tags s).symm
  rw [ht]
  cases hg : mv.tags.Get heap s with
  | mk tag present =>
    cases present with
    | false => exact ⟨rfl, rfl⟩
    | true =>
      simp only [Bool.true_eq_false, if_false]
      have hreg : (Ref.MetricVec.deref heap mv).metricVec = mv.metricVec := rfl
      rw [hreg]
      cases hr : mv.metricVec.GetMetricWithLabelValues (readSlice heap s ++ [tag]) with
      | mk r pv =>
        cases r with
        | error e => exact ⟨rfl, rfl⟩
        | ok metric =>
          dsimp only
          rw [deref_attrs_get]
          cases ha : GoMap.get mv.metricAttrs metric with
          | none => exact ⟨rfl, rfl⟩
          | some attr =>
            simp only [Option.map_some']
            rw [← deref_hasExpired]
            cases hx : attr.hasExpired
            · simp only [Bool.false_eq_true, if_false]
              refine ⟨trivial, ?_⟩
              simp only [Ref.MetricVec.deref]
              rw [GoMap.set_map_val (Ref.metricAttr.deref heap), deref_onAccess]
            · exact ⟨rfl, rfl⟩

/-- While no slice is written, the creation path by reference is the creation
path by value. -/
theorem deref_addMetric (heap : Heap) (mv : Ref.MetricVec) (now : Time) (s : Nat) :
    (mv.addMetric heap now s).1
      = ((Ref.MetricVec.deref heap mv).addMetric now (readSlice heap s)).1 ∧
    Ref.MetricVec.deref heap (mv.addMetric heap now s).2
      = ((Ref.MetricVec.deref heap mv).addMetric now (readSlice heap s)).2 := by
  simp only [Ref.MetricVec.addMetric, MetricVec.addMetric]
  have hreg : (Ref.MetricVec.deref heap mv).metricVec = mv.metricVec := rfl
  rw [hreg]
  cases hr : mv.metricVec.GetMetricWithLabelValues
      (readSlice heap s ++ [generateLifeCycleTag now]) with
  | mk r pv =>
    cases r with
    | error e => exact ⟨rfl, rfl⟩
    | ok metric =>
      refine ⟨rfl, ?_⟩
      simp only [Ref.MetricVec.deref]
      rw [GoMap.set_map_val (Ref.metricAttr.deref heap), deref_onAccess, deref_Add]
      rfl

/-- While no slice is written, get-or-create by reference is get-or-create by
value. -/
theorem deref_GetMetricWithLabelValues (heap : Heap) (mv : Ref.MetricVec) (now : Time)
    (s : Nat) :
    (mv.GetMetricWithLabelValues heap now s).1
      = ((Ref.MetricVec.deref heap mv).GetMetricWithLabelValues now (readSlice heap s)).1 ∧
    Ref.MetricVec.deref heap (mv.GetMetricWithLabelValues heap now s).2
      = ((Ref.MetricVec.deref heap mv).GetMetricWithLabelValues now (readSlice heap s)).2 := by
  unfold Ref.MetricVec.GetMetricWithLabelValues MetricVec.GetMetricWithLabelValues
  obtain ⟨g1, g2⟩ := deref_getMetric heap mv now s
  cases h1 : mv.getMetric heap now s with
  | mk r1 mv1 =>
    rw [h1] at g1 g2
    simp only at g1 g2
    have e1 : (Ref.MetricVec.deref heap mv).getMetric now (readSlice heap s)
        = (r1, Ref.MetricVec.deref heap mv1) := Prod.ext g1.symm g2.symm
    rw [e1]
    obtain ⟨x1, y1⟩ := r1
    cases x1 with
    | some m => exact ⟨rfl, rfl⟩
    | none =>
      cases y1 with
      | some err => exact ⟨rfl, rfl⟩
      | none =>
        simp only
        obtain ⟨g3, g4⟩ := deref_getMetric heap mv1 now s
        cases h2 : mv1.getMetric heap now s with
        | mk r2 mv2 =>
          rw [h2] at g3 g4
          simp only at g3 g4
          have e2 : (Ref.MetricVec.deref heap mv1).getMetric now (readSlice heap s)
              = (r2, Ref.MetricVec.deref heap mv2) := Prod.ext g3.symm g4.symm
          rw [e2]
          obtain ⟨x2, y2⟩ := r2
          cases x2 with
          | some m => exact ⟨rfl, rfl⟩
          | none =>
            cases y2 with
            | some err => exact ⟨rfl, rfl⟩
            | none =>
              simp only
              obtain ⟨g5, g6⟩ := deref_addMetric heap mv2 now s
              exact ⟨by rw [g5], g6⟩

/-- While no slice is written, the delete by reference is the delete by value. -/
theorem deref_deleteMetric (heap : Heap) (mv : Ref.MetricVec) (s : Nat) :
    (mv.deleteMetric heap s).1
      = ((Ref.MetricVec.deref heap mv).deleteMetric (readSlice heap s)).1 ∧
    Ref.MetricVec.deref heap (mv.deleteMetric heap s).2
      = ((Ref.MetricVec.deref heap mv).deleteMetric (readSlice heap s)).2 := by
  unfold Ref.MetricVec.deleteMetric MetricVec.deleteMetric
  have ht : (Ref.MetricVec.deref heap mv).tags.Get (readSlice heap s) = mv.tags.Get heap s :=
    (deref_Get heap mv.tags s).symm
  rw [ht]
  cases hg : mv.tags.Get heap s with
  | mk tag present =>
    cases present with
    | false => exact ⟨rfl, rfl⟩
    | true =>
      simp only [Bool.true_eq_false, if_false]
      have hreg : (Ref.MetricVec.deref heap mv).metricVec = mv.metricVec := rfl
      rw [hreg]
      refine ⟨trivial, ?_⟩
      cases hr : mv.metricVec.GetMetricWithLabelValues (readSlice heap s ++ [tag]) with
      | mk r pv =>
        have htd : Ref.tagMap.deref heap (mv.tags.Delete heap s)
            = (Ref.MetricVec.deref heap mv).tags.Delete (readSlice heap s) :=
          deref_Delete heap mv.tags s
        cases r with
        | error e =>
          simp only [Ref.MetricVec.deref] at htd ⊢
          rw [htd]
        | ok metric =>
          simp only [Ref.MetricVec.deref] at htd ⊢
          rw [htd, GoMap.delete_map_val (Ref.metricAttr.deref heap)]

/-- While no slice is written, the delete by instance by reference is the
delete by instance by value. -/
theorem deref_deleteMetricByInstance (heap : Heap) (mv : Ref.MetricVec) (x : Option Nat) :
    (mv.deleteMetricByInstance heap x).1
      = ((Ref.MetricVec.deref heap mv).deleteMetricByInstance x).1 ∧
    Ref.MetricVec.deref heap (mv.deleteMetricByInstance heap x).2
      = ((Ref.MetricVec.deref heap mv).deleteMetricByInstance x).2 := by
  unfold Ref.MetricVec.deleteMetricByInstance MetricVec.deleteMetricByInstance
  cases x with
  | none => exact ⟨rfl, rfl⟩
  | some m =>
    dsimp only
    rw [deref_attrs_get]
    cases ha : GoMap.get mv.metricAttrs m with
    | none => exact ⟨rfl, rfl⟩
    | some attr =>
      simp only [Option.map_some']
      have ht : (Ref.MetricVec.deref heap mv).tags.Get (Ref.metricAttr.deref heap attr).labelValues
          = mv.tags.Get heap attr.labelValues := (deref_Get heap mv.tags attr.labelValues).symm
      rw [ht]
      have htd : Ref.tagMap.deref heap (mv.tags.Delete heap attr.labelValues)
          = (Ref.MetricVec.deref heap mv).tags.Delete
              (Ref.metricAttr.deref heap attr).labelValues :=
        deref_Delete heap mv.tags attr.labelValues
      cases hg : mv.tags.Get heap attr.labelValues with
      | mk tag present =>
        dsimp only
        have htag : (Ref.metricAttr.deref heap attr).tag = attr.tag := rfl
        rw [htag]
        by_cases hc : present = true ∧ tag = attr.tag
        · rw [if_pos hc, if_pos hc]
          refine ⟨rfl, ?_⟩
          simp only [Ref.MetricVec.deref] at htd ⊢
          rw [htd, GoMap.delete_map_val (Ref.metricAttr.deref heap)]
          rfl
        · rw [if_neg hc, if_neg hc]
          refine ⟨rfl, ?_⟩
          simp only [Ref.MetricVec.deref]
          rw [GoMap.delete_map_val (Ref.metricAttr.deref heap)]
          rfl

theorem deref_Reset (heap : Heap) (mv : Ref.MetricVec) :
    Ref.MetricVec.deref heap mv.Reset = (Ref.MetricVec.deref heap mv).Reset := rfl

theorem deref_collectLoop (heap : Heap) (opts : metricOpts) (now : Time) :
    ∀ (l : GoMap Nat Ref.metricAttr),
      (Ref.collectLoop opts heap now l).1
        = (collectLoop opts now (l.map (fun p => (p.1, Ref.metricAttr.deref heap p.2)))).1 ∧
      (Ref.collectLoop opts heap now l).2.1
        = (collectLoop opts now (l.map (fun p => (p.1, Ref.metricAttr.deref heap p.2)))).2.1 ∧
      (Ref.collectLoop opts heap now l).2.2.map (fun p => (p.1, Ref.metricAttr.deref heap p.2))
        = (collectLoop opts now (l.map (fun p => (p.1, Ref.metricAttr.deref heap p.2)))).2.2
  | [] => ⟨rfl, rfl, rfl⟩
  | (metric, attr) :: rest => by
    obtain ⟨i1, i2, i3⟩ := deref_collectLoop heap opts now rest
    have hc := deref_onCollect heap attr opts.WarmUpDuration now
    have hs : ((Ref.metricAttr.deref heap attr).onCollect opts.WarmUpDuration now).state
        = (attr.onCollect opts.WarmUpDuration now).state := by rw [← hc]; rfl
    have hl : ((Ref.metricAttr.deref heap attr).onCollect opts.WarmUpDuration now).labelValues
        = readSlice heap (attr.onCollect opts.WarmUpDuration now).labelValues := by
      rw [← hc]; rfl
    have htg : ((Ref.metricAttr.deref heap attr).onCollect opts.WarmUpDuration now).tag
        = (attr.onCollect opts.WarmUpDuration now).tag := by rw [← hc]; rfl
    simp only [Ref.collectLoop, collectLoop, List.map_cons, hs, hl, htg]
    by_cases h1 : (attr.onCollect opts.WarmUpDuration now).state = stateExpired
    · simp only [if_pos h1, List.map_cons, i1, i2, i3, hc, and_self]
    · simp only [if_neg h1]
      by_cases h2 : (attr.onCollect opts.WarmUpDuration now).state = stateWarmUpOngoing
      · simp only [if_pos h2, List.map_cons, i1, i2, i3, hc, and_self]
      · simp only [if_neg h2, List.map_cons, i1, i2, i3, hc, and_self]

/-- While no slice is written, the scan by reference is the scan by value: the
same samples, the same removal list, and the same vector afterwards. -/
theorem deref_Collect (heap : Heap) (mv : Ref.MetricVec) (now : Time) :
    (mv.Collect heap now).1 = ((Ref.MetricVec.deref heap mv).Collect now).1 ∧
    (mv.Collect heap now).2.1 = ((Ref.MetricVec.deref heap mv).Collect now).2.1 ∧
    Ref.MetricVec.deref heap (mv.Collect heap now).2.2
      = ((Ref.MetricVec.deref heap mv).Collect now).2.2 := by
  obtain ⟨i1, i2, i3⟩ := deref_collectLoop heap mv.opts now mv.metricAttrs
  simp only [Ref.MetricVec.Collect, MetricVec.Collect, Ref.MetricVec.deref]
  exact ⟨i1, by rw [i2], by rw [i3]⟩

theorem deref_sweep (heap : Heap) (l : List (Option Nat)) :
    ∀ (mv : Ref.MetricVec),
      Ref.MetricVec.deref heap (mv.sweep heap l) = (Ref.MetricVec.deref heap mv).sweep l := by
  induction l with
  | nil => intro mv; rfl
  | cons x rest ih =>
    intro mv
    simp only [Ref.MetricVec.sweep, MetricVec.sweep]
    rw [ih, (deref_deleteMetricByInstance heap mv x).2]

/-- While no slice is written, every operation by reference is the operation
by value on the strings the slices hold. -/
theorem deref_step (heap : Heap) (s : Ref.System) (op : Ref.Op) :
    Ref.System.deref heap (s.step heap op).2
      = (Ref.System.deref heap s).stepAny (Ref.Op.deref heap op) := by
  cases op with
  | get now labelValues =>
    simp only [Ref.System.step, Ref.Op.deref, System.stepAny, System.step, Ref.System.deref]
    rw [(deref_GetMetricWithLabelValues heap s.vec now labelValues).2]
  | delete labelValues =>
    simp only [Ref.System.step, Ref.Op.deref, System.stepAny, System.step, Ref.System.deref,
      MetricVec.DeleteLabelValues]
    rw [(deref_deleteMetric heap s.vec labelValues).2]
  | reset => rfl
  | collect now =>
    obtain ⟨_, i2, i3⟩ := deref_Collect heap s.vec now
    simp only [Ref.System.step, Ref.Op.deref, System.stepAny, System.step, Ref.System.deref]
    rw [i2, i3]
  | sweep k =>
    simp only [Ref.System.step, Ref.Op.deref, System.stepAny, System.step, Ref.System.deref]
    cases hk : s.pending.get? k with
    | none => rfl
    | some l =>
      simp only
      rw [deref_sweep]
  | deleteByInstance metric =>
    simp only [Ref.System.step, Ref.Op.deref, System.stepAny, Ref.System.deref]
    rw [(deref_deleteMetricByInstance heap s.vec metric).2]

/-- While no slice is written, a run by reference is the run by value on the
strings the slices hold. -/
theorem deref_run (heap : Heap) :
    ∀ (ops : List Ref.Op) (s : Ref.System),
      Ref.System.deref heap (s.run heap ops)
        = (Ref.System.deref heap s).runAny (ops.map (Ref.Op.deref heap))
  | [], _ => rfl
  | op :: ops, s => by
    simp only [Ref.System.run, List.map_cons, System.runAny]
    rw [deref_run heap ops, deref_step]

theorem deref_init (heap : Heap) (opts : metricOpts) (labelNames : List String) :
    Ref.System.deref heap (Ref.System.init opts labelNames) = System.init opts labelNames := rfl

/-! ## Slices held by reference: writes to slices that are not held -/

theorem readSlice_writeSlice_ne (heap : Heap) {slice k : Nat} (i : Nat) (value : String)
    (h : k ≠ slice) : readSlice (writeSlice heap slice i value) k = readSlice heap k := by
  unfold readSlice writeSlice
  rw [GoMap.get_set_ne _ _ h]

theorem readSlice_writeSlice_same (heap : Heap) (slice i : Nat) (value : String) :
    readSlice (writeSlice heap slice i value) slice = (readSlice heap slice).set i value := by
  unfold writeSlice
  unfold readSlice
  rw [GoMap.get_set_same]
  rfl

theorem deref_write_index (heap : Heap) (slice i : Nat) (value : String) (m : Ref.tagMap)
    (h : m.holds slice = false) :
    Ref.tagMap.deref (writeSlice heap slice i value) m = Ref.tagMap.deref heap m := by
  unfold Ref.tagMap.deref
  congr 1
  apply List.map_congr_left
  intro p hp
  congr 1
  apply List.map_congr_left
  intro e he
  have hne : e.key ≠ slice := by
    intro c
    have : m.holds slice = true := by
      unfold Ref.tagMap.holds
      rw [List.any_eq_true]
      refine ⟨p, hp, ?_⟩
      rw [List.any_eq_true]
      exact ⟨e, he, by simp [c]⟩
    rw [h] at this
    cases this
  unfold Ref.mapElement.deref
  rw [readSlice_writeSlice_ne heap i value hne]

theorem deref_write_vec (heap : Heap) (slice i : Nat) (value : String) (mv : Ref.MetricVec)
    (h : mv.holds slice = false) :
    Ref.MetricVec.deref (writeSlice heap slice i value) mv = Ref.MetricVec.deref heap mv := by
  unfold Ref.MetricVec.holds at h
  rw [Bool.or_eq_false_iff] at h
  unfold Ref.MetricVec.deref
  rw [deref_write_index heap slice i value mv.tags h.1]
  congr 1
  apply List.map_congr_left
  intro p hp
  have hne : p.2.labelValues ≠ slice := by
    intro c
    have : mv.metricAttrs.any (fun p => decide (p.2.labelValues = slice)) = true := by
      rw [List.any_eq_true]
      exact ⟨p, hp, by simp [c]⟩
    rw [h.2] at this
    cases this
  unfold Ref.metricAttr.deref
  rw [readSlice_writeSlice_ne heap i value hne]

theorem deref_elems (heap : Heap) (m : Ref.tagMap) :
    (Ref.tagMap.deref heap m).elems = m.elems.map (Ref.mapElement.deref heap) := by
  unfold tagMap.elems Ref.tagMap.elems Ref.tagMap.deref
  simp only [List.flatMap_map, List.map_flatMap]

/-- Every event that writes no slice the index holds commutes with reading the
keys from the heap: a call is the call by value, an assignment changes
nothing. -/
theorem deref_index_step (w : Ref.IndexWorld) (e : Ref.IndexEvent)
    (h : w.keepsKeys [e] = true) :
    Ref.tagMap.deref (w.step e).heap (w.step e).index
      = Ref.tagMap.deref w.heap w.index ∨
    (∃ key value, Ref.tagMap.deref (w.step e).heap (w.step e).index
      = (Ref.tagMap.deref w.heap w.index).Add key value) ∨
    (∃ key, Ref.tagMap.deref (w.step e).heap (w.step e).index
      = (Ref.tagMap.deref w.heap w.index).Delete key) := by
  cases e with
  | add key value => exact Or.inr (Or.inl ⟨_, _, deref_Add w.heap w.index key value⟩)
  | delete key => exact Or.inr (Or.inr ⟨_, deref_Delete w.heap w.index key⟩)
  | write slice i value =>
    left
    simp only [Ref.IndexWorld.keepsKeys, Bool.and_true, Bool.not_eq_true'] at h
    exact deref_write_index w.heap slice i value w.index h

theorem Ref.IndexWorld.keepsKeys_cons (w : Ref.IndexWorld) (e : Ref.IndexEvent)
    (es : List Ref.IndexEvent) :
    w.keepsKeys (e :: es) = (w.keepsKeys [e] && (w.step e).keepsKeys es) := by
  cases e <;> simp [Ref.IndexWorld.keepsKeys]

/-- Sequences of events that write no slice the index holds keep the index,
its keys read from the heap, well-formed, and keep its hash function. -/
theorem Ref.IndexWorld.run_wellFormed :
    ∀ (es : List Ref.IndexEvent) (w : Ref.IndexWorld), w.keepsKeys es = true →
      (Ref.tagMap.deref w.heap w.index).WellFormed →
      (Ref.tagMap.deref (w.run es).heap (w.run es).index).WellFormed ∧
      (w.run es).index.hash = w.index.hash
  | [], _, _, hw => ⟨hw, rfl⟩
  | e :: es, w, hk, hw => by
    rw [Ref.IndexWorld.keepsKeys_cons, Bool.and_eq_true] at hk
    have hw1 : (Ref.tagMap.deref (w.step e).heap (w.step e).index).WellFormed := by
      rcases deref_index_step w e hk.1 with h | ⟨key, value, h⟩ | ⟨key, h⟩
      · rw [h]; exact hw
      · rw [h]; exact tagMap.wellFormed_Add hw _ _
      · rw [h]; exact tagMap.wellFormed_Delete hw _
    have hh : (w.step e).index.hash = w.index.hash := by
      cases e with
      | add key value =>
        simp only [Ref.IndexWorld.step, Ref.tagMap.Add]
        split <;> rfl
      | delete key =>
        simp only [Ref.IndexWorld.step, Ref.tagMap.Delete]
        split
        · split <;> rfl
        · rfl
      | write slice i value => rfl
    obtain ⟨r1, r2⟩ := Ref.IndexWorld.run_wellFormed es (w.step e) hk.2 hw1
    exact ⟨r1, r2.trans hh⟩

/-! ## Claims about the index, its keys held by reference -/

/-- C30, counterexample: `Add` keeps the slice it is passed as the key of the
new element.  A slice holding `toto` is added, the caller assigns `titi` to its
string, and the slice is added again: the second `Add` finds no element in the
bucket of the hash of `titi` and stores a second element.  The index then
holds two elements whose keys both read `titi`, one of them in the bucket of
the hash of `toto`, which is not the hash of its key. -/
theorem C30_counterexample :
    (Ref.IndexWorld.init aliasHeap hashStringSlice).keepsKeys aliasIndexEvents = false ∧
    aliasIndexWorld.index.elems.map (fun e => readSlice aliasIndexWorld.heap e.key)
      = [["titi"], ["titi"]] ∧
    aliasIndexWorld.index.index.map
        (fun p => (p.1, p.2.map (fun e => readSlice aliasIndexWorld.heap e.key)))
      = [(hashStringSlice ["toto"], [["titi"]]), (hashStringSlice ["titi"], [["titi"]])] ∧
    hashStringSlice ["toto"] ≠ hashStringSlice ["titi"] := by
  decide

/-- C30, amended: starting from the empty index, for every hash function and
whatever strings the slices hold at the start, after every sequence of `Add`
and `Delete` calls and of assignments by callers to strings of slices, none of
the assignments writing a slice that the index holds at that time as the key
of a stored element: (a) no two stored elements have keys that read as equal
tuples; (b) every element stored in the bucket of a hash value has a key whose
hash is that value, the buckets having distinct hash values; (c) no bucket is
empty, so that the bucket map is empty exactly when no element is stored.  The
hash function is still the one of the start. -/
theorem C30_index_well_formed (heap : Heap) (hash : List String → Nat)
    (events : List Ref.IndexEvent)
    (hk : (Ref.IndexWorld.init heap hash).keepsKeys events = true) :
    ((Ref.IndexWorld.init heap hash).run events).index.hash = hash ∧
    (((Ref.IndexWorld.init heap hash).run events).index.elems.map
      (fun e => readSlice ((Ref.IndexWorld.init heap hash).run events).heap e.key)).Nodup ∧
    (∀ p ∈ ((Ref.IndexWorld.init heap hash).run events).index.index, ∀ e ∈ p.2,
      hash (readSlice ((Ref.IndexWorld.init heap hash).run events).heap e.key) = p.1) ∧
    (GoMap.keys ((Ref.IndexWorld.init heap hash).run events).index.index).Nodup ∧
    (∀ p ∈ ((Ref.IndexWorld.init heap hash).run events).index.index, p.2 ≠ []) ∧
    (((Ref.IndexWorld.init heap hash).run events).index.index = [] ↔
      ((Ref.IndexWorld.init heap hash).run events).index.elems = []) := by
  have h0 : (Ref.tagMap.deref (Ref.IndexWorld.init heap hash).heap
      (Ref.IndexWorld.init heap hash).index).WellFormed :=
    ⟨List.nodup_nil, fun p hp => by cases hp⟩
  obtain ⟨hw, hh⟩ := Ref.IndexWorld.run_wellFormed events _ hk h0
  have hh1 : ((Ref.IndexWorld.init heap hash).run events).index.hash = hash := hh
  generalize (Ref.IndexWorld.init heap hash).run events = w at hw hh1
  have hb : ∀ p ∈ w.index.index, p.2 ≠ [] := by
    intro p hp
    have hp1 : (p.1, p.2.map (Ref.mapElement.deref w.heap))
        ∈ (Ref.tagMap.deref w.heap w.index).index :=
      List.mem_map_of_mem (fun p => (p.1, p.2.map (Ref.mapElement.deref w.heap))) hp
    have := (hw.2 _ hp1).2.2
    intro c
    apply this
    simp [c]
  refine ⟨hh1, ?_, ?_, ?_, hb, ?_⟩
  · have h1 := hw.elems_nodup
    rw [deref_elems, List.map_map] at h1
    exact h1
  · intro p hp e he
    have hp1 : (p.1, p.2.map (Ref.mapElement.deref w.heap))
        ∈ (Ref.tagMap.deref w.heap w.index).index :=
      List.mem_map_of_mem (fun p => (p.1, p.2.map (Ref.mapElement.deref w.heap))) hp
    have h2 := (hw.2 _ hp1).2.1 (Ref.mapElement.deref w.heap e) (List.mem_map_of_mem _ he)
    rw [← hh1]
    exact h2
  · have h1 := hw.1
    unfold GoMap.keys at h1 ⊢
    unfold Ref.tagMap.deref at h1
    simp only [List.map_map] at h1
    exact h1
  · constructor
    · intro h
      simp [Ref.tagMap.elems, h]
    · intro h
      unfold Ref.tagMap.elems at h
      rw [List.flatMap_eq_nil_iff] at h
      cases hi : w.index.index with
      | nil => rfl
      | cons p t =>
        exfalso
        have hp : p ∈ w.index.index := by
          rw [hi]
          exact List.mem_cons_self _ _
        exact hb p hp (h p hp)

/-- Witness of C30: two slices, each written by the caller only while the index
does not hold it. -/
theorem C30_index_well_formed_witness :
    (Ref.IndexWorld.init [(0, ["toto"]), (1, ["titi"])] hashStringSlice).keepsKeys
      quietIndexEvents = true ∧
    (((Ref.IndexWorld.init [(0, ["toto"]), (1, ["titi"])] hashStringSlice).run
      quietIndexEvents).index.elems.map
      (fun e => readSlice ((Ref.IndexWorld.init [(0, ["toto"]), (1, ["titi"])]
        hashStringSlice).run quietIndexEvents).heap e.key)).Nodup :=
  ⟨by decide,
    (C30_index_well_formed [(0, ["toto"]), (1, ["titi"])] hashStringSlice quietIndexEvents
      (by decide)).2.1⟩

/-! ## The entry of an instance through get-or-create -/

/-- In a consistent vector with a sound registry, the creation path leaves a
non-expired entry as it is when every entry with the label values of the call
is expired: the instance it creates or finds in the registry is another one. -/
theorem MetricVec.addMetric_stale {mv : MetricVec} (h : mv.Consistent)
    (hs : mv.metricVec.Sound) {now : Time} {labelValues : List String}
    (hx : ∀ p ∈ mv.metricAttrs, p.2.labelValues = labelValues → p.2.state = stateExpired)
    {m : Nat} {a : metricAttr} (ha : GoMap.get mv.metricAttrs m = some a)
    (hne : a.state ≠ stateExpired) :
    GoMap.get (mv.addMetric now labelValues).2.metricAttrs m = some a := by
  simp only [MetricVec.addMetric]
  cases hr : mv.metricVec.GetMetricWithLabelValues
      (labelValues ++ [generateLifeCycleTag now]) with
  | mk r pv =>
    cases r with
    | error e => exact ha
    | ok metric =>
      simp only
      have hmm : m ≠ metric := by
        intro c
        subst c
        have hmem := GoMap.mem_of_get ha
        have g2 := (h.2.2 (m, a) hmem).2.1
        simp only at g2
        rcases PromVec.get_ok_cases hr with hc | hc
        · have hk := hs.2 _ _ _ g2 hc
          obtain ⟨k1, _⟩ := registryKey_inj hk
          exact hne (hx (m, a) hmem k1)
        · have := hs.1 _ _ g2
          rw [hc] at this
          exact Nat.lt_irrefl _ this
      rw [GoMap.get_set_ne _ _ hmm]
      exact ha

/-- The lookup path leaves every entry as it is, or has recorded the access in
it. -/
theorem MetricVec.getMetric_keeps (mv : MetricVec) (now : Time) (labelValues : List String)
    {m : Nat} {a : metricAttr} (ha : GoMap.get mv.metricAttrs m = some a) :
    GoMap.get (mv.getMetric now labelValues).2.metricAttrs m = some a ∨
    GoMap.get (mv.getMetric now labelValues).2.metricAttrs m
      = some (a.onAccess mv.opts.ExpirationDelay now) := by
  rcases (MetricVec.getMetric_cases mv now labelValues).2.2 with
    ⟨m0, a0, _, h2, _, h4⟩ | ⟨_, h5⟩
  · rw [h4]
    by_cases hm : m = m0
    · subst hm
      rw [ha] at h2
      cases h2
      exact Or.inr (GoMap.get_set_same _ _ _)
    · rw [GoMap.get_set_ne _ _ hm]
      exact Or.inl ha
  · rw [h5]
    exact Or.inl ha

/-- In a consistent vector with a sound registry, `GetMetricWithLabelValues`
leaves every non-expired entry as it is, or has recorded the access in it: it
never replaces a non-expired entry by a new one. -/
theorem MetricVec.GetMetricWithLabelValues_keeps {mv : MetricVec} (h : mv.Consistent)
    (hs : mv.metricVec.Sound) (now : Time) (labelValues : List String)
    {m : Nat} {a : metricAttr} (ha : GoMap.get mv.metricAttrs m = some a)
    (hne : a.state ≠ stateExpired) :
    GoMap.get (mv.GetMetricWithLabelValues now labelValues).2.metricAttrs m = some a ∨
    GoMap.get (mv.GetMetricWithLabelValues now labelValues).2.metricAttrs m
      = some (a.onAccess mv.opts.ExpirationDelay now) := by
  have k0 := MetricVec.getMetric_keeps mv now labelValues ha
  unfold MetricVec.GetMetricWithLabelValues
  split
  · rename_i mv1 e1
    have a1 : mv1.metricAttrs = mv.metricAttrs := by
      have := MetricVec.getMetric_miss_attrs (congrArg Prod.fst e1)
      rw [e1] at this
      exact this
    have o1 : mv1.opts = mv.opts := by
      have := (MetricVec.getMetric_cases mv now labelValues).2.1
      rw [e1] at this
      exact this
    have c1 : mv1.Consistent := by
      have := MetricVec.consistent_getMetric h now labelValues
      rw [e1] at this
      exact this
    have s1 : mv1.metricVec.Sound := by
      have := MetricVec.sound_getMetric hs now labelValues
      rw [e1] at this
      exact this
    have miss := MetricVec.consistent_miss h (congrArg Prod.fst e1)
    have ha1 : GoMap.get mv1.metricAttrs m = some a := by rw [a1]; exact ha
    have k1 := MetricVec.getMetric_keeps mv1 now labelValues ha1
    split
    · rename_i mv3 e2
      have a3 : mv3.metricAttrs = mv1.metricAttrs := by
        have := MetricVec.getMetric_miss_attrs (congrArg Prod.fst e2)
        rw [e2] at this
        exact this
      have c3 : mv3.Consistent := by
        have := MetricVec.consistent_getMetric c1 now labelValues
        rw [e2] at this
        exact this
      have s3 : mv3.metricVec.Sound := by
        have := MetricVec.sound_getMetric s1 now labelValues
        rw [e2] at this
        exact this
      left
      exact MetricVec.addMetric_stale c3 s3
        (by
          intro p hp hl
          rw [a3, a1] at hp
          exact miss p hp hl)
        (by rw [a3]; exact ha1) hne
    · rename_i r mv3 hne2 e2
      rw [e2, o1] at k1
      exact k1
  · rename_i r mv1 hne1 e1
    rw [e1] at k0
    exact k0

/-- In a consistent vector with a sound registry, an entry in state
`stateWarmUpComplete` that an operation neither removes nor expires is in
state `stateWarmUpComplete` after the operation. -/
theorem System.step_keeps_complete (s : System) (op : Op) (hc : s.vec.Consistent)
    (hs : s.vec.metricVec.Sound) {m : Nat} {a a1 : metricAttr}
    (ha : GoMap.get s.vec.metricAttrs m = some a) (hst : a.state = stateWarmUpComplete)
    (ha1 : GoMap.get (s.step op).2.vec.metricAttrs m = some a1)
    (hne : a1.state ≠ stateExpired) : a1.state = stateWarmUpComplete := by
  have hne0 : a.state ≠ stateExpired := by rw [hst]; decide
  cases op with
  | get now labelValues =>
    simp only [System.step] at ha1
    rcases MetricVec.GetMetricWithLabelValues_keeps hc hs now labelValues ha hne0 with k | k
    · rw [k] at ha1
      cases ha1
      exact hst
    · rw [k] at ha1
      cases ha1
      rw [metricAttr.onAccess_state]
      exact hst
  | delete labelValues =>
    simp only [System.step, MetricVec.DeleteLabelValues] at ha1
    have hmem := (MetricVec.deleteMetric_attrs s.vec labelValues).2 _ (GoMap.mem_of_get ha1)
    have := GoMap.get_of_mem hc.1 hmem
    rw [ha] at this
    cases this
    exact hst
  | reset =>
    simp only [System.step, MetricVec.Reset] at ha1
    cases ha1
  | collect now =>
    rw [System.step_collect] at ha1
    simp only at ha1
    rw [MetricVec.Collect_get, ha, Option.map_some'] at ha1
    cases ha1
    exact (metricAttr.onCollect_done s.vec.opts.WarmUpDuration now (Or.inl hst)).resolve_right hne
  | sweep k =>
    simp only [System.step] at ha1
    cases hk : s.pending.get? k with
    | none =>
      rw [hk] at ha1
      simp only at ha1
      rw [ha] at ha1
      cases ha1
      exact hst
    | some l =>
      rw [hk] at ha1
      simp only at ha1
      have hmem := MetricVec.sweep_subset l s.vec _ (GoMap.mem_of_get ha1)
      have := GoMap.get_of_mem hc.1 hmem
      rw [ha] at this
      cases this
      exact hst

/-! ## Slices held by reference: runs of events -/

theorem GoMap.keys_map_val {K V W : Type} (f : V → W) (l : GoMap K V) :
    GoMap.keys (l.map (fun p => (p.1, f p.2))) = GoMap.keys l := by
  unfold GoMap.keys
  rw [List.map_map]
  rfl

theorem System.stepAny_invariant (s : System) (op : VecOp) (hc : s.vec.Consistent)
    (hw : s.vec.tags.WellFormed) (hs : s.vec.metricVec.Sound) :
    (s.stepAny op).vec.Consistent ∧ (s.stepAny op).vec.tags.WellFormed ∧
      (s.stepAny op).vec.metricVec.Sound := by
  cases op with
  | op o =>
    exact ⟨System.step_consistent s o hc, System.step_wellFormed s o hw,
      System.step_sound s o hs⟩
  | deleteByInstance metric =>
    exact ⟨MetricVec.consistent_deleteMetricByInstance hc metric,
      MetricVec.wellFormed_deleteMetricByInstance hw metric,
      MetricVec.sound_deleteMetricByInstance hs metric⟩

theorem Ref.World.keepsSlices_cons (w : Ref.World) (e : Ref.Event) (es : List Ref.Event) :
    w.keepsSlices (e :: es) = (w.keepsSlices [e] && (w.step e).2.keepsSlices es) := by
  cases e <;> simp [Ref.World.keepsSlices]

theorem Ref.World.keepsSlices_append :
    ∀ (es1 es2 : List Ref.Event) (w : Ref.World),
      w.keepsSlices (es1 ++ es2) = (w.keepsSlices es1 && (w.run es1).keepsSlices es2)
  | [], _, _ => by simp [Ref.World.keepsSlices, Ref.World.run]
  | e :: es1, es2, w => by
    rw [List.cons_append, Ref.World.keepsSlices_cons, Ref.World.keepsSlices_cons w e es1,
      Ref.World.keepsSlices_append es1 es2, Bool.and_assoc]
    rfl

theorem Ref.World.run_append :
    ∀ (es1 es2 : List Ref.Event) (w : Ref.World), w.run (es1 ++ es2) = (w.run es1).run es2
  | [], _, _ => rfl
  | e :: es1, es2, w => by
    simp only [List.cons_append, Ref.World.run]
    exact Ref.World.run_append es1 es2 _

/-- An event that writes no slice the vector holds is, on the vector with its
slices read from the heap, the operation by value or no change at all. -/
theorem deref_world_step (w : Ref.World) (e : Ref.Event) (h : w.keepsSlices [e] = true) :
    Ref.System.deref (w.step e).2.heap (w.step e).2.sys = Ref.System.deref w.heap w.sys ∨
    ∃ op, Ref.System.deref (w.step e).2.heap (w.step e).2.sys
      = (Ref.System.deref w.heap w.sys).stepAny op := by
  cases e with
  | call op => exact Or.inr ⟨_, deref_step w.heap w.sys op⟩
  | write slice i value =>
    left
    simp only [Ref.World.keepsSlices, Bool.and_true, Bool.not_eq_true'] at h
    simp only [Ref.World.step, Ref.System.deref]
    rw [deref_write_vec w.heap slice i value w.sys.vec h]

/-- The invariant of the vector with its slices read from the heap: it is
consistent, its index is well-formed and its registry is sound. -/
theorem Ref.World.step_invariant (w : Ref.World) (e : Ref.Event)
    (h : w.keepsSlices [e] = true)
    (hc : (Ref.MetricVec.deref w.heap w.sys.vec).Consistent)
    (hw : (Ref.tagMap.deref w.heap w.sys.vec.tags).WellFormed)
    (hs : w.sys.vec.metricVec.Sound) :
    (Ref.MetricVec.deref (w.step e).2.heap (w.step e).2.sys.vec).Consistent ∧
    (Ref.tagMap.deref (w.step e).2.heap (w.step e).2.sys.vec.tags).WellFormed ∧
    (w.step e).2.sys.vec.metricVec.Sound := by
  rcases deref_world_step w e h with hd | ⟨op, hd⟩
  · have hv := congrArg SmartProm.System.vec hd
    simp only [Ref.System.deref] at hv
    have ht := congrArg SmartProm.MetricVec.tags hv
    have hr := congrArg SmartProm.MetricVec.metricVec hv
    simp only [Ref.MetricVec.deref] at ht hr
    rw [hv, ht, hr]
    exact ⟨hc, hw, hs⟩
  · have hv := congrArg SmartProm.System.vec hd
    have ht := congrArg SmartProm.MetricVec.tags hv
    have hr := congrArg SmartProm.MetricVec.metricVec hv
    simp only [Ref.System.deref] at hv
    simp only [Ref.System.deref, Ref.MetricVec.deref] at ht hr
    obtain ⟨i1, i2, i3⟩ := System.stepAny_invariant (Ref.System.deref w.heap w.sys) op hc hw hs
    rw [hv, ht, hr]
    exact ⟨i1, i2, i3⟩

/-- Every world reached by events that write no slice the vector holds
satisfies the invariant. -/
theorem Ref.World.run_invariant :
    ∀ (es : List Ref.Event) (w : Ref.World), w.keepsSlices es = true →
      (Ref.MetricVec.deref w.heap w.sys.vec).Consistent →
      (Ref.tagMap.deref w.heap w.sys.vec.tags).WellFormed →
      w.sys.vec.metricVec.Sound →
      (Ref.MetricVec.deref (w.run es).heap (w.run es).sys.vec).Consistent ∧
      (Ref.tagMap.deref (w.run es).heap (w.run es).sys.vec.tags).WellFormed ∧
      (w.run es).sys.vec.metricVec.Sound
  | [], _, _, hc, hw, hs => ⟨hc, hw, hs⟩
  | e :: es, w, hk, hc, hw, hs => by
    rw [Ref.World.keepsSlices_cons, Bool.and_eq_true] at hk
    obtain ⟨i1, i2, i3⟩ := Ref.World.step_invariant w e hk.1 hc hw hs
    exact Ref.World.run_invariant es (w.step e).2 hk.2 i1 i2 i3

/-- Every world reached from the empty vector by events that write no slice
the vector holds satisfies the invariant. -/
theorem Ref.World.reachable_invariant (heap : Heap) (opts : metricOpts)
    (labelNames : List String) (es : List Ref.Event)
    (hk : (Ref.World.init heap opts labelNames).keepsSlices es = true) :
    (Ref.MetricVec.deref ((Ref.World.init heap opts labelNames).run es).heap
      ((Ref.World.init heap opts labelNames).run es).sys.vec).Consistent ∧
    (Ref.tagMap.deref ((Ref.World.init heap opts labelNames).run es).heap
      ((Ref.World.init heap opts labelNames).run es).sys.vec.tags).WellFormed ∧
    ((Ref.World.init heap opts labelNames).run es).sys.vec.metricVec.Sound :=
  Ref.World.run_invariant es _ hk (newMetricVec_consistent opts labelNames)
    newTagMap_wellFormed ⟨fun _ _ hx => (by cases hx), fun _ _ _ hx => (by cases hx)⟩

/-! ## Claims about the vector, its slices held by reference -/

theorem deref_collectedEntries (heap : Heap) (mv : Ref.MetricVec) (now : Time) :
    mv.collectedEntries heap now = (Ref.MetricVec.deref heap mv).collectedEntries now := by
  unfold Ref.MetricVec.collectedEntries MetricVec.collectedEntries Ref.MetricVec.deref
  simp only [List.filterMap_map]
  congr 1
  funext p
  simp only [Function.comp, deref_onCollect]
  rfl

theorem deref_keys_nodup {heap : Heap} {mv : Ref.MetricVec}
    (hc : (Ref.MetricVec.deref heap mv).Consistent) : (GoMap.keys mv.metricAttrs).Nodup := by
  have h := hc.1
  unfold Ref.MetricVec.deref at h
  simp only at h
  rw [GoMap.keys_map_val] at h
  exact h

/-- When the vector with its slices read from the heap is consistent, two
non-expired entries whose label values read the same are the same entry. -/
theorem deref_unique {heap : Heap} {mv : Ref.MetricVec}
    (hc : (Ref.MetricVec.deref heap mv).Consistent) {p q : Nat × Ref.metricAttr}
    (hp : p ∈ mv.metricAttrs) (hq : q ∈ mv.metricAttrs)
    (hpe : p.2.state ≠ stateExpired) (hqe : q.2.state ≠ stateExpired)
    (hl : readSlice heap p.2.labelValues = readSlice heap q.2.labelValues) : p = q := by
  have hp1 : (p.1, Ref.metricAttr.deref heap p.2) ∈ (Ref.MetricVec.deref heap mv).metricAttrs :=
    List.mem_map_of_mem (fun p => (p.1, Ref.metricAttr.deref heap p.2)) hp
  have hq1 : (q.1, Ref.metricAttr.deref heap q.2) ∈ (Ref.MetricVec.deref heap mv).metricAttrs :=
    List.mem_map_of_mem (fun p => (p.1, Ref.metricAttr.deref heap p.2)) hq
  have e := MetricVec.consistent_unique hc hp1 hq1 hpe hqe hl
  have e1 : p.1 = q.1 := (Prod.mk.inj e).1
  have hk := deref_keys_nodup hc
  have g1 := GoMap.get_of_mem hk (show (p.1, p.2) ∈ mv.metricAttrs from hp)
  have g2 := GoMap.get_of_mem hk (show (q.1, q.2) ∈ mv.metricAttrs from hq)
  rw [e1, g2] at g1
  exact Prod.ext e1 (Option.some.inj g1).symm

/-- C20, counterexample: `GetMetricWithLabelValues` keeps the slice it is
passed, in the index and in the new entry.  A caller requests the label values
of its slice, `toto`, assigns `titi` to the string of the slice and requests
the label values of the slice again.  The second call finds nothing under
`titi` and creates a second entry: the instance map then holds two entries
that are not expired and whose label values both read `titi`, and a scan sends
two initial metrics with the same labels. -/
theorem C20_counterexample :
    (Ref.World.init aliasHeap exampleOpts ["label"]).keepsSlices aliasEvents = false ∧
    aliasWorld.sys.vec.metricAttrs.map
        (fun p => (p.1, readSlice aliasWorld.heap p.2.labelValues, p.2.state))
      = [(0, ["titi"], stateWarmUpPending), (1, ["titi"], stateWarmUpPending)] ∧
    (aliasWorld.sys.vec.Collect aliasWorld.heap defaultTime).1
      = [Sample.initial 0 ["titi", "48ab9774"], Sample.initial 1 ["titi", "48ab9774"]] := by
  decide

/-- C20, amended: in every state reached from the empty vector by get-or-create,
delete, reset, collection scans and sweeps (and removals by instance), in any
order and at any clock values, and by assignments of callers to strings of
slices, none of the assignments writing a slice that the vector holds at that
time in its index or in an entry: two non-expired entries of the instance map
whose label values read the same are the same entry; and the samples a scan at
any clock value sends are sent for entries whose label values are pairwise
different. -/
theorem C20_one_entry_per_label_tuple (heap : Heap) (opts : metricOpts)
    (labelNames : List String) (events : List Ref.Event) (now : Time)
    (hk : (Ref.World.init heap opts labelNames).keepsSlices events = true) :
    (∀ p ∈ ((Ref.World.init heap opts labelNames).run events).sys.vec.metricAttrs,
      ∀ q ∈ ((Ref.World.init heap opts labelNames).run events).sys.vec.metricAttrs,
        p.2.state ≠ stateExpired → q.2.state ≠ stateExpired →
        readSlice ((Ref.World.init heap opts labelNames).run events).heap p.2.labelValues
          = readSlice ((Ref.World.init heap opts labelNames).run events).heap q.2.labelValues →
        p = q) ∧
    ((((Ref.World.init heap opts labelNames).run events).sys.vec.collectedEntries
        ((Ref.World.init heap opts labelNames).run events).heap now).map Prod.fst
      = (((Ref.World.init heap opts labelNames).run events).sys.vec.Collect
          ((Ref.World.init heap opts labelNames).run events).heap now).1) ∧
    ((((Ref.World.init heap opts labelNames).run events).sys.vec.collectedEntries
        ((Ref.World.init heap opts labelNames).run events).heap now).map Prod.snd).Nodup := by
  obtain ⟨hc, _, _⟩ := Ref.World.reachable_invariant heap opts labelNames events hk
  generalize (Ref.World.init heap opts labelNames).run events = w at hc
  obtain ⟨c1, c2⟩ := MetricVec.consistent_collected hc now
  refine ⟨fun p hp q hq hpe hqe hl => deref_unique hc hp hq hpe hqe hl, ?_, ?_⟩
  · rw [deref_collectedEntries, (deref_Collect w.heap w.sys.vec now).1]
    exact c1
  · rw [deref_collectedEntries]
    exact c2

/-- Witness of C20: the events of `quietEvents` write no slice the vector
holds, and the scan afterwards sends samples for entries with different label
values. -/
theorem C20_one_entry_per_label_tuple_witness :
    (Ref.World.init quietHeap exampleOpts ["label"]).keepsSlices quietEvents = true ∧
    ((((Ref.World.init quietHeap exampleOpts ["label"]).run quietEvents).sys.vec.collectedEntries
        ((Ref.World.init quietHeap exampleOpts ["label"]).run quietEvents).heap
        (defaultTime + 2000000000)).map Prod.snd).Nodup :=
  ⟨by decide,
    (C20_one_entry_per_label_tuple quietHeap exampleOpts ["label"] quietEvents
      (defaultTime + 2000000000) (by decide)).2.2⟩

/-- C31, counterexample: after `aliasEvents` (the caller has assigned `titi` to
the string of a slice the vector holds) both entries of the instance map are
not expired and their label values read `titi`; the index holds two elements
whose keys read `titi`, not one, and none whose key reads `toto`. -/
theorem C31_counterexample :
    (Ref.World.init aliasHeap exampleOpts ["label"]).keepsSlices aliasEvents = false ∧
    aliasWorld.sys.vec.metricAttrs.map
        (fun p => (readSlice aliasWorld.heap p.2.labelValues, p.2.tag, p.2.state))
      = [(["titi"], "48ab9774", stateWarmUpPending),
          (["titi"], "48ab9774", stateWarmUpPending)] ∧
    aliasWorld.sys.vec.tags.elems.map
        (fun e => (readSlice aliasWorld.heap e.key, e.value))
      = [(["titi"], "48ab9774"), (["titi"], "48ab9774")] ∧
    (aliasWorld.sys.vec.tags.elems.filter
      (fun e => decide (readSlice aliasWorld.heap e.key = ["titi"]))).length = 2 ∧
    (aliasWorld.sys.vec.tags.elems.filter
      (fun e => decide (readSlice aliasWorld.heap e.key = ["toto"]))).length = 0 := by
  decide

/-- C31, amended: in every state reached from the empty vector by get-or-create,
delete, delete-by-instance, reset, collection scans and sweeps, in any order
and at any clock values, and by assignments of callers to strings of slices,
none of the assignments writing a slice that the vector holds at that time in
its index or in an entry: the instances of the instance map are distinct, no
two elements of the index have keys that read the same, and for every entry of
the instance map that is not expired the index finds the label values of the
entry with the tag of the entry, holds exactly one element whose key reads as
these label values, and every such element carries the tag of the entry. -/
theorem C31_vector_consistency (heap : Heap) (opts : metricOpts) (labelNames : List String)
    (events : List Ref.Event)
    (hk : (Ref.World.init heap opts labelNames).keepsSlices events = true) :
    (GoMap.keys ((Ref.World.init heap opts labelNames).run events).sys.vec.metricAttrs).Nodup ∧
    (((Ref.World.init heap opts labelNames).run events).sys.vec.tags.elems.map
      (fun e => readSlice ((Ref.World.init heap opts labelNames).run events).heap e.key)).Nodup ∧
    (∀ p ∈ ((Ref.World.init heap opts labelNames).run events).sys.vec.metricAttrs,
      p.2.state ≠ stateExpired →
      ((Ref.World.init heap opts labelNames).run events).sys.vec.tags.Get
          ((Ref.World.init heap opts labelNames).run events).heap p.2.labelValues
        = (p.2.tag, true) ∧
      ((((Ref.World.init heap opts labelNames).run events).sys.vec.tags.elems.filter
        (fun e => decide
          (readSlice ((Ref.World.init heap opts labelNames).run events).heap e.key
            = readSlice ((Ref.World.init heap opts labelNames).run events).heap
                p.2.labelValues))).length = 1) ∧
      (∀ e ∈ ((Ref.World.init heap opts labelNames).run events).sys.vec.tags.elems,
        readSlice ((Ref.World.init heap opts labelNames).run events).heap e.key
          = readSlice ((Ref.World.init heap opts labelNames).run events).heap p.2.labelValues →
        e.value = p.2.tag)) := by
  obtain ⟨hc, hw, _⟩ := Ref.World.reachable_invariant heap opts labelNames events hk
  generalize (Ref.World.init heap opts labelNames).run events = w at hc hw
  have hn := hw.elems_nodup
  rw [deref_elems, List.map_map] at hn
  refine ⟨deref_keys_nodup hc, hn, ?_⟩
  intro p hp hne
  have hp1 : (p.1, Ref.metricAttr.deref w.heap p.2)
      ∈ (Ref.MetricVec.deref w.heap w.sys.vec).metricAttrs :=
    List.mem_map_of_mem (fun p => (p.1, Ref.metricAttr.deref w.heap p.2)) hp
  obtain ⟨i1, i2, i3⟩ := MetricVec.consistent_index_entry hc hw _ hp1 hne
  refine ⟨?_, ?_, ?_⟩
  · rw [deref_Get]
    exact i1
  · have e : (Ref.MetricVec.deref w.heap w.sys.vec).tags.elems
        = w.sys.vec.tags.elems.map (Ref.mapElement.deref w.heap) := deref_elems w.heap _
    rw [e, List.filter_map, List.length_map] at i2
    exact i2
  · intro e he hkey
    have he1 : Ref.mapElement.deref w.heap e ∈ (Ref.MetricVec.deref w.heap w.sys.vec).tags.elems := by
      have e2 : (Ref.MetricVec.deref w.heap w.sys.vec).tags.elems
          = w.sys.vec.tags.elems.map (Ref.mapElement.deref w.heap) := deref_elems w.heap _
      rw [e2]
      exact List.mem_map_of_mem _ he
    exact i3 _ he1 hkey

/-- Witness of C31: after `quietEvents`, which write no slice the vector holds,
the instances of the instance map are distinct. -/
theorem C31_vector_consistency_witness :
    (Ref.World.init quietHeap exampleOpts ["label"]).keepsSlices quietEvents = true ∧
    (GoMap.keys
      ((Ref.World.init quietHeap exampleOpts ["label"]).run
        quietEvents).sys.vec.metricAttrs).Nodup :=
  ⟨by decide,
    (C31_vector_consistency quietHeap exampleOpts ["label"] quietEvents (by decide)).1⟩

/-! ## Two requests of the same label values -/

theorem Ref.MetricVec.getMetric_tags (heap : Heap) (mv : Ref.MetricVec) (now : Time)
    (s : Nat) : (mv.getMetric heap now s).2.tags = mv.tags := by
  unfold Ref.MetricVec.getMetric
  cases hg : mv.tags.Get heap s with
  | mk tag present =>
    cases present with
    | false => rfl
    | true =>
      simp only [Bool.true_eq_false, if_false]
      cases hr : mv.metricVec.GetMetricWithLabelValues (readSlice heap s ++ [tag]) with
      | mk r pv =>
        cases r with
        | error e => rfl
        | ok metric =>
          simp only
          cases ha : GoMap.get mv.metricAttrs metric with
          | none => rfl
          | some attr =>
            simp only
            split <;> rfl

theorem Ref.MetricVec.GetMetricWithLabelValues_hit {heap : Heap} {mv : Ref.MetricVec}
    {now : Time} {s : Nat} {m : Nat} {e : Option String}
    (h : (mv.getMetric heap now s).1 = (some m, e)) :
    mv.GetMetricWithLabelValues heap now s
      = (assertM (some m, e), (mv.getMetric heap now s).2) := by
  unfold Ref.MetricVec.GetMetricWithLabelValues
  generalize mv.getMetric heap now s = r at h
  obtain ⟨⟨x, e1⟩, mv1⟩ := r
  simp only [Prod.mk.injEq] at h
  obtain ⟨rfl, rfl⟩ := h
  rfl

/-- In a consistent vector a non-expired entry is live for its label values. -/
theorem MetricVec.consistent_live {mv : MetricVec} (hc : mv.Consistent) {m : Nat}
    {a : metricAttr} (ha : GoMap.get mv.metricAttrs m = some a)
    (hne : a.state ≠ stateExpired) : mv.Live a.labelValues m := by
  obtain ⟨g1, g2, g3⟩ := hc.2.2 (m, a) (GoMap.mem_of_get ha)
  have g3 := g3 hne
  simp only at g1 g2 g3
  refine ⟨by rw [g3], ?_, ?_, a, ha, hne⟩
  · rw [g3]; exact g1
  · rw [g3]; exact g2

/-- In a consistent vector with a sound registry, the entry of an instance that
is live for label values carries these label values. -/
theorem MetricVec.live_entry {mv : MetricVec} (hc : mv.Consistent)
    (hs : mv.metricVec.Sound) {labelValues : List String} {m : Nat}
    (hl : mv.Live labelValues m) :
    ∃ a, GoMap.get mv.metricAttrs m = some a ∧ a.state ≠ stateExpired ∧
      a.labelValues = labelValues := by
  obtain ⟨_, _, h3, a, ha, hne⟩ := hl
  refine ⟨a, ha, hne, ?_⟩
  have g2 := (hc.2.2 (m, a) (GoMap.mem_of_get ha)).2.1
  simp only at g2
  exact (registryKey_inj (hs.2 _ _ _ g2 h3)).1

theorem holdsEntry_iffOf (heap : Heap) (mv : Ref.MetricVec) (m : Nat)
    (labelValues : List String) :
    mv.holdsEntryOf heap m labelValues = true ↔
      ∃ a, GoMap.get (Ref.MetricVec.deref heap mv).metricAttrs m = some a ∧
        a.state ≠ stateExpired ∧ a.labelValues = labelValues := by
  rw [deref_attrs_get]
  unfold Ref.MetricVec.holdsEntryOf
  cases hg : GoMap.get mv.metricAttrs m with
  | none => simp
  | some a0 =>
    simp only [decide_eq_true_eq, Option.map_some', Option.some.injEq]
    constructor
    · intro h
      exact ⟨_, rfl, h.1, h.2⟩
    · rintro ⟨a, rfl, h1, h2⟩
      exact ⟨h1, h2⟩

/-- C1, counterexample.  First, `GetMetricWithLabelValues` keeps the slice it is
passed: `toto` is requested with one slice and the call returns the instance
0; the caller assigns `titi` to the string of that slice; `toto` is requested
with another slice one second later, nothing having been deleted, reset or
expired, and the call returns the instance 1 and adds an element to the index
and an entry to the instance map.  Second, with the expiration delay of 500
milliseconds and no slice written: a scan has found the entry of `toto`
expired and its sweep has not run yet; `toto` is requested 700 milliseconds
after `defaultTime` and the call returns the instance 0; the pending sweep
runs; `toto` is requested 100 milliseconds later and the call returns the
instance 1. -/
theorem C1_counterexample :
    ((Ref.World.init twinHeap exampleOpts ["label"]).sys.vec.GetMetricWithLabelValues
      twinHeap defaultTime 0).1 = CallResult.returned 0 none ∧
    readSlice
      ((Ref.World.init twinHeap exampleOpts ["label"]).run
        [Ref.Event.call (Ref.Op.get defaultTime 0), Ref.Event.write 0 0 "titi"]).heap 1
      = readSlice twinHeap 0 ∧
    (((Ref.World.init twinHeap exampleOpts ["label"]).run
        [Ref.Event.call (Ref.Op.get defaultTime 0),
          Ref.Event.write 0 0 "titi"]).sys.vec.GetMetricWithLabelValues
      ((Ref.World.init twinHeap exampleOpts ["label"]).run
        [Ref.Event.call (Ref.Op.get defaultTime 0), Ref.Event.write 0 0 "titi"]).heap
      (defaultTime + 1000000000) 1).1 = CallResult.returned 1 none ∧
    ((Ref.World.init twinHeap exampleOpts ["label"]).run
        [Ref.Event.call (Ref.Op.get defaultTime 0),
          Ref.Event.write 0 0 "titi"]).sys.vec.tags.elems.length = 1 ∧
    ((Ref.World.init twinHeap exampleOpts ["label"]).run
        [Ref.Event.call (Ref.Op.get defaultTime 0), Ref.Event.write 0 0 "titi",
          Ref.Event.call (Ref.Op.get (defaultTime + 1000000000) 1)]).sys.vec.tags.elems.length
      = 2 ∧
    GoMap.keys ((Ref.World.init twinHeap exampleOpts ["label"]).run
        [Ref.Event.call (Ref.Op.get defaultTime 0), Ref.Event.write 0 0 "titi",
          Ref.Event.call (Ref.Op.get (defaultTime + 1000000000) 1)]).sys.vec.metricAttrs
      = [0, 1] ∧
    (Ref.World.init twinHeap quickOpts ["label"]).keepsSlices
      (staleEvents ++ [Ref.Event.call (Ref.Op.get (defaultTime + 700000000) 0),
        Ref.Event.call (Ref.Op.sweep 2)]) = true ∧
    (((Ref.World.init twinHeap quickOpts ["label"]).run
        staleEvents).sys.vec.GetMetricWithLabelValues twinHeap (defaultTime + 700000000) 0).1
      = CallResult.returned 0 none ∧
    (((Ref.World.init twinHeap quickOpts ["label"]).run
        (staleEvents ++ [Ref.Event.call (Ref.Op.get (defaultTime + 700000000) 0),
          Ref.Event.call (Ref.Op.sweep 2)])).sys.vec.GetMetricWithLabelValues twinHeap
        (defaultTime + 800000000) 0).1
      = CallResult.returned 1 none := by
  decide

/-- C1, amended: in a state reached from the empty vector by any operations and
by assignments of callers to slices the vector does not hold, let
`GetMetricWithLabelValues` return an instance for label values.  The call
returns no error, and afterwards the instance map holds for the instance an
entry that is not expired and carries these label values.  Let any operations
and any assignments to slices the vector does not hold follow, at any clock
values.  If the instance map then still holds for the instance a non-expired
entry with these label values (the entry was not deleted, reset, expired or
removed by a sweep), a call for the same label values, passed in any slice and
at any clock value, returns the same instance without error, changes neither
the index nor the registry and adds no key to the instance map. -/
theorem C1_repeated_get_same_instance (heap : Heap) (opts : metricOpts)
    (labelNames : List String) (before between : List Ref.Event) (now1 now2 : Time)
    (l1 l2 : Nat) (m : Nat) (err : Option String)
    (hk1 : (Ref.World.init heap opts labelNames).keepsSlices before = true)
    (h1 : (((Ref.World.init heap opts labelNames).run before).sys.vec.GetMetricWithLabelValues
      ((Ref.World.init heap opts labelNames).run before).heap now1 l1).1
        = CallResult.returned m err)
    (hk2 : (((Ref.World.init heap opts labelNames).run before).step
      (Ref.Event.call (Ref.Op.get now1 l1))).2.keepsSlices between = true)
    (hent : ((((Ref.World.init heap opts labelNames).run before).step
        (Ref.Event.call (Ref.Op.get now1 l1))).2.run between).sys.vec.holdsEntryOf
      ((((Ref.World.init heap opts labelNames).run before).step
        (Ref.Event.call (Ref.Op.get now1 l1))).2.run between).heap m
      (readSlice ((Ref.World.init heap opts labelNames).run before).heap l1) = true)
    (hl : readSlice ((((Ref.World.init heap opts labelNames).run before).step
        (Ref.Event.call (Ref.Op.get now1 l1))).2.run between).heap l2
      = readSlice ((Ref.World.init heap opts labelNames).run before).heap l1) :
    err = none ∧
    (((Ref.World.init heap opts labelNames).run before).step
        (Ref.Event.call (Ref.Op.get now1 l1))).2.sys.vec.holdsEntryOf
      ((Ref.World.init heap opts labelNames).run before).heap m
      (readSlice ((Ref.World.init heap opts labelNames).run before).heap l1) = true ∧
    (((((Ref.World.init heap opts labelNames).run before).step
        (Ref.Event.call (Ref.Op.get now1 l1))).2.run between).sys.vec.GetMetricWithLabelValues
      ((((Ref.World.init heap opts labelNames).run before).step
        (Ref.Event.call (Ref.Op.get now1 l1))).2.run between).heap now2 l2).1
      = CallResult.returned m none ∧
    (((((Ref.World.init heap opts labelNames).run before).step
        (Ref.Event.call (Ref.Op.get now1 l1))).2.run between).sys.vec.GetMetricWithLabelValues
      ((((Ref.World.init heap opts labelNames).run before).step
        (Ref.Event.call (Ref.Op.get now1 l1))).2.run between).heap now2 l2).2.tags
      = ((((Ref.World.init heap opts labelNames).run before).step
        (Ref.Event.call (Ref.Op.get now1 l1))).2.run between).sys.vec.tags ∧
    GoMap.keys
      (((((Ref.World.init heap opts labelNames).run before).step
        (Ref.Event.call (Ref.Op.get now1 l1))).2.run between).sys.vec.GetMetricWithLabelValues
      ((((Ref.World.init heap opts labelNames).run before).step
        (Ref.Event.call (Ref.Op.get now1 l1))).2.run between).heap now2 l2).2.metricAttrs
      = GoMap.keys ((((Ref.World.init heap opts labelNames).run before).step
        (Ref.Event.call (Ref.Op.get now1 l1))).2.run between).sys.vec.metricAttrs ∧
    (((((Ref.World.init heap opts labelNames).run before).step
        (Ref.Event.call (Ref.Op.get now1 l1))).2.run between).sys.vec.GetMetricWithLabelValues
      ((((Ref.World.init heap opts labelNames).run before).step
        (Ref.Event.call (Ref.Op.get now1 l1))).2.run between).heap now2 l2).2.metricVec
      = ((((Ref.World.init heap opts labelNames).run before).step
        (Ref.Event.call (Ref.Op.get now1 l1))).2.run between).sys.vec.metricVec := by
  obtain ⟨hc1, hw1, hs1⟩ := Ref.World.reachable_invariant heap opts labelNames before hk1
  generalize (Ref.World.init heap opts labelNames).run before = w1 at *
  obtain ⟨hc1', hw1', hs1'⟩ := Ref.World.step_invariant w1
    (Ref.Event.call (Ref.Op.get now1 l1)) rfl hc1 hw1 hs1
  obtain ⟨hc2, _, _⟩ := Ref.World.run_invariant between _ hk2 hc1' hw1' hs1'
  -- the first call
  obtain ⟨d1, d2⟩ := deref_GetMetricWithLabelValues w1.heap w1.sys.vec now1 l1
  have hv : (Ref.MetricVec.deref w1.heap w1.sys.vec).GetMetricWithLabelValues now1
      (readSlice w1.heap l1)
      = (CallResult.returned m err,
          Ref.MetricVec.deref w1.heap (w1.sys.vec.GetMetricWithLabelValues w1.heap now1 l1).2) :=
    Prod.ext (d1.symm.trans h1) d2.symm
  obtain ⟨he, hlive⟩ := MetricVec.GetMetricWithLabelValues_returned hv
  have hfirst : (w1.step (Ref.Event.call (Ref.Op.get now1 l1))).2.sys.vec.holdsEntryOf
      w1.heap m (readSlice w1.heap l1) = true :=
    (holdsEntry_iffOf _ _ _ _).mpr (MetricVec.live_entry hc1' hs1' hlive)
  refine ⟨he, hfirst, ?_⟩
  -- the second call
  generalize (w1.step (Ref.Event.call (Ref.Op.get now1 l1))).2.run between = w2 at *
  obtain ⟨a, ha, hne, hlv⟩ := (holdsEntry_iffOf _ _ _ _).mp hent
  have hl2 := MetricVec.consistent_live hc2 ha hne
  rw [hlv, ← hl] at hl2
  have hg := MetricVec.getMetric_of_Live now2 hl2 ha
  obtain ⟨g1, g2⟩ := deref_getMetric w2.heap w2.sys.vec now2 l2
  rw [hg] at g1 g2
  simp only at g1 g2
  rw [Ref.MetricVec.GetMetricWithLabelValues_hit g1]
  refine ⟨rfl, Ref.MetricVec.getMetric_tags _ _ _ _, ?_, ?_⟩
  · have k1 := congrArg (fun v => GoMap.keys v.metricAttrs) g2
    simp only at k1
    rw [GoMap.keys_set_of_get _ ha] at k1
    unfold Ref.MetricVec.deref at k1
    simp only [GoMap.keys_map_val] at k1
    exact k1
  · have k1 := congrArg SmartProm.MetricVec.metricVec g2
    exact k1

/-- Witness of C1: `toto` is requested with one slice at `defaultTime`; `titi`
is requested, a slice the vector does not hold is written, a scan and its
sweep run; fifteen seconds after `defaultTime`, `toto` is requested with
another slice, and the call returns the instance of the first call. -/
theorem C1_repeated_get_same_instance_witness :
    (Ref.World.init twinHeap exampleOpts ["label"]).keepsSlices [] = true ∧
    (((Ref.World.init twinHeap exampleOpts ["label"]).run []).step
      (Ref.Event.call (Ref.Op.get defaultTime 0))).2.keepsSlices betweenEvents = true ∧
    (((((Ref.World.init twinHeap exampleOpts ["label"]).run []).step
        (Ref.Event.call (Ref.Op.get defaultTime 0))).2.run
          betweenEvents).sys.vec.GetMetricWithLabelValues
      ((((Ref.World.init twinHeap exampleOpts ["label"]).run []).step
        (Ref.Event.call (Ref.Op.get defaultTime 0))).2.run betweenEvents).heap
      (defaultTime + 15000000000) 1).1 = CallResult.returned 0 none :=
  ⟨rfl, by decide,
    (C1_repeated_get_same_instance twinHeap exampleOpts ["label"] [] betweenEvents defaultTime
      (defaultTime + 15000000000) 0 1 0 none rfl (by decide) (by decide) (by decide)
      (by decide)).2.2.1⟩

/-! ## The warm-up, once over, is over -/

/-- In a consistent vector with a sound registry, an entry in state
`stateWarmUpComplete` that an operation, `deleteMetricByInstance` included,
neither removes nor expires is in state `stateWarmUpComplete` afterwards. -/
theorem System.stepAny_keeps_complete (s : System) (op : VecOp) (hc : s.vec.Consistent)
    (hs : s.vec.metricVec.Sound) {m : Nat} {a a1 : metricAttr}
    (ha : GoMap.get s.vec.metricAttrs m = some a) (hst : a.state = stateWarmUpComplete)
    (ha1 : GoMap.get (s.stepAny op).vec.metricAttrs m = some a1)
    (hne : a1.state ≠ stateExpired) : a1.state = stateWarmUpComplete := by
  cases op with
  | op o => exact System.step_keeps_complete s o hc hs ha hst ha1 hne
  | deleteByInstance metric =>
    simp only [System.stepAny] at ha1
    rcases (MetricVec.deleteMetricByInstance_attrs s.vec metric).2 with e | ⟨m0, _, e⟩
    · rw [e, ha] at ha1
      cases ha1
      exact hst
    · rw [e] at ha1
      have := (GoMap.get_delete_some ha1).2
      rw [ha] at this
      cases this
      exact hst

theorem holdsEntry_iff (mv : Ref.MetricVec) (m : Nat) :
    mv.holdsEntry m = true ↔
      ∃ a, GoMap.get mv.metricAttrs m = some a ∧ a.state ≠ stateExpired := by
  unfold Ref.MetricVec.holdsEntry
  cases hg : GoMap.get mv.metricAttrs m with
  | none => simp
  | some a0 => simp

/-- An entry in state `stateWarmUpComplete` that events neither remove nor
expire, none of the events writing a slice the vector holds, is in state
`stateWarmUpComplete` after the events, and the invariant holds. -/
theorem Ref.World.run_keeps_complete (m : Nat) :
    ∀ (es : List Ref.Event) (w : Ref.World), w.keepsSlices es = true →
      (Ref.MetricVec.deref w.heap w.sys.vec).Consistent →
      (Ref.tagMap.deref w.heap w.sys.vec.tags).WellFormed →
      w.sys.vec.metricVec.Sound →
      (∃ a, GoMap.get w.sys.vec.metricAttrs m = some a ∧ a.state = stateWarmUpComplete) →
      w.keepsEntry m es = true →
      (Ref.MetricVec.deref (w.run es).heap (w.run es).sys.vec).Consistent ∧
      ∃ a, GoMap.get (w.run es).sys.vec.metricAttrs m = some a ∧
        a.state = stateWarmUpComplete
  | [], _, _, hc, _, _, ha, _ => ⟨hc, ha⟩
  | e :: es, w, hk, hc, hw, hs, ⟨a, ha, hst⟩, hke => by
    rw [Ref.World.keepsSlices_cons, Bool.and_eq_true] at hk
    simp only [Ref.World.keepsEntry, Bool.and_eq_true] at hke
    obtain ⟨i1, i2, i3⟩ := Ref.World.step_invariant w e hk.1 hc hw hs
    obtain ⟨a1, ha1, hne1⟩ := (holdsEntry_iff _ m).mp hke.1
    have hd : GoMap.get (Ref.MetricVec.deref w.heap w.sys.vec).metricAttrs m
        = some (Ref.metricAttr.deref w.heap a) := by
      rw [deref_attrs_get, ha]
      rfl
    have hd1 : GoMap.get (Ref.MetricVec.deref (w.step e).2.heap (w.step e).2.sys.vec).metricAttrs m
        = some (Ref.metricAttr.deref (w.step e).2.heap a1) := by
      rw [deref_attrs_get, ha1]
      rfl
    have hst1 : a1.state = stateWarmUpComplete := by
      rcases deref_world_step w e hk.1 with h | ⟨op, h⟩
      · have hv := congrArg SmartProm.System.vec h
        simp only [Ref.System.deref] at hv
        rw [hv, hd] at hd1
        have := congrArg SmartProm.metricAttr.state (Option.some.inj hd1)
        exact this.symm.trans hst
      · have hv := congrArg SmartProm.System.vec h
        simp only [Ref.System.deref] at hv
        rw [hv] at hd1
        exact System.stepAny_keeps_complete (Ref.System.deref w.heap w.sys) op hc hs hd hst
          hd1 hne1
    exact Ref.World.run_keeps_complete m es (w.step e).2 hk.2 i1 i2 i3 ⟨a1, ha1, hst1⟩ hke.2

/-- Every operation keeps the instances of the instance map distinct. -/
theorem System.stepAny_nodup (s : System) (op : VecOp)
    (hk : (GoMap.keys s.vec.metricAttrs).Nodup) :
    (GoMap.keys (s.stepAny op).vec.metricAttrs).Nodup := by
  cases op with
  | op o =>
    cases o with
    | get now labelValues =>
      simp only [System.stepAny, System.step]
      rcases (MetricVec.GetMetricWithLabelValues_cases s.vec now labelValues).2 with
        ⟨m, a0, _, _, _, _, e⟩ | ⟨m, _, _, e⟩ | ⟨_, _, e⟩
      · rw [e]; exact GoMap.nodup_keys_set hk _ _
      · rw [e]; exact GoMap.nodup_keys_set hk _ _
      · rw [e]; exact hk
    | delete labelValues =>
      simp only [System.stepAny, System.step, MetricVec.DeleteLabelValues]
      cases hp : (s.vec.tags.Get labelValues).2 with
      | false =>
        rw [MetricVec.deleteMetric_absent hp]
        exact hk
      | true =>
        rw [MetricVec.deleteMetric_present hp]
        simp only
        split
        · exact GoMap.nodup_keys_delete hk _
        · exact hk
    | reset => exact List.nodup_nil
    | collect now =>
      simp only [System.stepAny]
      rw [System.step_collect]
      simp only
      rw [MetricVec.Collect_keys]
      exact hk
    | sweep k =>
      simp only [System.stepAny, System.step]
      cases hg : s.pending.get? k with
      | none => exact hk
      | some l => exact MetricVec.sweep_nodup hk l
  | deleteByInstance metric =>
    simp only [System.stepAny]
    rcases (MetricVec.deleteMetricByInstance_attrs s.vec metric).2 with e | ⟨m0, _, e⟩
    · rw [e]; exact hk
    · rw [e]; exact GoMap.nodup_keys_delete hk m0

/-- Every event, an assignment to a slice the vector holds included, keeps the
instances of the instance map distinct. -/
theorem Ref.World.run_nodup :
    ∀ (es : List Ref.Event) (w : Ref.World), (GoMap.keys w.sys.vec.metricAttrs).Nodup →
      (GoMap.keys (w.run es).sys.vec.metricAttrs).Nodup
  | [], _, h => h
  | Ref.Event.write slice i value :: es, w, h =>
    Ref.World.run_nodup es (w.step (Ref.Event.write slice i value)).2 h
  | Ref.Event.call op :: es, w, h => by
    apply Ref.World.run_nodup es (w.step (Ref.Event.call op)).2
    have h1 : (GoMap.keys (Ref.System.deref w.heap w.sys).vec.metricAttrs).Nodup := by
      simp only [Ref.System.deref, Ref.MetricVec.deref]
      rw [GoMap.keys_map_val]
      exact h
    have h2 := System.stepAny_nodup _ (Ref.Op.deref w.heap op) h1
    rw [← deref_step] at h2
    simp only [Ref.System.deref, Ref.MetricVec.deref] at h2
    rw [GoMap.keys_map_val] at h2
    exact h2

/-- C3, counterexample: `GetMetricWithLabelValues` keeps the slice it is
passed.  Without warm-up duration, `toto` is requested at `defaultTime` and a
scan runs: the entry is in state `stateWarmUpOngoing`, and the scan one
millisecond later, past the warm-up deadline, sends the live instance.  The
caller then assigns `titi` to the string of the slice it passed and requests
`toto` with another slice, in the same Unix second: the index does not find
`toto`, the registry still does, and the entry of the instance is replaced by
a new one.  The entry was neither removed nor expired, and the next scan sends
the initial (neutral) metric for the instance again. -/
theorem C3_counterexample :
    (Ref.World.init twinHeap quickOpts ["label"]).keepsSlices noWarmUpEvents = true ∧
    (GoMap.get ((Ref.World.init twinHeap quickOpts ["label"]).run
        noWarmUpEvents).sys.vec.metricAttrs 0).map (fun a => (a.state, a.warmUpDeadLine))
      = some (stateWarmUpOngoing, defaultTime) ∧
    defaultTime < defaultTime + 1000000 ∧
    (((Ref.World.init twinHeap quickOpts ["label"]).run noWarmUpEvents).step
      (Ref.Event.call (Ref.Op.collect (defaultTime + 1000000)))).1 = [Sample.live 0] ∧
    (((Ref.World.init twinHeap quickOpts ["label"]).run noWarmUpEvents).step
      (Ref.Event.call (Ref.Op.collect (defaultTime + 1000000)))).2.keepsSlices rewriteEvents
      = false ∧
    (((Ref.World.init twinHeap quickOpts ["label"]).run noWarmUpEvents).step
      (Ref.Event.call (Ref.Op.collect (defaultTime + 1000000)))).2.keepsEntry 0 rewriteEvents
      = true ∧
    (((((Ref.World.init twinHeap quickOpts ["label"]).run noWarmUpEvents).step
      (Ref.Event.call (Ref.Op.collect (defaultTime + 1000000)))).2.run rewriteEvents).step
        (Ref.Event.call (Ref.Op.collect (defaultTime + 3000000)))).1
      = [Sample.initial 0 ["toto", "48ab9774"]] := by
  decide

/-- C3, amended: in every state reached from the empty vector by any events and
for every entry in state `stateWarmUpOngoing`, a scan at a clock value strictly
after the warm-up deadline of the entry sends for the instance exactly the
live instance.  And when no caller has assigned to a string of a slice while
the vector held it, after any further events (get-or-create of any label
values, those of the entry included, delete, reset, scans and sweeps, in any
order and at any clock values, and assignments to slices the vector does not
hold) that neither remove nor expire the entry, the next scan sends no initial
(neutral) metric for the instance, sends nothing for it but the live instance,
and sends the live instance unless this scan finds the entry expired. -/
theorem C3_live_after_warmup (heap : Heap) (opts : metricOpts) (labelNames : List String)
    (before : List Ref.Event) (now : Time) (m : Nat) (a : Ref.metricAttr)
    (ha : GoMap.get ((Ref.World.init heap opts labelNames).run before).sys.vec.metricAttrs m
      = some a)
    (hs : a.state = stateWarmUpOngoing) (hnow : a.warmUpDeadLine < now) :
    (∀ smp, (smp ∈ (((Ref.World.init heap opts labelNames).run before).step
        (Ref.Event.call (Ref.Op.collect now))).1 ∧ smp.metric = m) ↔ smp = Sample.live m) ∧
    ((Ref.World.init heap opts labelNames).keepsSlices before = true →
    ∀ (events : List Ref.Event) (t : Time),
      (((Ref.World.init heap opts labelNames).run before).step
        (Ref.Event.call (Ref.Op.collect now))).2.keepsSlices events = true →
      (((Ref.World.init heap opts labelNames).run before).step
        (Ref.Event.call (Ref.Op.collect now))).2.keepsEntry m events = true →
      (∀ ls, Sample.initial m ls ∉
        (((((Ref.World.init heap opts labelNames).run before).step
          (Ref.Event.call (Ref.Op.collect now))).2.run events).step
            (Ref.Event.call (Ref.Op.collect t))).1) ∧
      (∀ smp ∈ (((((Ref.World.init heap opts labelNames).run before).step
          (Ref.Event.call (Ref.Op.collect now))).2.run events).step
            (Ref.Event.call (Ref.Op.collect t))).1, smp.metric = m → smp = Sample.live m) ∧
      (∀ a2, GoMap.get
          (((((Ref.World.init heap opts labelNames).run before).step
            (Ref.Event.call (Ref.Op.collect now))).2.run events).step
              (Ref.Event.call (Ref.Op.collect t))).2.sys.vec.metricAttrs m = some a2 →
        a2.state ≠ stateExpired →
        Sample.live m ∈
          (((((Ref.World.init heap opts labelNames).run before).step
            (Ref.Event.call (Ref.Op.collect now))).2.run events).step
              (Ref.Event.call (Ref.Op.collect t))).1)) := by
  have hn0 : (GoMap.keys (Ref.MetricVec.deref
      ((Ref.World.init heap opts labelNames).run before).heap
      ((Ref.World.init heap opts labelNames).run before).sys.vec).metricAttrs).Nodup := by
    simp only [Ref.MetricVec.deref]
    rw [GoMap.keys_map_val]
    exact Ref.World.run_nodup before (Ref.World.init heap opts labelNames) List.nodup_nil
  have hinv := Ref.World.reachable_invariant heap opts labelNames before
  generalize (Ref.World.init heap opts labelNames).run before = w0 at ha hn0 hinv
  have hd0 : GoMap.get (Ref.MetricVec.deref w0.heap w0.sys.vec).metricAttrs m
      = some (Ref.metricAttr.deref w0.heap a) := by
    rw [deref_attrs_get, ha]
    rfl
  have hcol : (Ref.metricAttr.deref w0.heap a).onCollect
      (Ref.MetricVec.deref w0.heap w0.sys.vec).opts.WarmUpDuration now
      = { Ref.metricAttr.deref w0.heap a with state := stateWarmUpComplete } := by
    have hs1 : (Ref.metricAttr.deref w0.heap a).state = stateWarmUpOngoing := hs
    have hnow1 : (Ref.metricAttr.deref w0.heap a).warmUpDeadLine < now := hnow
    rw [metricAttr.onCollect_ongoing _ _ hs1, if_pos hnow1]
  refine ⟨?_, ?_⟩
  · intro smp
    show (smp ∈ (w0.sys.vec.Collect w0.heap now).1 ∧ smp.metric = m) ↔ smp = Sample.live m
    rw [(deref_Collect w0.heap w0.sys.vec now).1, MetricVec.Collect_sample_of_get hn0 hd0,
      hcol]
    simp [sampleOf, eq_comm]
  · intro hk events t hke hkn
    obtain ⟨hc0, hw0, hs0⟩ := hinv hk
    obtain ⟨hc1, hw1, hs1⟩ := Ref.World.step_invariant w0
      (Ref.Event.call (Ref.Op.collect now)) rfl hc0 hw0 hs0
    have he1 : ∃ a1, GoMap.get
        (w0.step (Ref.Event.call (Ref.Op.collect now))).2.sys.vec.metricAttrs m = some a1 ∧
        a1.state = stateWarmUpComplete := by
      have hx : GoMap.get (Ref.MetricVec.deref w0.heap
          (w0.sys.vec.Collect w0.heap now).2.2).metricAttrs m
          = some { Ref.metricAttr.deref w0.heap a with state := stateWarmUpComplete } := by
        rw [(deref_Collect w0.heap w0.sys.vec now).2.2, MetricVec.Collect_get, hd0,
          Option.map_some', hcol]
      rw [deref_attrs_get] at hx
      cases hg : GoMap.get (w0.sys.vec.Collect w0.heap now).2.2.metricAttrs m with
      | none => simp [hg] at hx
      | some a1 =>
        rw [hg, Option.map_some', Option.some.injEq] at hx
        exact ⟨a1, hg, congrArg SmartProm.metricAttr.state hx⟩
    obtain ⟨hc2, a1, hg1, hst1⟩ := Ref.World.run_keeps_complete m events _ hke hc1 hw1 hs1
      he1 hkn
    generalize (w0.step (Ref.Event.call (Ref.Op.collect now))).2.run events = w2 at hc2 hg1
    have hd2 : GoMap.get (Ref.MetricVec.deref w2.heap w2.sys.vec).metricAttrs m
        = some (Ref.metricAttr.deref w2.heap a1) := by
      rw [deref_attrs_get, hg1]
      rfl
    have hst2 : (Ref.metricAttr.deref w2.heap a1).state = stateWarmUpComplete := hst1
    have hd := metricAttr.onCollect_done
      (Ref.MetricVec.deref w2.heap w2.sys.vec).opts.WarmUpDuration t (Or.inl hst2)
    have key : ∀ smp, (smp ∈ (w2.sys.vec.Collect w2.heap t).1 ∧ smp.metric = m) ↔
        sampleOf m ((Ref.metricAttr.deref w2.heap a1).onCollect
          (Ref.MetricVec.deref w2.heap w2.sys.vec).opts.WarmUpDuration t) = some smp := by
      intro smp
      rw [(deref_Collect w2.heap w2.sys.vec t).1]
      exact MetricVec.Collect_sample_of_get hc2.1 hd2 t smp
    refine ⟨?_, ?_, ?_⟩
    · intro ls hmem
      have h1 := (key (Sample.initial m ls)).mp ⟨hmem, rfl⟩
      simp only [sampleOf] at h1
      rcases hd with hd | hd <;> simp [hd] at h1
    · intro smp hmem hm
      have h1 := (key smp).mp ⟨hmem, hm⟩
      simp only [sampleOf] at h1
      rcases hd with hd | hd
      · simp [hd] at h1
        exact h1.symm
      · simp [hd] at h1
    · intro a2 hg hne
      have hx : GoMap.get (Ref.MetricVec.deref w2.heap
          (w2.sys.vec.Collect w2.heap t).2.2).metricAttrs m
          = some (Ref.metricAttr.deref w2.heap a2) := by
        rw [deref_attrs_get]
        have hg' : GoMap.get (w2.sys.vec.Collect w2.heap t).2.2.metricAttrs m = some a2 := hg
        rw [hg']
        rfl
      rw [(deref_Collect w2.heap w2.sys.vec t).2.2, MetricVec.Collect_get, hd2,
        Option.map_some', Option.some.injEq] at hx
      rw [hx] at hd
      have hcmp : (Ref.metricAttr.deref w2.heap a2).state = stateWarmUpComplete :=
        hd.resolve_right hne
      apply ((key (Sample.live m)).mpr ?_).1
      rw [hx]
      simp [sampleOf, hcmp]

/-- Witness of C3, after the test of the warm-up: `toto` is requested at
`defaultTime`, a first scan runs one second later, and the scan four seconds
after `defaultTime`, past the warm-up deadline, sends the live instance.  Then
`toto` is requested again with another slice, a slice the vector does not hold
is written, a scan and its sweep run, and the scan seven seconds after
`defaultTime` sends the live instance. -/
theorem C3_live_after_warmup_witness :
    (Ref.World.init twinHeap exampleOpts ["label"]).keepsSlices warmUpEvents = true ∧
    (GoMap.get ((Ref.World.init twinHeap exampleOpts ["label"]).run
        warmUpEvents).sys.vec.metricAttrs 0).map (fun a => (a.state, a.warmUpDeadLine))
      = some (stateWarmUpOngoing, defaultTime + 3000000000) ∧
    (((Ref.World.init twinHeap exampleOpts ["label"]).run warmUpEvents).step
      (Ref.Event.call (Ref.Op.collect (defaultTime + 4000000000)))).2.keepsSlices
        afterWarmUpEvents = true ∧
    (((Ref.World.init twinHeap exampleOpts ["label"]).run warmUpEvents).step
      (Ref.Event.call (Ref.Op.collect (defaultTime + 4000000000)))).2.keepsEntry 0
        afterWarmUpEvents = true ∧
    Sample.live 0 ∈
      (((((Ref.World.init twinHeap exampleOpts ["label"]).run warmUpEvents).step
        (Ref.Event.call (Ref.Op.collect (defaultTime + 4000000000)))).2.run
          afterWarmUpEvents).step
            (Ref.Event.call (Ref.Op.collect (defaultTime + 7000000000)))).1 :=
  ⟨by decide, by decide, by decide, by decide,
    ((C3_live_after_warmup twinHeap exampleOpts ["label"] warmUpEvents
      (defaultTime + 4000000000) 0
      { tag := "48ab9774", labelValues := 0, state := stateWarmUpOngoing,
        warmUpDeadLine := defaultTime + 3000000000,
        activeDeadLine := defaultTime + 10000000000 }
      (by decide) rfl (by decide)).2 (by decide) afterWarmUpEvents (defaultTime + 7000000000)
        (by decide) (by decide)).2.2 _ rfl (by decide)⟩

end SmartProm
